import Mathlib

/-!
# TGUI text box: a shallow embedding of `TextBox.cpp`

The editing state machine of `tgui::TextBox` (text, lines, selection, limits, scrollbar
policies) is embedded as pure functions on a record `TextBox`.

Conventions of the embedding:

* `std::u32string` is `List Char`; `std::vector<String>` is `List (List Char)`.
* `std::size_t` / `unsigned int` are `Nat`.  Every subtraction of the source is written where
  the source writes it; a result of type `Option` is `none` when the C++ code throws
  (`std::out_of_range` from `insert`, `erase`, `substr`) or indexes outside a container
  (undefined behaviour), and also when the reflow recursion runs out of fuel.
* `float` pixel quantities are integers (`Int`); `n > h / L` with `L > 0` is written
  `n * L > h`.  A `static_cast` of a `float` to an unsigned type is the value itself when it is
  not negative; for a negative value the conversion is undefined in C++, and the result is a
  field of `Env` (what the platform gives).
* Collaborators whose source is not part of these files (`Text::wordWrap`, the `Scrollbar`
  widget, font metrics, `isWhitespace`) are fields of `Env`: every theorem holds for all of them
  unless it states a hypothesis about them.
* Members that only feed drawing (the five `Text` objects, the selection rectangles, the caret
  blink timer) are left out.
-/

namespace TGUI

/-! ## Data model -/

/-- A selection endpoint, `Vector2<std::size_t>`: `x` is the column in the line, `y` the line. -/
structure Vector2 where
  x : Nat
  y : Nat
deriving DecidableEq, Repr

/-- The enumeration `Scrollbar::Policy`. -/
inductive Policy where
  | Automatic
  | Always
  | Never
deriving DecidableEq, Repr

/-- The members of a `Scrollbar` that the text box reads or sets. -/
structure Scrollbar where
  visible : Bool
  autoHide : Bool
  maximum : Nat
  viewportSize : Nat
  value : Nat
deriving DecidableEq, Repr

/-- Everything the text box code calls that lives outside `TextBox.cpp`, together with the
geometry of the widget (which no function embedded here changes). -/
structure Env where
  /-- `Text::wordWrap(maxWidth, text, font, textSize, false, false)`. -/
  wordWrap : Int → List Char → List Char
  /-- The helper `isWhitespace`. -/
  isWhitespace : Char → Bool
  /-- `Text::getLineWidth(line, font, textSize)`. -/
  getLineWidth : List Char → Int
  /-- Horizontal pixel position of the caret behind the first `x` characters of a line (text
  offset, `findCharacterPos` and kerning together). -/
  caretX : List Char → Nat → Int
  /-- Advance of a glyph, `getGlyph(c, textSize, false).advance`. -/
  advance : Char → Int
  /-- `Font::getKerning(prev, cur, textSize)`. -/
  kerning : Char → Char → Int
  /-- `getInnerSize().x`, never negative. -/
  innerSizeX : Nat
  /-- `getInnerSize().y`, never negative. -/
  innerSizeY : Nat
  paddingLeft : Int
  paddingRight : Int
  paddingTop : Int
  paddingBottom : Int
  bordersLeft : Int
  bordersTop : Int
  /-- `Text::getExtraHorizontalPadding(font, textSize)`. -/
  textOffset : Int
  /-- `Text::calculateExtraVerticalSpace(font, textSize) + Text::getExtraVerticalPadding(textSize)`. -/
  extraVerticalSpace : Int
  /-- `m_verticalScrollbar->getSize().x`. -/
  verticalScrollbarWidth : Int
  /-- `m_horizontalScrollbar->getSize().y`. -/
  horizontalScrollbarHeight : Int
  /-- `Scrollbar::isShown`. -/
  isShown : Scrollbar → Bool
  /-- `Scrollbar::setMaximum`. -/
  setMaximum : Nat → Scrollbar → Scrollbar
  /-- `Scrollbar::setViewportSize`. -/
  setViewportSize : Nat → Scrollbar → Scrollbar
  /-- `Scrollbar::setValue`. -/
  setValue : Nat → Scrollbar → Scrollbar
  /-- `Scrollbar::setVisible`. -/
  setVisible : Bool → Scrollbar → Scrollbar
  /-- `Scrollbar::setAutoHide`. -/
  setAutoHide : Bool → Scrollbar → Scrollbar
  /-- The result of `static_cast<unsigned int>(x)` for a negative `float` of integer value `x`:
  the value is outside the range of the type, the conversion is undefined in C++. -/
  unsignedOfNegative : Int → Nat
  /-- The result of `static_cast<std::size_t>(x)` for a negative `float` of integer value `x`
  (undefined in C++). -/
  sizeOfNegative : Int → Nat
  /-- The result of `static_cast<std::size_t>(x / 0)` for a `float` of integer value `x`: the
  quotient is infinite or not a number (undefined in C++). -/
  sizeOfQuotientByZero : Int → Nat

/-- The members of `tgui::TextBox` that the editing code reads or writes, and the clipboard. -/
structure TextBox where
  /-- `m_text`. -/
  text : List Char
  /-- `m_lines`. -/
  lines : List (List Char)
  /-- `m_selStart`. -/
  selStart : Vector2
  /-- `m_selEnd`. -/
  selEnd : Vector2
  /-- `m_maxChars`, 0 for no limit. -/
  maxChars : Nat
  /-- `m_readOnly`. -/
  readOnly : Bool
  /-- `m_verticalScrollbarPolicy`. -/
  verticalScrollbarPolicy : Policy
  /-- `m_horizontalScrollbarPolicy`; `Never` switches word wrap on. -/
  horizontalScrollbarPolicy : Policy
  /-- `m_lineHeight`. -/
  lineHeight : Nat
  /-- `m_fontCached != nullptr`. -/
  hasFont : Bool
  /-- `m_monospacedFontOptimizationEnabled`. -/
  monospacedFontOptimizationEnabled : Bool
  /-- `m_maxLineWidth`. -/
  maxLineWidth : Int
  /-- `*m_verticalScrollbar`. -/
  verticalScrollbar : Scrollbar
  /-- `*m_horizontalScrollbar`. -/
  horizontalScrollbar : Scrollbar
  /-- `m_topLine`. -/
  topLine : Nat
  /-- `m_visibleLines`. -/
  visibleLines : Nat
  /-- `m_caretPosition`. -/
  caretPosition : Int × Int
  /-- `m_lastSelection`. -/
  lastSelection : Vector2 × Vector2
  /-- Number of times `onSelectionChange` was emitted. -/
  selectionChangeCount : Nat
  /-- The arguments of the `onTextChange` emissions, newest first. -/
  textChanges : List (List Char)
  /-- Contents of the system clipboard (`Clipboard::get` / `Clipboard::set`). -/
  clipboard : List Char

/-! ## String primitives -/

/-- `std::u32string::operator[]`: the character at `i`, the terminating null character at
`i = size()`, undefined beyond. -/
def strAt (s : List Char) (i : Nat) : Option Char :=
  if i < s.length then s[i]?
  else if i = s.length then some (Char.ofNat 0)
  else none

/-- `std::u32string::erase(pos, count)`: throws when `pos > size()`. -/
def strErase (s : List Char) (pos count : Nat) : Option (List Char) :=
  if pos > s.length then none else some (s.take pos ++ s.drop (pos + count))

/-- `std::u32string::insert(pos, str)`: throws when `pos > size()`. -/
def strInsert (s : List Char) (pos : Nat) (str : List Char) : Option (List Char) :=
  if pos > s.length then none else some (s.take pos ++ str ++ s.drop pos)

/-- `std::u32string::substr(pos, count)`: throws when `pos > size()`. -/
def strSubstr (s : List Char) (pos count : Nat) : Option (List Char) :=
  if pos > s.length then none else some ((s.drop pos).take count)

/-- Whether `m_lines[p.y]` exists and `p.x` is a column of it (`0 ≤ x ≤ length`). -/
def validPos (lines : List (List Char)) (p : Vector2) : Bool :=
  match lines[p.y]? with
  | some l => decide (p.x ≤ l.length)
  | none => false

/-! ## Character index of a selection endpoint -/

/-- One round of the loop of `findIndex`: add the length of the line and step over a newline
that follows in the text. -/
def skipLine (text : List Char) (counter : Nat) (line : List Char) : Nat :=
  let c := counter + line.length
  if c < text.length ∧ text[c]? = some '\n' then c + 1 else c

/-- The lambda `findIndex` of `TextBox::getIndexOfSelectionPos`: the loop over
`i = 0 .. line-1`, started at line `lines` with the counter `counter`. -/
def findIndexFrom (text : List Char) : List (List Char) → Nat → Nat → Option Nat
  | _, 0, counter => some counter
  | [], _ + 1, _ => none
  | l :: ls, n + 1, counter => findIndexFrom text ls n (skipLine text counter l)

/-- `TextBox::getIndexOfSelectionPos`. -/
def getIndexOfSelectionPos (s : TextBox) (selectionPos : Vector2) : Option Nat :=
  (findIndexFrom s.text s.lines selectionPos.y 0).map (· + selectionPos.x)

/-- `TextBox::getSelectionStart`. -/
def getSelectionStart (s : TextBox) : Option Nat :=
  getIndexOfSelectionPos s s.selStart

/-- `TextBox::getSelectionEnd`. -/
def getSelectionEnd (s : TextBox) : Option Nat :=
  getIndexOfSelectionPos s s.selEnd

/-- `TextBox::getText`. -/
def getText (s : TextBox) : List Char :=
  s.text

/-! ## Scrollbars and the visible area -/

/-- `static_cast<unsigned int>(x)` for a `float` of integer value `x` (pixel quantities are
taken to stay below the upper bound of the type). -/
def toUnsigned (env : Env) (x : Int) : Nat :=
  if 0 ≤ x then x.toNat else env.unsignedOfNegative x

/-- `static_cast<std::size_t>(x / y)` for a `float` of integer value `x` and an `unsigned int`
`y`: the quotient, rounded towards zero. -/
def toSizeOfQuotient (env : Env) (x : Int) (y : Nat) : Nat :=
  if y = 0 then env.sizeOfQuotientByZero x
  else if 0 ≤ Int.tdiv x (y : Int) then (Int.tdiv x (y : Int)).toNat
  else env.sizeOfNegative (Int.tdiv x (y : Int))

/-- `TextBox::updateScrollbars` (the calls that resize the scrollbar widgets on screen are
left out; the widths they read are constants of `Env`). -/
def updateScrollbars (env : Env) (s : TextBox) : TextBox :=
  let vsb :=
    if env.isShown s.horizontalScrollbar then
      env.setViewportSize
        (toUnsigned env
          ((env.innerSizeY : Int) - env.horizontalScrollbarHeight - env.paddingTop - env.paddingBottom))
        s.verticalScrollbar
    else
      env.setViewportSize (toUnsigned env ((env.innerSizeY : Int) - env.paddingTop - env.paddingBottom))
        s.verticalScrollbar
  let hsb :=
    if env.isShown vsb then
      env.setViewportSize
        (toUnsigned env
          ((env.innerSizeX : Int) - env.verticalScrollbarWidth - env.paddingLeft - env.paddingRight))
        s.horizontalScrollbar
    else
      env.setViewportSize (toUnsigned env ((env.innerSizeX : Int) - env.paddingLeft - env.paddingRight))
        s.horizontalScrollbar
  { s with verticalScrollbar := vsb, horizontalScrollbar := hsb }

/-- `TextBox::recalculateVisibleLines`. -/
def recalculateVisibleLines (env : Env) (s : TextBox) : TextBox :=
  if s.lineHeight = 0 then s
  else
    let horiScrollOffset : Int :=
      if env.isShown s.horizontalScrollbar then env.horizontalScrollbarHeight else 0
    let height : Int := (env.innerSizeY : Int) - env.paddingTop - env.paddingBottom - horiScrollOffset
    let visibleLines := min (toSizeOfQuotient env height s.lineHeight) s.lines.length
    if env.isShown s.verticalScrollbar then
      let topLine := s.verticalScrollbar.value / s.lineHeight
      -- The scrollbar may be standing between lines in which case one more line is visible
      if toUnsigned env height % s.lineHeight ≠ 0 ∨ s.verticalScrollbar.value % s.lineHeight ≠ 0 then
        { s with topLine := topLine, visibleLines := visibleLines + 1 }
      else
        { s with topLine := topLine, visibleLines := visibleLines }
    else
      { s with topLine := 0, visibleLines := visibleLines }

/-- `TextBox::recalculatePositions`, as far as it changes members kept here: without a font it
returns at once, otherwise it ends in `recalculateVisibleLines`. -/
def recalculatePositions (env : Env) (s : TextBox) : TextBox :=
  if s.hasFont then recalculateVisibleLines env s else s

/-- The part "Check if the caret is located above or below the view" of
`TextBox::updateSelectionTexts`: the new vertical scrollbar. -/
def scrollVertically (env : Env) (s : TextBox) : Scrollbar :=
  if s.verticalScrollbarPolicy ≠ Policy.Never then
    if s.selEnd.y ≤ s.topLine then
      env.setValue (s.selEnd.y * s.lineHeight) s.verticalScrollbar
    else if s.selEnd.y + 1 ≥ s.topLine + s.visibleLines then
      env.setValue
        (toUnsigned env
          ((((s.selEnd.y + 1) * s.lineHeight : Nat) : Int) + env.extraVerticalSpace
            - (s.verticalScrollbar.viewportSize : Int)))
        s.verticalScrollbar
    else s.verticalScrollbar
  else s.verticalScrollbar

/-- The horizontal scrollbar `TextBox::updateSelectionTexts` leaves for a caret at the pixel
column `caretX`. -/
def scrollHorizontally (env : Env) (s : TextBox) (caretX : Int) : Scrollbar :=
  if s.horizontalScrollbarPolicy ≠ Policy.Never then
    let left := s.horizontalScrollbar.value
    if caretX ≤ (left : Int) then
      env.setValue (max 0 (caretX - env.textOffset * 2)).toNat s.horizontalScrollbar
    else if caretX > (left : Int) + (s.horizontalScrollbar.viewportSize : Int) then
      env.setValue
        (toUnsigned env (caretX + env.textOffset * 2 - (s.horizontalScrollbar.viewportSize : Int)))
        s.horizontalScrollbar
    else s.horizontalScrollbar
  else s.horizontalScrollbar

/-- The parts of `TextBox::updateSelectionTexts` that scroll to the caret and position it. -/
def scrollToCaret (env : Env) (s : TextBox) : TextBox :=
  let caretPosition : Int × Int :=
    (env.caretX (s.lines.getD s.selEnd.y []) s.selEnd.x, ((s.selEnd.y * s.lineHeight : Nat) : Int))
  { s with verticalScrollbar := scrollVertically env s,
           horizontalScrollbar := scrollHorizontally env s caretPosition.1,
           caretPosition := caretPosition }

/-- The part "Send an event when the selection changed" of `TextBox::updateSelectionTexts`. -/
def emitSelectionChange (s : TextBox) : TextBox :=
  if s.selStart ≠ s.lastSelection.1 ∨ s.selEnd ≠ s.lastSelection.2 then
    -- Only send the event when there is an actual change, not when the caret position moved
    if s.selStart ≠ s.selEnd ∨ s.lastSelection.1 ≠ s.lastSelection.2 then
      { s with selectionChangeCount := s.selectionChangeCount + 1,
               lastSelection := (s.selStart, s.selEnd) }
    else
      { s with lastSelection := (s.selStart, s.selEnd) }
  else s

/-- `TextBox::updateSelectionTexts`.  The five text objects are not kept; what is kept of their
computation is that it reads `m_lines[y].substr(x, ..)` at the selection endpoints, which is
only defined for endpoints inside the lines. -/
def updateSelectionTexts (env : Env) (s : TextBox) : Option TextBox :=
  if validPos s.lines s.selStart ∧ validPos s.lines s.selEnd then
    some (emitSelectionChange (recalculatePositions env (scrollToCaret env s)))
  else none

/-! ## Line reflow -/

/-- The splitting loop of `TextBox::rearrangeText`: `find` the next newline from the search
position, push the characters before it, continue behind it; the rest of the string is the last
line. -/
def splitLines : List Char → List (List Char)
  | [] => [[]]
  | c :: cs =>
    if c = '\n' then [] :: splitLines cs
    else
      match splitLines cs with
      | [] => [[c]]
      | l :: ls => (c :: l) :: ls

/-- The bookkeeping of `longestLineCharCount` / `longestLineIndex` in the splitting loop: the
line `m_lines[longestLineIndex]`, which is the first line longer than all lines before it and at
least as long as all lines after it (line 0 when every line is empty). -/
def longestLine (lines : List (List Char)) : List Char :=
  (lines.foldl
    (fun (best : Nat × List Char) cur => if cur.length > best.1 then (cur.length, cur) else best)
    (0, lines.headD [])).2

/-- The value `m_maxLineWidth` has after the splitting loop of `TextBox::rearrangeText`. -/
def computeMaxLineWidth (env : Env) (s : TextBox) (lines : List (List Char)) : Int :=
  if s.horizontalScrollbarPolicy ≠ Policy.Never then
    if s.monospacedFontOptimizationEnabled then env.getLineWidth (longestLine lines)
    else lines.foldl (fun m l => if env.getLineWidth l > m then env.getLineWidth l else m) 0
  else 0

/-- The loop "Look for the new locations of our selection" of `TextBox::rearrangeText`, started
at line number `i` with the running `index`; `newSelStart` / `newSelEnd` are `some` once found.
The result is `none` when `m_text[index]` is read outside the text. -/
def findNewSelection (text : List Char) (selStart selEnd : Nat) :
    List (List Char) → Nat → Nat → Option Vector2 → Option Vector2 →
      Option (Option Vector2 × Option Vector2)
  | [], _, _, newSelStart, newSelEnd => some (newSelStart, newSelEnd)
  | l :: ls, i, index, newSelStart, newSelEnd =>
    let index := index + l.length
    let startNow : Bool := newSelStart.isNone && decide (index ≥ selStart)
    let newSelStart :=
      if startNow then some (Vector2.mk (l.length - (index - selStart)) i) else newSelStart
    if startNow && newSelEnd.isSome then some (newSelStart, newSelEnd)
    else
      let endNow : Bool := newSelEnd.isNone && decide (index ≥ selEnd)
      let newSelEnd :=
        if endNow then some (Vector2.mk (l.length - (index - selEnd)) i) else newSelEnd
      if endNow && newSelStart.isSome then some (newSelStart, newSelEnd)
      else
        match strAt text index with
        | none => none
        | some c =>
          findNewSelection text selStart selEnd ls (i + 1)
            (if c = '\n' then index + 1 else index) newSelStart newSelEnd

/-- The local `maxLineWidth` of `TextBox::rearrangeText`: the width left for a wrapped line,
given whether the vertical scrollbar is shown. -/
def wrapWidth (env : Env) (verticalShown : Bool) : Int :=
  (env.innerSizeX : Int) - env.paddingLeft - env.paddingRight - 2 * env.textOffset
    - (if verticalShown then env.verticalScrollbarWidth else 0)

/-- The caret "at the back of the text": the end of the last line. -/
def endOfLines (lines : List (List Char)) : Vector2 :=
  Vector2.mk (lines.getD (lines.length - 1) []).length (lines.length - 1)

/-- The local `string` of `TextBox::rearrangeText`: the text itself without word wrap, the
wrapped text with it, and `none` when the function returns because there is no room. -/
def wrappedString (env : Env) (s : TextBox) : Option (List Char) :=
  if s.horizontalScrollbarPolicy ≠ Policy.Never then some s.text
  else
    -- Don't do anything when there is no room for the text
    if wrapWidth env (env.isShown s.verticalScrollbar) ≤ 0 then none
    else some (env.wordWrap (wrapWidth env (env.isShown s.verticalScrollbar)) s.text)

/-- The part "Check if we should try to keep our selection" of `TextBox::rearrangeText` for
`keepSelection = true`: the new endpoints for the selection indices, the end of the lines for
both when one of them is not found.  `none` when the loop reads outside the text. -/
def placeSelection (text : List Char) (selStart selEnd : Nat) (lines : List (List Char)) :
    Option (Vector2 × Vector2) :=
  match findNewSelection text selStart selEnd lines 0 0 none none with
  | none => none
  | some (some newSelStart, some newSelEnd) => some (newSelStart, newSelEnd)
  | some _ => some (endOfLines lines, endOfLines lines)

/-- The selection `TextBox::rearrangeText` gives the new lines: with `keepSelection` the
endpoints for the selection indices, which are taken from the old lines before these are
replaced ("Store the current selection position when we are keeping the selection"); without
it the caret at the back of the text. -/
def newSelection (keepSelection : Bool) (s : TextBox) (lines : List (List Char)) :
    Option (Vector2 × Vector2) :=
  if keepSelection then
    match getSelectionStart s, getSelectionEnd s with
    | some selStart, some selEnd => placeSelection s.text selStart selEnd lines
    | _, _ => none
  else some (endOfLines lines, endOfLines lines)

/-- The text box in `TextBox::rearrangeText` once the new lines and the new selection are
stored and `updateScrollbars` has run. -/
def storeLines (env : Env) (s : TextBox) (lines : List (List Char))
    (newSelStart newSelEnd : Vector2) : TextBox :=
  updateScrollbars env
    { s with lines := lines, maxLineWidth := computeMaxLineWidth env s lines,
             selStart := newSelStart, selEnd := newSelEnd }

/-- "Tell the scrollbars how many pixels the text contains": the two `setMaximum` calls of
`TextBox::rearrangeText`. -/
def tellScrollbars (env : Env) (s : TextBox) : TextBox :=
  { s with
    verticalScrollbar := env.setMaximum
      (toUnsigned env (((s.lines.length * s.lineHeight : Nat) : Int) + env.extraVerticalSpace))
      s.verticalScrollbar,
    horizontalScrollbar := env.setMaximum
      (toUnsigned env (s.maxLineWidth + env.textOffset * 2)) s.horizontalScrollbar }

/-- `TextBox::rearrangeText`.  The function calls itself when word wrap is on and the pass
changed whether the vertical scrollbar is shown; `fuel` bounds the number of passes and the
result is `none` when it is used up. -/
def rearrangeText (env : Env) : Nat → Bool → TextBox → Option TextBox
  | 0, _, _ => none
  | fuel + 1, keepSelection, s =>
    -- Don't continue when line height is 0 or when there is no font yet
    if s.lineHeight = 0 ∨ s.hasFont = false then some s
    else
      match wrappedString env s with
      | none => some s
      | some string =>
        let lines := splitLines string
        match newSelection keepSelection s lines with
        | none => none
        | some (newSelStart, newSelEnd) =>
          let s2 := storeLines env s lines newSelStart newSelEnd
          let s3 := tellScrollbars env s2
          if s.horizontalScrollbarPolicy = Policy.Never then
            -- Word-wrap will have to be done again if the vertical scrollbar just appeared or
            -- disappeared
            if env.isShown s2.verticalScrollbar ≠ env.isShown s3.verticalScrollbar then
              rearrangeText env fuel true s3
            else updateSelectionTexts env (updateScrollbars env s3)
          else
            if env.isShown s2.verticalScrollbar ≠ env.isShown s3.verticalScrollbar
                ∨ env.isShown s2.horizontalScrollbar ≠ env.isShown s3.horizontalScrollbar then
              updateSelectionTexts env (updateScrollbars env s3)
            else updateSelectionTexts env s3

/-! ## Caret placement -/

/-- The loop of `TextBox::setCaretPosition` started at line number `i` with the running
`count`: the endpoint found, or `none` when the loop ends without finding a line. -/
def findCaretLine (text : List Char) (charactersBeforeCaret : Nat) :
    List (List Char) → Nat → Nat → Option Vector2
  | [], _, _ => none
  | l :: ls, i, count =>
    if count + l.length < charactersBeforeCaret then
      findCaretLine text charactersBeforeCaret ls (i + 1) (skipLine text count l)
    else some (Vector2.mk (charactersBeforeCaret - count) i)

/-- `TextBox::setCaretPosition`. -/
def setCaretPosition (env : Env) (charactersBeforeCaret : Nat) (s : TextBox) : Option TextBox :=
  -- The caret position has to stay inside the string
  let charactersBeforeCaret :=
    if charactersBeforeCaret > s.text.length then s.text.length else charactersBeforeCaret
  match findCaretLine s.text charactersBeforeCaret s.lines 0 0 with
  | some p => updateSelectionTexts env { s with selStart := p, selEnd := p }
  | none => some s

/-! ## Text and limits -/

/-- `TextBox::setText`. -/
def setText (env : Env) (fuel : Nat) (text : List Char) (s : TextBox) : Option TextBox :=
  -- Remove all the excess characters when a character limit is set
  if s.maxChars > 0 ∧ text.length > s.maxChars then
    rearrangeText env fuel false { s with text := text.take s.maxChars }
  else
    rearrangeText env fuel false { s with text := text }

/-- `TextBox::addText`. -/
def addText (env : Env) (fuel : Nat) (text : List Char) (s : TextBox) : Option TextBox :=
  setText env fuel (s.text ++ text) s

/-- `TextBox::setMaximumCharacters`. -/
def setMaximumCharacters (env : Env) (fuel : Nat) (maxChars : Nat) (s : TextBox) :
    Option TextBox :=
  let s1 := { s with maxChars := maxChars }
  -- If there is a character limit then check if it is exceeded
  if maxChars > 0 ∧ s1.text.length > maxChars then
    rearrangeText env fuel false { s1 with text := s1.text.take maxChars }
  else some s1

/-- `TextBox::getMaximumCharacters`. -/
def getMaximumCharacters (s : TextBox) : Nat :=
  s.maxChars

/-- `TextBox::setReadOnly`. -/
def setReadOnly (readOnly : Bool) (s : TextBox) : TextBox :=
  { s with readOnly := readOnly }

/-- `TextBox::setVerticalScrollbarPolicy`. -/
def setVerticalScrollbarPolicy (env : Env) (fuel : Nat) (policy : Policy) (s : TextBox) :
    Option TextBox :=
  let vsb :=
    match policy with
    | Policy.Always => env.setAutoHide false (env.setVisible true s.verticalScrollbar)
    | Policy.Never => env.setVisible false s.verticalScrollbar
    | Policy.Automatic => env.setAutoHide true (env.setVisible true s.verticalScrollbar)
  rearrangeText env fuel false { s with verticalScrollbarPolicy := policy, verticalScrollbar := vsb }

/-- `TextBox::setHorizontalScrollbarPolicy`. -/
def setHorizontalScrollbarPolicy (env : Env) (fuel : Nat) (policy : Policy) (s : TextBox) :
    Option TextBox :=
  let hsb :=
    match policy with
    | Policy.Always => env.setAutoHide false (env.setVisible true s.horizontalScrollbar)
    | Policy.Never => env.setVisible false s.horizontalScrollbar
    | Policy.Automatic => env.setAutoHide true (env.setVisible true s.horizontalScrollbar)
  rearrangeText env fuel false
    { s with horizontalScrollbarPolicy := policy, horizontalScrollbar := hsb }

/-! ## Selection by index -/

/-- `TextBox::setSelectedText`. -/
def setSelectedText (env : Env) (selectionStartIndex selectionEndIndex : Nat) (s : TextBox) :
    Option TextBox :=
  match setCaretPosition env selectionEndIndex s with
  | none => none
  | some s1 =>
    let selEnd := s1.selEnd
    match setCaretPosition env selectionStartIndex s1 with
    | none => none
    | some s2 => updateSelectionTexts env { s2 with selEnd := selEnd }

/-- The text between the two selection indices, as `getSelectedText` and the copy / cut keys
compute it. -/
def selectedSubstring (s : TextBox) : Option (List Char) :=
  match getSelectionStart s, getSelectionEnd s with
  | some selStart, some selEnd =>
    if selStart ≤ selEnd then strSubstr s.text selStart (selEnd - selStart)
    else strSubstr s.text selEnd (selStart - selEnd)
  | _, _ => none

/-- `TextBox::getSelectedText`. -/
def getSelectedText (s : TextBox) : Option (List Char) :=
  selectedSubstring s

/-- `TextBox::getCaretPosition`. -/
def getCaretPosition (s : TextBox) : Option Nat :=
  getSelectionEnd s

/-! ## Deleting and inserting -/

/-- `TextBox::deleteSelectedCharacters`. -/
def deleteSelectedCharacters (env : Env) (fuel : Nat) (s : TextBox) : Option TextBox :=
  if s.selStart ≠ s.selEnd then
    match getSelectionStart s, getSelectionEnd s with
    | some selStart, some selEnd =>
      if selStart ≤ selEnd then
        match strErase s.text selStart (selEnd - selStart) with
        | none => none
        | some text => rearrangeText env fuel true { s with text := text, selEnd := s.selStart }
      else
        match strErase s.text selEnd (selStart - selEnd) with
        | none => none
        | some text => rearrangeText env fuel true { s with text := text, selStart := s.selEnd }
    | _, _ => none
  else some s

/-- The lambda `insert` of `TextBox::textEntered`. -/
def insertKey (env : Env) (fuel : Nat) (key : Char) (s : TextBox) : Option TextBox :=
  match deleteSelectedCharacters env fuel s with
  | none => none
  | some s1 =>
    match getSelectionEnd s1, s1.lines[s1.selEnd.y]? with
    | some caretPosition, some line =>
      if caretPosition > s1.text.length ∨ s1.selEnd.x > line.length then none
      else
        let text := s1.text.take caretPosition ++ key :: s1.text.drop caretPosition
        let lines := s1.lines.set s1.selEnd.y (line.take s1.selEnd.x ++ key :: line.drop s1.selEnd.x)
        -- Increment the caret position, unless you type a newline at the start of a line while
        -- that line only existed due to word wrapping
        let increment : Option Bool :=
          if key ≠ '\n' ∨ s1.selEnd.x > 0 ∨ s1.selEnd.y = 0 then some true
          else
            match lines[s1.selEnd.y - 1]? with
            | none => none
            | some above =>
              if above.isEmpty then some true
              else if caretPosition = 0 then none
              else (strAt text (caretPosition - 1)).map (fun c => decide (c = '\n'))
        match increment with
        | none => none
        | some true =>
          rearrangeText env fuel true
            { s1 with text := text, lines := lines,
                      selStart := Vector2.mk (s1.selStart.x + 1) s1.selStart.y,
                      selEnd := Vector2.mk (s1.selEnd.x + 1) s1.selEnd.y }
        | some false =>
          rearrangeText env fuel true { s1 with text := text, lines := lines }
    | _, _ => none

/-- `TextBox::textEntered`. -/
def textEntered (env : Env) (fuel : Nat) (key : Char) (s : TextBox) : Option TextBox :=
  if s.readOnly then some s
  -- Make sure we don't exceed our maximum characters limit
  else if s.maxChars > 0 ∧ s.text.length + 1 > s.maxChars then some s
  else
    let inserted : Option TextBox :=
      -- If there is a scrollbar then inserting can't go wrong
      if s.verticalScrollbarPolicy ≠ Policy.Never then insertKey env fuel key s
      else
        -- There is no scrollbar, the text may not fit
        match insertKey env fuel key s with
        | none => none
        | some s1 =>
          -- Undo the insert if the text does not fit
          if ((s1.lines.length * s1.lineHeight : Nat) : Int) > (env.innerSizeY : Int) then
            rearrangeText env fuel true
              { s1 with text := s.text, selStart := s.selStart, selEnd := s.selEnd }
          else some s1
    inserted.map (fun s2 => { s2 with textChanges := s2.text :: s2.textChanges })

/-! ## Hit testing -/

/-- The loop "Find between which character the mouse is standing" of
`TextBox::findCaretPosition`, started at column `i` with the accumulated `width` and the
previous character; `x2` is the horizontal position in half pixels. -/
def findCaretColumn (env : Env) (x2 : Int) : List Char → Nat → Int → Char → Nat
  | [], i, _, _ => i
  | curChar :: rest, i, width, prevChar =>
    let charWidth : Int := if curChar = '\t' then env.advance ' ' * 4 else env.advance curChar
    let kerning : Int := env.kerning prevChar curChar
    if 2 * (width + charWidth + kerning) ≤ x2 then
      findCaretColumn env x2 rest (i + 1) (width + charWidth + kerning) curChar
    else if x2 < 2 * (width + kerning) + charWidth then i
    else i + 1

/-- `TextBox::findCaretPosition`.  The position is given in half pixels, so that the half line
height which `keyPressed` subtracts for the Up key is an integer. -/
def findCaretPosition (env : Env) (s : TextBox) (position2 : Int × Int) : Option Vector2 :=
  let x2 := position2.1 - 2 * (env.bordersLeft + env.paddingLeft)
  let y2 := position2.2 - 2 * (env.bordersTop + env.paddingTop)
  let last : Option Vector2 :=
    if s.lines = [] then none else some (endOfLines s.lines)
  -- Don't continue when line height is 0 or when there is no font yet
  if s.lineHeight = 0 ∨ s.hasFont = false then last
  else
    -- Find on which line the mouse is
    let y2 := if env.isShown s.verticalScrollbar then y2 + 2 * (s.verticalScrollbar.value : Int) else y2
    if y2 < 0 then some (Vector2.mk 0 0)
    else
      let lineNumber := (y2 / (2 * (s.lineHeight : Int))).toNat
      -- Check if you clicked behind everything
      if lineNumber + 1 > s.lines.length then last
      else
        match s.lines[lineNumber]? with
        | none => none
        | some line =>
          some (Vector2.mk
            (findCaretColumn env x2 line 0
              (env.textOffset - (s.horizontalScrollbar.value : Int)) (Char.ofNat 0))
            lineNumber)

/-! ## Keyboard -/

/-- The key codes `TextBox::keyPressed` distinguishes. -/
inductive Key where
  | Up
  | Down
  | Left
  | Right
  | Home
  | End
  | PageUp
  | PageDown
  | Tab
  | Return
  | BackSpace
  | Delete
  | A
  | C
  | X
  | V
  | Other
deriving DecidableEq, Repr

/-- The event type `sf::Event::KeyEvent`. -/
structure KeyEvent where
  code : Key
  alt : Bool
  control : Bool
  shift : Bool
  system : Bool
deriving DecidableEq, Repr

/-- Subtraction of `std::size_t` values (64 bit, wrapping). -/
def subSize (a b : Nat) : Nat :=
  (a % 2 ^ 64 + 2 ^ 64 - b % 2 ^ 64) % 2 ^ 64

/-- The inner loop of the control+Left case: `i` runs down from the caret column; the result is
the column at which the loop broke with `done` (if it did) and the flag `skippedWhitespace`.
`none` when `m_lines[y][i-1]` is outside the line. -/
def wordLeftScan (env : Env) (line : List Char) : Nat → Bool → Option (Option Nat × Bool)
  | 0, skippedWhitespace => some (none, skippedWhitespace)
  | i + 1, skippedWhitespace =>
    match strAt line i with
    | none => none
    | some c =>
      if skippedWhitespace then
        if env.isWhitespace c then some (some (i + 1), true)
        else wordLeftScan env line i true
      else
        if !env.isWhitespace c then wordLeftScan env line i true
        else wordLeftScan env line i false

/-- The outer loop of the control+Left case, `j` rounds left. -/
def wordLeft (env : Env) (lines : List (List Char)) : Nat → Vector2 → Bool → Option Vector2
  | 0, selEnd, _ => some selEnd
  | j + 1, selEnd, skippedWhitespace =>
    let scanned : Option (Option Nat × Bool) :=
      if selEnd.x = 0 then some (none, skippedWhitespace)
      else
        match lines[selEnd.y]? with
        | none => none
        | some line => wordLeftScan env line selEnd.x skippedWhitespace
    match scanned with
    | none => none
    | some (some x, _) => some (Vector2.mk x selEnd.y)
    | some (none, true) => some (Vector2.mk 0 selEnd.y)
    | some (none, false) =>
      if selEnd.y > 0 then
        match lines[selEnd.y - 1]? with
        | none => none
        | some above => wordLeft env lines j (Vector2.mk above.length (selEnd.y - 1)) false
      else wordLeft env lines j selEnd false

/-- The inner loop of the control+Right case over the characters from the caret column on. -/
def wordRightScan (env : Env) : List Char → Nat → Bool → Option Nat × Bool
  | [], _, skippedWhitespace => (none, skippedWhitespace)
  | c :: rest, i, skippedWhitespace =>
    if skippedWhitespace then
      if env.isWhitespace c then (some i, true)
      else wordRightScan env rest (i + 1) true
    else
      if !env.isWhitespace c then wordRightScan env rest (i + 1) true
      else wordRightScan env rest (i + 1) false

/-- The outer loop of the control+Right case, `n` rounds left (`j` runs up to the number of
lines). -/
def wordRight (env : Env) (lines : List (List Char)) : Nat → Vector2 → Bool → Option Vector2
  | 0, selEnd, _ => some selEnd
  | n + 1, selEnd, skippedWhitespace =>
    match lines[selEnd.y]? with
    | none => none
    | some line =>
      match wordRightScan env (line.drop selEnd.x) selEnd.x skippedWhitespace with
      | (some x, _) => some (Vector2.mk x selEnd.y)
      | (none, true) => some (Vector2.mk line.length selEnd.y)
      | (none, false) =>
        if selEnd.y + 1 < lines.length then wordRight env lines n (Vector2.mk 0 (selEnd.y + 1)) false
        else wordRight env lines n selEnd false

/-- The end of the `keyPressed` cases that move the caret: without shift the selection start
follows the selection end, then the selection texts are updated. -/
def finishMove (env : Env) (event : KeyEvent) (selEnd : Vector2) (s : TextBox) : Option TextBox :=
  if !event.shift then updateSelectionTexts env { s with selStart := selEnd, selEnd := selEnd }
  else updateSelectionTexts env { s with selEnd := selEnd }

/-- The case `sf::Keyboard::Left` of `TextBox::keyPressed`. -/
def keyLeft (env : Env) (event : KeyEvent) (s : TextBox) : Option TextBox :=
  let moved : Option Vector2 :=
    if event.control then wordLeft env s.lines (s.selEnd.y + 1) s.selEnd false
    else
      if s.selStart ≠ s.selEnd ∧ !event.shift then
        if s.selStart.y < s.selEnd.y ∨ (s.selStart.y = s.selEnd.y ∧ s.selStart.x < s.selEnd.x) then
          some s.selStart
        else some s.selEnd
      else if s.selEnd.x > 0 then some (Vector2.mk (s.selEnd.x - 1) s.selEnd.y)
      else
        -- You are at the left side of a line so move up
        if s.selEnd.y > 0 then
          match s.lines[s.selEnd.y - 1]? with
          | none => none
          | some above => some (Vector2.mk above.length (s.selEnd.y - 1))
        else some s.selEnd
  match moved with
  | none => none
  | some selEnd => finishMove env event selEnd s

/-- The case `sf::Keyboard::Right` of `TextBox::keyPressed`. -/
def keyRight (env : Env) (event : KeyEvent) (s : TextBox) : Option TextBox :=
  let moved : Option Vector2 :=
    if event.control then wordRight env s.lines (s.lines.length - s.selEnd.y) s.selEnd false
    else
      if s.selStart ≠ s.selEnd ∧ !event.shift then
        if s.selStart.y > s.selEnd.y ∨ (s.selStart.y = s.selEnd.y ∧ s.selStart.x > s.selEnd.x) then
          some s.selStart
        else some s.selEnd
      else
        match s.lines[s.selEnd.y]? with
        | none => none
        | some line =>
          -- Move to the next line if you are at the end of the line
          if s.selEnd.x = line.length then
            if s.selEnd.y + 1 < s.lines.length then some (Vector2.mk 0 (s.selEnd.y + 1))
            else some s.selEnd
          else some (Vector2.mk (s.selEnd.x + 1) s.selEnd.y)
  match moved with
  | none => none
  | some selEnd => finishMove env event selEnd s

/-- The case `sf::Keyboard::Home`. -/
def keyHome (env : Env) (event : KeyEvent) (s : TextBox) : Option TextBox :=
  if event.control then finishMove env event (Vector2.mk 0 0) s
  else finishMove env event (Vector2.mk 0 s.selEnd.y) s

/-- The case `sf::Keyboard::End`. -/
def keyEnd (env : Env) (event : KeyEvent) (s : TextBox) : Option TextBox :=
  if event.control then
    if s.lines = [] then none else finishMove env event (endOfLines s.lines) s
  else
    match s.lines[s.selEnd.y]? with
    | none => none
    | some line => finishMove env event (Vector2.mk line.length s.selEnd.y) s

/-- The local `visibleLines` of the PageUp / PageDown cases. -/
def pageLines (env : Env) (s : TextBox) : Nat :=
  toSizeOfQuotient env ((env.innerSizeY : Int) - env.paddingTop - env.paddingBottom) s.lineHeight

/-- The line `m_selEnd.y` that the PageUp case computes. -/
def pageUpLine (env : Env) (s : TextBox) : Nat :=
  -- Move to the top line when not there already
  if s.selEnd.y ≠ s.topLine then s.topLine
  else
    -- Scroll up when we already where at the top line
    if s.topLine < subSize (pageLines env s) 1 then 0
    else (subSize s.topLine (pageLines env s) + 1) % 2 ^ 64

/-- The case `sf::Keyboard::PageUp`. -/
def keyPageUp (env : Env) (event : KeyEvent) (s : TextBox) : Option TextBox :=
  finishMove env event (Vector2.mk 0 (pageUpLine env s)) s

/-- The line `m_selEnd.y` that the PageDown case computes. -/
def pageDownLine (env : Env) (s : TextBox) : Nat :=
  -- Move to the bottom line when not there already
  if s.topLine + s.visibleLines > s.lines.length then subSize s.lines.length 1
  else if s.selEnd.y ≠ subSize (s.topLine + s.visibleLines) 1 then
    subSize (s.topLine + s.visibleLines) 1
  else
    -- Scroll down when we already where at the bottom line
    if s.selEnd.y + pageLines env s ≥ s.lines.length + 2 then subSize s.lines.length 1
    else subSize (s.selEnd.y + pageLines env s) 2

/-- The case `sf::Keyboard::PageDown`; `none` when the line it computes does not exist. -/
def keyPageDown (env : Env) (event : KeyEvent) (s : TextBox) : Option TextBox :=
  match s.lines[pageDownLine env s]? with
  | none => none
  | some line => finishMove env event (Vector2.mk line.length (pageDownLine env s)) s

/-- The case `sf::Keyboard::Up`; the target is 1/2 line height above the caret, in half
pixels. -/
def keyUp (env : Env) (event : KeyEvent) (s : TextBox) : Option TextBox :=
  match findCaretPosition env s
      (2 * s.caretPosition.1,
       2 * s.caretPosition.2 - (s.lineHeight : Int) - 2 * (s.verticalScrollbar.value : Int)) with
  | none => none
  | some selEnd => finishMove env event selEnd s

/-- The case `sf::Keyboard::Down`; the target is 3/2 line heights below the caret, in half
pixels. -/
def keyDown (env : Env) (event : KeyEvent) (s : TextBox) : Option TextBox :=
  match findCaretPosition env s
      (2 * s.caretPosition.1,
       2 * s.caretPosition.2 + 3 * (s.lineHeight : Int) - 2 * (s.verticalScrollbar.value : Int)) with
  | none => none
  | some selEnd => finishMove env event selEnd s

/-- The text `onTextChange` is emitted with. -/
def emitTextChange (s : TextBox) : TextBox :=
  { s with textChanges := s.text :: s.textChanges }

/-- Where the BackSpace case of `TextBox::keyPressed` puts the caret before it erases the
character in front of the index `pos` of the caret: one column to the left, at the end of the
line above, or (when the break in front of the line is a word-wrap break) one column in front
of that end.  `none` when a line or character it reads does not exist. -/
def backSpaceCaret (text : List Char) (lines : List (List Char)) (selEnd : Vector2) (pos : Nat) :
    Option Vector2 :=
  if selEnd.x > 0 then
    match lines[selEnd.y]? with
    | none => none
    | some line =>
      -- There is a specific case that we have to watch out for. When we are removing the last
      -- character on a line which was placed there by word wrap and a newline follows this
      -- character then the caret has to be placed at the line above (before the newline)
      -- instead of at the same line (after the newline)
      if line.length = 1 ∧ pos > 1 ∧ pos < text.length
          ∧ text[pos - 2]? ≠ some '\n' ∧ text[pos]? = some '\n' ∧ selEnd.y > 0 then
        match lines[selEnd.y - 1]? with
        | none => none
        | some above => some (Vector2.mk above.length (selEnd.y - 1))
      else some (Vector2.mk (selEnd.x - 1) selEnd.y)
  else
    -- At the beginning of the line
    if selEnd.y > 0 then
      match lines[selEnd.y - 1]?, strAt text (pos - 1) with
      | some above, some c =>
        if c ≠ '\n' ∧ above.length > 0 then some (Vector2.mk (above.length - 1) (selEnd.y - 1))
        else some (Vector2.mk above.length (selEnd.y - 1))
      | _, _ => none
    else some selEnd

/-- The case `sf::Keyboard::BackSpace`. -/
def keyBackSpace (env : Env) (fuel : Nat) (s : TextBox) : Option TextBox :=
  if s.readOnly then some s
  else
    let edited : Option TextBox :=
      -- Check that we did not select any characters
      if s.selStart = s.selEnd then
        match getSelectionEnd s with
        | none => none
        | some pos =>
          if pos > 0 then
            match backSpaceCaret s.text s.lines s.selEnd pos, strErase s.text (pos - 1) 1 with
            | some selEnd, some text =>
              rearrangeText env fuel true { s with text := text, selStart := selEnd, selEnd := selEnd }
            | _, _ => none
          else some s
      else
        -- When you did select some characters then delete them
        deleteSelectedCharacters env fuel s
    edited.map emitTextChange

/-- The case `sf::Keyboard::Delete`. -/
def keyDelete (env : Env) (fuel : Nat) (s : TextBox) : Option TextBox :=
  if s.readOnly then some s
  else
    let edited : Option TextBox :=
      -- Check that we did not select any characters
      if s.selStart = s.selEnd then
        match getSelectionEnd s with
        | none => none
        | some pos =>
          match strErase s.text pos 1 with
          | none => none
          | some text => rearrangeText env fuel true { s with text := text }
      else
        -- You did select some characters, so remove them
        deleteSelectedCharacters env fuel s
    edited.map emitTextChange

/-- The case `sf::Keyboard::A` (select all). -/
def keySelectAll (env : Env) (event : KeyEvent) (s : TextBox) : Option TextBox :=
  if event.control ∧ !event.alt ∧ !event.shift ∧ !event.system then
    if s.lines = [] then none
    else updateSelectionTexts env { s with selStart := Vector2.mk 0 0, selEnd := endOfLines s.lines }
  else some s

/-- The case `sf::Keyboard::C` (copy). -/
def keyCopy (event : KeyEvent) (s : TextBox) : Option TextBox :=
  if event.control ∧ !event.alt ∧ !event.shift ∧ !event.system then
    (selectedSubstring s).map (fun t => { s with clipboard := t })
  else some s

/-- The case `sf::Keyboard::X` (cut). -/
def keyCut (env : Env) (fuel : Nat) (event : KeyEvent) (s : TextBox) : Option TextBox :=
  if event.control ∧ !event.alt ∧ !event.shift ∧ !event.system ∧ !s.readOnly then
    match selectedSubstring s with
    | none => none
    | some t => deleteSelectedCharacters env fuel { s with clipboard := t }
  else some s

/-- The case `sf::Keyboard::V` (paste). -/
def keyPaste (env : Env) (fuel : Nat) (event : KeyEvent) (s : TextBox) : Option TextBox :=
  if event.control ∧ !event.alt ∧ !event.shift ∧ !event.system ∧ !s.readOnly then
    let clipboardContents := s.clipboard
    -- Only continue pasting if you actually have to do something
    if s.selStart ≠ s.selEnd ∨ clipboardContents ≠ [] then
      match deleteSelectedCharacters env fuel s with
      | none => none
      | some s1 =>
        match getSelectionEnd s1, s1.lines[s1.selEnd.y]? with
        | some pos, some line =>
          match strInsert s1.text pos clipboardContents,
                strInsert line s1.selEnd.x clipboardContents with
          | some text, some line1 =>
            let selEnd := Vector2.mk (s1.selEnd.x + clipboardContents.length) s1.selEnd.y
            (rearrangeText env fuel true
              { s1 with text := text, lines := s1.lines.set s1.selEnd.y line1,
                        selStart := selEnd, selEnd := selEnd }).map emitTextChange
          | _, _ => none
        | _, _ => none
    else some s
  else some s

/-- `TextBox::keyPressed`. -/
def keyPressed (env : Env) (fuel : Nat) (event : KeyEvent) (s : TextBox) : Option TextBox :=
  match event.code with
  | Key.Up => keyUp env event s
  | Key.Down => keyDown env event s
  | Key.Left => keyLeft env event s
  | Key.Right => keyRight env event s
  | Key.Home => keyHome env event s
  | Key.End => keyEnd env event s
  | Key.PageUp => keyPageUp env event s
  | Key.PageDown => keyPageDown env event s
  | Key.Tab => textEntered env fuel '\t' s
  | Key.Return => textEntered env fuel '\n' s
  | Key.BackSpace => keyBackSpace env fuel s
  | Key.Delete => keyDelete env fuel s
  | Key.A => keySelectAll env event s
  | Key.C => keyCopy event s
  | Key.X => keyCut env fuel event s
  | Key.V => keyPaste env fuel event s
  | Key.Other => some s

/-! ## Deserializer (Deserializer.cpp) -/

/-- Modelled from the spec: the class `Color`, whose header is not among the sources.  A color
is the sentinel "no color" (`isSet = false`) or has four channels of eight bits. -/
structure Color where
  isSet : Bool
  red : Nat
  green : Nat
  blue : Nat
  alpha : Nat
deriving DecidableEq, Repr

/-- Modelled from the spec: the default constructor `Color()`, the sentinel "no color". -/
def Color.unset : Color :=
  { isSet := false, red := 0, green := 0, blue := 0, alpha := 0 }

/-- Modelled from the spec: the constructor `Color{red, green, blue, alpha}`. -/
def Color.rgba (red green blue alpha : Nat) : Color :=
  { isSet := true, red := red, green := green, blue := blue, alpha := alpha }

/-- Modelled from the spec: the constructor `Color{red, green, blue}`, in which "alpha defaults
to 255". -/
def Color.rgb (red green blue : Nat) : Color :=
  Color.rgba red green blue 255

/-- The functions of `tgui::String` and the table `Color::colorMap` that `Deserializer.cpp` calls
and that are not among the sources. -/
structure StringLib where
  /-- `String::toLower`. -/
  toLower : List Char → List Char
  /-- `String::trim`. -/
  trim : List Char → List Char
  /-- `String::toInt`. -/
  toInt : List Char → Int
  /-- `Color::colorMap.find`. -/
  colorMap : List Char → Option Color
  /-- `String::toUInt`. -/
  toUInt : List Char → Nat
  /-- The number of pixels of `AbsoluteOrRelativeValue(String)`, the side of an outline. -/
  toOutlineValue : List Char → Int
  /-- `getResourcePath()`. -/
  resourcePath : List Char

/-- `static_cast<std::uint8_t>` of an `int`. -/
def toUInt8 (n : Int) : Nat :=
  (n % 256).toNat

/-- The test "You can only have hex characters" of `deserializeColor`, which is also the
assertion of `hexToDec`. -/
def isHexChar (c : Char) : Bool :=
  (decide ('0' ≤ c) && decide (c ≤ '9')) || (decide ('A' ≤ c) && decide (c ≤ 'F'))
    || (decide ('a' ≤ c) && decide (c ≤ 'f'))

/-- `hexToDec`; `none` when its assertion fails. -/
def hexToDec (c : Char) : Option Nat :=
  if isHexChar c = false then none
  else if c = 'A' ∨ c = 'a' then some 10
  else if c = 'B' ∨ c = 'b' then some 11
  else if c = 'C' ∨ c = 'c' then some 12
  else if c = 'D' ∨ c = 'd' then some 13
  else if c = 'E' ∨ c = 'e' then some 14
  else if c = 'F' ∨ c = 'f' then some 15
  else some (c.toNat - '0'.toNat)

/-- The channel `static_cast<std::uint8_t>(hexToDec(hi) * 16 + hexToDec(lo))`. -/
def hexChannel (hi lo : Char) : Option Nat :=
  match hexToDec hi, hexToDec lo with
  | some h, some l => some ((h * 16 + l) % 256)
  | _, _ => none

/-- The loop of `Deserializer::split` without the trimming: `find` the next delimiter from
`start`, cut out the characters in front of it, go on behind it; the rest is the last
segment. -/
def segments (delim : Char) : List Char → List (List Char)
  | [] => [[]]
  | c :: cs =>
    if c = delim then [] :: segments delim cs
    else
      match segments delim cs with
      | [] => [[c]]
      | l :: ls => (c :: l) :: ls

/-- `Deserializer::split`. -/
def split (lib : StringLib) (str : List Char) (delim : Char) : List (List Char) :=
  (segments delim str).map lib.trim

/-- `deserializeBool`; `none` when it throws. -/
def deserializeBool (lib : StringLib) (value : List Char) : Option Bool :=
  let str := lib.toLower value
  if str = "true".toList ∨ str = "yes".toList ∨ str = "on".toList ∨ str = "1".toList then
    some true
  else if str = "false".toList ∨ str = "no".toList ∨ str = "off".toList ∨ str = "0".toList then
    some false
  else none

/-- The part "The color can be represented with a hexadecimal number" of `deserializeColor`,
which reads `value` itself, not the trimmed string. -/
def deserializeHexColor (value : List Char) : Option Color :=
  -- You can only have hex characters
  if (value.drop 1).all isHexChar then
    -- Parse the different types of strings (#123, #1234, #112233 and #11223344)
    match value with
    | [_, r, g, b] =>
      match hexChannel r r, hexChannel g g, hexChannel b b with
      | some red, some green, some blue => some (Color.rgb red green blue)
      | _, _, _ => none
    | [_, r, g, b, a] =>
      match hexChannel r r, hexChannel g g, hexChannel b b, hexChannel a a with
      | some red, some green, some blue, some alpha => some (Color.rgba red green blue alpha)
      | _, _, _, _ => none
    | [_, r1, r2, g1, g2, b1, b2] =>
      match hexChannel r1 r2, hexChannel g1 g2, hexChannel b1 b2 with
      | some red, some green, some blue => some (Color.rgb red green blue)
      | _, _, _ => none
    | [_, r1, r2, g1, g2, b1, b2, a1, a2] =>
      match hexChannel r1 r2, hexChannel g1 g2, hexChannel b1 b2, hexChannel a1 a2 with
      | some red, some green, some blue, some alpha => some (Color.rgba red green blue alpha)
      | _, _, _, _ => none
    | _ => none
  else none

/-- The step "The string can optionally start with rgb or rgba, but this is ignored" of
`deserializeColor`. -/
def stripRgbPrefix (str : List Char) : List Char :=
  if str.take 4 = "rgba".toList then str.drop 4
  else if str.take 3 = "rgb".toList then str.drop 3
  else str

/-- The step "Remove the first and last characters when they are brackets" of
`deserializeColor`. -/
def stripRoundBrackets (str : List Char) : List Char :=
  if str.head? = some '(' ∧ str.getLast? = some ')' then (str.drop 1).take (str.length - 2)
  else str

/-- The last part of `deserializeColor`: the forms `rgb(r, g, b)` and `rgba(r, g, b, a)`, with
the prefix and the brackets optional. -/
def deserializeRgbColor (lib : StringLib) (str : List Char) : Option Color :=
  match split lib (stripRoundBrackets (stripRgbPrefix str)) ',' with
  | [t0, t1, t2] =>
    some (Color.rgba (toUInt8 (lib.toInt t0)) (toUInt8 (lib.toInt t1)) (toUInt8 (lib.toInt t2)) 255)
  | [t0, t1, t2, t3] =>
    some (Color.rgba (toUInt8 (lib.toInt t0)) (toUInt8 (lib.toInt t1)) (toUInt8 (lib.toInt t2))
      (toUInt8 (lib.toInt t3)))
  | _ => none

/-- `deserializeColor`; `none` when it throws. -/
def deserializeColor (lib : StringLib) (value : List Char) : Option Color :=
  let str := lib.toLower (lib.trim value)
  if str = [] ∨ str = "none".toList then some Color.unset
  else
    -- Check if the color is represented by a string with its name
    match lib.colorMap (lib.toLower str) with
    | some color => some color
    | none =>
      if str.head? = some '#' then deserializeHexColor value
      else deserializeRgbColor lib str

/-- The loop of `deserializeString` on the string from `backslashPos` on: a backslash that is
not the last character is erased and the character behind it is replaced when it is `n`, `t` or
`v`; the search goes on behind that character. -/
def unescape : List Char → List Char
  | [] => []
  | c :: rest =>
    if c = '\\' then
      match rest with
      | [] => [c]
      | d :: rest2 =>
        (if d = 'n' then '\n' else if d = 't' then '\t' else if d = 'v' then Char.ofNat 11 else d)
          :: unescape rest2
    else c :: unescape rest

/-- `deserializeString`. -/
def deserializeString (value : List Char) : List Char :=
  -- Only deserialize the string when it is surrounded with quotes
  if value.length ≥ 2 ∧ value.head? = some '"' ∧ value.getLast? = some '"' then
    unescape ((value.drop 1).take (value.length - 2))
  else value

/-- Modelled from the spec: the class `Outline`, whose header is not among the sources: the
four sides "(left, top, right, bottom)", here in pixels. -/
structure Outline where
  left : Int
  top : Int
  right : Int
  bottom : Int
deriving DecidableEq, Repr

/-- Modelled from the spec: the constructor `Outline{size}`, the "uniform outline". -/
def Outline.uniform (size : Int) : Outline :=
  { left := size, top := size, right := size, bottom := size }

/-- Modelled from the spec: the constructor `Outline{width, height}`, "2 tokens →
(horizontal, vertical)": left and right are the first value, top and bottom the second. -/
def Outline.symmetric (width height : Int) : Outline :=
  { left := width, top := height, right := width, bottom := height }

/-- The step "Remove the brackets around the value" of `deserializeOutline`. -/
def stripOutlineBrackets (str : List Char) : List Char :=
  if (str.head? = some '(' ∧ str.getLast? = some ')')
      ∨ (str.head? = some '{' ∧ str.getLast? = some '}') then
    (str.drop 1).take (str.length - 2)
  else str

/-- `deserializeOutline`; `none` when it throws. -/
def deserializeOutline (lib : StringLib) (value : List Char) : Option Outline :=
  let str := lib.trim value
  if str = [] then none
  else
    let str := stripOutlineBrackets str
    if str = [] then some (Outline.uniform 0)
    else
      match split lib str ',' with
      | [t0] => some (Outline.uniform (lib.toOutlineValue t0))
      | [t0, t1] => some (Outline.symmetric (lib.toOutlineValue t0) (lib.toOutlineValue t1))
      | [t0, t1, t2, t3] =>
        some { left := lib.toOutlineValue t0, top := lib.toOutlineValue t1,
               right := lib.toOutlineValue t2, bottom := lib.toOutlineValue t3 }
      | _ => none

/-- The type `UIntRect`: left, top, width and height. -/
structure UIntRect where
  left : Nat
  top : Nat
  width : Nat
  height : Nat
deriving DecidableEq, Repr

/-- The default `UIntRect`, the zero rectangle. -/
def UIntRect.zero : UIntRect :=
  { left := 0, top := 0, width := 0, height := 0 }

/-- The class `Texture`, whose source is not among these files, as far as `deserializeTexture`
uses it: the type `τ` of the textures and the three constructors that are called.  A constructor
that is given a filename loads the image; it is `none` when it throws. -/
structure TextureClass (τ : Type) where
  /-- The default constructor `Texture{}`. -/
  empty : τ
  /-- The constructor call `Texture{id}`. -/
  file : List Char → Option τ
  /-- The constructor call `Texture{id, partRect, middleRect, smooth}`. -/
  load : List Char → UIntRect → UIntRect → Bool → Option τ

/-- `removeWhitespace`: what is left of the string once the iterator has moved over spaces, tabs
and carriage returns; the function returns whether anything is left. -/
def removeWhitespace : List Char → List Char
  | [] => []
  | c :: rest => if c = ' ' ∨ c = '\t' ∨ c = '\r' then removeWhitespace rest else c :: rest

/-- `String::find(ch, pos)` for the string from `pos` on: the offset of the first `ch`. -/
def findChar (ch : Char) : List Char → Option Nat
  | [] => none
  | c :: rest => if c = ch then some 0 else (findChar ch rest).map (· + 1)

/-- `readUIntRect`: the rectangle, `none` when the function returns false. -/
def readUIntRect (lib : StringLib) (value : List Char) : Option UIntRect :=
  if value ≠ [] ∧ value.head? = some '(' ∧ value.getLast? = some ')' then
    match split lib ((value.drop 1).take (value.length - 2)) ',' with
    | [t0, t1, t2, t3] =>
      some { left := lib.toUInt t0, top := lib.toUInt t1, width := lib.toUInt t2,
             height := lib.toUInt t3 }
    | _ => none
  else none

/-- The loop "Look for the end quote" of `deserializeTexture` on the string behind the opening
quote: the filename and the string behind the closing quote, `none` when there is no closing
quote.  `prev` is a `char`, so it holds the low byte of the character before. -/
def readFilename : List Char → Char → List Char → Option (List Char × List Char)
  | [], _, _ => none
  | c :: rest, prev, filename =>
    if c ≠ '"' ∨ prev = '\\' then readFilename rest (Char.ofNat (c.toNat % 256)) (filename ++ [c])
    else some (filename, rest)

/-- The rectangle of a `Part` or `Middle` clause of `deserializeTexture`, read from the string
behind the keyword, and the string behind its closing bracket; `none` when it throws. -/
def readClauseRect (lib : StringLib) (behindWord : List Char) : Option (UIntRect × List Char) :=
  match findChar ')' behindWord with
  | none => none
  | some closeBracketPos =>
    match readUIntRect lib (behindWord.take (closeBracketPos + 1)) with
    | none => none
    | some rect => some (rect, behindWord.drop (closeBracketPos + 1))

/-- The loop "There may be optional parameters" of `deserializeTexture` on the string from the
iterator on: the part rectangle, the middle rectangle and the smooth flag, `none` when it
throws.  `fuel` bounds the number of rounds; every round moves the iterator, so the length of
the string plus one is enough. -/
def textureClauses (lib : StringLib) :
    Nat → List Char → UIntRect → UIntRect → Option (UIntRect × UIntRect × Bool)
  | 0, _, _, _ => none
  | fuel + 1, rest, partRect, middleRect =>
    match removeWhitespace rest with
    | [] => some (partRect, middleRect, false)
    | c :: cs =>
      match findChar '(' (c :: cs) with
      | none =>
        if lib.toLower (lib.trim (c :: cs)) = "smooth".toList then
          some (partRect, middleRect, true)
        else none
      | some openingBracketPos =>
        let word := (c :: cs).take openingBracketPos
        if word = "Part".toList ∨ word = "part".toList then
          match readClauseRect lib ((c :: cs).drop 4) with
          | none => none
          | some (rect, behind) => textureClauses lib fuel behind rect middleRect
        else if word = "Middle".toList ∨ word = "middle".toList then
          match readClauseRect lib ((c :: cs).drop 6) with
          | none => none
          | some (rect, behind) => textureClauses lib fuel behind partRect rect
        else none

/-- `deserializeTexture` (the branch for systems other than Windows); `none` when it throws,
which it also does when the `Texture` constructor it ends in throws. -/
def deserializeTexture {τ : Type} (lib : StringLib) (texture : TextureClass τ)
    (value : List Char) : Option τ :=
  if value = [] ∨ lib.toLower value = "none".toList then some texture.empty
  else
    match value with
    | [] => some texture.empty
    | first :: behindQuote =>
      -- If there are no quotes then the value just contains a filename
      if first ≠ '"' then
        if first ≠ '/' then texture.file (lib.resourcePath ++ value)
        else texture.file value
      else
        match readFilename behindQuote (Char.ofNat 0) [] with
        | none => none
        | some (filename, rest) =>
          (textureClauses lib (rest.length + 1) rest UIntRect.zero UIntRect.zero).bind
            (fun r => texture.load filename r.1 r.2.1 r.2.2)

/-! ## A reference environment

Concrete collaborators, used to run the embedding on examples: a font in which every glyph is
one pixel wide and one line is one pixel high, a scrollbar that is shown when it is visible and
(unless auto-hide is off) has more content than its viewport, a word wrap that breaks a line
when it is full, and conversions of negative values to unsigned types that wrap around (32 bits
for `unsigned int`, 64 bits for `std::size_t`). -/

/-- Word wrap for glyphs of width 1 and a text without whitespace: at most `k` characters (at
least one) go on a line, a newline of the text ends the line, and a newline is put in front of
the first character that does not fit.  `n` is the number of characters on the current line. -/
def wrapAt (k : Nat) : List Char → Nat → List Char
  | [], _ => []
  | c :: cs, n =>
    if c = '\n' then c :: wrapAt k cs 0
    else if n < max k 1 then c :: wrapAt k cs (n + 1)
    else '\n' :: c :: wrapAt k cs 1

/-- Reference `Scrollbar::isShown`. -/
def refIsShown (sb : Scrollbar) : Bool :=
  sb.visible && (!sb.autoHide || decide (sb.maximum > sb.viewportSize))

/-- Reference `Scrollbar::setValue`: the value is kept inside `[0, maximum - viewportSize]`. -/
def refSetValue (value : Nat) (sb : Scrollbar) : Scrollbar :=
  { sb with value := if sb.maximum < sb.viewportSize then 0 else min value (sb.maximum - sb.viewportSize) }

/-- Reference `Scrollbar::setMaximum`. -/
def refSetMaximum (maximum : Nat) (sb : Scrollbar) : Scrollbar :=
  refSetValue sb.value { sb with maximum := if maximum > 0 then maximum else 1 }

/-- Reference `Scrollbar::setViewportSize`. -/
def refSetViewportSize (viewportSize : Nat) (sb : Scrollbar) : Scrollbar :=
  refSetValue sb.value { sb with viewportSize := viewportSize }

/-- The reference environment for a text box whose inner size is `width` by `height` pixels,
without borders and padding, with scrollbars `barWidth` pixels wide. -/
def refEnv (width height barWidth : Nat) : Env where
  wordWrap := fun maxWidth text => wrapAt maxWidth.toNat text 0
  isWhitespace := fun c => c = ' ' || c = '\t' || c = '\r' || c = '\n'
  getLineWidth := fun line => (line.length : Int)
  caretX := fun _ x => (x : Int)
  advance := fun _ => 1
  kerning := fun _ _ => 0
  innerSizeX := width
  innerSizeY := height
  paddingLeft := 0
  paddingRight := 0
  paddingTop := 0
  paddingBottom := 0
  bordersLeft := 0
  bordersTop := 0
  textOffset := 0
  extraVerticalSpace := 0
  verticalScrollbarWidth := barWidth
  horizontalScrollbarHeight := barWidth
  isShown := refIsShown
  setMaximum := refSetMaximum
  setViewportSize := refSetViewportSize
  setValue := refSetValue
  setVisible := fun v sb => { sb with visible := v }
  setAutoHide := fun a sb => { sb with autoHide := a }
  unsignedOfNegative := fun x => (x % 2 ^ 32).toNat
  sizeOfNegative := fun x => (x % 2 ^ 64).toNat
  sizeOfQuotientByZero := fun _ => 0

/-- An empty text box with a font of line height 1 and the given scrollbar policies (the
scrollbars are visible exactly when their policy is not `Never`, auto-hiding exactly when it is
`Automatic`, as the policy setters leave them). -/
def emptyTextBox (vertical horizontal : Policy) : TextBox where
  text := []
  lines := [[]]
  selStart := Vector2.mk 0 0
  selEnd := Vector2.mk 0 0
  maxChars := 0
  readOnly := false
  verticalScrollbarPolicy := vertical
  horizontalScrollbarPolicy := horizontal
  lineHeight := 1
  hasFont := true
  monospacedFontOptimizationEnabled := false
  maxLineWidth := 0
  verticalScrollbar :=
    { visible := decide (vertical ≠ Policy.Never), autoHide := decide (vertical = Policy.Automatic),
      maximum := 1, viewportSize := 0, value := 0 }
  horizontalScrollbar :=
    { visible := decide (horizontal ≠ Policy.Never),
      autoHide := decide (horizontal = Policy.Automatic),
      maximum := 1, viewportSize := 0, value := 0 }
  topLine := 0
  visibleLines := 0
  caretPosition := (0, 0)
  lastSelection := (Vector2.mk 0 0, Vector2.mk 0 0)
  selectionChangeCount := 0
  textChanges := []
  clipboard := []

/-- A key press with the control key held and no other modifier. -/
def ctrl (code : Key) : KeyEvent :=
  { code := code, alt := false, control := true, shift := false, system := false }

/-- A key press without modifiers. -/
def plain (code : Key) : KeyEvent :=
  { code := code, alt := false, control := false, shift := false, system := false }

/-- Typing the characters of `keys` one after the other (`textEntered` for each). -/
def typeText (env : Env) (fuel : Nat) : List Char → TextBox → Option TextBox
  | [], s => some s
  | key :: keys, s =>
    match textEntered env fuel key s with
    | none => none
    | some s1 => typeText env fuel keys s1

/-- An empty text box in the default configuration (vertical scrollbar automatic, word wrap on)
with a limit of five characters. -/
def limitedBox : TextBox :=
  { emptyTextBox Policy.Automatic Policy.Never with maxChars := 5 }

/-- An empty text box without word wrap, with a limit of five characters and ten characters on
the clipboard. -/
def pasteBox : TextBox :=
  { emptyTextBox Policy.Automatic Policy.Automatic with
    maxChars := 5, clipboard := "HELLOWORLD".toList }

/-- A key press with the shift key held and no other modifier. -/
def shift (code : Key) : KeyEvent :=
  { code := code, alt := false, control := false, shift := true, system := false }

/-- Pressing the keys of `events` one after the other (`keyPressed` for each). -/
def pressKeys (env : Env) (fuel : Nat) : List KeyEvent → TextBox → Option TextBox
  | [], s => some s
  | event :: events, s =>
    match keyPressed env fuel event s with
    | none => none
    | some s1 => pressKeys env fuel events s1

/-- The default configuration (word wrap on, vertical scrollbar automatic) in a box three
characters wide and ten lines high: `setText` of "aaabbb", newline, "ccc" gives the lines "aaa",
"bbb" (behind a word-wrap break) and "ccc"; the keys Up, Home, shift+End then select "bbb", from
the start of the second line (index 3) to its end (index 6). -/
def wrappedSelection : Option TextBox :=
  (setText (refEnv 3 10 0) 2 "aaabbb\nccc".toList
      (emptyTextBox Policy.Automatic Policy.Never)).bind
    (pressKeys (refEnv 3 10 0) 2 [plain Key.Up, plain Key.Home, shift Key.End])

/-- No vertical scrollbar and no word wrap in a box one line high: `setText` of "a", newline,
"b", newline, "c" and `setSelectedText 3 4` select the newline between "b" and "c". -/
def overflowSelection : Option TextBox :=
  (setText (refEnv 10 1 0) 2 "a\nb\nc".toList
      (emptyTextBox Policy.Never Policy.Automatic)).bind
    (setSelectedText (refEnv 10 1 0) 3 4)

/-- No vertical scrollbar and word wrap in a box two characters wide and two lines high:
`setText` of "aaaa" gives the two lines "aa" and "aa", which fit; the Home key then puts the
caret at the start of the second line (index 2). -/
def boundaryCaret : Option TextBox :=
  (setText (refEnv 2 2 0) 2 "aaaa".toList (emptyTextBox Policy.Never Policy.Never)).bind
    (keyPressed (refEnv 2 2 0) 2 (plain Key.Home))

/-- Whether `std::isspace` holds of the character (in the "C" locale). -/
def isSpaceChar (c : Char) : Bool :=
  c = ' ' || c = '\t' || c = '\n' || c = '\r' || c = Char.ofNat 11 || c = Char.ofNat 12

/-- Reference `String::trim`: the string without the white space at its two ends. -/
def refTrim (str : List Char) : List Char :=
  ((str.dropWhile isSpaceChar).reverse.dropWhile isSpaceChar).reverse

/-- The value of a string of decimal digits read from the left, started with `acc`; what
follows the digits is ignored. -/
def readDigits : List Char → Nat → Nat
  | [], acc => acc
  | c :: cs, acc =>
    if c.isDigit then readDigits cs (acc * 10 + (c.toNat - '0'.toNat)) else acc

/-- Reference `String::toInt`: an optional minus sign and decimal digits; 0 without digits. -/
def refToInt (str : List Char) : Int :=
  match str with
  | '-' :: cs => - (readDigits cs 0 : Int)
  | cs => (readDigits cs 0 : Int)

/-- Reference `Color::colorMap`: the names of a few colors. -/
def refColorMap (name : List Char) : Option Color :=
  if name = "black".toList then some (Color.rgb 0 0 0)
  else if name = "white".toList then some (Color.rgb 255 255 255)
  else if name = "red".toList then some (Color.rgb 255 0 0)
  else if name = "green".toList then some (Color.rgb 0 255 0)
  else if name = "blue".toList then some (Color.rgb 0 0 255)
  else if name = "transparent".toList then some (Color.rgba 0 0 0 0)
  else none

/-- The reference string library: ASCII lower case, white space trimmed, decimal integers. -/
def refLib : StringLib where
  toLower := fun str => str.map Char.toLower
  trim := refTrim
  toInt := refToInt
  colorMap := refColorMap
  toUInt := fun str => readDigits str 0
  toOutlineValue := refToInt
  resourcePath := []

/-- A texture of the reference `Texture` class: the filename it was loaded from, the part of
the image it shows, the middle rectangle and the smooth flag. -/
structure Texture where
  id : List Char
  partRect : UIntRect
  middleRect : UIntRect
  smooth : Bool
deriving DecidableEq, Repr

/-- The reference constructor `Texture{id, partRect, middleRect, smooth}` for the image files
`images` (name, width and height), made after what `tests/Texture.cpp` requires of the class: it
throws for a file that is not among them; a zero part rectangle stands for the whole image and
a zero middle rectangle for the whole part. -/
def refLoadTexture (images : List (List Char × Nat × Nat)) (id : List Char)
    (partRect middleRect : UIntRect) (smooth : Bool) : Option Texture :=
  match images.find? (fun image => image.1 = id) with
  | none => none
  | some image =>
    let part : UIntRect :=
      if partRect = UIntRect.zero then
        { left := 0, top := 0, width := image.2.1, height := image.2.2 }
      else partRect
    let middle : UIntRect :=
      if middleRect = UIntRect.zero then
        { left := 0, top := 0, width := part.width, height := part.height }
      else middleRect
    some { id := id, partRect := part, middleRect := middle, smooth := smooth }

/-- The reference `Texture` class for the image files `images`. -/
def refTextures (images : List (List Char × Nat × Nat)) : TextureClass Texture where
  empty := { id := [], partRect := UIntRect.zero, middleRect := UIntRect.zero, smooth := false }
  file := fun id => refLoadTexture images id UIntRect.zero UIntRect.zero false
  load := refLoadTexture images

/-- The image files of the examples: "f.png" and "f", both 50 by 50 pixels. -/
def refImages : List (List Char × Nat × Nat) :=
  [("f.png".toList, 50, 50), ("f".toList, 50, 50)]

/-- The hexadecimal digit of value `d < 16`, as a capital or a small letter. -/
def hexDigit (upper : Bool) (d : Nat) : Char :=
  (if upper then "0123456789ABCDEF".toList else "0123456789abcdef".toList).getD d '0'

/-- The default configuration in a box three characters wide: `setText` of "aaab", newline,
"ccc" gives the lines "aaa", "b" (behind a word-wrap break) and "ccc"; the keys Up and Home then
put the caret at the start of the second line (index 3). -/
def wrappedCaret : Option TextBox :=
  (setText (refEnv 3 10 0) 2 "aaab\nccc".toList
      (emptyTextBox Policy.Automatic Policy.Never)).bind
    (pressKeys (refEnv 3 10 0) 2 [plain Key.Up, plain Key.Home])

/-- The text "foo bar baz" on one line of a box twenty characters wide, with the given
scrollbar policies; `setText` leaves the caret at the end (index 11). -/
def fooBarBaz (vertical horizontal : Policy) : Option TextBox :=
  setText (refEnv 20 10 0) 2 "foo bar baz".toList (emptyTextBox vertical horizontal)

/-- The text "  a" (two spaces, then a letter) with the caret between the two spaces
(index 1). -/
def leadingSpace : Option TextBox :=
  (setText (refEnv 20 10 0) 2 "  a".toList (emptyTextBox Policy.Automatic Policy.Never)).bind
    (setCaretPosition (refEnv 20 10 0) 1)

/-- The text "abcdef" with the characters from index 1 to index 3 selected by
`setSelectedText`. -/
def selectedBox : Option TextBox :=
  (setText (refEnv 20 10 0) 2 "abcdef".toList (emptyTextBox Policy.Automatic Policy.Never)).bind
    (setSelectedText (refEnv 20 10 0) 1 3)

/-- The text box `setText` of "aaabbb", newline, "ccc" leaves in the default configuration
three characters wide: the lines "aaa", "bbb", "ccc" with the caret at the end (index 10). -/
def wrappedTextBox : TextBox :=
  (setText (refEnv 3 10 0) 2 "aaabbb\nccc".toList
    (emptyTextBox Policy.Automatic Policy.Never)).getD (emptyTextBox Policy.Automatic Policy.Never)

/-- The text box `wrappedTextBox` after control+Home: the caret at index 0. -/
def homeTextBox : TextBox :=
  (keyPressed (refEnv 3 10 0) 2 (ctrl Key.Home) wrappedTextBox).getD wrappedTextBox

/-- The text box `fooBarBaz` in the default configuration: "foo bar baz" with the caret at the
end (index 11). -/
def wordsTextBox : TextBox :=
  (fooBarBaz Policy.Automatic Policy.Never).getD (emptyTextBox Policy.Automatic Policy.Never)

/-- The text box of `selectedBox`: "abcdef" with the characters from index 1 to index 3
selected. -/
def selectedTextBox : TextBox :=
  selectedBox.getD (emptyTextBox Policy.Automatic Policy.Never)

/-! ## Specification vocabulary -/

/-- `Breaks lines text`: the lines are a line breaking of the text.  No line contains a newline;
consecutive lines are separated either by a newline of the text (a hard break) or by nothing (a
break put in by word wrap), and a word-wrap break comes after at least one character of its line
and in front of a character that is not a newline. -/
inductive Breaks : List (List Char) → List Char → Prop
  | last (l : List Char) : '\n' ∉ l → Breaks [l] l
  | hard (l : List Char) (ls : List (List Char)) (t : List Char) :
      '\n' ∉ l → Breaks ls t → Breaks (l :: ls) (l ++ '\n' :: t)
  | soft (l : List Char) (ls : List (List Char)) (c : Char) (t : List Char) :
      '\n' ∉ l → l ≠ [] → c ≠ '\n' → Breaks ls (c :: t) → Breaks (l :: ls) (l ++ c :: t)

/-- The word wrap of the environment only puts in line breaks, each behind a non-empty line and
in front of a character that is not a newline. -/
def GoodWrap (env : Env) : Prop :=
  ∀ (maxWidth : Int) (text : List Char), Breaks (splitLines (env.wordWrap maxWidth text)) text

/-- The scrollbar states that can be reached from `sb` by setting a maximum, a viewport size or
a value. -/
inductive Reach (env : Env) (sb : Scrollbar) : Scrollbar → Prop
  | refl : Reach env sb sb
  | setMaximum (n : Nat) (a : Scrollbar) : Reach env sb a → Reach env sb (env.setMaximum n a)
  | setViewportSize (n : Nat) (a : Scrollbar) :
      Reach env sb a → Reach env sb (env.setViewportSize n a)
  | setValue (n : Nat) (a : Scrollbar) : Reach env sb a → Reach env sb (env.setValue n a)

/-- A scrollbar that stays shown, or stays hidden, whatever maximum, viewport size and value it
is given (as one whose policy is `Always` or `Never`). -/
def Steady (env : Env) (sb : Scrollbar) : Prop :=
  ∀ a, Reach env sb a → env.isShown a = env.isShown sb

/-- A reflow of the text box takes a single pass of `rearrangeText`: word wrap is off, or the
vertical scrollbar is steady. -/
def OnePass (env : Env) (s : TextBox) : Prop :=
  s.horizontalScrollbarPolicy ≠ Policy.Never ∨ Steady env s.verticalScrollbar

/-- In word-wrap mode the word wrap of the environment is a good one. -/
def WrapOK (env : Env) (s : TextBox) : Prop :=
  s.horizontalScrollbarPolicy = Policy.Never → GoodWrap env

/-- The members that only editing functions change agree in `s` and `t`: limit, read-only flag,
policies, line height, font and clipboard. -/
def SameSettings (s t : TextBox) : Prop :=
  t.maxChars = s.maxChars ∧ t.readOnly = s.readOnly
    ∧ t.verticalScrollbarPolicy = s.verticalScrollbarPolicy
    ∧ t.horizontalScrollbarPolicy = s.horizontalScrollbarPolicy
    ∧ t.lineHeight = s.lineHeight ∧ t.hasFont = s.hasFont
    ∧ t.monospacedFontOptimizationEnabled = s.monospacedFontOptimizationEnabled
    ∧ t.clipboard = s.clipboard ∧ t.textChanges = s.textChanges

/-- The text box `t` holds the same document as `s`: text, lines and selection agree, and so do
the settings. -/
def SameDoc (s t : TextBox) : Prop :=
  t.text = s.text ∧ t.lines = s.lines ∧ t.selStart = s.selStart ∧ t.selEnd = s.selEnd
    ∧ SameSettings s t

/-- The text box is settled: a reflow gives the lines it has, and (with word wrap) does not
change whether the vertical scrollbar is shown, so that `rearrangeText` needs a single pass. -/
def Settled (env : Env) (s : TextBox) : Prop :=
  (∀ string, wrappedString env s = some string → splitLines string = s.lines)
    ∧ (s.horizontalScrollbarPolicy = Policy.Never →
        env.isShown (tellScrollbars env (updateScrollbars env s)).verticalScrollbar
          = env.isShown (updateScrollbars env s).verticalScrollbar)

/-- The endpoint `p` comes before `q` in the order by line, then column. -/
@[reducible]
def lexLt (p q : Vector2) : Prop :=
  p.y < q.y ∨ (p.y = q.y ∧ p.x < q.x)

/-- The smaller of two endpoints in the order by line, then column. -/
def lexMin (p q : Vector2) : Vector2 :=
  if lexLt q p then q else p

/-- The larger of two endpoints in the order by line, then column. -/
def lexMax (p q : Vector2) : Vector2 :=
  if lexLt p q then q else p

/-- The character of the lines at column `x` of line `y`. -/
def charAt (lines : List (List Char)) (y x : Nat) : Option Char :=
  (lines[y]?).bind (fun l => l[x]?)

/-- Some character in front of the position `p`, on its line or on a line above, is not
whitespace. -/
def WordBefore (env : Env) (lines : List (List Char)) (p : Vector2) : Prop :=
  ∃ y x c, lexLt (Vector2.mk x y) p ∧ charAt lines y x = some c ∧ env.isWhitespace c = false

/-- The position `p` is a word start: column 0 of its line, or a column whose character is not
whitespace while the character in front of it is. -/
def AtWordStart (env : Env) (lines : List (List Char)) (p : Vector2) : Prop :=
  p.x = 0 ∨ ∃ a b, charAt lines p.y (p.x - 1) = some a ∧ charAt lines p.y p.x = some b
    ∧ env.isWhitespace a = true ∧ env.isWhitespace b = false

/-- Trimming and lower-casing leave a leading `#` in place, and no color name starts with
`#`. -/
def KeepsHash (lib : StringLib) : Prop :=
  (∀ v, v.head? = some '#' → (lib.trim v).head? = some '#')
    ∧ (∀ v, v.head? = some '#' → (lib.toLower v).head? = some '#')
    ∧ (∀ name, name.head? = some '#' → lib.colorMap name = none)

/-! ## Spellings of values -/

/-- The escape sequence of a character in a quoted string: a backslash in front of a backslash
and of a double quote, and `\n`, `\t`, `\v` for newline, tab and vertical tab. -/
def escapeChar (c : Char) : List Char :=
  if c = '\\' then ['\\', '\\']
  else if c = '"' then ['\\', '"']
  else if c = '\n' then ['\\', 'n']
  else if c = '\t' then ['\\', 't']
  else if c = Char.ofNat 11 then ['\\', 'v']
  else [c]

/-- The string with every character escaped. -/
def escape (s : List Char) : List Char :=
  s.flatMap escapeChar

/-- A value in double quotes. -/
def quoted (s : List Char) : List Char :=
  '"' :: s ++ ['"']

/-- The decimal spelling of a number. -/
def decimal (n : Nat) : List Char :=
  (Nat.repr n).toList

/-- A string of `k` spaces. -/
def spaces (k : Nat) : List Char :=
  List.replicate k ' '

/-- The token `t` with `l` spaces in front of it and `r` spaces behind it. -/
def padded (l r : Nat) (t : List Char) : List Char :=
  spaces l ++ t ++ spaces r

/-- The tokens with a comma between each two of them. -/
def commaJoin : List (List Char) → List Char
  | [] => []
  | [t] => t
  | t :: ts => t ++ ',' :: commaJoin ts

/-- The string functions of the library are the usual ones: `toLower` turns the capital letters
A to Z into small letters, `trim` removes the white space at the two ends. -/
def Standard (lib : StringLib) : Prop :=
  (∀ s, lib.toLower s = s.map Char.toLower) ∧ (∀ s, lib.trim s = refTrim s)

/-- `String::toInt` reads the decimal spelling of every number up to 255. -/
def ReadsBytes (lib : StringLib) : Prop :=
  ∀ n, n ≤ 255 → lib.toInt (decimal n) = (n : Int)

/-- The names of the color table are words (none contains a comma or `#`) and name colors that
are set. -/
def WordNames (lib : StringLib) : Prop :=
  ∀ name c, lib.colorMap name = some c → ',' ∉ name ∧ '#' ∉ name ∧ c.isSet = true

/-- The two hexadecimal digits of a number below 256, each as a capital or a small letter. -/
def hexByte (u v : Bool) (n : Nat) : List Char :=
  [hexDigit u (n / 16), hexDigit v (n % 16)]

/-- The text of a rectangle: four tokens. -/
structure RectText where
  x : List Char
  y : List Char
  w : List Char
  h : List Char

/-- The spelling `(x,y,w,h)` of a rectangle. -/
def RectText.text (r : RectText) : List Char :=
  '(' :: commaJoin [r.x, r.y, r.w, r.h] ++ [')']

/-- No token of the rectangle holds a comma or a closing bracket. -/
def RectText.Plain (r : RectText) : Prop :=
  ∀ t ∈ [r.x, r.y, r.w, r.h], ',' ∉ t ∧ ')' ∉ t

/-- The rectangle that the text spells: every token is trimmed and read by `toUInt`. -/
def RectText.rect (lib : StringLib) (r : RectText) : UIntRect :=
  { left := lib.toUInt (lib.trim r.x), top := lib.toUInt (lib.trim r.y),
    width := lib.toUInt (lib.trim r.w), height := lib.toUInt (lib.trim r.h) }

/-- A string of spaces, tabs and carriage returns. -/
def Blank (s : List Char) : Prop :=
  ∀ c ∈ s, c = ' ' ∨ c = '\t' ∨ c = '\r'

/-- The keyword of a clause, with a capital or a small first letter. -/
def keyword (isPart capital : Bool) : List Char :=
  if isPart then (if capital then "Part".toList else "part".toList)
  else (if capital then "Middle".toList else "middle".toList)

/-- A clause `Part(x,y,w,h)` or `Middle(x,y,w,h)` with the white space in front of it. -/
structure Clause where
  blanks : List Char
  isPart : Bool
  capital : Bool
  rect : RectText

/-- The spelling of a clause. -/
def Clause.text (c : Clause) : List Char :=
  c.blanks ++ keyword c.isPart c.capital ++ c.rect.text

/-- The white space in front of the clause is spaces, tabs and carriage returns, and the tokens
of its rectangle hold no comma and no closing bracket. -/
def Clause.Plain (c : Clause) : Prop :=
  Blank c.blanks ∧ c.rect.Plain

/-- The spelling of a sequence of clauses. -/
def clausesText (cs : List Clause) : List Char :=
  (cs.map Clause.text).flatten

/-- The rectangle of the last `Part` clause (`isPart`) or the last `Middle` clause of the
sequence; the zero rectangle when there is none. -/
def lastRect (lib : StringLib) (isPart : Bool) (cs : List Clause) : UIntRect :=
  cs.foldl (fun r c => if c.isPart = isPart then c.rect.rect lib else r) UIntRect.zero

/-- A filename that holds no quote and does not end in a backslash (a character whose low byte
is that of the backslash). -/
def PlainName (f : List Char) : Prop :=
  '"' ∉ f ∧ f.getLast?.map (fun c => Char.ofNat (c.toNat % 256)) ≠ some '\\'

instance (s : List Char) : Decidable (Blank s) := by
  unfold Blank
  infer_instance

instance (r : RectText) : Decidable r.Plain := by
  unfold RectText.Plain
  infer_instance

instance (c : Clause) : Decidable c.Plain := by
  unfold Clause.Plain
  infer_instance

instance (f : List Char) : Decidable (PlainName f) := by
  unfold PlainName
  infer_instance

/-! ## Text styles and the table of deserializers (Deserializer.cpp) -/

/-- The constants of the enumeration `TextStyle` that `deserializeTextStyle` uses; the
enumeration is not among the sources. -/
structure TextStyles where
  Regular : Nat
  Bold : Nat
  Italic : Nat
  Underlined : Nat
  StrikeThrough : Nat

/-- The body of the loop of `deserializeTextStyle`: the style decoded so far with the flag of
the element `elem` added. -/
def addTextStyle (lib : StringLib) (st : TextStyles) (decodedStyle : Nat) (elem : List Char) :
    Nat :=
  let requestedStyle := lib.toLower elem
  if requestedStyle = "bold".toList then decodedStyle ||| st.Bold
  else if requestedStyle = "italic".toList then decodedStyle ||| st.Italic
  else if requestedStyle = "underlined".toList then decodedStyle ||| st.Underlined
  else if requestedStyle = "strikethrough".toList then decodedStyle ||| st.StrikeThrough
  else decodedStyle

/-- `deserializeTextStyle`. -/
def deserializeTextStyle (lib : StringLib) (st : TextStyles) (style : List Char) : Nat :=
  (split lib style '|').foldl (addTextStyle lib st) st.Regular

/-- The values of `ObjectConverter::Type` that the table of deserializers names. -/
inductive ObjectType where
  | Bool
  | Font
  | Color
  | String
  | Number
  | Outline
  | Texture
  | TextStyle
  | RendererData
deriving DecidableEq, Repr

/-- The nine functions that the table of deserializers starts with, as functions from the
serialized string to a value of the type `β` (for `ObjectConverter`, which is not among the
sources). -/
structure Deserializers (β : Type) where
  deserializeBool : List Char → β
  deserializeFont : List Char → β
  deserializeColor : List Char → β
  deserializeString : List Char → β
  deserializeNumber : List Char → β
  deserializeOutline : List Char → β
  deserializeTexture : List Char → β
  deserializeTextStyle : List Char → β
  deserializeRendererData : List Char → β

/-- The type of `Deserializer::m_deserializers`, a `std::map` from kinds to functions: the
function stored for a kind, `none` for a kind without an entry. -/
def DeserializerTable (β : Type) : Type :=
  ObjectType → Option (List Char → β)

/-- The initial value of `Deserializer::m_deserializers`. -/
def m_deserializers {β : Type} (fns : Deserializers β) : DeserializerTable β
  | ObjectType.Bool => some fns.deserializeBool
  | ObjectType.Font => some fns.deserializeFont
  | ObjectType.Color => some fns.deserializeColor
  | ObjectType.String => some fns.deserializeString
  | ObjectType.Number => some fns.deserializeNumber
  | ObjectType.Outline => some fns.deserializeOutline
  | ObjectType.Texture => some fns.deserializeTexture
  | ObjectType.TextStyle => some fns.deserializeTextStyle
  | ObjectType.RendererData => some fns.deserializeRendererData

/-- `Deserializer::deserialize`; `none` when the kind has no entry (the assertion fails). -/
def deserialize {β : Type} (table : DeserializerTable β) (type : ObjectType)
    (serializedString : List Char) : Option β :=
  match table type with
  | none => none
  | some deserializer => some (deserializer serializedString)

/-- `Deserializer::setFunction`: the table with the entry of the kind replaced. -/
def setFunction {β : Type} (table : DeserializerTable β) (type : ObjectType)
    (deserializer : List Char → β) : DeserializerTable β :=
  fun key => if key = type then some deserializer else table key

/-- `Deserializer::getFunction`: the function stored for the kind. -/
def getFunction {β : Type} (table : DeserializerTable β) (type : ObjectType) :
    Option (List Char → β) :=
  table type

/-! ## Saving and loading the scrollbar policies (TextBox.cpp) -/

/-- The part of `TextBox::save` that writes a scrollbar policy: the value of the property,
`none` when the property is not written. -/
def savePolicy (policy : Policy) : Option (List Char) :=
  if policy ≠ Policy.Automatic then
    if policy = Policy.Always then some "Always".toList
    else if policy = Policy.Never then some "Never".toList
    else none
  else none

/-- `TextBox::save`, as far as the scrollbar policies go: the values of the properties
`VerticalScrollbarPolicy` and `HorizontalScrollbarPolicy`. -/
def save (s : TextBox) : Option (List Char) × Option (List Char) :=
  (savePolicy s.verticalScrollbarPolicy, savePolicy s.horizontalScrollbarPolicy)

/-- The part of `TextBox::load` that reads a scrollbar policy from the value of its property;
`none` when it throws ("found unknown value"). -/
def loadPolicy (lib : StringLib) (value : List Char) : Option Policy :=
  let policy := lib.toLower (lib.trim value)
  if policy = "automatic".toList then some Policy.Automatic
  else if policy = "always".toList then some Policy.Always
  else if policy = "never".toList then some Policy.Never
  else none

/-- The block of `TextBox::load` for the property `verticalscrollbarpolicy`; `property` is its
value, `none` when the node does not have the property. -/
def loadVerticalScrollbarPolicy (env : Env) (fuel : Nat) (lib : StringLib)
    (property : Option (List Char)) (s : TextBox) : Option TextBox :=
  match property with
  | none => some s
  | some value =>
    match loadPolicy lib value with
    | none => none
    | some policy => setVerticalScrollbarPolicy env fuel policy s

/-- The block of `TextBox::load` for the property `horizontalscrollbarpolicy`. -/
def loadHorizontalScrollbarPolicy (env : Env) (fuel : Nat) (lib : StringLib)
    (property : Option (List Char)) (s : TextBox) : Option TextBox :=
  match property with
  | none => some s
  | some value =>
    match loadPolicy lib value with
    | none => none
    | some policy => setHorizontalScrollbarPolicy env fuel policy s

/-- `TextBox::load`, as far as the scrollbar policies go.  `vertical` and `horizontal` are the
values of the properties `verticalscrollbarpolicy` and `horizontalscrollbarpolicy` of the node,
`none` when the node does not have the property; the result is `none` when the function throws
or a reflow runs out of fuel. -/
def load (env : Env) (fuel : Nat) (lib : StringLib) (vertical horizontal : Option (List Char))
    (s : TextBox) : Option TextBox :=
  match loadVerticalScrollbarPolicy env fuel lib vertical s with
  | none => none
  | some s1 => loadHorizontalScrollbarPolicy env fuel lib horizontal s1

/-! ## More reference values and vocabulary -/

/-- Reference values of the text styles: `Regular` is 0 and the four flags are the bits 1, 2, 4
and 8. -/
def refStyles : TextStyles :=
  { Regular := 0, Bold := 1, Italic := 2, Underlined := 4, StrikeThrough := 8 }

/-- The flag of a token of a text style: that of the name it spells in some letter case, and
nothing for every other token. -/
def styleFlag (lib : StringLib) (st : TextStyles) (token : List Char) : Nat :=
  if lib.toLower token = "bold".toList then st.Bold
  else if lib.toLower token = "italic".toList then st.Italic
  else if lib.toLower token = "underlined".toList then st.Underlined
  else if lib.toLower token = "strikethrough".toList then st.StrikeThrough
  else 0

/-- The string behind an opening quote holds no closing quote that is not escaped: every quote
in it stands behind a backslash. -/
def Unclosed (s : List Char) : Prop :=
  ∀ i < s.length, s[i]? = some '"' → 0 < i ∧ s[i - 1]? = some '\\'

instance (s : List Char) : Decidable (Unclosed s) := by
  unfold Unclosed
  infer_instance

/-- The string has no white space at its ends. -/
def NoOuterSpace (s : List Char) : Prop :=
  s.head?.map isSpaceChar ≠ some true ∧ s.getLast?.map isSpaceChar ≠ some true

instance (s : List Char) : Decidable (NoOuterSpace s) := by
  unfold NoOuterSpace
  infer_instance

/-- The height of the viewport in pixels: the inner height without the padding and without the
horizontal scrollbar when that is shown.  It is negative when the padding and the scrollbar take
more than the inner height. -/
def viewportHeight (env : Env) (s : TextBox) : Int :=
  (env.innerSizeY : Int) - env.paddingTop - env.paddingBottom
    - (if env.isShown s.horizontalScrollbar then env.horizontalScrollbarHeight else 0)

/-- A text box with a line height of 3 and ten empty lines, whose vertical scrollbar is always
shown and stands at the top. -/
def tenLines : TextBox :=
  { emptyTextBox Policy.Always Policy.Automatic with
    text := List.replicate 9 '\n', lines := List.replicate 10 [], lineHeight := 3 }

/-- A text box with a line height of 1 and the single line "ab", whose vertical scrollbar is
never shown. -/
def oneLine : TextBox :=
  { emptyTextBox Policy.Never Policy.Automatic with text := "ab".toList, lines := ["ab".toList] }

/-- The text "ab", newline, "cd" without word wrap, with the characters from index 1 to index 4
selected by `setSelectedText`. -/
def twoLinesBox : TextBox :=
  ((setText (refEnv 20 10 0) 2 "ab\ncd".toList
      (emptyTextBox Policy.Automatic Policy.Automatic)).bind
    (setSelectedText (refEnv 20 10 0) 1 4)).getD (emptyTextBox Policy.Automatic Policy.Automatic)

/-! ## Assumptions on the scrollbars and the word wrap -/

/-- The scrollbars of the environment work as the `Scrollbar` widget does: a scrollbar is shown
when it is visible and, with auto-hide, has more content than its viewport; `setMaximum` stores
the maximum (1 for a maximum of 0), `setViewportSize` the viewport size and `setVisible` the
visibility, and the first two leave the other members that decide whether it is shown alone. -/
def StandardScrollbar (env : Env) : Prop :=
  (∀ sb, env.isShown sb = refIsShown sb)
    ∧ (∀ n sb, (env.setMaximum n sb).visible = sb.visible
        ∧ (env.setMaximum n sb).autoHide = sb.autoHide
        ∧ (env.setMaximum n sb).viewportSize = sb.viewportSize
        ∧ (env.setMaximum n sb).maximum = max n 1)
    ∧ (∀ n sb, (env.setViewportSize n sb).visible = sb.visible
        ∧ (env.setViewportSize n sb).autoHide = sb.autoHide
        ∧ (env.setViewportSize n sb).maximum = sb.maximum
        ∧ (env.setViewportSize n sb).viewportSize = n)
    ∧ (∀ b sb, (env.setVisible b sb).visible = b)

/-- The word wrap of the environment does not need more lines when it is given more room. -/
def MonotoneWrap (env : Env) : Prop :=
  ∀ (text : List Char) (narrow wide : Int), 0 < narrow → narrow ≤ wide →
    (splitLines (env.wordWrap wide text)).length ≤ (splitLines (env.wordWrap narrow text)).length

/-- A regular environment: standard scrollbars, a monotone word wrap, a vertical scrollbar
whose width is not negative and an extra vertical space that is not negative. -/
def Regular (env : Env) : Prop :=
  StandardScrollbar env ∧ MonotoneWrap env ∧ 0 ≤ env.verticalScrollbarWidth
    ∧ 0 ≤ env.extraVerticalSpace

/-- A reflow of the text box takes at most two passes of `rearrangeText`: word wrap is off, or
the environment is regular and the horizontal scrollbar is not visible (the constructor and
`setHorizontalScrollbarPolicy` with the policy `Never`, which switches word wrap on, call
`setVisible(false)`). -/
def TwoPass (env : Env) (s : TextBox) : Prop :=
  s.horizontalScrollbarPolicy = Policy.Never →
    Regular env ∧ s.horizontalScrollbar.visible = false

/-- The text box `setText` of "aaabb" leaves in the default configuration in a box three
characters wide and two lines high whose scrollbars are one character wide: the vertical
scrollbar is shown, so two characters fit on a line, and the lines are "aa", "ab" and "b" with
the caret at the end (index 5). -/
def narrowTextBox : TextBox :=
  (setText (refEnv 3 2 1) 2 "aaabb".toList
    (emptyTextBox Policy.Automatic Policy.Never)).getD (emptyTextBox Policy.Automatic Policy.Never)

/-! ## Lemmas: the index loop -/

theorem skipLine_eq (text : List Char) (k : Nat) (l : List Char) :
    skipLine text k l
      = if text[k + l.length]? = some '\n' then k + l.length + 1 else k + l.length := by
  unfold skipLine
  by_cases h : text[k + l.length]? = some '\n'
  · have hlt : k + l.length < text.length := by
      by_contra hc
      rw [List.getElem?_eq_none (by omega)] at h
      cases h
    simp [h, hlt]
  · simp [h]

theorem le_skipLine (text : List Char) (k : Nat) (l : List Char) :
    k + l.length ≤ skipLine text k l := by
  rw [skipLine_eq]; split <;> omega

theorem skipLine_le (text : List Char) (k : Nat) (l : List Char) :
    skipLine text k l ≤ k + l.length + 1 := by
  rw [skipLine_eq]; split <;> omega

theorem findIndexFrom_le (text : List Char) :
    ∀ (ls : List (List Char)) (y k r : Nat), findIndexFrom text ls y k = some r → k ≤ r := by
  intro ls
  induction ls with
  | nil =>
    intro y k r h
    cases y with
    | zero => simp [findIndexFrom] at h; omega
    | succ n => simp [findIndexFrom] at h
  | cons l ls ih =>
    intro y k r h
    cases y with
    | zero => simp [findIndexFrom] at h; omega
    | succ n =>
      simp only [findIndexFrom] at h
      have := ih n _ r h
      have := le_skipLine text k l
      omega

/-- The loop of `findIndex` one round further. -/
theorem findIndexFrom_succ (text : List Char) :
    ∀ (ls : List (List Char)) (y k : Nat),
      findIndexFrom text ls (y + 1) k
        = (findIndexFrom text ls y k).bind (fun r => (ls[y]?).map (skipLine text r)) := by
  intro ls
  induction ls with
  | nil =>
    intro y k
    cases y <;> simp [findIndexFrom]
  | cons l ls ih =>
    intro y k
    cases y with
    | zero => simp [findIndexFrom]
    | succ n =>
      simp only [findIndexFrom]
      rw [ih n]
      simp

/-- The index loop gives the same result on a text that agrees with the original one in front
of the result and has no new newline at the result. -/
theorem findIndexFrom_congr (text text2 : List Char) :
    ∀ (ls : List (List Char)) (y k r : Nat), findIndexFrom text ls y k = some r →
      (∀ c, c < r → text2[c]? = text[c]?) →
      (text2[r]? = some '\n' → text[r]? = some '\n') →
      findIndexFrom text2 ls y k = some r := by
  intro ls
  induction ls with
  | nil =>
    intro y k r h _ _
    cases y with
    | zero => simpa [findIndexFrom] using h
    | succ n => simp [findIndexFrom] at h
  | cons l ls ih =>
    intro y k r h hlt hr
    cases y with
    | zero => simpa [findIndexFrom] using h
    | succ n =>
      simp only [findIndexFrom] at h ⊢
      have hle := findIndexFrom_le text ls n _ r h
      have h1 := le_skipLine text k l
      have hskip : skipLine text2 k l = skipLine text k l := by
        rw [skipLine_eq, skipLine_eq]
        by_cases hc : k + l.length < r
        · rw [hlt _ hc]
        · have hcr : k + l.length = r := by omega
          have hno : skipLine text k l = k + l.length := by omega
          rw [skipLine_eq] at hno
          have hn1 : ¬ text[k + l.length]? = some '\n' := by
            intro hx; rw [if_pos hx] at hno; omega
          have hn2 : ¬ text2[k + l.length]? = some '\n' := by
            intro hx; rw [hcr] at hx; rw [hcr] at hn1; exact hn1 (hr hx)
          rw [if_neg hn1, if_neg hn2]
      rw [hskip]
      exact ih n _ r h hlt hr

/-! ## Lemmas: line breakings -/

theorem Breaks.ne_nil {ls : List (List Char)} {t : List Char} (h : Breaks ls t) : ls ≠ [] := by
  cases h <;> simp

/-- What a line breaking says about its first line. -/
theorem Breaks.cons_inv {l : List Char} {ls : List (List Char)} {u : List Char}
    (h : Breaks (l :: ls) u) :
    '\n' ∉ l ∧
      ((ls = [] ∧ u = l)
        ∨ (∃ t, u = l ++ '\n' :: t ∧ Breaks ls t)
        ∨ (∃ c t, u = l ++ c :: t ∧ c ≠ '\n' ∧ l ≠ [] ∧ Breaks ls (c :: t))) := by
  cases h with
  | last _ hl => exact ⟨hl, Or.inl ⟨rfl, rfl⟩⟩
  | hard _ _ t hl hb => exact ⟨hl, Or.inr (Or.inl ⟨t, rfl, hb⟩)⟩
  | soft _ _ c t hl hne hc hb => exact ⟨hl, Or.inr (Or.inr ⟨c, t, rfl, hc, hne, hb⟩)⟩

theorem drop_eq_append_getElem? {text u v : List Char} {k : Nat} (h : text.drop k = u ++ v)
    (j : Nat) : text[k + u.length + j]? = v[j]? := by
  have h1 : (text.drop k)[u.length + j]? = v[j]? := by
    rw [h, List.getElem?_append_right (by omega)]
    simp
  rw [List.getElem?_drop] at h1
  rw [← h1]; congr 1; omega

theorem drop_eq_append_drop {text u v : List Char} {k : Nat} (h : text.drop k = u ++ v) :
    text.drop (k + u.length) = v := by
  have : (text.drop k).drop u.length = v := by rw [h]; simp
  rw [List.drop_drop] at this
  rw [← this]

theorem drop_eq_append_length {text u v : List Char} {k : Nat} (h : text.drop k = u ++ v)
    (hk : k ≤ text.length) : k + u.length + v.length = text.length := by
  have := congrArg List.length h
  simp at this
  omega

/-- Along a line breaking the index loop stays inside the text, and what is left of the lines
breaks what is left of the text. -/
theorem Breaks.index_spec (text : List Char) :
    ∀ (y : Nat) (ls : List (List Char)) (k : Nat), Breaks ls (text.drop k) → k ≤ text.length →
      y < ls.length →
      ∃ r, findIndexFrom text ls y k = some r ∧ r ≤ text.length
        ∧ Breaks (ls.drop y) (text.drop r) := by
  intro y
  induction y with
  | zero =>
    intro ls k hb hk _
    exact ⟨k, by cases ls <;> simp [TGUI.findIndexFrom], hk, by simpa using hb⟩
  | succ n ih =>
    intro ls k hb hk hy
    match ls, hb, hy with
    | l :: rest, hb, hy =>
      simp only [List.length_cons, Nat.add_lt_add_iff_right] at hy
      have hinv := hb.cons_inv
      rcases hinv.2 with ⟨hnil, _⟩ | ⟨t, hu, hbt⟩ | ⟨c, t, hu, hc, _, hbt⟩
      · subst hnil; simp at hy
      · have hget : text[k + l.length]? = some '\n' := by
          have := drop_eq_append_getElem? hu 0
          simpa using this
        have hdrop : text.drop (k + l.length + 1) = t := by
          have := drop_eq_append_drop (u := l ++ ['\n']) (v := t) (by simpa using hu)
          simpa [Nat.add_assoc] using this
        have hlen := drop_eq_append_length hu hk
        simp only [List.length_cons] at hlen
        have hk2 : k + l.length + 1 ≤ text.length := by omega
        obtain ⟨r, hr, hrl, hbr⟩ :=
          ih rest (k + l.length + 1) (by rw [hdrop]; exact hbt) hk2 hy
        refine ⟨r, ?_, hrl, by simpa using hbr⟩
        simp only [TGUI.findIndexFrom, skipLine_eq, hget, if_true]
        exact hr
      · have hget : text[k + l.length]? = some c := by
          have := drop_eq_append_getElem? hu 0
          simpa using this
        have hdrop : text.drop (k + l.length) = c :: t := drop_eq_append_drop hu
        have hlen := drop_eq_append_length hu hk
        have hk2 : k + l.length ≤ text.length := by omega
        obtain ⟨r, hr, hrl, hbr⟩ :=
          ih rest (k + l.length) (by rw [hdrop]; exact hbt) hk2 hy
        refine ⟨r, ?_, hrl, by simpa using hbr⟩
        have hne : ¬ text[k + l.length]? = some '\n' := by
          rw [hget]; intro hx; exact hc (Option.some.inj hx)
        simp only [TGUI.findIndexFrom, skipLine_eq, if_neg hne]
        exact hr

/-! ## Lemmas: splitting into lines -/

theorem splitLines_ne_nil (t : List Char) : splitLines t ≠ [] := by
  cases t with
  | nil => simp [splitLines]
  | cons c cs =>
    simp only [splitLines]
    split
    · simp
    · split <;> simp

theorem splitLines_cons_newline (cs : List Char) :
    splitLines ('\n' :: cs) = [] :: splitLines cs := by
  simp [splitLines]

theorem splitLines_cons_of_ne {c : Char} (hc : c ≠ '\n') (cs : List Char) :
    ∃ l ls, splitLines cs = l :: ls ∧ splitLines (c :: cs) = (c :: l) :: ls := by
  cases h : splitLines cs with
  | nil => exact absurd h (splitLines_ne_nil cs)
  | cons l ls =>
    refine ⟨l, ls, rfl, ?_⟩
    simp [splitLines, hc, h]

theorem Breaks.cons_char {c : Char} (hc : c ≠ '\n') {l : List Char} {ls : List (List Char)}
    {t : List Char} (h : Breaks (l :: ls) t) : Breaks ((c :: l) :: ls) (c :: t) := by
  cases h with
  | last _ hl => exact Breaks.last (c :: l) (by simp [hl, Ne.symm hc])
  | hard _ _ t hl hb =>
    exact Breaks.hard (c :: l) ls t (by simp [hl, Ne.symm hc]) hb
  | soft _ _ d t hl _ hd hb =>
    exact Breaks.soft (c :: l) ls d t (by simp [hl, Ne.symm hc]) (by simp) hd hb

/-- The lines `rearrangeText` makes without word wrap break the text, at hard breaks only. -/
theorem breaks_splitLines (t : List Char) : Breaks (splitLines t) t := by
  induction t with
  | nil => exact Breaks.last [] (by simp)
  | cons c cs ih =>
    by_cases hc : c = '\n'
    · subst hc
      rw [splitLines_cons_newline]
      exact Breaks.hard [] (splitLines cs) cs (by simp) ih
    · obtain ⟨l, ls, h1, h2⟩ := splitLines_cons_of_ne hc cs
      rw [h2]
      rw [h1] at ih
      exact ih.cons_char hc

theorem intercalate_splitLines (t : List Char) : [('\n' : Char)].intercalate (splitLines t) = t := by
  induction t with
  | nil => simp [splitLines, List.intercalate]
  | cons c cs ih =>
    by_cases hc : c = '\n'
    · subst hc
      rw [splitLines_cons_newline]
      cases h : splitLines cs with
      | nil => exact absurd h (splitLines_ne_nil cs)
      | cons l ls =>
        rw [h] at ih
        simp only [List.intercalate, List.intersperse, List.flatten] at ih ⊢
        simp [ih]
    · obtain ⟨l, ls, h1, h2⟩ := splitLines_cons_of_ne hc cs
      rw [h2]
      rw [h1] at ih
      cases ls with
      | nil =>
        simp only [List.intercalate, List.intersperse, List.flatten] at ih ⊢
        simpa using ih
      | cons l2 ls2 =>
        simp only [List.intercalate, List.intersperse, List.flatten] at ih ⊢
        rw [List.cons_append, ih]

theorem length_splitLines (t : List Char) : (splitLines t).length = t.count '\n' + 1 := by
  induction t with
  | nil => simp [splitLines]
  | cons c cs ih =>
    by_cases hc : c = '\n'
    · subst hc
      rw [splitLines_cons_newline]
      simp [ih]
    · obtain ⟨l, ls, h1, h2⟩ := splitLines_cons_of_ne hc cs
      rw [h2]
      rw [h1] at ih
      rw [List.count_cons_of_ne (Ne.symm hc)]
      simpa using ih

theorem not_mem_of_mem_splitLines (t : List Char) : ∀ l ∈ splitLines t, '\n' ∉ l := by
  induction t with
  | nil => simp [splitLines]
  | cons c cs ih =>
    by_cases hc : c = '\n'
    · subst hc
      rw [splitLines_cons_newline]
      intro l hl
      rcases List.mem_cons.1 hl with h | h
      · subst h; simp
      · exact ih l h
    · obtain ⟨l, ls, h1, h2⟩ := splitLines_cons_of_ne hc cs
      rw [h2]
      rw [h1] at ih
      intro l2 hl2
      rcases List.mem_cons.1 hl2 with h | h
      · subst h
        have := ih l (by simp)
        simp [this, Ne.symm hc]
      · exact ih l2 (by simp [h])

theorem splitLines_eq_splitOn (t : List Char) : splitLines t = t.splitOn '\n' := by
  have h := List.splitOn_intercalate (splitLines t) '\n' (not_mem_of_mem_splitLines t) (splitLines_ne_nil t)
  rw [intercalate_splitLines] at h
  exact h.symm

/-! ## Lemmas: from an index to a selection endpoint -/

/-- What the caret loop finds is a column of a line, and the index loop maps it back. -/
theorem findCaretLine_sound (text : List Char) (n : Nat) :
    ∀ (ls : List (List Char)) (i k : Nat) (p : Vector2), k ≤ n →
      findCaretLine text n ls i k = some p →
      ∃ j l r, p.y = i + j ∧ ls[j]? = some l ∧ p.x ≤ l.length
        ∧ findIndexFrom text ls j k = some r ∧ r + p.x = n := by
  intro ls
  induction ls with
  | nil => intro i k p _ h; simp [findCaretLine] at h
  | cons l ls ih =>
    intro i k p hk h
    simp only [findCaretLine] at h
    split at h
    · rename_i hlt
      have h2 := skipLine_le text k l
      obtain ⟨j, l2, r, hy, hl, hx, hr, hn⟩ := ih (i + 1) _ p (by omega) h
      refine ⟨j + 1, l2, r, by omega, by simpa using hl, hx, ?_, hn⟩
      simpa [findIndexFrom] using hr
    · rename_i hge
      simp only [Option.some.injEq] at h
      subst h
      refine ⟨0, l, k, rfl, by simp, ?_, by simp [findIndexFrom], ?_⟩
      · simp only; omega
      · simp only; omega

/-- On a line breaking the caret loop finds a line for every index of the text. -/
theorem Breaks.findCaretLine_isSome (text : List Char) (n : Nat) (hn : n ≤ text.length) :
    ∀ (ls : List (List Char)) (i k : Nat), Breaks ls (text.drop k) → k ≤ text.length →
      (findCaretLine text n ls i k).isSome := by
  intro ls
  induction ls with
  | nil => intro i k hb; exact absurd rfl hb.ne_nil
  | cons l ls ih =>
    intro i k hb hk
    simp only [findCaretLine]
    split
    · rename_i hlt
      rcases hb.cons_inv.2 with ⟨_, hu⟩ | ⟨t, hu, hbt⟩ | ⟨c, t, hu, hc, _, hbt⟩
      · have := drop_eq_append_length (v := []) (by simpa using hu) hk
        simp at this
        omega
      · have hget : text[k + l.length]? = some '\n' := by
          simpa using drop_eq_append_getElem? hu 0
        have hdrop : text.drop (k + l.length + 1) = t := by
          have := drop_eq_append_drop (u := l ++ ['\n']) (v := t) (by simpa using hu)
          simpa [Nat.add_assoc] using this
        have hlen := drop_eq_append_length hu hk
        simp only [List.length_cons] at hlen
        rw [skipLine_eq, if_pos hget]
        exact ih (i + 1) _ (by rw [hdrop]; exact hbt) (by omega)
      · have hget : text[k + l.length]? = some c := by
          simpa using drop_eq_append_getElem? hu 0
        have hne : ¬ text[k + l.length]? = some '\n' := by
          rw [hget]; intro hx; exact hc (Option.some.inj hx)
        have hlen := drop_eq_append_length hu hk
        rw [skipLine_eq, if_neg hne]
        exact ih (i + 1) _ (by rw [drop_eq_append_drop hu]; exact hbt) (by omega)
    · simp

theorem strAt_of_le {text : List Char} {i : Nat} (h : i ≤ text.length) :
    ∃ c, strAt text i = some c ∧ (c = '\n' ↔ text[i]? = some '\n') := by
  unfold strAt
  by_cases hlt : i < text.length
  · rw [if_pos hlt]
    refine ⟨text[i], by simp [List.getElem?_eq_getElem hlt], ?_⟩
    simp [List.getElem?_eq_getElem hlt]
  · have : i = text.length := by omega
    rw [if_neg hlt, if_pos this]
    refine ⟨Char.ofNat 0, rfl, ?_⟩
    rw [List.getElem?_eq_none (by omega)]
    simp

theorem strAt_skip {text : List Char} {i : Nat} {c : Char} (h : strAt text i = some c) (l : List Char)
    (k : Nat) (hi : i = k + l.length) :
    (if c = '\n' then i + 1 else i) = skipLine text k l := by
  subst hi
  have hle : k + l.length ≤ text.length := by
    unfold strAt at h
    by_contra hc
    rw [if_neg (by omega), if_neg (by omega)] at h
    cases h
  obtain ⟨c2, h2, h3⟩ := strAt_of_le hle
  rw [h] at h2
  cases h2
  rw [skipLine_eq]
  by_cases hc : c = '\n'
  · rw [if_pos hc, if_pos (h3.1 hc)]
  · rw [if_neg hc, if_neg (fun hx => hc (h3.2 hx))]

/-- The loop that looks for the new selection finds, for each endpoint not found before, what
the caret loop finds for its index. -/
theorem findNewSelection_eq (text : List Char) (a b : Nat) :
    ∀ (ls : List (List Char)) (i k : Nat) (ns ne x y : Option Vector2),
      findNewSelection text a b ls i k ns ne = some (x, y) →
      (ns.isSome → x = ns) ∧ (ns = none → x = findCaretLine text a ls i k)
        ∧ (ne.isSome → y = ne) ∧ (ne = none → y = findCaretLine text b ls i k) := by
  intro ls
  induction ls with
  | nil =>
    intro i k ns ne x y h
    simp only [findNewSelection, Option.some.injEq, Prod.mk.injEq] at h
    obtain ⟨h1, h2⟩ := h
    subst h1; subst h2
    refine ⟨fun _ => rfl, ?_, fun _ => rfl, ?_⟩ <;> intro h <;> simp [h, findCaretLine]
  | cons l ls ih =>
    intro i k ns ne x y h
    have hx : ∀ m : Nat, m ≤ k + l.length → l.length - (k + l.length - m) = m - k := by
      intro m hm; omega
    cases ns with
    | some p =>
      cases ne with
      | some q =>
        simp only [findNewSelection, Option.isNone_some, Bool.false_and, Option.isSome_some,
          Bool.and_true, Bool.false_eq_true, if_false] at h
        cases hs : strAt text (k + l.length) with
        | none => rw [hs] at h; simp at h
        | some c =>
          rw [hs] at h
          simp only at h
          rw [strAt_skip hs l k rfl] at h
          have := ih _ _ _ _ _ _ h
          simpa using this
      | none =>
        simp only [findNewSelection, Option.isNone_some, Bool.false_and, Option.isSome_none,
          Bool.and_false, Bool.false_eq_true, if_false, Option.isNone_none, Bool.true_and,
          Option.isSome_some, Bool.and_true, decide_eq_true_eq] at h
        by_cases hb : k + l.length ≥ b
        · simp only [hb, if_true, Option.some.injEq, Prod.mk.injEq] at h
          obtain ⟨h1, h2⟩ := h
          subst h1; subst h2
          refine ⟨fun _ => rfl, by simp, by simp, ?_⟩
          intro _
          simp only [findCaretLine]
          rw [if_neg (by omega), hx b hb]
        · simp only [hb, if_false] at h
          cases hs : strAt text (k + l.length) with
          | none => rw [hs] at h; simp at h
          | some c =>
            rw [hs] at h
            simp only at h
            rw [strAt_skip hs l k rfl] at h
            have := ih _ _ _ _ _ _ h
            refine ⟨by simpa using this.1, by simp, by simp, ?_⟩
            intro _
            simp only [findCaretLine]
            rw [if_pos (by omega)]
            exact this.2.2.2 rfl
    | none =>
      cases ne with
      | some q =>
        simp only [findNewSelection, Option.isNone_none, Bool.true_and, Option.isSome_some,
          Bool.and_true, decide_eq_true_eq, Option.isNone_some, Bool.false_and,
          Bool.false_eq_true, if_false] at h
        by_cases ha : k + l.length ≥ a
        · simp only [ha, if_true, Option.some.injEq, Prod.mk.injEq] at h
          obtain ⟨h1, h2⟩ := h
          subst h1; subst h2
          refine ⟨by simp, ?_, fun _ => rfl, by simp⟩
          intro _
          simp only [findCaretLine]
          rw [if_neg (by omega), hx a ha]
        · simp only [ha, if_false] at h
          cases hs : strAt text (k + l.length) with
          | none => rw [hs] at h; simp at h
          | some c =>
            rw [hs] at h
            simp only at h
            rw [strAt_skip hs l k rfl] at h
            have := ih _ _ _ _ _ _ h
            refine ⟨by simp, ?_, by simpa using this.2.2.1, by simp⟩
            intro _
            simp only [findCaretLine]
            rw [if_pos (by omega)]
            exact this.2.1 rfl
      | none =>
        simp only [findNewSelection, Option.isNone_none, Bool.true_and, Option.isSome_none,
          Bool.and_false, Bool.false_eq_true, if_false, decide_eq_true_eq] at h
        by_cases ha : k + l.length ≥ a <;> by_cases hb : k + l.length ≥ b
        · simp only [ha, hb, if_true, Option.isSome_some, Bool.and_true, decide_True,
            Option.some.injEq, Prod.mk.injEq] at h
          obtain ⟨h1, h2⟩ := h
          subst h1; subst h2
          refine ⟨by simp, ?_, by simp, ?_⟩
          · intro _
            simp only [findCaretLine]
            rw [if_neg (by omega), hx a ha]
          · intro _
            simp only [findCaretLine]
            rw [if_neg (by omega), hx b hb]
        · simp only [ha, hb, if_true, if_false, Option.isSome_some, Bool.and_true, decide_False,
            Bool.false_eq_true] at h
          cases hs : strAt text (k + l.length) with
          | none => rw [hs] at h; simp at h
          | some c =>
            rw [hs] at h
            simp only at h
            rw [strAt_skip hs l k rfl] at h
            have := ih _ _ _ _ _ _ h
            refine ⟨by simp, ?_, by simp, ?_⟩
            · intro _
              simp only [findCaretLine]
              rw [if_neg (by omega), this.1 (by simp), hx a ha]
            · intro _
              simp only [findCaretLine]
              rw [if_pos (by omega)]
              exact this.2.2.2 rfl
        · simp only [ha, hb, if_true, if_false, Option.isSome_none, Bool.and_false, decide_True,
            Bool.false_eq_true] at h
          cases hs : strAt text (k + l.length) with
          | none => rw [hs] at h; simp at h
          | some c =>
            rw [hs] at h
            simp only at h
            rw [strAt_skip hs l k rfl] at h
            have := ih _ _ _ _ _ _ h
            refine ⟨by simp, ?_, by simp, ?_⟩
            · intro _
              simp only [findCaretLine]
              rw [if_pos (by omega)]
              exact this.2.1 rfl
            · intro _
              simp only [findCaretLine]
              rw [if_neg (by omega), this.2.2.1 (by simp), hx b hb]
        · simp only [ha, hb, if_false, Option.isSome_none, Bool.and_false, decide_False,
            Bool.false_eq_true] at h
          cases hs : strAt text (k + l.length) with
          | none => rw [hs] at h; simp at h
          | some c =>
            rw [hs] at h
            simp only at h
            rw [strAt_skip hs l k rfl] at h
            have := ih _ _ _ _ _ _ h
            refine ⟨by simp, ?_, by simp, ?_⟩
            · intro _
              simp only [findCaretLine]
              rw [if_pos (by omega)]
              exact this.2.1 rfl
            · intro _
              simp only [findCaretLine]
              rw [if_pos (by omega)]
              exact this.2.2.2 rfl

/-! ## Lemmas: what the scrollbar and selection updates leave alone -/

theorem sameSettings_refl (s : TextBox) : SameSettings s s :=
  ⟨rfl, rfl, rfl, rfl, rfl, rfl, rfl, rfl, rfl⟩

theorem sameSettings_trans {s t u : TextBox} (h1 : SameSettings s t) (h2 : SameSettings t u) :
    SameSettings s u := by
  obtain ⟨a1, a2, a3, a4, a5, a6, a7, a8, a9⟩ := h1
  obtain ⟨b1, b2, b3, b4, b5, b6, b7, b8, b9⟩ := h2
  exact ⟨b1.trans a1, b2.trans a2, b3.trans a3, b4.trans a4, b5.trans a5, b6.trans a6,
    b7.trans a7, b8.trans a8, b9.trans a9⟩

theorem sameDoc_refl (s : TextBox) : SameDoc s s :=
  ⟨rfl, rfl, rfl, rfl, sameSettings_refl s⟩

theorem sameDoc_trans {s t u : TextBox} (h1 : SameDoc s t) (h2 : SameDoc t u) : SameDoc s u := by
  obtain ⟨a1, a2, a3, a4, a5⟩ := h1
  obtain ⟨b1, b2, b3, b4, b5⟩ := h2
  exact ⟨b1.trans a1, b2.trans a2, b3.trans a3, b4.trans a4, sameSettings_trans a5 b5⟩

theorem reach_trans {env : Env} {a b c : Scrollbar} (h1 : Reach env a b) (h2 : Reach env b c) :
    Reach env a c := by
  induction h2 with
  | refl => exact h1
  | setMaximum n x _ ih => exact Reach.setMaximum n x ih
  | setViewportSize n x _ ih => exact Reach.setViewportSize n x ih
  | setValue n x _ ih => exact Reach.setValue n x ih

theorem steady_of_reach {env : Env} {a b : Scrollbar} (h : Steady env a) (hr : Reach env a b) :
    Steady env b := by
  intro c hc
  rw [h c (reach_trans hr hc), h b hr]

theorem sameDoc_updateScrollbars (env : Env) (s : TextBox) : SameDoc s (updateScrollbars env s) :=
  ⟨rfl, rfl, rfl, rfl, rfl, rfl, rfl, rfl, rfl, rfl, rfl, rfl, rfl⟩

theorem reach_updateScrollbars (env : Env) (s : TextBox) :
    Reach env s.verticalScrollbar (updateScrollbars env s).verticalScrollbar := by
  unfold updateScrollbars
  simp only
  split <;> exact Reach.setViewportSize _ _ Reach.refl

theorem sameDoc_tellScrollbars (env : Env) (s : TextBox) : SameDoc s (tellScrollbars env s) :=
  ⟨rfl, rfl, rfl, rfl, rfl, rfl, rfl, rfl, rfl, rfl, rfl, rfl, rfl⟩

theorem reach_tellScrollbars (env : Env) (s : TextBox) :
    Reach env s.verticalScrollbar (tellScrollbars env s).verticalScrollbar :=
  Reach.setMaximum _ _ Reach.refl

theorem sameDoc_recalculateVisibleLines (env : Env) (s : TextBox) :
    SameDoc s (recalculateVisibleLines env s)
      ∧ (recalculateVisibleLines env s).verticalScrollbar = s.verticalScrollbar := by
  unfold recalculateVisibleLines
  simp only
  repeat' split
  all_goals exact ⟨⟨rfl, rfl, rfl, rfl, rfl, rfl, rfl, rfl, rfl, rfl, rfl, rfl, rfl⟩, rfl⟩

theorem sameDoc_recalculatePositions (env : Env) (s : TextBox) :
    SameDoc s (recalculatePositions env s)
      ∧ (recalculatePositions env s).verticalScrollbar = s.verticalScrollbar := by
  unfold recalculatePositions
  split
  · exact sameDoc_recalculateVisibleLines env s
  · exact ⟨sameDoc_refl s, rfl⟩

theorem sameDoc_scrollToCaret (env : Env) (s : TextBox) :
    SameDoc s (scrollToCaret env s)
      ∧ Reach env s.verticalScrollbar (scrollToCaret env s).verticalScrollbar := by
  refine ⟨⟨rfl, rfl, rfl, rfl, rfl, rfl, rfl, rfl, rfl, rfl, rfl, rfl, rfl⟩, ?_⟩
  show Reach env s.verticalScrollbar (scrollVertically env s)
  unfold scrollVertically
  split
  · split
    · exact Reach.setValue _ _ Reach.refl
    · split
      · exact Reach.setValue _ _ Reach.refl
      · exact Reach.refl
  · exact Reach.refl

theorem sameDoc_emitSelectionChange (s : TextBox) :
    SameDoc s (emitSelectionChange s)
      ∧ (emitSelectionChange s).verticalScrollbar = s.verticalScrollbar := by
  unfold emitSelectionChange
  repeat' split
  all_goals exact ⟨⟨rfl, rfl, rfl, rfl, rfl, rfl, rfl, rfl, rfl, rfl, rfl, rfl, rfl⟩, rfl⟩

/-- `updateSelectionTexts` succeeds exactly when both selection endpoints lie in the lines. -/
theorem updateSelectionTexts_isSome (env : Env) (s : TextBox) :
    (updateSelectionTexts env s).isSome
      ↔ (validPos s.lines s.selStart = true ∧ validPos s.lines s.selEnd = true) := by
  unfold updateSelectionTexts
  split
  · rename_i h
    simp [h]
  · rename_i h
    simp [h]

/-- `updateSelectionTexts` changes neither the document nor the settings, and gives the vertical
scrollbar at most a new value. -/
theorem updateSelectionTexts_sameDoc (env : Env) (s t : TextBox)
    (h : updateSelectionTexts env s = some t) :
    SameDoc s t ∧ Reach env s.verticalScrollbar t.verticalScrollbar := by
  unfold updateSelectionTexts at h
  split at h
  · simp only [Option.some.injEq] at h
    subst h
    have h1 := sameDoc_scrollToCaret env s
    have h2 := sameDoc_recalculatePositions env (scrollToCaret env s)
    have h3 := sameDoc_emitSelectionChange (recalculatePositions env (scrollToCaret env s))
    refine ⟨sameDoc_trans (sameDoc_trans h1.1 h2.1) h3.1, ?_⟩
    rw [h3.2, h2.2]
    exact h1.2
  · cases h

/-! ## Lemmas: selection endpoints in the lines -/

theorem validPos_iff (lines : List (List Char)) (p : Vector2) :
    validPos lines p = true ↔ ∃ l, lines[p.y]? = some l ∧ p.x ≤ l.length := by
  unfold validPos
  cases h : lines[p.y]? with
  | none => simp
  | some l => simp

theorem validPos_endOfLines {lines : List (List Char)} (h : lines ≠ []) :
    validPos lines (endOfLines lines) = true := by
  rw [validPos_iff]
  have hlt : lines.length - 1 < lines.length := by
    have := List.length_pos.2 h
    omega
  refine ⟨lines[lines.length - 1], ?_, ?_⟩
  · simp [endOfLines, List.getElem?_eq_getElem hlt]
  · simp [endOfLines, List.getD, List.getElem?_eq_getElem hlt]

theorem getIndexOfSelectionPos_congr {s t : TextBox} (h1 : t.text = s.text)
    (h2 : t.lines = s.lines) (p : Vector2) :
    getIndexOfSelectionPos t p = getIndexOfSelectionPos s p := by
  unfold getIndexOfSelectionPos
  rw [h1, h2]

theorem Breaks.findNewSelection_isSome (text : List Char) (a b : Nat) :
    ∀ (ls : List (List Char)) (i k : Nat) (ns ne : Option Vector2),
      Breaks ls (text.drop k) → k ≤ text.length →
      (findNewSelection text a b ls i k ns ne).isSome := by
  intro ls
  induction ls with
  | nil => intro i k ns ne hb; exact absurd rfl hb.ne_nil
  | cons l ls ih =>
    intro i k ns ne hb hk
    rcases hb.cons_inv.2 with ⟨hnil, hu⟩ | ⟨t, hu, hbt⟩ | ⟨c, t, hu, hc, _, hbt⟩
    · have hlen := drop_eq_append_length (v := []) (by simpa using hu) hk
      simp only [List.length_nil, Nat.add_zero] at hlen
      obtain ⟨c, hc, _⟩ := @strAt_of_le text (k + l.length) (by omega)
      subst hnil
      simp only [findNewSelection, hc]
      repeat' split
      all_goals rfl
    · have hlen := drop_eq_append_length hu hk
      simp only [List.length_cons] at hlen
      obtain ⟨c, hc, hiff⟩ := @strAt_of_le text (k + l.length) (by omega)
      have hget : text[k + l.length]? = some '\n' := by
        simpa using drop_eq_append_getElem? hu 0
      have hdrop : text.drop (k + l.length + 1) = t := by
        have := drop_eq_append_drop (u := l ++ ['\n']) (v := t) (by simpa using hu)
        simpa [Nat.add_assoc] using this
      have hih := fun ns2 ne2 =>
        ih (i + 1) (k + l.length + 1) ns2 ne2 (by rw [hdrop]; exact hbt) (by omega)
      simp only [findNewSelection, hc, hiff.2 hget, if_true]
      repeat' split
      all_goals first | rfl | exact hih _ _
    · have hlen := drop_eq_append_length hu hk
      obtain ⟨c2, hc2, hiff⟩ := @strAt_of_le text (k + l.length) (by omega)
      have hget : text[k + l.length]? = some c := by
        simpa using drop_eq_append_getElem? hu 0
      have hne : ¬ c2 = '\n' := by
        intro hx
        have := hiff.1 hx
        rw [hget] at this
        exact hc (Option.some.inj this)
      have hih := fun ns2 ne2 =>
        ih (i + 1) (k + l.length) ns2 ne2 (by rw [drop_eq_append_drop hu]; exact hbt) (by omega)
      simp only [findNewSelection, hc2, hne, if_false]
      repeat' split
      all_goals first | rfl | exact hih _ _

/-- On a line breaking of the text the selection is placed: both endpoints lie in the lines,
and when the indices lie in the text the index loop maps the endpoints back to them. -/
theorem Breaks.place_spec {lines : List (List Char)} {text : List Char}
    (hb : Breaks lines text) (a b : Nat) :
    ∃ p q, placeSelection text a b lines = some (p, q)
      ∧ validPos lines p = true ∧ validPos lines q = true
      ∧ (a = b → p = q)
      ∧ (a ≤ text.length → b ≤ text.length →
          (findIndexFrom text lines p.y 0).map (· + p.x) = some a
            ∧ (findIndexFrom text lines q.y 0).map (· + q.x) = some b) := by
  have hsome := Breaks.findNewSelection_isSome text a b lines 0 0 none none
    (by simpa using hb) (Nat.zero_le _)
  obtain ⟨⟨x, y⟩, hxy⟩ := Option.isSome_iff_exists.1 hsome
  obtain ⟨_, hx, _, hy⟩ := findNewSelection_eq text a b lines 0 0 none none x y hxy
  have hx := hx rfl
  have hy := hy rfl
  have hvalid : ∀ (n : Nat) (p : Vector2), findCaretLine text n lines 0 0 = some p →
      validPos lines p = true ∧ (findIndexFrom text lines p.y 0).map (· + p.x) = some n := by
    intro n p hp
    obtain ⟨j, l, r, hj, hl, hxl, hr, hn⟩ := findCaretLine_sound text n lines 0 0 p (Nat.zero_le _) hp
    have hj2 : p.y = j := by omega
    refine ⟨(validPos_iff _ _).2 ⟨l, by rw [hj2]; exact hl, hxl⟩, ?_⟩
    rw [hj2, hr]
    simp [hn]
  unfold placeSelection
  rw [hxy]
  cases hxs : x with
  | none =>
    refine ⟨endOfLines lines, endOfLines lines, by cases y <;> rfl,
      validPos_endOfLines hb.ne_nil, validPos_endOfLines hb.ne_nil, fun _ => rfl, ?_⟩
    intro ha _
    have := Breaks.findCaretLine_isSome text a ha lines 0 0 (by simpa using hb) (Nat.zero_le _)
    rw [← hx, hxs] at this
    cases this
  | some p =>
    cases hys : y with
    | none =>
      refine ⟨endOfLines lines, endOfLines lines, rfl,
        validPos_endOfLines hb.ne_nil, validPos_endOfLines hb.ne_nil, fun _ => rfl, ?_⟩
      intro _ hbl
      have := Breaks.findCaretLine_isSome text b hbl lines 0 0 (by simpa using hb) (Nat.zero_le _)
      rw [← hy, hys] at this
      cases this
    | some q =>
      rw [hxs] at hx
      rw [hys] at hy
      refine ⟨p, q, rfl, (hvalid a p hx.symm).1, (hvalid b q hy.symm).1, ?_, ?_⟩
      · intro hab
        subst hab
        rw [← hx] at hy
        exact Option.some.inj hy.symm
      · intro _ _
        exact ⟨(hvalid a p hx.symm).2, (hvalid b q hy.symm).2⟩

/-! ## Lemmas: one pass of the reflow -/

theorem wrappedString_breaks {env : Env} {s : TextBox} (hw : WrapOK env s) {string : List Char}
    (h : wrappedString env s = some string) : Breaks (splitLines string) s.text := by
  unfold wrappedString at h
  split at h
  · simp only [Option.some.injEq] at h
    subst h
    exact breaks_splitLines s.text
  · rename_i hpol
    split at h
    · cases h
    · simp only [Option.some.injEq] at h
      subst h
      exact hw (by simpa using hpol) _ _

theorem wrappedString_noWrap {env : Env} {s : TextBox}
    (hpol : s.horizontalScrollbarPolicy ≠ Policy.Never) : wrappedString env s = some s.text := by
  unfold wrappedString
  rw [if_pos hpol]

/-- The text box after the new lines and selection are stored and the scrollbars are told. -/
theorem told_facts (env : Env) (s : TextBox) (lines : List (List Char)) (p q : Vector2) :
    (tellScrollbars env (storeLines env s lines p q)).text = s.text
      ∧ (tellScrollbars env (storeLines env s lines p q)).lines = lines
      ∧ (tellScrollbars env (storeLines env s lines p q)).selStart = p
      ∧ (tellScrollbars env (storeLines env s lines p q)).selEnd = q
      ∧ SameSettings s (tellScrollbars env (storeLines env s lines p q))
      ∧ Reach env s.verticalScrollbar
          (tellScrollbars env (storeLines env s lines p q)).verticalScrollbar
      ∧ Reach env s.verticalScrollbar (storeLines env s lines p q).verticalScrollbar := by
  have h1 : Reach env s.verticalScrollbar (storeLines env s lines p q).verticalScrollbar := by
    unfold storeLines
    exact reach_updateScrollbars env _
  exact ⟨rfl, rfl, rfl, rfl, ⟨rfl, rfl, rfl, rfl, rfl, rfl, rfl, rfl, rfl⟩,
    reach_trans h1 (reach_tellScrollbars env _), h1⟩

/-- The ways a pass of `rearrangeText` ends: it returns at once, it calls itself on the text
box with the new lines, or it finishes with `updateSelectionTexts` on that text box. -/
theorem rearrangeText_succ_cases (env : Env) (fuel : Nat) (keep : Bool) (s t : TextBox)
    (h : rearrangeText env (fuel + 1) keep s = some t) :
    (t = s ∧ (s.lineHeight = 0 ∨ s.hasFont = false ∨ wrappedString env s = none))
      ∨ ∃ string p q, wrappedString env s = some string
      ∧ (s.lineHeight ≠ 0 ∧ s.hasFont = true)
      ∧ newSelection keep s (splitLines string) = some (p, q)
      ∧ ((s.horizontalScrollbarPolicy = Policy.Never
            ∧ rearrangeText env fuel true
                (tellScrollbars env (storeLines env s (splitLines string) p q)) = some t)
          ∨ ∃ u, SameDoc (tellScrollbars env (storeLines env s (splitLines string) p q)) u
              ∧ Reach env s.verticalScrollbar u.verticalScrollbar
              ∧ updateSelectionTexts env u = some t) := by
  rw [rearrangeText] at h
  by_cases hg : s.lineHeight = 0 ∨ s.hasFont = false
  · rw [if_pos hg] at h
    exact Or.inl ⟨(Option.some.inj h).symm, by tauto⟩
  · rw [if_neg hg] at h
    have hg2 : s.lineHeight ≠ 0 ∧ s.hasFont = true := by
      refine ⟨fun hx => hg (Or.inl hx), ?_⟩
      cases hf : s.hasFont with
      | true => rfl
      | false => exact absurd (Or.inr hf) hg
    cases hws : wrappedString env s with
    | none =>
      rw [hws] at h
      exact Or.inl ⟨(Option.some.inj h).symm, Or.inr (Or.inr rfl)⟩
    | some string =>
      rw [hws] at h
      simp only at h
      cases hns : newSelection keep s (splitLines string) with
      | none => rw [hns] at h; cases h
      | some pq =>
        obtain ⟨p, q⟩ := pq
        rw [hns] at h
        simp only at h
        have hf := told_facts env s (splitLines string) p q
        refine Or.inr ⟨string, p, q, rfl, hg2, hns, ?_⟩
        by_cases hpol : s.horizontalScrollbarPolicy = Policy.Never
        · rw [if_pos hpol] at h
          split at h
          · exact Or.inl ⟨hpol, h⟩
          · exact Or.inr ⟨_, sameDoc_updateScrollbars env _,
              reach_trans hf.2.2.2.2.2.1 (reach_updateScrollbars env _), h⟩
        · rw [if_neg hpol] at h
          split at h
          · exact Or.inr ⟨_, sameDoc_updateScrollbars env _,
              reach_trans hf.2.2.2.2.2.1 (reach_updateScrollbars env _), h⟩
          · exact Or.inr ⟨_, sameDoc_refl _, hf.2.2.2.2.2.1, h⟩

/-- `rearrangeText` changes neither the text nor the settings. -/
theorem rearrangeText_frame (env : Env) :
    ∀ (fuel : Nat) (keep : Bool) (s t : TextBox), rearrangeText env fuel keep s = some t →
      t.text = s.text ∧ SameSettings s t
        ∧ Reach env s.verticalScrollbar t.verticalScrollbar := by
  intro fuel
  induction fuel with
  | zero => intro keep s t h; simp [rearrangeText] at h
  | succ n ih =>
    intro keep s t h
    rcases rearrangeText_succ_cases env n keep s t h with ⟨rfl, _⟩ | ⟨string, p, q, _, _, _, hrest⟩
    · exact ⟨rfl, sameSettings_refl _, Reach.refl⟩
    · have hf := told_facts env s (splitLines string) p q
      rcases hrest with ⟨_, hrec⟩ | ⟨u, hu, hreach, hupd⟩
      · obtain ⟨h1, h2, h3⟩ := ih true _ t hrec
        exact ⟨h1.trans hf.1, sameSettings_trans hf.2.2.2.2.1 h2, reach_trans hf.2.2.2.2.2.1 h3⟩
      · obtain ⟨hd, hr⟩ := updateSelectionTexts_sameDoc env u t hupd
        have hd2 := sameDoc_trans hu hd
        exact ⟨hd2.1.trans hf.1, sameSettings_trans hf.2.2.2.2.1 hd2.2.2.2.2, reach_trans hreach hr⟩

/-- After `rearrangeText` the text box is the one it started from (when there is no line
height, no font or no room for the text), or its lines break its text and hold both selection
endpoints. -/
theorem rearrangeText_breaks (env : Env) :
    ∀ (fuel : Nat) (keep : Bool) (s t : TextBox), WrapOK env s →
      rearrangeText env fuel keep s = some t →
      (t = s ∧ (s.lineHeight = 0 ∨ s.hasFont = false ∨ wrappedString env s = none))
        ∨ (Breaks t.lines t.text ∧ validPos t.lines t.selStart = true
          ∧ validPos t.lines t.selEnd = true) := by
  intro fuel
  induction fuel with
  | zero => intro keep s t _ h; simp [rearrangeText] at h
  | succ n ih =>
    intro keep s t hw h
    rcases rearrangeText_succ_cases env n keep s t h with
      ⟨rfl, hno⟩ | ⟨string, p, q, hws, _, hns, hrest⟩
    · exact Or.inl ⟨rfl, hno⟩
    · right
      have hf := told_facts env s (splitLines string) p q
      have hbr := wrappedString_breaks hw hws
      rcases hrest with ⟨_, hrec⟩ | ⟨u, hu, _, hupd⟩
      · have hw3 : WrapOK env (tellScrollbars env (storeLines env s (splitLines string) p q)) := by
          intro hp
          exact hw (by rw [← hf.2.2.2.2.1.2.2.2.1]; exact hp)
        rcases ih true _ t hw3 hrec with ⟨rfl, _⟩ | hgood
        · have hvalid : validPos (splitLines string) p = true
              ∧ validPos (splitLines string) q = true := by
            unfold newSelection at hns
            split at hns
            · split at hns
              · rename_i a b _ _
                obtain ⟨p2, q2, hpl, hv1, hv2, _⟩ := hbr.place_spec a b
                rw [hpl] at hns
                cases hns
                exact ⟨hv1, hv2⟩
              · cases hns
            · cases hns
              exact ⟨validPos_endOfLines (splitLines_ne_nil _),
                validPos_endOfLines (splitLines_ne_nil _)⟩
          rw [hf.1, hf.2.1, hf.2.2.1, hf.2.2.2.1]
          exact ⟨hbr, hvalid.1, hvalid.2⟩
        · exact hgood
      · obtain ⟨hd, _⟩ := updateSelectionTexts_sameDoc env u t hupd
        have hsome := (updateSelectionTexts_isSome env u).1 (by rw [hupd]; rfl)
        have hd2 := sameDoc_trans hu hd
        rw [hd2.1, hd2.2.1, hd2.2.2.1, hd2.2.2.2.1, hf.1, hf.2.1, hf.2.2.1, hf.2.2.2.1]
        rw [hu.2.1, hu.2.2.1, hu.2.2.2.1, hf.2.1, hf.2.2.1, hf.2.2.2.1] at hsome
        exact ⟨hbr, hsome.1, hsome.2⟩

/-! ## Lemmas: the selection through a reflow -/

theorem getSelectionStart_of_sameDoc {s t : TextBox} (h : SameDoc s t) :
    getSelectionStart t = getSelectionStart s := by
  unfold getSelectionStart
  rw [h.2.2.1]
  exact getIndexOfSelectionPos_congr h.1 h.2.1 _

theorem getSelectionEnd_of_sameDoc {s t : TextBox} (h : SameDoc s t) :
    getSelectionEnd t = getSelectionEnd s := by
  unfold getSelectionEnd
  rw [h.2.2.2.1]
  exact getIndexOfSelectionPos_congr h.1 h.2.1 _

/-- On lines that break the text a new selection is found, inside the lines. -/
theorem newSelection_spec (keep : Bool) (s : TextBox) {lines : List (List Char)}
    (hb : Breaks lines s.text)
    (hsel : keep = true → (getSelectionStart s).isSome ∧ (getSelectionEnd s).isSome) :
    ∃ p q, newSelection keep s lines = some (p, q)
      ∧ validPos lines p = true ∧ validPos lines q = true := by
  unfold newSelection
  cases keep with
  | false =>
    exact ⟨_, _, rfl, validPos_endOfLines hb.ne_nil, validPos_endOfLines hb.ne_nil⟩
  | true =>
    obtain ⟨h1, h2⟩ := hsel rfl
    obtain ⟨a, ha⟩ := Option.isSome_iff_exists.1 h1
    obtain ⟨b, hb2⟩ := Option.isSome_iff_exists.1 h2
    obtain ⟨p, q, hpl, hv1, hv2, _⟩ := hb.place_spec a b
    refine ⟨p, q, ?_, hv1, hv2⟩
    simp only [if_true, ha, hb2]
    exact hpl

/-- A reflow that keeps the selection keeps the character indices of both endpoints, and a
collapsed selection stays collapsed. -/
theorem rearrangeText_keep (env : Env) :
    ∀ (fuel : Nat) (s t : TextBox), WrapOK env s → rearrangeText env fuel true s = some t →
      ∀ a b, getSelectionStart s = some a → getSelectionEnd s = some b →
        a ≤ s.text.length → b ≤ s.text.length →
        getSelectionStart t = some a ∧ getSelectionEnd t = some b
          ∧ (s.selStart = s.selEnd → t.selStart = t.selEnd) := by
  intro fuel
  induction fuel with
  | zero => intro s t _ h; simp [rearrangeText] at h
  | succ n ih =>
    intro s t hw h a b ha hb hal hbl
    rcases rearrangeText_succ_cases env n true s t h with
      ⟨rfl, _⟩ | ⟨string, p, q, hws, _, hns, hrest⟩
    · exact ⟨ha, hb, fun hx => hx⟩
    · have hf := told_facts env s (splitLines string) p q
      have hbr := wrappedString_breaks hw hws
      obtain ⟨p2, q2, hpl, _, _, hpq, hidx⟩ := hbr.place_spec a b
      have hns2 : newSelection true s (splitLines string) = some (p2, q2) := by
        unfold newSelection
        simp only [if_true, ha, hb]
        exact hpl
      rw [hns] at hns2
      cases hns2
      obtain ⟨hia, hib⟩ := hidx hal hbl
      have hcol : s.selStart = s.selEnd → p = q := by
        intro hx
        apply hpq
        unfold getSelectionStart at ha
        unfold getSelectionEnd at hb
        rw [hx, hb] at ha
        exact (Option.some.inj ha).symm
      have h3a : getSelectionStart (tellScrollbars env (storeLines env s (splitLines string) p q))
          = some a := by
        unfold getSelectionStart getIndexOfSelectionPos
        rw [hf.1, hf.2.1, hf.2.2.1]
        exact hia
      have h3b : getSelectionEnd (tellScrollbars env (storeLines env s (splitLines string) p q))
          = some b := by
        unfold getSelectionEnd getIndexOfSelectionPos
        rw [hf.1, hf.2.1, hf.2.2.2.1]
        exact hib
      rcases hrest with ⟨_, hrec⟩ | ⟨u, hu, _, hupd⟩
      · have hw3 : WrapOK env (tellScrollbars env (storeLines env s (splitLines string) p q)) := by
          intro hp
          exact hw (by rw [← hf.2.2.2.2.1.2.2.2.1]; exact hp)
        obtain ⟨r1, r2, r3⟩ := ih _ t hw3 hrec a b h3a h3b (by rw [hf.1]; exact hal)
          (by rw [hf.1]; exact hbl)
        refine ⟨r1, r2, fun hx => r3 ?_⟩
        rw [hf.2.2.1, hf.2.2.2.1]
        exact hcol hx
      · obtain ⟨hd, _⟩ := updateSelectionTexts_sameDoc env u t hupd
        have hd2 := sameDoc_trans hu hd
        refine ⟨?_, ?_, ?_⟩
        · rw [getSelectionStart_of_sameDoc hd2]; exact h3a
        · rw [getSelectionEnd_of_sameDoc hd2]; exact h3b
        · intro hx
          rw [hd2.2.2.1, hd2.2.2.2.1, hf.2.2.1, hf.2.2.2.1]
          exact hcol hx

/-- When a reflow takes a single pass, `rearrangeText` returns when it has fuel for one pass. -/
theorem rearrangeText_total (env : Env) (fuel : Nat) (keep : Bool) (s : TextBox)
    (hone : OnePass env s) (hw : WrapOK env s)
    (hsel : keep = true → (getSelectionStart s).isSome ∧ (getSelectionEnd s).isSome) :
    ∃ t, rearrangeText env (fuel + 1) keep s = some t := by
  rw [rearrangeText]
  by_cases hg : s.lineHeight = 0 ∨ s.hasFont = false
  · rw [if_pos hg]; exact ⟨s, rfl⟩
  · rw [if_neg hg]
    cases hws : wrappedString env s with
    | none => exact ⟨s, rfl⟩
    | some string =>
      simp only
      have hbr := wrappedString_breaks hw hws
      obtain ⟨p, q, hns, hv1, hv2⟩ := newSelection_spec keep s hbr hsel
      rw [hns]
      simp only
      have hf := told_facts env s (splitLines string) p q
      have hupd : ∀ u, SameDoc (tellScrollbars env (storeLines env s (splitLines string) p q)) u →
          ∃ t, updateSelectionTexts env u = some t := by
        intro u hu
        apply Option.isSome_iff_exists.1
        rw [updateSelectionTexts_isSome, hu.2.1, hu.2.2.1, hu.2.2.2.1, hf.2.1, hf.2.2.1,
          hf.2.2.2.1]
        exact ⟨hv1, hv2⟩
      by_cases hpol : s.horizontalScrollbarPolicy = Policy.Never
      · rw [if_pos hpol]
        have hst : Steady env s.verticalScrollbar := by
          rcases hone with h1 | h1
          · exact absurd hpol h1
          · exact h1
        have heq : env.isShown (storeLines env s (splitLines string) p q).verticalScrollbar
            = env.isShown
                (tellScrollbars env (storeLines env s (splitLines string) p q)).verticalScrollbar := by
          rw [hst _ hf.2.2.2.2.2.2, hst _ hf.2.2.2.2.2.1]
        rw [if_neg (by simpa using heq)]
        exact hupd _ (sameDoc_updateScrollbars env _)
      · rw [if_neg hpol]
        split
        · exact hupd _ (sameDoc_updateScrollbars env _)
        · exact hupd _ (sameDoc_refl _)

/-- Without word wrap, with a font and a line height, `rearrangeText` leaves the newline-split
of the text as lines. -/
theorem rearrangeText_lines_noWrap (env : Env) (fuel : Nat) (keep : Bool) (s t : TextBox)
    (hpol : s.horizontalScrollbarPolicy ≠ Policy.Never) (hl : s.lineHeight ≠ 0)
    (hfont : s.hasFont = true) (h : rearrangeText env fuel keep s = some t) :
    t.lines = splitLines s.text := by
  cases fuel with
  | zero => simp [rearrangeText] at h
  | succ n =>
    rcases rearrangeText_succ_cases env n keep s t h with
      ⟨_, hno⟩ | ⟨string, p, q, hws, _, _, hrest⟩
    · rcases hno with h1 | h1 | h1
      · exact absurd h1 hl
      · rw [hfont] at h1; cases h1
      · rw [wrappedString_noWrap hpol] at h1; cases h1
    · rw [wrappedString_noWrap hpol] at hws
      cases hws
      have hf := told_facts env s (splitLines s.text) p q
      rcases hrest with ⟨hn, _⟩ | ⟨u, hu, _, hupd⟩
      · exact absurd hn hpol
      · obtain ⟨hd, _⟩ := updateSelectionTexts_sameDoc env u t hupd
        rw [hd.2.1, hu.2.1, hf.2.1]

theorem onePass_of_frame {env : Env} {s t : TextBox} (h : OnePass env s)
    (hs : SameSettings s t) (hr : Reach env s.verticalScrollbar t.verticalScrollbar) :
    OnePass env t := by
  rcases h with h | h
  · left; rw [hs.2.2.2.1]; exact h
  · right; exact steady_of_reach h hr

theorem wrapOK_of_frame {env : Env} {s t : TextBox} (h : WrapOK env s) (hs : SameSettings s t) :
    WrapOK env t := by
  intro hp
  exact h (by rw [← hs.2.2.2.1]; exact hp)

/-! ## Lemmas: placing the caret -/

/-- On lines that break the text `setCaretPosition` puts the collapsed caret at the index
`min n (length of the text)`, inside the lines, and changes nothing else of the document. -/
theorem setCaretPosition_spec (env : Env) (s : TextBox) (hb : Breaks s.lines s.text) (n : Nat) :
    ∃ t, setCaretPosition env n s = some t
      ∧ getSelectionStart t = some (min n s.text.length)
      ∧ getSelectionEnd t = some (min n s.text.length)
      ∧ t.selStart = t.selEnd ∧ validPos t.lines t.selEnd = true
      ∧ t.text = s.text ∧ t.lines = s.lines ∧ SameSettings s t
      ∧ Reach env s.verticalScrollbar t.verticalScrollbar := by
  have hmin : (if n > s.text.length then s.text.length else n) = min n s.text.length := by
    split <;> omega
  unfold setCaretPosition
  simp only [hmin]
  have hle : min n s.text.length ≤ s.text.length := Nat.min_le_right _ _
  have hsome := Breaks.findCaretLine_isSome s.text (min n s.text.length) hle s.lines 0 0
    (by simpa using hb) (Nat.zero_le _)
  obtain ⟨p, hp⟩ := Option.isSome_iff_exists.1 hsome
  obtain ⟨j, l, r, hj, hl, hxl, hr, hn⟩ :=
    findCaretLine_sound s.text (min n s.text.length) s.lines 0 0 p (Nat.zero_le _) hp
  have hj2 : p.y = j := by omega
  have hv : validPos s.lines p = true := (validPos_iff _ _).2 ⟨l, by rw [hj2]; exact hl, hxl⟩
  rw [hp]
  simp only
  have hsome2 : (updateSelectionTexts env { s with selStart := p, selEnd := p }).isSome := by
    rw [updateSelectionTexts_isSome]
    exact ⟨hv, hv⟩
  obtain ⟨t, ht⟩ := Option.isSome_iff_exists.1 hsome2
  obtain ⟨hd, hreach⟩ := updateSelectionTexts_sameDoc env _ t ht
  have hidx : (findIndexFrom s.text s.lines p.y 0).map (· + p.x) = some (min n s.text.length) := by
    rw [hj2, hr]
    simp [hn]
  refine ⟨t, ht, ?_, ?_, ?_, ?_, hd.1, hd.2.1, hd.2.2.2.2, hreach⟩
  · unfold getSelectionStart getIndexOfSelectionPos
    rw [hd.1, hd.2.1, hd.2.2.1]
    exact hidx
  · unfold getSelectionEnd getIndexOfSelectionPos
    rw [hd.1, hd.2.1, hd.2.2.2.1]
    exact hidx
  · rw [hd.2.2.1, hd.2.2.2.1]
  · rw [hd.2.1, hd.2.2.2.1]
    exact hv

/-! ## Lemmas: totality of a reflow that does not keep the selection -/

theorem rearrangeText_total_false (env : Env) (fuel : Nat) (s : TextBox) (hone : OnePass env s) :
    ∃ t, rearrangeText env (fuel + 1) false s = some t := by
  rw [rearrangeText]
  by_cases hg : s.lineHeight = 0 ∨ s.hasFont = false
  · rw [if_pos hg]; exact ⟨s, rfl⟩
  · rw [if_neg hg]
    cases hws : wrappedString env s with
    | none => exact ⟨s, rfl⟩
    | some string =>
      simp only
      have hns : newSelection false s (splitLines string)
          = some (endOfLines (splitLines string), endOfLines (splitLines string)) := rfl
      rw [hns]
      simp only
      have hv := validPos_endOfLines (splitLines_ne_nil string)
      have hf := told_facts env s (splitLines string) (endOfLines (splitLines string))
        (endOfLines (splitLines string))
      have hupd : ∀ u, SameDoc (tellScrollbars env (storeLines env s (splitLines string)
          (endOfLines (splitLines string)) (endOfLines (splitLines string)))) u →
          ∃ t, updateSelectionTexts env u = some t := by
        intro u hu
        apply Option.isSome_iff_exists.1
        rw [updateSelectionTexts_isSome, hu.2.1, hu.2.2.1, hu.2.2.2.1, hf.2.1, hf.2.2.1,
          hf.2.2.2.1]
        exact ⟨hv, hv⟩
      by_cases hpol : s.horizontalScrollbarPolicy = Policy.Never
      · rw [if_pos hpol]
        have hst : Steady env s.verticalScrollbar := by
          rcases hone with h1 | h1
          · exact absurd hpol h1
          · exact h1
        have heq : env.isShown (storeLines env s (splitLines string)
              (endOfLines (splitLines string)) (endOfLines (splitLines string))).verticalScrollbar
            = env.isShown (tellScrollbars env (storeLines env s (splitLines string)
              (endOfLines (splitLines string))
              (endOfLines (splitLines string)))).verticalScrollbar := by
          rw [hst _ hf.2.2.2.2.2.2, hst _ hf.2.2.2.2.2.1]
        rw [if_neg (by simpa using heq)]
        exact hupd _ (sameDoc_updateScrollbars env _)
      · rw [if_neg hpol]
        split
        · exact hupd _ (sameDoc_updateScrollbars env _)
        · exact hupd _ (sameDoc_refl _)

/-! ## Claims -/

/-- C1 (the code breaks the claim): pasting does not enforce the character limit.  With a
limit of 5 characters and ten characters on the clipboard, control+V leaves a text of ten
characters in a text box whose limit is still 5. -/
theorem paste_exceeds_maxChars :
    (keyPressed (refEnv 20 10 0) 1 (ctrl Key.V) pasteBox).map
        (fun s => (getText s, getMaximumCharacters s))
      = some ("HELLOWORLD".toList, 5) := by
  decide

/-- C4: without word wrap (horizontal scrollbar policy not `Never`), with a font and a line
height, the lines `rearrangeText` leaves are the segments of the text split at the newlines:
joining them with newlines gives the text, there is one line more than there are newlines, no
line contains a newline, and the text is unchanged.  `rearrangeText` returns with fuel for one
pass (when it keeps the selection: if both selection indices are defined). -/
theorem rearrangeText_lines_are_split (env : Env) (s : TextBox)
    (hpol : s.horizontalScrollbarPolicy ≠ Policy.Never) (hl : s.lineHeight ≠ 0)
    (hfont : s.hasFont = true) :
    (∀ fuel keep t, rearrangeText env fuel keep s = some t →
        t.lines = s.text.splitOn '\n'
          ∧ [('\n' : Char)].intercalate t.lines = s.text
          ∧ t.lines.length = s.text.count '\n' + 1
          ∧ (∀ l ∈ t.lines, '\n' ∉ l)
          ∧ t.text = s.text)
      ∧ (∀ fuel, ∃ t, rearrangeText env (fuel + 1) false s = some t)
      ∧ (∀ fuel, (getSelectionStart s).isSome → (getSelectionEnd s).isSome →
          ∃ t, rearrangeText env (fuel + 1) true s = some t) := by
  refine ⟨?_, ?_, ?_⟩
  · intro fuel keep t h
    have hlines := rearrangeText_lines_noWrap env fuel keep s t hpol hl hfont h
    rw [hlines]
    exact ⟨splitLines_eq_splitOn _, intercalate_splitLines _, length_splitLines _,
      not_mem_of_mem_splitLines _, (rearrangeText_frame env fuel keep s t h).1⟩
  · intro fuel
    exact rearrangeText_total_false env fuel s (Or.inl hpol)
  · intro fuel h1 h2
    exact rearrangeText_total env fuel true s (Or.inl hpol) (fun hx => absurd hx hpol)
      (fun _ => ⟨h1, h2⟩)

/-- Witness of C4: the text "ab", newline, "cd" in a text box without word wrap is split into
the lines "ab" and "cd". -/
theorem rearrangeText_lines_are_split_witness :
    ∃ t, rearrangeText (refEnv 20 10 0) 1 false
        { emptyTextBox Policy.Automatic Policy.Automatic with text := "ab\ncd".toList } = some t
      ∧ t.lines = ["ab".toList, "cd".toList] := by
  obtain ⟨h1, h2, _⟩ := rearrangeText_lines_are_split (refEnv 20 10 0)
    { emptyTextBox Policy.Automatic Policy.Automatic with text := "ab\ncd".toList }
    (by decide) (by decide) (by decide)
  obtain ⟨t, ht⟩ := h2 0
  refine ⟨t, ht, ?_⟩
  rw [(h1 1 false t ht).1]
  decide

/-! ## Lemmas: the reference word wrap -/

theorem splitLines_cons_eq {c : Char} (hc : c ≠ '\n') {w l : List Char} {ls : List (List Char)}
    (h : splitLines w = l :: ls) : splitLines (c :: w) = (c :: l) :: ls := by
  simp [splitLines, hc, h]

theorem wrapAt_breaks (k : Nat) :
    ∀ (cs : List Char) (n : Nat) (pre : List Char), '\n' ∉ pre → (0 < n → pre ≠ []) →
      ∃ l ls, splitLines (wrapAt k cs n) = l :: ls ∧ Breaks ((pre ++ l) :: ls) (pre ++ cs) := by
  intro cs
  induction cs with
  | nil =>
    intro n pre hpre _
    exact ⟨[], [], by simp [wrapAt, splitLines], by simpa using Breaks.last pre hpre⟩
  | cons c cs ih =>
    intro n pre hpre hn
    by_cases hc : c = '\n'
    · subst hc
      obtain ⟨l, ls, h1, h2⟩ := ih 0 [] (by simp) (by simp)
      refine ⟨[], l :: ls, by simp [wrapAt, splitLines_cons_newline, h1], ?_⟩
      simp only [List.append_nil]
      exact Breaks.hard pre (l :: ls) cs hpre (by simpa using h2)
    · by_cases hfit : n < max k 1
      · have hpre2 : '\n' ∉ pre ++ [c] := by
          simp [hpre, Ne.symm hc]
        obtain ⟨l, ls, h1, h2⟩ := ih (n + 1) (pre ++ [c]) hpre2 (by simp)
        refine ⟨c :: l, ls, ?_, by simpa using h2⟩
        simp only [wrapAt, hc, if_false, hfit, if_true]
        exact splitLines_cons_eq hc h1
      · have hn0 : 0 < n := by
          have : 1 ≤ max k 1 := Nat.le_max_right _ _
          omega
        obtain ⟨l, ls, h1, h2⟩ := ih 1 [c] (by simp [Ne.symm hc]) (by simp)
        refine ⟨[], (c :: l) :: ls, ?_, ?_⟩
        · simp only [wrapAt, hc, if_false, hfit]
          rw [splitLines_cons_newline, splitLines_cons_eq hc h1]
        · simp only [List.append_nil]
          exact Breaks.soft pre ((c :: l) :: ls) c cs hpre (hn hn0) hc (by simpa using h2)

/-- The word wrap of the reference environment is a good one. -/
theorem goodWrap_refEnv (width height barWidth : Nat) : GoodWrap (refEnv width height barWidth) := by
  intro maxWidth text
  obtain ⟨l, ls, h1, h2⟩ := wrapAt_breaks maxWidth.toNat text 0 [] (by simp) (by simp)
  show Breaks (splitLines (wrapAt maxWidth.toNat text 0)) text
  rw [h1]
  simpa using h2

theorem wrappedString_isSome {env : Env} {s : TextBox}
    (hroom : s.horizontalScrollbarPolicy = Policy.Never →
      0 < wrapWidth env (env.isShown s.verticalScrollbar)) :
    wrappedString env s ≠ none := by
  unfold wrappedString
  split
  · simp
  · rename_i hpol
    have := hroom (by simpa using hpol)
    rw [if_neg (by omega)]
    simp

/-! ## Claims (continued) -/

/-- C3: index round trip.  For a text box whose lines `rearrangeText` has produced from its
text (there is a line height, a font and, with word wrap, room for the text and a good word
wrap) and every index `i` with `0 ≤ i ≤ length of the text`, `setCaretPosition i` returns, and
afterwards `getSelectionStart` and `getSelectionEnd` both give exactly `i`. -/
theorem setCaretPosition_roundtrip (env : Env) (s0 s : TextBox) (fuel : Nat) (keep : Bool)
    (hw : WrapOK env s0) (hl : s0.lineHeight ≠ 0) (hfont : s0.hasFont = true)
    (hroom : s0.horizontalScrollbarPolicy = Policy.Never →
      0 < wrapWidth env (env.isShown s0.verticalScrollbar))
    (hre : rearrangeText env fuel keep s0 = some s) (i : Nat) (hi : i ≤ s.text.length) :
    ∃ t, setCaretPosition env i s = some t
      ∧ getSelectionStart t = some i ∧ getSelectionEnd t = some i := by
  have hb : Breaks s.lines s.text := by
    rcases rearrangeText_breaks env fuel keep s0 s hw hre with ⟨_, h1 | h1 | h1⟩ | h
    · exact absurd h1 hl
    · rw [hfont] at h1; cases h1
    · exact absurd h1 (wrappedString_isSome hroom)
    · exact h.1
  obtain ⟨t, ht, h1, h2, _⟩ := setCaretPosition_spec env s hb i
  rw [Nat.min_eq_left hi] at h1 h2
  exact ⟨t, ht, h1, h2⟩

/-- Witness of C3: the text "aaabbb", newline, "ccc" wrapped at three characters; the index 3 at
the word-wrap break is mapped to a selection endpoint and back. -/
theorem setCaretPosition_roundtrip_witness :
    ∃ s, rearrangeText (refEnv 3 10 0) 2 false
        { emptyTextBox Policy.Automatic Policy.Never with text := "aaabbb\nccc".toList } = some s
      ∧ s.lines = ["aaa".toList, "bbb".toList, "ccc".toList]
      ∧ ∃ t, setCaretPosition (refEnv 3 10 0) 3 s = some t
        ∧ getSelectionStart t = some 3 ∧ getSelectionEnd t = some 3 := by
  obtain ⟨s, hs⟩ := Option.isSome_iff_exists.1
    (by decide : (rearrangeText (refEnv 3 10 0) 2 false
      { emptyTextBox Policy.Automatic Policy.Never with text := "aaabbb\nccc".toList }).isSome
        = true)
  have hlines : s.lines = ["aaa".toList, "bbb".toList, "ccc".toList] := by
    have : (rearrangeText (refEnv 3 10 0) 2 false
      { emptyTextBox Policy.Automatic Policy.Never with text := "aaabbb\nccc".toList }).map
        (fun u => u.lines) = some ["aaa".toList, "bbb".toList, "ccc".toList] := by decide
    rw [hs] at this
    exact Option.some.inj this
  have htext : s.text = "aaabbb\nccc".toList := (rearrangeText_frame _ _ _ _ _ hs).1
  exact ⟨s, hs, hlines,
    setCaretPosition_roundtrip (refEnv 3 10 0) _ s 2 false (fun _ => goodWrap_refEnv 3 10 0)
      (by decide) (by decide) (fun _ => by decide) hs 3 (by rw [htext]; decide)⟩

/-- C6: typing at the limit is rejected.  With a character limit `maxChars > 0` and a text of
exactly `maxChars` characters, `textEntered` of any character returns the text box unchanged.
In the default configuration with `maxChars = 5`, typing H, E, L, L, O into the empty text box
gives the text "HELLO", and typing X after that leaves "HELLO". -/
theorem textEntered_at_limit_rejected :
    (∀ (env : Env) (fuel : Nat) (key : Char) (s : TextBox),
        0 < s.maxChars → s.text.length = s.maxChars → textEntered env fuel key s = some s)
      ∧ (typeText (refEnv 20 10 0) 2 "HELLO".toList limitedBox).map getText
          = some "HELLO".toList
      ∧ (typeText (refEnv 20 10 0) 2 "HELLOX".toList limitedBox).map getText
          = some "HELLO".toList := by
  refine ⟨?_, by decide, by decide⟩
  intro env fuel key s h1 h2
  unfold textEntered
  split
  · rfl
  · rw [if_pos ⟨h1, by omega⟩]

/-- Witness of C6: a text box holding "HELLO" with a limit of 5 rejects the character X. -/
theorem textEntered_at_limit_rejected_witness :
    textEntered (refEnv 20 10 0) 2 'X' { limitedBox with text := "HELLO".toList }
      = some { limitedBox with text := "HELLO".toList } :=
  textEntered_at_limit_rejected.1 (refEnv 20 10 0) 2 'X'
    { limitedBox with text := "HELLO".toList } (by decide) (by decide)

/-- C7: a read-only text box ignores edits.  With `readOnly = true`, `textEntered` of any
character and `keyPressed` of BackSpace, Delete, Tab, Return, X and V (with any modifiers, so
also control+X and control+V) return the text box unchanged: text, lines, selection start and
selection end are what they were. -/
theorem readOnly_ignores_edits (env : Env) (fuel : Nat) (s : TextBox) (h : s.readOnly = true) :
    (∀ key, textEntered env fuel key s = some s)
      ∧ (∀ event : KeyEvent,
          (event.code = Key.BackSpace ∨ event.code = Key.Delete ∨ event.code = Key.Tab
            ∨ event.code = Key.Return ∨ event.code = Key.X ∨ event.code = Key.V) →
          keyPressed env fuel event s = some s) := by
  have hte : ∀ key, textEntered env fuel key s = some s := by
    intro key
    unfold textEntered
    rw [if_pos h]
  refine ⟨hte, ?_⟩
  intro event hcode
  unfold keyPressed
  rcases hcode with hc | hc | hc | hc | hc | hc <;> rw [hc] <;> simp only
  · unfold keyBackSpace; rw [if_pos h]
  · unfold keyDelete; rw [if_pos h]
  · exact hte _
  · exact hte _
  · unfold keyCut; simp [h]
  · unfold keyPaste; simp [h]

/-- Witness of C7: a read-only text box holding "abc" ignores control+V with a non-empty
clipboard and ignores BackSpace. -/
theorem readOnly_ignores_edits_witness :
    keyPressed (refEnv 20 10 0) 1 (ctrl Key.V) { pasteBox with readOnly := true }
        = some { pasteBox with readOnly := true }
      ∧ keyPressed (refEnv 20 10 0) 1 (plain Key.BackSpace) { pasteBox with readOnly := true }
        = some { pasteBox with readOnly := true } :=
  ⟨(readOnly_ignores_edits (refEnv 20 10 0) 1 { pasteBox with readOnly := true } rfl).2
      (ctrl Key.V) (by decide),
    (readOnly_ignores_edits (refEnv 20 10 0) 1 { pasteBox with readOnly := true } rfl).2
      (plain Key.BackSpace) (by decide)⟩

/-! ## Lemmas: the lines of a line breaking one by one -/

/-- A line of a line breaking: the index loop gives its start, the text holds its characters
from there on, and behind it comes a newline of the text, the end of the text, or (after a
line that is not empty) a character that is not a newline. -/
theorem Breaks.line_spec {lines : List (List Char)} {text : List Char} (hb : Breaks lines text)
    (j : Nat) (hj : j < lines.length) :
    ∃ r l, findIndexFrom text lines j 0 = some r ∧ lines[j]? = some l ∧ '\n' ∉ l
      ∧ r + l.length ≤ text.length
      ∧ (∀ i, i < l.length → text[r + i]? = l[i]?)
      ∧ ((text[r + l.length]? = some '\n' ∧ j + 1 < lines.length)
          ∨ (r + l.length = text.length ∧ j + 1 = lines.length)
          ∨ (l ≠ [] ∧ j + 1 < lines.length
              ∧ ∃ c, text[r + l.length]? = some c ∧ c ≠ '\n')) := by
  obtain ⟨r, hr, hrl, hbr⟩ := Breaks.index_spec text j lines 0 (by simpa using hb)
    (Nat.zero_le _) hj
  have hdrop : lines.drop j = lines[j] :: lines.drop (j + 1) := by
    rw [List.drop_eq_getElem_cons hj]
  rw [hdrop] at hbr
  have hinv := hbr.cons_inv
  have hchars : ∀ u : List Char, text.drop r = lines[j] ++ u →
      ∀ i, i < (lines[j]).length → text[r + i]? = (lines[j])[i]? := by
    intro u hu i hi
    have h1 : (text.drop r)[i]? = (lines[j])[i]? := by
      rw [hu, List.getElem?_append_left hi]
    rw [List.getElem?_drop] at h1
    exact h1
  have hrest : (lines.drop (j + 1) = [] → j + 1 = lines.length)
      ∧ (lines.drop (j + 1) ≠ [] → j + 1 < lines.length) := by
    constructor
    · intro h
      have := congrArg List.length h
      simp at this
      omega
    · intro h
      by_contra hc
      exact h (List.drop_eq_nil_of_le (by omega))
  refine ⟨r, lines[j], hr, List.getElem?_eq_getElem hj, hinv.1, ?_, ?_, ?_⟩
  · rcases hinv.2 with ⟨_, hu⟩ | ⟨t, hu, _⟩ | ⟨c, t, hu, _⟩
    · have := drop_eq_append_length (v := []) (by simpa using hu) hrl
      simp at this; omega
    · have := drop_eq_append_length hu hrl; omega
    · have := drop_eq_append_length hu hrl; omega
  · rcases hinv.2 with ⟨_, hu⟩ | ⟨t, hu, _⟩ | ⟨c, t, hu, _⟩
    · exact hchars [] (by simpa using hu)
    · exact hchars _ hu
    · exact hchars _ hu
  · rcases hinv.2 with ⟨hnil, hu⟩ | ⟨t, hu, hbt⟩ | ⟨c, t, hu, hc, hne, hbt⟩
    · right; left
      have := drop_eq_append_length (v := []) (by simpa using hu) hrl
      simp at this
      exact ⟨by omega, hrest.1 hnil⟩
    · left
      exact ⟨by simpa using drop_eq_append_getElem? hu 0, hrest.2 hbt.ne_nil⟩
    · right; right
      exact ⟨hne, hrest.2 hbt.ne_nil, c, by simpa using drop_eq_append_getElem? hu 0, hc⟩

/-- Two consecutive lines of a line breaking: the second starts behind the newline that ends
the first (hard break), or directly behind the first, which then is not empty and is followed
by a character that is not a newline (word-wrap break). -/
theorem Breaks.step_spec {lines : List (List Char)} {text : List Char} (hb : Breaks lines text)
    (j : Nat) (hj : j + 1 < lines.length) :
    ∃ r l r2, findIndexFrom text lines j 0 = some r ∧ lines[j]? = some l
      ∧ findIndexFrom text lines (j + 1) 0 = some r2 ∧ '\n' ∉ l
      ∧ (∀ i, i < l.length → text[r + i]? = l[i]?)
      ∧ ((text[r + l.length]? = some '\n' ∧ r2 = r + l.length + 1)
          ∨ (l ≠ [] ∧ r2 = r + l.length ∧ ∃ c, text[r + l.length]? = some c ∧ c ≠ '\n')) := by
  obtain ⟨r, l, hr, hl, hnl, _, hch, hnext⟩ := hb.line_spec j (by omega)
  have hsucc : findIndexFrom text lines (j + 1) 0 = some (skipLine text r l) := by
    rw [findIndexFrom_succ, hr, hl]
    rfl
  rcases hnext with ⟨h1, _⟩ | ⟨_, h2⟩ | ⟨hne, _, c, hc, hcn⟩
  · refine ⟨r, l, r + l.length + 1, hr, hl, ?_, hnl, hch, Or.inl ⟨h1, rfl⟩⟩
    rw [hsucc, skipLine_eq, if_pos h1]
  · omega
  · refine ⟨r, l, r + l.length, hr, hl, ?_, hnl, hch, Or.inr ⟨hne, rfl, c, hc, hcn⟩⟩
    have : ¬ text[r + l.length]? = some '\n' := by
      rw [hc]; intro hx; exact hcn (Option.some.inj hx)
    rw [hsucc, skipLine_eq, if_neg this]

/-! ## Lemmas: a text with one character erased -/

theorem getElem?_erase_lt (text : List Char) (k c : Nat) (hc : c < k) :
    (text.take k ++ text.drop (k + 1))[c]? = text[c]? := by
  by_cases hlen : c < text.length
  · rw [List.getElem?_append_left (by simp; omega), List.getElem?_take_of_lt hc]
  · rw [List.getElem?_eq_none (by simp; omega), List.getElem?_eq_none (by omega)]

theorem getElem?_erase_ge (text : List Char) (k c : Nat) (hk : k ≤ text.length) (hc : k ≤ c) :
    (text.take k ++ text.drop (k + 1))[c]? = text[c + 1]? := by
  rw [List.getElem?_append_right (by simp; omega)]
  simp only [List.length_take, Nat.min_eq_left hk, List.getElem?_drop]
  congr 1
  omega

theorem length_erase (text : List Char) (k : Nat) (hk : k < text.length) :
    (text.take k ++ text.drop (k + 1)).length = text.length - 1 := by
  simp
  omega

/-! ## Lemmas: the caret of BackSpace -/

theorem findIndexFrom_zero (text : List Char) (ls : List (List Char)) (k : Nat) :
    findIndexFrom text ls 0 k = some k := by
  cases ls <;> simp [findIndexFrom]

theorem getElem?_mem_ne {l : List Char} (hnl : '\n' ∉ l) (i : Nat) (hi : i < l.length) :
    ∃ c, l[i]? = some c ∧ c ≠ '\n' := by
  refine ⟨l[i], List.getElem?_eq_getElem hi, ?_⟩
  intro hc
  exact hnl (hc ▸ List.getElem_mem hi)

/-- On a line breaking, BackSpace moves the caret to an endpoint whose index, taken with the
old lines and the text without the erased character, is one less than the index of the
caret. -/
theorem backSpaceCaret_spec {lines : List (List Char)} {text : List Char}
    (hb : Breaks lines text) (sel : Vector2) (hv : validPos lines sel = true) (r : Nat)
    (hr : findIndexFrom text lines sel.y 0 = some r) (hp0 : 0 < r + sel.x) :
    r + sel.x ≤ text.length ∧
    ∃ q, backSpaceCaret text lines sel (r + sel.x) = some q
      ∧ (findIndexFrom (text.take (r + sel.x - 1) ++ text.drop (r + sel.x - 1 + 1))
            lines q.y 0).map (· + q.x) = some (r + sel.x - 1) := by
  obtain ⟨x, y⟩ := sel
  simp only at hr hp0 ⊢
  obtain ⟨l, hl, hx⟩ := (validPos_iff _ _).1 hv
  simp only at hl hx
  have hy : y < lines.length := by
    by_contra hc
    rw [List.getElem?_eq_none (by omega)] at hl
    cases hl
  obtain ⟨r1, l1, hr1, hl1, hnl, hlen, hch, hnext⟩ := hb.line_spec y hy
  rw [hr] at hr1
  cases hr1
  rw [hl] at hl1
  cases hl1
  have hple : r + x ≤ text.length := by omega
  refine ⟨hple, ?_⟩
  -- the index loop on the text without the erased character
  have hcong : ∀ j rj, findIndexFrom text lines j 0 = some rj → rj ≤ r + x - 1 →
      (rj = r + x - 1 → text[r + x - 1 + 1]? = some '\n' → text[r + x - 1]? = some '\n') →
      findIndexFrom (text.take (r + x - 1) ++ text.drop (r + x - 1 + 1)) lines j 0
        = some rj := by
    intro j rj hj hle hat
    refine findIndexFrom_congr text _ lines j 0 rj hj
      (fun c hc => getElem?_erase_lt text _ c (by omega)) ?_
    intro hnew
    by_cases hlt : rj < r + x - 1
    · rw [getElem?_erase_lt text _ rj hlt] at hnew
      exact hnew
    · have heq : rj = r + x - 1 := by omega
      rw [getElem?_erase_ge text _ rj (by omega) (by omega)] at hnew
      rw [heq] at hnew ⊢
      exact hat heq hnew
  -- the line above, when there is one
  have habove : 0 < y → ∃ r0 l0, findIndexFrom text lines (y - 1) 0 = some r0
      ∧ lines[y - 1]? = some l0 ∧ '\n' ∉ l0
      ∧ (∀ i, i < l0.length → text[r0 + i]? = l0[i]?)
      ∧ ((text[r0 + l0.length]? = some '\n' ∧ r = r0 + l0.length + 1)
          ∨ (l0 ≠ [] ∧ r = r0 + l0.length ∧ ∃ c, text[r0 + l0.length]? = some c ∧ c ≠ '\n')) := by
    intro hy0
    obtain ⟨r0, l0, r2, h1, h2, h3, h4, h5, h6⟩ := hb.step_spec (y - 1) (by omega)
    have hyy : y - 1 + 1 = y := by omega
    rw [hyy, hr] at h3
    cases h3
    exact ⟨r0, l0, h1, h2, h4, h5, h6⟩
  unfold backSpaceCaret
  simp only
  by_cases hx0 : x > 0
  · rw [if_pos hx0, hl]
    simp only
    by_cases hsp : l.length = 1 ∧ r + x > 1 ∧ r + x < text.length
        ∧ text[r + x - 2]? ≠ some '\n' ∧ text[r + x]? = some '\n' ∧ y > 0
    · rw [if_pos hsp]
      obtain ⟨hl1, _, _, hprev, _, hy0⟩ := hsp
      obtain ⟨r0, l0, h1, h2, _, _, h6⟩ := habove hy0
      rw [h2]
      simp only
      rcases h6 with ⟨hnewline, hrr⟩ | ⟨hne, hrr, _⟩
      · exfalso
        apply hprev
        have : r + x - 2 = r0 + l0.length := by omega
        rw [this]
        exact hnewline
      · have hl0 : 0 < l0.length := List.length_pos.2 hne
        refine ⟨_, rfl, ?_⟩
        simp only
        rw [hcong (y - 1) r0 h1 (by omega) (by intro h; omega)]
        simp only [Option.map_some', Option.some.injEq]
        omega
    · rw [if_neg hsp]
      refine ⟨_, rfl, ?_⟩
      simp only
      have hgoal : findIndexFrom (text.take (r + x - 1) ++ text.drop (r + x - 1 + 1)) lines y 0
          = some r := by
        by_cases hx2 : 2 ≤ x
        · exact hcong y r hr (by omega) (by intro h; omega)
        · have hx1 : x = 1 := by omega
          subst hx1
          by_cases hnl2 : text[r + 1]? = some '\n'
          · have hl1 : l.length = 1 := by
              by_contra hc
              obtain ⟨c, hc1, hc2⟩ := getElem?_mem_ne hnl 1 (by omega)
              rw [← hch 1 (by omega), hnl2] at hc1
              exact hc2 (Option.some.inj hc1).symm
            have hplt : r + 1 < text.length := by
              by_contra hc
              rw [List.getElem?_eq_none (by omega)] at hnl2
              cases hnl2
            by_cases hy0 : y = 0
            · subst hy0
              rw [findIndexFrom_zero] at hr ⊢
              exact hr
            · obtain ⟨r0, l0, h1, h2, h4, h5, h6⟩ := habove (by omega)
              rcases h6 with ⟨hnewline, hrr⟩ | ⟨hne, hrr, _⟩
              · have hyy : y = y - 1 + 1 := by omega
                rw [hyy, findIndexFrom_succ,
                  hcong (y - 1) r0 h1 (by omega) (by intro h; omega), h2]
                simp only [Option.some_bind, Option.map_some', Option.some.injEq]
                rw [skipLine_eq, getElem?_erase_lt text _ _ (by omega), if_pos hnewline]
                omega
              · exfalso
                apply hsp
                have hl0 : 0 < l0.length := List.length_pos.2 hne
                obtain ⟨c, hc1, hc2⟩ := getElem?_mem_ne h4 (l0.length - 1) (by omega)
                refine ⟨hl1, by omega, hplt, ?_, hnl2, by omega⟩
                have : r + 1 - 2 = r0 + (l0.length - 1) := by omega
                rw [this, h5 _ (by omega), hc1]
                intro hx
                exact hc2 (Option.some.inj hx)
          · exact hcong y r hr (by omega) (fun _ h => absurd h hnl2)
      rw [hgoal]
      simp only [Option.map_some', Option.some.injEq]
      omega
  · have hx1 : x = 0 := by omega
    subst hx1
    simp only [Nat.add_zero] at hp0 hcong ⊢
    have hy0 : 0 < y := by
      by_contra hc
      have : y = 0 := by omega
      subst this
      rw [findIndexFrom_zero] at hr
      cases hr
      omega
    rw [if_neg (by omega), if_pos hy0]
    obtain ⟨r0, l0, h1, h2, h4, h5, h6⟩ := habove hy0
    obtain ⟨ch, hch1, hch2⟩ := @strAt_of_le text (r - 1) (by omega)
    rw [h2, hch1]
    simp only
    rcases h6 with ⟨hnewline, hrr⟩ | ⟨hne, hrr, c2, hc2, hc2n⟩
    · have hchn : ch = '\n' := by
        apply hch2.2
        have : r - 1 = r0 + l0.length := by omega
        rw [this]
        exact hnewline
      rw [if_neg (by intro h; exact h.1 hchn)]
      refine ⟨_, rfl, ?_⟩
      simp only
      rw [hcong (y - 1) r0 h1 (by omega) (by
        intro _ _
        have : r - 1 = r0 + l0.length := by omega
        rw [this]
        exact hnewline)]
      simp only [Option.map_some', Option.some.injEq]
      omega
    · have hl0 : 0 < l0.length := List.length_pos.2 hne
      have hchn : ch ≠ '\n' := by
        intro hx
        have h7 := hch2.1 hx
        obtain ⟨c, hc1, hc3⟩ := getElem?_mem_ne h4 (l0.length - 1) (by omega)
        have : r - 1 = r0 + (l0.length - 1) := by omega
        rw [this, h5 _ (by omega), hc1] at h7
        exact hc3 (Option.some.inj h7)
      rw [if_pos ⟨hchn, hl0⟩]
      refine ⟨_, rfl, ?_⟩
      simp only
      rw [hcong (y - 1) r0 h1 (by omega) (by
        intro _ hnew
        exfalso
        have : r - 1 + 1 = r0 + l0.length := by omega
        rw [this, hc2] at hnew
        exact hc2n (Option.some.inj hnew))]
      simp only [Option.map_some', Option.some.injEq]
      omega

/-! ## Claims (continued) -/

/-- C2 (the code breaks the claim): a rejected insertion does not restore the selection.
First input: the text box has no vertical scrollbar, no word wrap and room for one line; its
text "a", newline, "b", newline, "c" has the newline between "b" and "c" selected, from
(line 1, column 1) to (line 2, column 0).  Typing x would give the two lines "a" and "bxc",
which do not fit, so `textEntered` undoes the insertion: text and lines are as before, but the
selection now ends at (line 2, column 1), index 5 instead of 4.  Second input: no vertical
scrollbar, word wrap, room for two lines of two characters, text "aaaa" (lines "aa", "aa", which
fit) and the caret at the start of the second line.  Typing a would give three lines, so the
insertion is undone, but the caret is now at the end of the first line. -/
theorem textEntered_undo_moves_selection :
    overflowSelection.map (fun s => (s.text, s.lines, s.selStart, s.selEnd, getSelectionEnd s))
        = some ("a\nb\nc".toList, ["a".toList, "b".toList, "c".toList],
            Vector2.mk 1 1, Vector2.mk 0 2, some 4)
      ∧ (overflowSelection.bind (insertKey (refEnv 10 1 0) 2 'x')).map (fun s => s.lines)
        = some ["a".toList, "bxc".toList]
      ∧ (overflowSelection.bind (textEntered (refEnv 10 1 0) 2 'x')).map
          (fun s => (s.text, s.lines, s.selStart, s.selEnd, getSelectionEnd s))
        = some ("a\nb\nc".toList, ["a".toList, "b".toList, "c".toList],
            Vector2.mk 1 1, Vector2.mk 1 2, some 5)
      ∧ boundaryCaret.map (fun s => (s.text, s.lines, s.selStart, s.selEnd))
        = some ("aaaa".toList, ["aa".toList, "aa".toList], Vector2.mk 0 1, Vector2.mk 0 1)
      ∧ (boundaryCaret.bind (insertKey (refEnv 2 2 0) 2 'a')).map (fun s => s.lines)
        = some ["aa".toList, "aa".toList, "a".toList]
      ∧ (boundaryCaret.bind (textEntered (refEnv 2 2 0) 2 'a')).map
          (fun s => (s.text, s.lines, s.selStart, s.selEnd))
        = some ("aaaa".toList, ["aa".toList, "aa".toList], Vector2.mk 2 0, Vector2.mk 2 0) :=
  ⟨rfl, rfl, rfl, rfl, rfl, rfl⟩

/-- C8 (the code breaks the claim): a character typed over a selection that starts behind a
word-wrap break is not spliced in at the start of the selection.  With "bbb" selected in the
wrapped text "aaabbb", newline, "ccc" (indices 3 to 6), typing x gives "aaa", newline, "xccc":
the x lands behind the newline, at index 4, and not at index 3. -/
theorem textEntered_over_selection_behind_break :
    wrappedSelection.map (fun s => (s.text, getSelectionStart s, getSelectionEnd s))
        = some ("aaabbb\nccc".toList, some 3, some 6)
      ∧ (wrappedSelection.bind (textEntered (refEnv 3 10 0) 2 'x')).map
          (fun s => (s.text, getSelectionStart s, getSelectionEnd s))
        = some ("aaa\nxccc".toList, some 5, some 5) :=
  ⟨rfl, rfl⟩

/-- C10 (the code breaks the claim): deleting a selection that starts behind a word-wrap break
and ends in front of a newline leaves the caret behind that newline.  With "bbb" selected in the
wrapped text "aaabbb", newline, "ccc" (lines "aaa", "bbb", "ccc"; indices 3 to 6),
`deleteSelectedCharacters` leaves the text "aaa", newline, "ccc" and a collapsed caret at
(line 1, column 0), whose index is 4 and not 3. -/
theorem deleteSelectedCharacters_behind_break :
    wrappedSelection.map
        (fun s => (s.text, s.lines, s.selStart, s.selEnd, getSelectionStart s, getSelectionEnd s))
        = some ("aaabbb\nccc".toList, ["aaa".toList, "bbb".toList, "ccc".toList],
            Vector2.mk 0 1, Vector2.mk 3 1, some 3, some 6)
      ∧ (wrappedSelection.bind (deleteSelectedCharacters (refEnv 3 10 0) 2)).map
          (fun s => (s.text, s.lines, s.selStart, s.selEnd, getSelectionStart s,
            getSelectionEnd s))
        = some ("aaa\nccc".toList, ["aaa".toList, "ccc".toList],
            Vector2.mk 0 1, Vector2.mk 0 1, some 4, some 4) :=
  ⟨rfl, rfl⟩

/-! ## Hexadecimal digits -/

theorem isHexChar_hexDigit (u : Bool) (d : Nat) (h : d < 16) : isHexChar (hexDigit u d) = true := by
  interval_cases d <;> cases u <;> rfl

theorem hexToDec_hexDigit (u : Bool) (d : Nat) (h : d < 16) : hexToDec (hexDigit u d) = some d := by
  interval_cases d <;> cases u <;> rfl

theorem hexChannel_hexDigit (u v : Bool) (a b : Nat) (ha : a < 16) (hb : b < 16) :
    hexChannel (hexDigit u a) (hexDigit v b) = some (16 * a + b) := by
  unfold hexChannel
  rw [hexToDec_hexDigit u a ha, hexToDec_hexDigit v b hb]
  simp only [Option.some.injEq]
  omega

/-- With a library that keeps a leading `#`, `deserializeColor` of a string that starts with
`#` is what its hexadecimal part gives. -/
theorem deserializeColor_hash {lib : StringLib} (h : KeepsHash lib) (rest : List Char) :
    deserializeColor lib ('#' :: rest) = deserializeHexColor ('#' :: rest) := by
  obtain ⟨h1, h2, h3⟩ := h
  have hstr : (lib.toLower (lib.trim ('#' :: rest))).head? = some '#' := h2 _ (h1 _ rfl)
  have hne : ¬ (lib.toLower (lib.trim ('#' :: rest)) = []
      ∨ lib.toLower (lib.trim ('#' :: rest)) = "none".toList) := by
    rintro (h0 | h0)
    · rw [h0] at hstr
      exact absurd hstr (by decide)
    · rw [h0] at hstr
      exact absurd hstr (by decide)
  unfold deserializeColor
  simp only [if_neg hne, h3 _ (h2 _ hstr), if_pos hstr]

theorem dropWhile_append_singleton (p : Char → Bool) (c : Char) (hc : p c = false) :
    ∀ xs : List Char, ∃ ys, (xs ++ [c]).dropWhile p = ys ++ [c] := by
  intro xs
  induction xs with
  | nil => exact ⟨[], by simp [List.dropWhile, hc]⟩
  | cons x xs ih =>
    by_cases hx : p x = true
    · obtain ⟨ys, hys⟩ := ih
      exact ⟨ys, by simpa [List.dropWhile, hx] using hys⟩
    · exact ⟨x :: xs, by simp [List.dropWhile, hx]⟩

theorem keepsHash_refLib : KeepsHash refLib := by
  refine ⟨?_, ?_, ?_⟩
  · intro v hv
    cases v with
    | nil => exact absurd hv (by simp)
    | cons c rest =>
      have hc : c = '#' := by simpa using hv
      subst hc
      show (refTrim ('#' :: rest)).head? = some '#'
      unfold refTrim
      have h1 : ('#' :: rest).dropWhile isSpaceChar = '#' :: rest := by
        simp [List.dropWhile, show isSpaceChar '#' = false from by decide]
      rw [h1, List.reverse_cons]
      obtain ⟨ys, hys⟩ := dropWhile_append_singleton isSpaceChar '#' (by decide) rest.reverse
      rw [hys]
      simp
  · intro v hv
    cases v with
    | nil => exact absurd hv (by simp)
    | cons c rest =>
      have hc : c = '#' := by simpa using hv
      subst hc
      show (List.map Char.toLower ('#' :: rest)).head? = some '#'
      simp only [List.map_cons, List.head?_cons, Option.some.injEq]
      decide
  · intro name hn
    cases name with
    | nil => exact absurd hn (by simp)
    | cons c rest =>
      have hc : c = '#' := by simpa using hn
      subst hc
      show refColorMap ('#' :: rest) = none
      unfold refColorMap
      have hne : ∀ t : List Char, t.head? ≠ some '#' → ¬ ('#' :: rest = t) := by
        intro t ht heq
        exact ht (by rw [← heq]; rfl)
      rw [if_neg (hne _ (by decide)), if_neg (hne _ (by decide)), if_neg (hne _ (by decide)),
        if_neg (hne _ (by decide)), if_neg (hne _ (by decide)), if_neg (hne _ (by decide))]

/-- C11 (the code breaks the claim): forward delete at a caret that stands behind a word-wrap
break and in front of the last character before a newline moves the caret.  In the wrapped text
"aaab", newline, "ccc" (lines "aaa", "b", "ccc") the caret is at the start of the second line,
index 3; the Delete key leaves the text "aaa", newline, "ccc", as it should, but the caret at
(line 1, column 0) of the new lines "aaa", "ccc", whose index is 4 and not 3. -/
theorem delete_behind_break_moves_caret :
    wrappedCaret.map
        (fun s => (s.text, s.lines, s.selStart, s.selEnd, getSelectionEnd s, s.readOnly))
        = some ("aaab\nccc".toList, ["aaa".toList, "b".toList, "ccc".toList],
            Vector2.mk 0 1, Vector2.mk 0 1, some 3, false)
      ∧ (wrappedCaret.bind (keyPressed (refEnv 3 10 0) 2 (plain Key.Delete))).map
          (fun s => (s.text, s.lines, s.selStart, s.selEnd, getSelectionEnd s))
        = some ("aaa\nccc".toList, ["aaa".toList, "ccc".toList],
            Vector2.mk 0 1, Vector2.mk 0 1, some 4) :=
  ⟨rfl, rfl⟩

/-- C13: the word-left scenario.  With the text "foo bar baz" on one line and the caret at
index 11, whatever the scrollbar policies, one, two and three presses of control+Left put the
caret at the indices 8, 4 and 0, each time with `selStart = selEnd`. -/
theorem wordLeft_scenario (vertical horizontal : Policy) :
    (fooBarBaz vertical horizontal).map
        (fun s => (s.text, s.lines, getSelectionStart s, getSelectionEnd s))
        = some ("foo bar baz".toList, ["foo bar baz".toList], some 11, some 11)
      ∧ ((fooBarBaz vertical horizontal).bind
          (pressKeys (refEnv 20 10 0) 2 [ctrl Key.Left])).map
          (fun s => (getSelectionStart s, getSelectionEnd s, decide (s.selStart = s.selEnd)))
        = some (some 8, some 8, true)
      ∧ ((fooBarBaz vertical horizontal).bind
          (pressKeys (refEnv 20 10 0) 2 [ctrl Key.Left, ctrl Key.Left])).map
          (fun s => (getSelectionStart s, getSelectionEnd s, decide (s.selStart = s.selEnd)))
        = some (some 4, some 4, true)
      ∧ ((fooBarBaz vertical horizontal).bind
          (pressKeys (refEnv 20 10 0) 2 [ctrl Key.Left, ctrl Key.Left, ctrl Key.Left])).map
          (fun s => (getSelectionStart s, getSelectionEnd s, decide (s.selStart = s.selEnd)))
        = some (some 0, some 0, true) := by
  cases vertical <;> cases horizontal <;> exact ⟨rfl, rfl, rfl, rfl⟩

/-- C19: the grammar of booleans.  `deserializeBool` returns true exactly when the lower-cased
value is "true", "yes", "on" or "1", false exactly when it is "false", "no", "off" or "0", and
throws exactly when it is none of the eight.  With ASCII lower-casing, the empty string and
" true " (with spaces around it) throw, and "TRUE", "Yes", "OFF" and "0" are read whatever
their case. -/
theorem deserializeBool_grammar :
    (∀ (lib : StringLib) (value : List Char),
        (deserializeBool lib value = some true
            ↔ lib.toLower value ∈ ["true".toList, "yes".toList, "on".toList, "1".toList])
          ∧ (deserializeBool lib value = some false
            ↔ lib.toLower value ∈ ["false".toList, "no".toList, "off".toList, "0".toList])
          ∧ (deserializeBool lib value = none
            ↔ lib.toLower value ∉ ["true".toList, "yes".toList, "on".toList, "1".toList,
                "false".toList, "no".toList, "off".toList, "0".toList]))
      ∧ deserializeBool refLib "".toList = none
      ∧ deserializeBool refLib " true ".toList = none
      ∧ deserializeBool refLib "true ".toList = none
      ∧ deserializeBool refLib "TRUE".toList = some true
      ∧ deserializeBool refLib "Yes".toList = some true
      ∧ deserializeBool refLib "OFF".toList = some false
      ∧ deserializeBool refLib "0".toList = some false := by
  refine ⟨?_, by decide, by decide, by decide, by decide, by decide, by decide, by decide⟩
  intro lib value
  unfold deserializeBool
  by_cases ht : lib.toLower value = "true".toList ∨ lib.toLower value = "yes".toList
      ∨ lib.toLower value = "on".toList ∨ lib.toLower value = "1".toList
  · simp only [if_pos ht]
    rcases ht with h | h | h | h <;> rw [h] <;> decide
  · by_cases hf : lib.toLower value = "false".toList ∨ lib.toLower value = "no".toList
        ∨ lib.toLower value = "off".toList ∨ lib.toLower value = "0".toList
    · simp only [if_neg ht, if_pos hf]
      rcases hf with h | h | h | h <;> rw [h] <;> decide
    · simp only [if_neg ht, if_neg hf]
      have hm1 : lib.toLower value ∈ ["true".toList, "yes".toList, "on".toList, "1".toList]
          ↔ (lib.toLower value = "true".toList ∨ lib.toLower value = "yes".toList
            ∨ lib.toLower value = "on".toList ∨ lib.toLower value = "1".toList) := by
        simp only [List.mem_cons, List.mem_singleton, List.not_mem_nil, or_false]
      have hm2 : lib.toLower value ∈ ["false".toList, "no".toList, "off".toList, "0".toList]
          ↔ (lib.toLower value = "false".toList ∨ lib.toLower value = "no".toList
            ∨ lib.toLower value = "off".toList ∨ lib.toLower value = "0".toList) := by
        simp only [List.mem_cons, List.mem_singleton, List.not_mem_nil, or_false]
      have hm3 : lib.toLower value ∈ ["true".toList, "yes".toList, "on".toList, "1".toList,
            "false".toList, "no".toList, "off".toList, "0".toList]
          ↔ ((lib.toLower value = "true".toList ∨ lib.toLower value = "yes".toList
              ∨ lib.toLower value = "on".toList ∨ lib.toLower value = "1".toList)
            ∨ (lib.toLower value = "false".toList ∨ lib.toLower value = "no".toList
              ∨ lib.toLower value = "off".toList ∨ lib.toLower value = "0".toList)) := by
        simp only [List.mem_cons, List.mem_singleton, List.not_mem_nil, or_false, or_assoc]
      rw [hm1, hm2, hm3]
      exact ⟨⟨fun h => absurd h (by simp), fun h => absurd h ht⟩,
        ⟨fun h => absurd h (by simp), fun h => absurd h hf⟩,
        ⟨fun _ h => h.elim ht hf, fun _ => trivial⟩⟩

/-- C20: hexadecimal colors.  For a string library that keeps a leading `#` (and has no color
name that starts with `#`) and hexadecimal digits of either case with the values `r`, `g`, `b`,
`a` (below 16): `#rgb` gives the channels `17 r`, `17 g`, `17 b` and alpha 255, `#rgba` gives
alpha `17 a`, the six-digit form gives `16 r1 + r2`, `16 g1 + g2`, `16 b1 + b2` and alpha 255, and
the eight-digit form gives alpha `16 a1 + a2`; `#08f` gives (0, 136, 255) with alpha 255. -/
theorem hexColor_channels (lib : StringLib) (h : KeepsHash lib) :
    (∀ (u1 u2 u3 u4 : Bool) (r g b a : Fin 16),
        deserializeColor lib ['#', hexDigit u1 r, hexDigit u2 g, hexDigit u3 b]
            = some (Color.rgba (17 * r) (17 * g) (17 * b) 255)
          ∧ deserializeColor lib ['#', hexDigit u1 r, hexDigit u2 g, hexDigit u3 b, hexDigit u4 a]
            = some (Color.rgba (17 * r) (17 * g) (17 * b) (17 * a)))
      ∧ (∀ (u1 u2 u3 u4 u5 u6 u7 u8 : Bool) (r1 r2 g1 g2 b1 b2 a1 a2 : Fin 16),
        deserializeColor lib
            ['#', hexDigit u1 r1, hexDigit u2 r2, hexDigit u3 g1, hexDigit u4 g2,
              hexDigit u5 b1, hexDigit u6 b2]
            = some (Color.rgba (16 * r1 + r2) (16 * g1 + g2) (16 * b1 + b2) 255)
          ∧ deserializeColor lib
            ['#', hexDigit u1 r1, hexDigit u2 r2, hexDigit u3 g1, hexDigit u4 g2,
              hexDigit u5 b1, hexDigit u6 b2, hexDigit u7 a1, hexDigit u8 a2]
            = some (Color.rgba (16 * r1 + r2) (16 * g1 + g2) (16 * b1 + b2) (16 * a1 + a2)))
      ∧ deserializeColor lib "#08f".toList = some (Color.rgba 0 136 255 255) := by
  have short : ∀ (u : Bool) (d : Fin 16),
      hexChannel (hexDigit u d.val) (hexDigit u d.val) = some (17 * d.val) := by
    intro u d
    rw [hexChannel_hexDigit u u d.val d.val d.isLt d.isLt]
    have : 16 * d.val + d.val = 17 * d.val := by omega
    rw [this]
  have three : ∀ (u1 u2 u3 : Bool) (r g b : Fin 16),
      deserializeColor lib ['#', hexDigit u1 r, hexDigit u2 g, hexDigit u3 b]
        = some (Color.rgba (17 * r) (17 * g) (17 * b) 255) := by
    intro u1 u2 u3 r g b
    rw [deserializeColor_hash h]
    simp only [deserializeHexColor, List.drop_succ_cons, List.drop_zero, List.all_cons,
      List.all_nil, isHexChar_hexDigit _ _ (Fin.isLt _), Bool.and_self, if_true, short]
    rfl
  refine ⟨?_, ?_, ?_⟩
  · intro u1 u2 u3 u4 r g b a
    refine ⟨three u1 u2 u3 r g b, ?_⟩
    rw [deserializeColor_hash h]
    simp only [deserializeHexColor, List.drop_succ_cons, List.drop_zero, List.all_cons,
      List.all_nil, isHexChar_hexDigit _ _ (Fin.isLt _), Bool.and_self, if_true, short]
  · intro u1 u2 u3 u4 u5 u6 u7 u8 r1 r2 g1 g2 b1 b2 a1 a2
    constructor
    · rw [deserializeColor_hash h]
      simp only [deserializeHexColor, List.drop_succ_cons, List.drop_zero, List.all_cons,
        List.all_nil, isHexChar_hexDigit _ _ (Fin.isLt _), Bool.and_self, if_true,
        hexChannel_hexDigit _ _ _ _ (Fin.isLt _) (Fin.isLt _)]
      rfl
    · rw [deserializeColor_hash h]
      simp only [deserializeHexColor, List.drop_succ_cons, List.drop_zero, List.all_cons,
        List.all_nil, isHexChar_hexDigit _ _ (Fin.isLt _), Bool.and_self, if_true,
        hexChannel_hexDigit _ _ _ _ (Fin.isLt _) (Fin.isLt _)]
  · exact three false false false 0 8 15

/-- Witness of C20: the reference string library keeps a leading `#`; with it `#08f` and `#08F`
give (0, 136, 255) with alpha 255 and `#FF000080` gives (255, 0, 0) with alpha 128. -/
theorem hexColor_channels_witness :
    KeepsHash refLib
      ∧ deserializeColor refLib "#08f".toList = some (Color.rgba 0 136 255 255)
      ∧ deserializeColor refLib "#08F".toList = some (Color.rgba 0 136 255 255)
      ∧ deserializeColor refLib "#FF000080".toList = some (Color.rgba 255 0 0 128) :=
  ⟨keepsHash_refLib, (hexColor_channels refLib keepsHash_refLib).2.2,
    ((hexColor_channels refLib keepsHash_refLib).1 false false true false 0 8 15 0).1,
    ((hexColor_channels refLib keepsHash_refLib).2.1 true true false false false false false
      false 15 15 0 0 0 0 8 0).2⟩

/-! ## Moving the caret -/

theorem finishMove_spec (env : Env) (event : KeyEvent) (p : Vector2) (s t : TextBox)
    (h : finishMove env event p s = some t) :
    t.text = s.text ∧ t.lines = s.lines ∧ t.selEnd = p
      ∧ (event.shift = false → t.selStart = p)
      ∧ (event.shift = true → t.selStart = s.selStart)
      ∧ SameSettings s t := by
  unfold finishMove at h
  cases hs : event.shift
  · rw [hs] at h
    simp only [Bool.not_false, if_true] at h
    obtain ⟨⟨h1, h2, h3, h4, h5⟩, _⟩ := updateSelectionTexts_sameDoc env _ t h
    exact ⟨h1, h2, h4, fun _ => h3, fun hc => (by cases hc), h5⟩
  · rw [hs] at h
    simp only [Bool.not_true, Bool.false_eq_true, if_false] at h
    obtain ⟨⟨h1, h2, h3, h4, h5⟩, _⟩ := updateSelectionTexts_sameDoc env _ t h
    exact ⟨h1, h2, h4, fun hc => (by cases hc), fun _ => h3, h5⟩

theorem finishMove_isSome (env : Env) (event : KeyEvent) (p : Vector2) (s : TextBox)
    (hp : validPos s.lines p = true)
    (hs : event.shift = true → validPos s.lines s.selStart = true) :
    ∃ t, finishMove env event p s = some t := by
  unfold finishMove
  apply Option.isSome_iff_exists.1
  cases hsh : event.shift
  · simp only [Bool.not_false, if_true]
    exact (updateSelectionTexts_isSome env _).2 ⟨hp, hp⟩
  · simp only [Bool.not_true, Bool.false_eq_true, if_false]
    exact (updateSelectionTexts_isSome env _).2 ⟨hs hsh, hp⟩

theorem lexLt_of_ne {p q : Vector2} (hne : p ≠ q) (h : ¬ lexLt p q) : lexLt q p := by
  cases p with
  | mk px py =>
    cases q with
    | mk qx qy =>
      simp only [lexLt, not_or, not_and, not_lt] at h ⊢
      have : ¬ (px = qx ∧ py = qy) := fun hh => hne (by rw [hh.1, hh.2])
      omega

theorem lexLt_asymm {p q : Vector2} (h : lexLt p q) : ¬ lexLt q p := by
  simp only [lexLt] at h ⊢
  omega

/-- C15: collapse on arrow.  With a non-empty selection whose endpoints are inside the lines,
the Left key without control and shift returns a state in which `selStart` and `selEnd` both
are the smaller of the two old endpoints in the order by line, then column, and the Right key
one in which both are the larger; the text is unchanged. -/
theorem arrow_collapses_selection (env : Env) (fuel : Nat) (event : KeyEvent) (s : TextBox)
    (hsel : s.selStart ≠ s.selEnd) (hc : event.control = false) (hs : event.shift = false)
    (h1 : validPos s.lines s.selStart = true) (h2 : validPos s.lines s.selEnd = true) :
    (event.code = Key.Left →
        ∃ t, keyPressed env fuel event s = some t
          ∧ t.selStart = lexMin s.selStart s.selEnd ∧ t.selEnd = lexMin s.selStart s.selEnd
          ∧ t.text = s.text ∧ t.lines = s.lines)
      ∧ (event.code = Key.Right →
        ∃ t, keyPressed env fuel event s = some t
          ∧ t.selStart = lexMax s.selStart s.selEnd ∧ t.selEnd = lexMax s.selStart s.selEnd
          ∧ t.text = s.text ∧ t.lines = s.lines) := by
  have hv : ∀ p, p = s.selStart ∨ p = s.selEnd → validPos s.lines p = true := by
    rintro p (rfl | rfl)
    · exact h1
    · exact h2
  have fin : ∀ p, (p = s.selStart ∨ p = s.selEnd) →
      ∃ t, finishMove env event p s = some t ∧ t.selStart = p ∧ t.selEnd = p
        ∧ t.text = s.text ∧ t.lines = s.lines := by
    intro p hp
    obtain ⟨t, ht⟩ := finishMove_isSome env event p s (hv p hp) (fun h => by rw [hs] at h; cases h)
    obtain ⟨e1, e2, e3, e4, _, _⟩ := finishMove_spec env event p s t ht
    exact ⟨t, ht, e4 hs, e3, e1, e2⟩
  constructor
  · intro hcode
    have hkey : keyPressed env fuel event s
        = finishMove env event (lexMin s.selStart s.selEnd) s := by
      unfold keyPressed keyLeft
      rw [hcode]
      simp only [hc, hs, Bool.false_eq_true, if_false, Bool.not_false, and_true, if_pos hsel]
      by_cases hlt : lexLt s.selStart s.selEnd
      · rw [if_pos hlt]
        unfold lexMin
        rw [if_neg (lexLt_asymm hlt)]
      · rw [if_neg hlt]
        unfold lexMin
        rw [if_pos (lexLt_of_ne hsel hlt)]
    rw [hkey]
    apply fin
    unfold lexMin
    split
    · exact Or.inr rfl
    · exact Or.inl rfl
  · intro hcode
    have hkey : keyPressed env fuel event s
        = finishMove env event (lexMax s.selStart s.selEnd) s := by
      unfold keyPressed keyRight
      rw [hcode]
      simp only [hc, hs, Bool.false_eq_true, if_false, Bool.not_false, and_true, if_pos hsel]
      by_cases hlt : lexLt s.selEnd s.selStart
      · have hgt : s.selStart.y > s.selEnd.y
            ∨ (s.selStart.y = s.selEnd.y ∧ s.selStart.x > s.selEnd.x) := by
          simp only [lexLt] at hlt
          omega
        rw [if_pos hgt]
        unfold lexMax
        rw [if_neg (lexLt_asymm hlt)]
      · have hgt : ¬ (s.selStart.y > s.selEnd.y
            ∨ (s.selStart.y = s.selEnd.y ∧ s.selStart.x > s.selEnd.x)) := by
          simp only [lexLt] at hlt
          omega
        rw [if_neg hgt]
        unfold lexMax
        rw [if_pos (lexLt_of_ne (Ne.symm hsel) hlt)]
    rw [hkey]
    apply fin
    unfold lexMax
    split
    · exact Or.inr rfl
    · exact Or.inl rfl

/-- Witness of C15: in "abcdef" with the characters from index 1 to index 3 selected, Left
collapses the selection to column 1 and Right to column 3. -/
theorem arrow_collapses_selection_witness :
    selectedTextBox.selStart = Vector2.mk 1 0 ∧ selectedTextBox.selEnd = Vector2.mk 3 0
      ∧ (∃ t, keyPressed (refEnv 20 10 0) 0 (plain Key.Left) selectedTextBox = some t
          ∧ t.selStart = Vector2.mk 1 0 ∧ t.selEnd = Vector2.mk 1 0)
      ∧ (∃ t, keyPressed (refEnv 20 10 0) 0 (plain Key.Right) selectedTextBox = some t
          ∧ t.selStart = Vector2.mk 3 0 ∧ t.selEnd = Vector2.mk 3 0) := by
  have hl := (arrow_collapses_selection (refEnv 20 10 0) 0 (plain Key.Left) selectedTextBox
    (by decide) rfl rfl (by decide) (by decide)).1 rfl
  have hr := (arrow_collapses_selection (refEnv 20 10 0) 0 (plain Key.Right) selectedTextBox
    (by decide) rfl rfl (by decide) (by decide)).2 rfl
  obtain ⟨t, ht, a1, a2, _⟩ := hl
  obtain ⟨u, hu, b1, b2, _⟩ := hr
  exact ⟨by decide, by decide, ⟨t, ht, a1, a2⟩, ⟨u, hu, b1, b2⟩⟩

/-! ## The word scans of control+Left and control+Right -/

theorem strAt_lt {row : List Char} {i : Nat} (h : i < row.length) :
    strAt row i = row[i]? := by
  unfold strAt
  rw [if_pos h]

/-- The scan of control+Left with `skippedWhitespace` set, started at a column whose character
is not whitespace: it stops at a word start or runs to the start of the row. -/
theorem wordLeftScan_true (env : Env) (row : List Char) :
    ∀ (i : Nat) (c : Char), i ≤ row.length → row[i]? = some c → env.isWhitespace c = false →
      wordLeftScan env row i true = some (none, true)
        ∨ ∃ x a b, wordLeftScan env row i true = some (some x, true) ∧ 1 ≤ x ∧ x ≤ i
            ∧ row[x - 1]? = some a ∧ env.isWhitespace a = true
            ∧ row[x]? = some b ∧ env.isWhitespace b = false := by
  intro i
  induction i with
  | zero =>
    intro c _ _ _
    exact Or.inl rfl
  | succ i ih =>
    intro c hi hc hw
    have hlt : i < row.length := by omega
    obtain ⟨d, hd⟩ : ∃ d, row[i]? = some d := ⟨row[i], List.getElem?_eq_getElem hlt⟩
    unfold wordLeftScan
    rw [strAt_lt hlt, hd]
    simp only [if_true]
    by_cases hdw : env.isWhitespace d = true
    · rw [if_pos hdw]
      exact Or.inr ⟨i + 1, d, c, rfl, by omega, le_refl _, by simpa using hd, hdw, hc, hw⟩
    · rw [if_neg hdw]
      have hdw2 : env.isWhitespace d = false := by simpa using hdw
      rcases ih d (by omega) hd hdw2 with h | ⟨x, a, b, h, h1, h2, h3⟩
      · exact Or.inl h
      · exact Or.inr ⟨x, a, b, h, h1, by omega, h3⟩

/-- The scan of control+Left from column `i` of a row, started without `skippedWhitespace`. -/
theorem wordLeftScan_false (env : Env) (row : List Char) :
    ∀ i : Nat, i ≤ row.length →
      (wordLeftScan env row i false = some (none, false)
          ∧ ∀ k c, k < i → row[k]? = some c → env.isWhitespace c = true)
        ∨ (wordLeftScan env row i false = some (none, true) ∧ 0 < i)
        ∨ ∃ x a b, wordLeftScan env row i false = some (some x, true) ∧ 1 ≤ x ∧ x < i
            ∧ row[x - 1]? = some a ∧ env.isWhitespace a = true
            ∧ row[x]? = some b ∧ env.isWhitespace b = false := by
  intro i
  induction i with
  | zero =>
    intro _
    exact Or.inl ⟨rfl, fun k c hk => absurd hk (by omega)⟩
  | succ i ih =>
    intro hi
    have hlt : i < row.length := by omega
    obtain ⟨d, hd⟩ : ∃ d, row[i]? = some d := ⟨row[i], List.getElem?_eq_getElem hlt⟩
    unfold wordLeftScan
    rw [strAt_lt hlt, hd]
    simp only [Bool.false_eq_true, if_false]
    by_cases hdw : env.isWhitespace d = true
    · simp only [hdw, Bool.not_true, Bool.false_eq_true, if_false]
      rcases ih (by omega) with ⟨h, hall⟩ | ⟨h, h0⟩ | ⟨x, a, b, h, h1, h2, h3⟩
      · refine Or.inl ⟨h, ?_⟩
        intro k c hk hkc
        by_cases hki : k = i
        · subst hki
          rw [hd] at hkc
          cases hkc
          exact hdw
        · exact hall k c (by omega) hkc
      · exact Or.inr (Or.inl ⟨h, by omega⟩)
      · exact Or.inr (Or.inr ⟨x, a, b, h, h1, by omega, h3⟩)
    · have hdw2 : env.isWhitespace d = false := by simpa using hdw
      simp only [hdw2, Bool.not_false, if_true]
      rcases wordLeftScan_true env row i d (by omega) hd hdw2 with h | ⟨x, a, b, h, h1, h2, h3⟩
      · exact Or.inr (Or.inl ⟨h, by omega⟩)
      · exact Or.inr (Or.inr ⟨x, a, b, h, h1, by omega, h3⟩)

theorem charAt_eq {lines : List (List Char)} {y : Nat} {row : List Char}
    (h : lines[y]? = some row) (x : Nat) : charAt lines y x = row[x]? := by
  unfold charAt
  rw [h]
  rfl

/-- A word in front of column `x` of a row whose characters in front of `x` are all whitespace
is in front of the end of the row above. -/
theorem wordBefore_up {env : Env} {lines : List (List Char)} {p : Vector2} {row above : List Char}
    (hrow : lines[p.y]? = some row) (habove : lines[p.y - 1]? = some above) (hy : 0 < p.y)
    (hall : ∀ k c, k < p.x → row[k]? = some c → env.isWhitespace c = true)
    (h : WordBefore env lines p) : WordBefore env lines (Vector2.mk above.length (p.y - 1)) := by
  obtain ⟨y, x, c, hlt, hc, hw⟩ := h
  refine ⟨y, x, c, ?_, hc, hw⟩
  simp only [lexLt] at hlt ⊢
  rcases hlt with hlt | ⟨hy2, hx⟩
  · by_cases hy1 : y < p.y - 1
    · exact Or.inl hy1
    · have hye : y = p.y - 1 := by omega
      refine Or.inr ⟨hye, ?_⟩
      rw [hye, charAt_eq habove] at hc
      exact (List.getElem?_eq_some_iff.1 hc).1
  · rw [hy2, charAt_eq hrow] at hc
    rw [hall x c hx hc] at hw
    cases hw

/-- The caret `wordLeft` finds from a position inside the lines is inside the lines; when some
character in front of the position is not whitespace, it is a word start in front of the
position, and not the end of its row. -/
theorem wordLeft_spec (env : Env) (lines : List (List Char)) :
    ∀ (j : Nat) (p : Vector2), j = p.y + 1 → validPos lines p = true →
      ∃ q, wordLeft env lines j p false = some q ∧ validPos lines q = true
        ∧ (WordBefore env lines p →
            lexLt q p ∧ AtWordStart env lines q ∧ ∃ l, lines[q.y]? = some l ∧ q.x < l.length) := by
  intro j
  induction j with
  | zero =>
    intro p hj _
    omega
  | succ j ih =>
    intro p hj hv
    obtain ⟨row, hrow, hx⟩ := (validPos_iff lines p).1 hv
    have hylt : p.y < lines.length := (List.getElem?_eq_some_iff.1 hrow).1
    -- what happens when the scan of the row finds only whitespace
    have up : (∀ k c, k < p.x → row[k]? = some c → env.isWhitespace c = true) →
        ∃ q, (if p.y > 0 then
                match lines[p.y - 1]? with
                | none => none
                | some above => wordLeft env lines j (Vector2.mk above.length (p.y - 1)) false
              else wordLeft env lines j p false) = some q
          ∧ validPos lines q = true
          ∧ (WordBefore env lines p →
              lexLt q p ∧ AtWordStart env lines q ∧ ∃ l, lines[q.y]? = some l ∧ q.x < l.length) := by
      intro hall
      by_cases hy : p.y > 0
      · rw [if_pos hy]
        obtain ⟨above, habove⟩ : ∃ above, lines[p.y - 1]? = some above :=
          ⟨lines[p.y - 1], List.getElem?_eq_getElem (by omega)⟩
        rw [habove]
        have hv2 : validPos lines (Vector2.mk above.length (p.y - 1)) = true :=
          (validPos_iff _ _).2 ⟨above, habove, le_refl _⟩
        obtain ⟨q, hq, hqv, hqw⟩ := ih (Vector2.mk above.length (p.y - 1))
          (by show j = p.y - 1 + 1; omega) hv2
        refine ⟨q, hq, hqv, ?_⟩
        intro hwb
        obtain ⟨h1, h2, h3⟩ := hqw (wordBefore_up hrow habove hy hall hwb)
        refine ⟨?_, h2, h3⟩
        simp only [lexLt] at h1 ⊢
        omega
      · rw [if_neg hy]
        have hj0 : j = 0 := by omega
        subst hj0
        refine ⟨p, rfl, hv, ?_⟩
        intro hwb
        exfalso
        obtain ⟨y, x, c, hlt, hc, hw⟩ := hwb
        simp only [lexLt] at hlt
        have hy2 : y = p.y ∧ x < p.x := by omega
        rw [hy2.1, charAt_eq hrow] at hc
        rw [hall x c hy2.2 hc] at hw
        cases hw
    unfold wordLeft
    by_cases hx0 : p.x = 0
    · simp only [hx0, if_true]
      exact up (fun k c hk => absurd hk (by omega))
    · simp only [hx0, if_false, hrow]
      rcases wordLeftScan_false env row p.x hx with ⟨h, hall⟩ | ⟨h, h0⟩ | ⟨x, a, b, h, h1, h2, h3, h4, h5, h6⟩
      · rw [h]
        exact up hall
      · rw [h]
        refine ⟨Vector2.mk 0 p.y, rfl, (validPos_iff _ _).2 ⟨row, hrow, Nat.zero_le _⟩, ?_⟩
        intro _
        refine ⟨Or.inr ⟨rfl, h0⟩, Or.inl rfl, row, hrow, ?_⟩
        show 0 < row.length
        omega
      · rw [h]
        refine ⟨Vector2.mk x p.y, rfl, (validPos_iff _ _).2 ⟨row, hrow, by show x ≤ _; omega⟩, ?_⟩
        intro _
        refine ⟨Or.inr ⟨rfl, h2⟩, Or.inr ⟨a, b, ?_, ?_, h4, h6⟩, row, hrow, by show x < _; omega⟩
        · rw [charAt_eq hrow]
          exact h3
        · rw [charAt_eq hrow]
          exact h5

/-! ## The index grows with the position -/

theorem findIndexFrom_step (text : List Char) (ls : List (List Char)) (k : Nat) :
    ∀ (d y r r2 : Nat) (row : List Char), findIndexFrom text ls y k = some r →
      ls[y]? = some row → findIndexFrom text ls (y + 1 + d) k = some r2 →
      r + row.length ≤ r2 := by
  intro d
  induction d with
  | zero =>
    intro y r r2 row hr hrow h2
    rw [Nat.add_zero, findIndexFrom_succ, hr, hrow] at h2
    simp only [Option.some_bind, Option.map_some', Option.some.injEq] at h2
    rw [← h2]
    exact le_skipLine text r row
  | succ d ih =>
    intro y r r2 row hr hrow h2
    rw [show y + 1 + (d + 1) = (y + 1 + d) + 1 from by omega, findIndexFrom_succ] at h2
    cases h1 : findIndexFrom text ls (y + 1 + d) k with
    | none =>
      rw [h1] at h2
      cases h2
    | some r1 =>
      rw [h1] at h2
      simp only [Option.some_bind] at h2
      cases hrow2 : ls[y + 1 + d]? with
      | none =>
        rw [hrow2] at h2
        cases h2
      | some row2 =>
        rw [hrow2] at h2
        simp only [Option.map_some', Option.some.injEq] at h2
        have := ih y r r1 row hr hrow h1
        have := le_skipLine text r1 row2
        omega

/-- In lines that break the text, a position that is not the end of its row has a smaller index
than every position behind it. -/
theorem Breaks.index_lt {lines : List (List Char)} {text : List Char} (hb : Breaks lines text)
    {p q : Vector2} (hp : validPos lines p = true) {l : List Char} (hq : lines[q.y]? = some l)
    (hqx : q.x < l.length) (hlt : lexLt q p) :
    ∃ a b, (findIndexFrom text lines p.y 0).map (· + p.x) = some a
      ∧ (findIndexFrom text lines q.y 0).map (· + q.x) = some b ∧ b < a := by
  obtain ⟨row, hrow, hx⟩ := (validPos_iff lines p).1 hp
  have hpy : p.y < lines.length := (List.getElem?_eq_some_iff.1 hrow).1
  have hqy : q.y < lines.length := (List.getElem?_eq_some_iff.1 hq).1
  obtain ⟨rp, hrp, _, _⟩ := Breaks.index_spec text p.y lines 0 (by simpa using hb) (Nat.zero_le _) hpy
  obtain ⟨rq, hrq, _, _⟩ := Breaks.index_spec text q.y lines 0 (by simpa using hb) (Nat.zero_le _) hqy
  refine ⟨rp + p.x, rq + q.x, by rw [hrp]; rfl, by rw [hrq]; rfl, ?_⟩
  simp only [lexLt] at hlt
  rcases hlt with hy | ⟨hy, hx2⟩
  · obtain ⟨d, hd⟩ : ∃ d, p.y = q.y + 1 + d := ⟨p.y - q.y - 1, by omega⟩
    rw [hd] at hrp
    have := findIndexFrom_step text lines 0 d q.y rq rp l hrq hq hrp
    omega
  · rw [hy] at hrq
    rw [hrq] at hrp
    cases hrp
    omega

/-- C14, counterexample: in the text "  a" with the caret between the two spaces (index 1, not
index 0), control+Left leaves the caret where it is: the index is not smaller, and the caret is
neither at column 0 nor in front of a character that is not whitespace. -/
theorem ctrlLeft_stays_in_leading_whitespace :
    leadingSpace.map (fun s => (s.text, s.lines, s.selEnd, getSelectionEnd s))
        = some ("  a".toList, ["  a".toList], Vector2.mk 1 0, some 1)
      ∧ (leadingSpace.bind (keyPressed (refEnv 20 10 0) 0 (ctrl Key.Left))).map
          (fun s => (s.selStart, s.selEnd, getSelectionEnd s, charAt s.lines 0 1))
        = some (Vector2.mk 1 0, Vector2.mk 1 0, some 1, some ' ')
      ∧ (refEnv 20 10 0).isWhitespace ' ' = true :=
  ⟨rfl, rfl, rfl⟩

/-- C14, amended: control+Left lands on a word start when a word precedes the caret.  In a text
box whose lines break its text, with the caret inside the lines and some character in front of
the caret (on its row or a row above) that is not whitespace, control+Left returns a state whose
caret has a strictly smaller character index and is at a word start: at column 0 of a row, or at
a column whose character is not whitespace while the character in front of it is.  The text is
unchanged. -/
theorem ctrlLeft_lands_on_word_start (env : Env) (fuel : Nat) (event : KeyEvent) (s : TextBox)
    (hcode : event.code = Key.Left) (hctrl : event.control = true)
    (hb : Breaks s.lines s.text) (hv : validPos s.lines s.selEnd = true)
    (hvs : event.shift = true → validPos s.lines s.selStart = true)
    (hw : WordBefore env s.lines s.selEnd) :
    ∃ t a b, keyPressed env fuel event s = some t
      ∧ getSelectionEnd s = some a ∧ getSelectionEnd t = some b ∧ b < a
      ∧ AtWordStart env t.lines t.selEnd ∧ t.text = s.text ∧ t.lines = s.lines := by
  obtain ⟨q, hq, hqv, hqw⟩ := wordLeft_spec env s.lines (s.selEnd.y + 1) s.selEnd rfl hv
  obtain ⟨hlt, hws, l, hl, hlx⟩ := hqw hw
  obtain ⟨t, ht⟩ := finishMove_isSome env event q s hqv hvs
  obtain ⟨e1, e2, e3, _, _, _⟩ := finishMove_spec env event q s t ht
  obtain ⟨a, b, ha, hb2, hab⟩ := Breaks.index_lt hb hv hl hlx hlt
  refine ⟨t, a, b, ?_, ha, ?_, hab, ?_, e1, e2⟩
  · unfold keyPressed keyLeft
    rw [hcode]
    simp only [hctrl, if_true, hq]
    exact ht
  · unfold getSelectionEnd getIndexOfSelectionPos
    rw [e1, e2, e3]
    exact hb2
  · rw [e2, e3]
    exact hws

/-- Witness of C14: in "foo bar baz" with the caret at the end (index 11), control+Left puts
the caret at a smaller index, at a word start. -/
theorem ctrlLeft_lands_on_word_start_witness :
    WordBefore (refEnv 20 10 0) wordsTextBox.lines wordsTextBox.selEnd
      ∧ ∃ t a b, keyPressed (refEnv 20 10 0) 0 (ctrl Key.Left) wordsTextBox = some t
        ∧ getSelectionEnd wordsTextBox = some a ∧ getSelectionEnd t = some b ∧ b < a
        ∧ AtWordStart (refEnv 20 10 0) t.lines t.selEnd ∧ t.text = wordsTextBox.text
        ∧ t.lines = wordsTextBox.lines :=
  have hw : WordBefore (refEnv 20 10 0) wordsTextBox.lines wordsTextBox.selEnd :=
    ⟨0, 10, 'z', by decide, by decide, by decide⟩
  ⟨hw, ctrlLeft_lands_on_word_start (refEnv 20 10 0) 0 (ctrl Key.Left) wordsTextBox rfl rfl
    (breaks_splitLines "foo bar baz".toList) (by decide) (fun _ => by decide) hw⟩

/-! ## The navigation keys return -/

theorem wordRightScan_bound (env : Env) :
    ∀ (rest : List Char) (i : Nat) (b : Bool) (x : Nat) (b2 : Bool),
      wordRightScan env rest i b = (some x, b2) → i ≤ x ∧ x < i + rest.length := by
  intro rest
  induction rest with
  | nil =>
    intro i b x b2 h
    simp only [wordRightScan, Prod.mk.injEq] at h
    exact absurd h.1 (by simp)
  | cons c rest ih =>
    intro i b x b2 h
    unfold wordRightScan at h
    have key : ∀ b3, wordRightScan env rest (i + 1) b3 = (some x, b2) →
        i ≤ x ∧ x < i + (c :: rest).length := by
      intro b3 h3
      have := ih (i + 1) b3 x b2 h3
      simp only [List.length_cons]
      omega
    split at h
    · split at h
      · simp only [Prod.mk.injEq, Option.some.injEq] at h
        simp only [List.length_cons]
        omega
      · exact key _ h
    · split at h
      · exact key _ h
      · exact key _ h

theorem wordRight_valid (env : Env) (lines : List (List Char)) :
    ∀ (n : Nat) (p : Vector2) (b : Bool), validPos lines p = true →
      ∃ q, wordRight env lines n p b = some q ∧ validPos lines q = true := by
  intro n
  induction n with
  | zero =>
    intro p b hv
    exact ⟨p, rfl, hv⟩
  | succ n ih =>
    intro p b hv
    obtain ⟨row, hrow, hx⟩ := (validPos_iff lines p).1 hv
    unfold wordRight
    simp only [hrow]
    rcases hscan : wordRightScan env (row.drop p.x) p.x b with ⟨_ | x, _ | _⟩
    · simp only
      split
      · rename_i hlt
        obtain ⟨next, hnext⟩ : ∃ next, lines[p.y + 1]? = some next :=
          ⟨lines[p.y + 1], List.getElem?_eq_getElem hlt⟩
        exact ih _ false ((validPos_iff _ _).2 ⟨next, hnext, Nat.zero_le _⟩)
      · exact ih p false hv
    · exact ⟨_, rfl, (validPos_iff _ _).2 ⟨row, hrow, le_refl _⟩⟩
    · have := wordRightScan_bound env _ _ _ _ _ hscan
      rw [List.length_drop] at this
      exact ⟨_, rfl, (validPos_iff _ _).2 ⟨row, hrow, by show x ≤ _; omega⟩⟩
    · have := wordRightScan_bound env _ _ _ _ _ hscan
      rw [List.length_drop] at this
      exact ⟨_, rfl, (validPos_iff _ _).2 ⟨row, hrow, by show x ≤ _; omega⟩⟩

theorem findCaretColumn_le (env : Env) (x2 : Int) :
    ∀ (rest : List Char) (i : Nat) (width : Int) (prevChar : Char),
      findCaretColumn env x2 rest i width prevChar ≤ i + rest.length := by
  intro rest
  induction rest with
  | nil =>
    intro i width prevChar
    simp [findCaretColumn]
  | cons c rest ih =>
    intro i width prevChar
    simp only [findCaretColumn, List.length_cons]
    generalize (if c = '\t' then env.advance ' ' * 4 else env.advance c) = cw
    by_cases h1 : 2 * (width + cw + env.kerning prevChar c) ≤ x2
    · rw [if_pos h1]
      have := ih (i + 1) (width + cw + env.kerning prevChar c) c
      omega
    · rw [if_neg h1]
      split <;> omega

theorem validPos_zero {lines : List (List Char)} (h : lines ≠ []) :
    validPos lines (Vector2.mk 0 0) = true := by
  cases lines with
  | nil => exact absurd rfl h
  | cons l ls => exact (validPos_iff _ _).2 ⟨l, by simp, Nat.zero_le _⟩

theorem findCaretPosition_valid (env : Env) (s : TextBox) (hne : s.lines ≠ [])
    (position2 : Int × Int) :
    ∃ q, findCaretPosition env s position2 = some q ∧ validPos s.lines q = true := by
  have hlast : ∃ q, (if s.lines = [] then none else some (endOfLines s.lines)) = some q
      ∧ validPos s.lines q = true := by
    rw [if_neg hne]
    exact ⟨_, rfl, validPos_endOfLines hne⟩
  unfold findCaretPosition
  simp only
  generalize (if env.isShown s.verticalScrollbar = true then
      position2.2 - 2 * (env.bordersTop + env.paddingTop) + 2 * (s.verticalScrollbar.value : Int)
    else position2.2 - 2 * (env.bordersTop + env.paddingTop)) = y2
  by_cases h0 : s.lineHeight = 0 ∨ s.hasFont = false
  · rw [if_pos h0]
    exact hlast
  · rw [if_neg h0]
    by_cases h1 : y2 < 0
    · rw [if_pos h1]
      exact ⟨_, rfl, validPos_zero hne⟩
    · rw [if_neg h1]
      by_cases h2 : (y2 / (2 * (s.lineHeight : Int))).toNat + 1 > s.lines.length
      · rw [if_pos h2]
        exact hlast
      · rw [if_neg h2]
        obtain ⟨row, hrow⟩ : ∃ row, s.lines[(y2 / (2 * (s.lineHeight : Int))).toNat]? = some row :=
          ⟨s.lines[(y2 / (2 * (s.lineHeight : Int))).toNat], List.getElem?_eq_getElem (by omega)⟩
        rw [hrow]
        refine ⟨_, rfl, (validPos_iff _ _).2 ⟨row, hrow, ?_⟩⟩
        have := findCaretColumn_le env
          (position2.1 - 2 * (env.bordersLeft + env.paddingLeft)) row 0
          (env.textOffset - (s.horizontalScrollbar.value : Int)) (Char.ofNat 0)
        simpa using this

/-- Every navigation key ends in `finishMove` at some position. -/
theorem navKey_finishMove (env : Env) (fuel : Nat) (event : KeyEvent) (s t : TextBox)
    (hnav : event.code ∈ [Key.Up, Key.Down, Key.Left, Key.Right, Key.Home, Key.End,
      Key.PageUp, Key.PageDown])
    (h : keyPressed env fuel event s = some t) : ∃ p, finishMove env event p s = some t := by
  simp only [List.mem_cons, List.mem_singleton, List.not_mem_nil, or_false] at hnav
  unfold keyPressed at h
  rcases hnav with hc | hc | hc | hc | hc | hc | hc | hc <;> rw [hc] at h <;> simp only at h
  · unfold keyUp at h
    split at h
    · cases h
    · exact ⟨_, h⟩
  · unfold keyDown at h
    split at h
    · cases h
    · exact ⟨_, h⟩
  · unfold keyLeft at h
    simp only at h
    split at h
    · cases h
    · exact ⟨_, h⟩
  · unfold keyRight at h
    simp only at h
    split at h
    · cases h
    · exact ⟨_, h⟩
  · unfold keyHome at h
    split at h
    · exact ⟨_, h⟩
    · exact ⟨_, h⟩
  · unfold keyEnd at h
    split at h
    · split at h
      · cases h
      · exact ⟨_, h⟩
    · split at h
      · cases h
      · exact ⟨_, h⟩
  · unfold keyPageUp at h
    exact ⟨_, h⟩
  · unfold keyPageDown at h
    split at h
    · cases h
    · exact ⟨_, h⟩

theorem lines_ne_nil_of_validPos {lines : List (List Char)} {p : Vector2}
    (h : validPos lines p = true) : lines ≠ [] := by
  obtain ⟨row, hrow, _⟩ := (validPos_iff lines p).1 h
  intro hnil
  rw [hnil] at hrow
  simp at hrow

/-- The navigation keys return when the selection endpoints are inside the lines and, for
PageUp and PageDown, the row they compute exists. -/
theorem navKey_isSome (env : Env) (fuel : Nat) (event : KeyEvent) (s : TextBox)
    (hnav : event.code ∈ [Key.Up, Key.Down, Key.Left, Key.Right, Key.Home, Key.End,
      Key.PageUp, Key.PageDown])
    (hv1 : validPos s.lines s.selStart = true) (hv2 : validPos s.lines s.selEnd = true)
    (hup : event.code = Key.PageUp → pageUpLine env s < s.lines.length)
    (hdown : event.code = Key.PageDown → pageDownLine env s < s.lines.length) :
    ∃ t, keyPressed env fuel event s = some t := by
  have hne : s.lines ≠ [] := lines_ne_nil_of_validPos hv2
  obtain ⟨row, hrow, hx⟩ := (validPos_iff s.lines s.selEnd).1 hv2
  have hylt : s.selEnd.y < s.lines.length := (List.getElem?_eq_some_iff.1 hrow).1
  have fin : ∀ p, validPos s.lines p = true → ∃ t, finishMove env event p s = some t :=
    fun p hp => finishMove_isSome env event p s hp (fun _ => hv1)
  simp only [List.mem_cons, List.mem_singleton, List.not_mem_nil, or_false] at hnav
  unfold keyPressed
  rcases hnav with hc | hc | hc | hc | hc | hc | hc | hc <;> rw [hc] <;> simp only
  · unfold keyUp
    obtain ⟨q, hq, hqv⟩ := findCaretPosition_valid env s hne
      (2 * s.caretPosition.1,
       2 * s.caretPosition.2 - (s.lineHeight : Int) - 2 * (s.verticalScrollbar.value : Int))
    rw [hq]
    exact fin q hqv
  · unfold keyDown
    obtain ⟨q, hq, hqv⟩ := findCaretPosition_valid env s hne
      (2 * s.caretPosition.1,
       2 * s.caretPosition.2 + 3 * (s.lineHeight : Int) - 2 * (s.verticalScrollbar.value : Int))
    rw [hq]
    exact fin q hqv
  · unfold keyLeft
    simp only
    by_cases hctrl : event.control = true
    · obtain ⟨q, hq, hqv, _⟩ := wordLeft_spec env s.lines (s.selEnd.y + 1) s.selEnd rfl hv2
      rw [if_pos hctrl, hq]
      exact fin q hqv
    · rw [if_neg hctrl]
      by_cases hA : s.selStart ≠ s.selEnd ∧ (!event.shift) = true
      · rw [if_pos hA]
        by_cases hB : s.selStart.y < s.selEnd.y
            ∨ (s.selStart.y = s.selEnd.y ∧ s.selStart.x < s.selEnd.x)
        · rw [if_pos hB]
          exact fin _ hv1
        · rw [if_neg hB]
          exact fin _ hv2
      · rw [if_neg hA]
        by_cases hC : s.selEnd.x > 0
        · rw [if_pos hC]
          exact fin _ ((validPos_iff _ _).2 ⟨row, hrow, by show s.selEnd.x - 1 ≤ _; omega⟩)
        · rw [if_neg hC]
          by_cases hD : s.selEnd.y > 0
          · obtain ⟨above, habove⟩ : ∃ above, s.lines[s.selEnd.y - 1]? = some above :=
              ⟨s.lines[s.selEnd.y - 1], List.getElem?_eq_getElem (by omega)⟩
            rw [if_pos hD, habove]
            exact fin _ ((validPos_iff _ _).2 ⟨above, habove, le_refl _⟩)
          · rw [if_neg hD]
            exact fin _ hv2
  · unfold keyRight
    simp only
    by_cases hctrl : event.control = true
    · obtain ⟨q, hq, hqv⟩ := wordRight_valid env s.lines (s.lines.length - s.selEnd.y) s.selEnd
        false hv2
      rw [if_pos hctrl, hq]
      exact fin q hqv
    · rw [if_neg hctrl]
      by_cases hA : s.selStart ≠ s.selEnd ∧ (!event.shift) = true
      · rw [if_pos hA]
        by_cases hB : s.selStart.y > s.selEnd.y
            ∨ (s.selStart.y = s.selEnd.y ∧ s.selStart.x > s.selEnd.x)
        · rw [if_pos hB]
          exact fin _ hv1
        · rw [if_neg hB]
          exact fin _ hv2
      · rw [if_neg hA, hrow]
        simp only
        by_cases hC : s.selEnd.x = row.length
        · rw [if_pos hC]
          by_cases hD : s.selEnd.y + 1 < s.lines.length
          · obtain ⟨next, hnext⟩ : ∃ next, s.lines[s.selEnd.y + 1]? = some next :=
              ⟨s.lines[s.selEnd.y + 1], List.getElem?_eq_getElem hD⟩
            rw [if_pos hD]
            exact fin _ ((validPos_iff _ _).2 ⟨next, hnext, Nat.zero_le _⟩)
          · rw [if_neg hD]
            exact fin _ hv2
        · rw [if_neg hC]
          exact fin _ ((validPos_iff _ _).2 ⟨row, hrow, by show s.selEnd.x + 1 ≤ _; omega⟩)
  · unfold keyHome
    split
    · exact fin _ (validPos_zero hne)
    · exact fin _ ((validPos_iff _ _).2 ⟨row, hrow, Nat.zero_le _⟩)
  · unfold keyEnd
    by_cases hctrl : event.control = true
    · rw [if_pos hctrl, if_neg hne]
      exact fin _ (validPos_endOfLines hne)
    · rw [if_neg hctrl, hrow]
      exact fin _ ((validPos_iff _ _).2 ⟨row, hrow, le_refl _⟩)
  · unfold keyPageUp
    obtain ⟨r, hr⟩ : ∃ r, s.lines[pageUpLine env s]? = some r :=
      ⟨s.lines.get ⟨pageUpLine env s, hup hc⟩, List.getElem?_eq_getElem (hup hc)⟩
    exact fin _ ((validPos_iff _ _).2 ⟨r, hr, Nat.zero_le _⟩)
  · unfold keyPageDown
    obtain ⟨r, hr⟩ : ∃ r, s.lines[pageDownLine env s]? = some r :=
      ⟨s.lines.get ⟨pageDownLine env s, hdown hc⟩, List.getElem?_eq_getElem (hdown hc)⟩
    rw [hr]
    exact fin _ ((validPos_iff _ _).2 ⟨r, hr, le_refl _⟩)

/-! ## Notifications of `setCaretPosition` and `setSelectedText` -/

/-- The selection frame of the navigation keys where the key press returns.  For each of the
keys Up, Down, Left, Right, Home, End, PageUp and PageDown, with or without control: in every
state the key press returns, the text is unchanged, without shift `selStart = selEnd`, and with
shift `selStart` is what it was.  The key press returns when the two selection endpoints are
inside the lines and, for PageUp and PageDown, the row these keys compute exists (which it does
not always for PageDown). -/
theorem navigation_keys_frame (env : Env) (fuel : Nat) (event : KeyEvent) (s : TextBox)
    (hnav : event.code ∈ [Key.Up, Key.Down, Key.Left, Key.Right, Key.Home, Key.End,
      Key.PageUp, Key.PageDown]) :
    (∀ t, keyPressed env fuel event s = some t →
        t.text = s.text ∧ (event.shift = false → t.selStart = t.selEnd)
          ∧ (event.shift = true → t.selStart = s.selStart))
      ∧ (validPos s.lines s.selStart = true → validPos s.lines s.selEnd = true →
          (event.code = Key.PageUp → pageUpLine env s < s.lines.length) →
          (event.code = Key.PageDown → pageDownLine env s < s.lines.length) →
          ∃ t, keyPressed env fuel event s = some t) := by
  constructor
  · intro t ht
    obtain ⟨p, hp⟩ := navKey_finishMove env fuel event s t hnav ht
    obtain ⟨e1, _, e3, e4, e5, _⟩ := finishMove_spec env event p s t hp
    exact ⟨e1, fun h => by rw [e4 h, e3], e5⟩
  · intro hv1 hv2 hup hdown
    exact navKey_isSome env fuel event s hnav hv1 hv2 hup hdown

/-- Example of the selection frame: in the wrapped text "aaabbb", newline, "ccc" with the caret
at the end, shift+Left returns a state with the same text and the same `selStart`, and PageUp
one with `selStart = selEnd`. -/
theorem navigation_keys_frame_example :
    (∃ t, keyPressed (refEnv 3 10 0) 0 (shift Key.Left) wrappedTextBox = some t
        ∧ t.text = wrappedTextBox.text ∧ t.selStart = wrappedTextBox.selStart)
      ∧ (∃ t, keyPressed (refEnv 3 10 0) 0 (plain Key.PageUp) wrappedTextBox = some t
        ∧ t.text = wrappedTextBox.text ∧ t.selStart = t.selEnd) := by
  have h1 := navigation_keys_frame (refEnv 3 10 0) 0 (shift Key.Left) wrappedTextBox (by decide)
  have h2 := navigation_keys_frame (refEnv 3 10 0) 0 (plain Key.PageUp) wrappedTextBox (by decide)
  obtain ⟨t, ht⟩ := h1.2 (by decide) (by decide) (fun h => absurd h (by decide))
    (fun h => absurd h (by decide))
  obtain ⟨u, hu⟩ := h2.2 (by decide) (by decide) (fun _ => by decide)
    (fun h => absurd h (by decide))
  exact ⟨⟨t, ht, (h1.1 t ht).1, (h1.1 t ht).2.2 rfl⟩, ⟨u, hu, (h2.1 u hu).1, (h2.1 u hu).2.1 rfl⟩⟩

/-- C17, amended: `setCaretPosition` clamps and collapses.  In a text box whose lines are a
line breaking of its text (as `rearrangeText` leaves them when it does not return early),
`setCaretPosition n` returns a state with `selStart = selEnd`, whose character index is the
smaller of `n` and the length of the text, and whose row exists and is at least as long as the
column; text and lines are unchanged. -/
theorem setCaretPosition_clamps (env : Env) (s : TextBox) (hb : Breaks s.lines s.text)
    (n : Nat) :
    ∃ t, setCaretPosition env n s = some t
      ∧ t.selStart = t.selEnd
      ∧ getSelectionStart t = some (min n s.text.length)
      ∧ getSelectionEnd t = some (min n s.text.length)
      ∧ t.selEnd.y < t.lines.length
      ∧ (∃ row, t.lines[t.selEnd.y]? = some row ∧ t.selEnd.x ≤ row.length)
      ∧ t.text = s.text ∧ t.lines = s.lines := by
  obtain ⟨t, ht, h1, h2, h3, h4, h5, h6, _, _⟩ := setCaretPosition_spec env s hb n
  obtain ⟨row, hrow, hx⟩ := (validPos_iff t.lines t.selEnd).1 h4
  exact ⟨t, ht, h3, h1, h2, (List.getElem?_eq_some_iff.1 hrow).1, ⟨row, hrow, hx⟩, h5, h6⟩

/-- Witness of C17: in the wrapped text "aaabbb", newline, "ccc" (ten characters),
`setCaretPosition 100` puts the collapsed caret at index 10 and `setCaretPosition 3` at
index 3. -/
theorem setCaretPosition_clamps_witness :
    (∃ t, setCaretPosition (refEnv 3 10 0) 100 wrappedTextBox = some t
        ∧ t.selStart = t.selEnd ∧ getSelectionEnd t = some 10)
      ∧ (∃ t, setCaretPosition (refEnv 3 10 0) 3 wrappedTextBox = some t
        ∧ t.selStart = t.selEnd ∧ getSelectionEnd t = some 3) := by
  have hb : Breaks wrappedTextBox.lines wrappedTextBox.text :=
    goodWrap_refEnv 3 10 0 3 "aaabbb\nccc".toList
  obtain ⟨t, ht, h1, _, h3, _⟩ := setCaretPosition_clamps (refEnv 3 10 0) wrappedTextBox hb 100
  obtain ⟨u, hu, g1, _, g3, _⟩ := setCaretPosition_clamps (refEnv 3 10 0) wrappedTextBox hb 3
  exact ⟨⟨t, ht, h1, h3⟩, ⟨u, hu, g1, g3⟩⟩

theorem findIndexFrom_mono (text : List Char) (ls : List (List Char)) (k : Nat) :
    ∀ (d y r r2 : Nat), findIndexFrom text ls y k = some r →
      findIndexFrom text ls (y + d) k = some r2 → r ≤ r2 := by
  intro d y r r2 hr h2
  cases d with
  | zero =>
    rw [Nat.add_zero, hr] at h2
    cases h2
    exact le_refl _
  | succ d =>
    have hy : y < ls.length := by
      by_contra hcon
      have hnone : ls[y]? = none := List.getElem?_eq_none_iff.2 (by omega)
      have key : ∀ e, findIndexFrom text ls (y + 1 + e) k = none := by
        intro e
        induction e with
        | zero => rw [Nat.add_zero, findIndexFrom_succ, hr, hnone]; rfl
        | succ e ih =>
          rw [show y + 1 + (e + 1) = (y + 1 + e) + 1 from by omega, findIndexFrom_succ, ih]
          rfl
      rw [show y + (d + 1) = y + 1 + d from by omega, key d] at h2
      cases h2
    obtain ⟨row, hrow⟩ : ∃ row, ls[y]? = some row := ⟨ls[y], List.getElem?_eq_getElem hy⟩
    rw [show y + (d + 1) = y + 1 + d from by omega] at h2
    have := findIndexFrom_step text ls k d y r r2 row hr hrow h2
    omega

/-- In lines that break the text, the only position with the index 0 is the start of the
first row. -/
theorem Breaks.pos_of_index_zero {lines : List (List Char)} {text : List Char}
    (hb : Breaks lines text) {p : Vector2} (hp : validPos lines p = true)
    (h : (findIndexFrom text lines p.y 0).map (· + p.x) = some 0) : p = Vector2.mk 0 0 := by
  obtain ⟨row, hrow, hx⟩ := (validPos_iff lines p).1 hp
  have hpy : p.y < lines.length := (List.getElem?_eq_some_iff.1 hrow).1
  cases hr : findIndexFrom text lines p.y 0 with
  | none =>
    rw [hr] at h
    cases h
  | some r =>
    rw [hr] at h
    simp only [Option.map_some', Option.some.injEq] at h
    have hx0 : p.x = 0 := by omega
    have hr0 : r = 0 := by omega
    have hy0 : p.y = 0 := by
      by_contra hy
      obtain ⟨r0, l, r2, h0, hl, h2, _, _, hcase⟩ := Breaks.step_spec hb 0 (by omega)
      rw [findIndexFrom_zero] at h0
      cases h0
      have hmono := findIndexFrom_mono text lines 0 (p.y - 1) 1 r2 r
        (by simpa using h2) (by rw [show 1 + (p.y - 1) = p.y from by omega]; exact hr)
      rcases hcase with ⟨_, h3⟩ | ⟨hne, h3, _⟩
      · omega
      · have : 0 < l.length := List.length_pos.2 hne
        omega
    cases p with
    | mk px py =>
      simp only at hx0 hy0
      rw [hx0, hy0]

/-- In lines that break the text, the only position with the index of the end of the text is
the end of the last row. -/
theorem Breaks.pos_of_index_end {lines : List (List Char)} {text : List Char}
    (hb : Breaks lines text) {p : Vector2} (hp : validPos lines p = true)
    (h : (findIndexFrom text lines p.y 0).map (· + p.x) = some text.length) :
    p = endOfLines lines := by
  obtain ⟨row, hrow, hx⟩ := (validPos_iff lines p).1 hp
  have hpy : p.y < lines.length := (List.getElem?_eq_some_iff.1 hrow).1
  obtain ⟨r, l, hr, hl, _, hle, _, hcase⟩ := Breaks.line_spec hb p.y hpy
  rw [hrow] at hl
  cases hl
  rw [hr] at h
  simp only [Option.map_some', Option.some.injEq] at h
  have hlt : ∀ c, text[r + row.length]? = some c → r + row.length < text.length := by
    intro c hc
    exact (List.getElem?_eq_some_iff.1 hc).1
  rcases hcase with ⟨h1, _⟩ | ⟨h1, h2⟩ | ⟨_, _, c, h1, _⟩
  · have := hlt _ h1
    omega
  · have hy : p.y = lines.length - 1 := by omega
    have hxe : p.x = row.length := by omega
    unfold endOfLines
    cases p with
    | mk px py =>
      simp only at hy hxe hrow
      subst hy
      rw [List.getD_eq_getElem?_getD, hrow, hxe]
      rfl
  · have := hlt _ h1
    omega

/-! ## A reflow of a settled text box -/

/-- In a settled text box whose lines break its text, `rearrangeText` with `keepSelection`
takes one pass; it keeps text and lines, and leaves the selection alone (when it returns at
once) or places it by its indices. -/
theorem rearrangeText_settled (env : Env) (s : TextBox) (hset : Settled env s)
    (hb : Breaks s.lines s.text) (a b : Nat) (ha : getSelectionStart s = some a)
    (hbb : getSelectionEnd s = some b) (fuel : Nat) :
    ∃ t, rearrangeText env (fuel + 1) true s = some t ∧ t.text = s.text ∧ t.lines = s.lines
      ∧ ((t.selStart = s.selStart ∧ t.selEnd = s.selEnd)
          ∨ placeSelection s.text a b s.lines = some (t.selStart, t.selEnd)) := by
  rw [rearrangeText]
  by_cases hg : s.lineHeight = 0 ∨ s.hasFont = false
  · rw [if_pos hg]
    exact ⟨s, rfl, rfl, rfl, Or.inl ⟨rfl, rfl⟩⟩
  · rw [if_neg hg]
    cases hws : wrappedString env s with
    | none => exact ⟨s, rfl, rfl, rfl, Or.inl ⟨rfl, rfl⟩⟩
    | some string =>
      simp only
      rw [hset.1 string hws]
      obtain ⟨p, q, hpq, hv1, hv2, _⟩ := Breaks.place_spec hb a b
      have hns : newSelection true s s.lines = some (p, q) := by
        unfold newSelection
        simp only [if_true, ha, hbb]
        exact hpq
      rw [hns]
      simp only
      have hf := told_facts env s s.lines p q
      have hupd : ∀ u, SameDoc (tellScrollbars env (storeLines env s s.lines p q)) u →
          ∃ t, updateSelectionTexts env u = some t ∧ t.text = s.text ∧ t.lines = s.lines
            ∧ ((t.selStart = s.selStart ∧ t.selEnd = s.selEnd)
              ∨ placeSelection s.text a b s.lines = some (t.selStart, t.selEnd)) := by
        intro u hu
        have hsome : (updateSelectionTexts env u).isSome := by
          rw [updateSelectionTexts_isSome, hu.2.1, hu.2.2.1, hu.2.2.2.1, hf.2.1, hf.2.2.1,
            hf.2.2.2.1]
          exact ⟨hv1, hv2⟩
        obtain ⟨t, ht⟩ := Option.isSome_iff_exists.1 hsome
        obtain ⟨hd, _⟩ := updateSelectionTexts_sameDoc env u t ht
        refine ⟨t, ht, ?_, ?_, Or.inr ?_⟩
        · rw [hd.1, hu.1, hf.1]
        · rw [hd.2.1, hu.2.1, hf.2.1]
        · rw [hd.2.2.1, hd.2.2.2.1, hu.2.2.1, hu.2.2.2.1, hf.2.2.1, hf.2.2.2.1]
          exact hpq
      by_cases hpol : s.horizontalScrollbarPolicy = Policy.Never
      · rw [if_pos hpol]
        have heq : env.isShown (storeLines env s s.lines p q).verticalScrollbar
            = env.isShown
                (tellScrollbars env (storeLines env s s.lines p q)).verticalScrollbar :=
          (hset.2 hpol).symm
        rw [if_neg (by simpa using heq)]
        exact hupd _ (sameDoc_updateScrollbars env _)
      · rw [if_neg hpol]
        split
        · exact hupd _ (sameDoc_updateScrollbars env _)
        · exact hupd _ (sameDoc_refl _)

/-- The keys at the two ends of the text that do nothing.  In a text box whose lines break its
text, with a collapsed caret inside the lines: when the caret index is 0, the keys Left, Home
(with any modifiers, so also control+Left and control+Home) and BackSpace return a state with
the same text, `selStart` and `selEnd`; when the caret index is the length of the text, so do
Right and End (with any modifiers) and, in a settled text box, Delete. -/
theorem boundary_keys_settled (env : Env) (s : TextBox) (hb : Breaks s.lines s.text)
    (hcol : s.selStart = s.selEnd) (hv : validPos s.lines s.selEnd = true) :
    (getSelectionEnd s = some 0 →
        ∀ (fuel : Nat) (event : KeyEvent),
          (event.code = Key.Left ∨ event.code = Key.Home ∨ event.code = Key.BackSpace) →
          ∃ t, keyPressed env fuel event s = some t
            ∧ t.text = s.text ∧ t.selStart = s.selStart ∧ t.selEnd = s.selEnd)
      ∧ (getSelectionEnd s = some s.text.length →
          (∀ (fuel : Nat) (event : KeyEvent),
            (event.code = Key.Right ∨ event.code = Key.End) →
            ∃ t, keyPressed env fuel event s = some t
              ∧ t.text = s.text ∧ t.selStart = s.selStart ∧ t.selEnd = s.selEnd)
          ∧ (Settled env s → ∀ (fuel : Nat) (event : KeyEvent), event.code = Key.Delete →
            ∃ t, keyPressed env (fuel + 1) event s = some t
              ∧ t.text = s.text ∧ t.selStart = s.selStart ∧ t.selEnd = s.selEnd)) := by
  have stay : ∀ event : KeyEvent, ∃ t, finishMove env event s.selEnd s = some t
      ∧ t.text = s.text ∧ t.selStart = s.selStart ∧ t.selEnd = s.selEnd := by
    intro event
    obtain ⟨t, ht⟩ := finishMove_isSome env event s.selEnd s hv (fun _ => by rw [hcol]; exact hv)
    obtain ⟨e1, _, e3, e4, e5, _⟩ := finishMove_spec env event s.selEnd s t ht
    refine ⟨t, ht, e1, ?_, e3⟩
    cases hsh : event.shift
    · rw [e4 hsh, hcol]
    · exact e5 hsh
  obtain ⟨row, hrow, hx⟩ := (validPos_iff s.lines s.selEnd).1 hv
  have hylt : s.selEnd.y < s.lines.length := (List.getElem?_eq_some_iff.1 hrow).1
  have hne : s.lines ≠ [] := lines_ne_nil_of_validPos hv
  constructor
  · intro h0 fuel event hcode
    have hpos : s.selEnd = Vector2.mk 0 0 := Breaks.pos_of_index_zero hb hv h0
    have hx0 : s.selEnd.x = 0 := by rw [hpos]
    have hy0 : s.selEnd.y = 0 := by rw [hpos]
    unfold keyPressed
    rcases hcode with hc | hc | hc <;> rw [hc] <;> simp only
    · unfold keyLeft
      simp only
      by_cases hctrl : event.control = true
      · have hw : wordLeft env s.lines (s.selEnd.y + 1) s.selEnd false = some s.selEnd := by
          rw [hy0]
          unfold wordLeft
          simp only [hx0, if_true, hy0, gt_iff_lt, lt_self_iff_false, if_false]
          rfl
        rw [if_pos hctrl, hw]
        exact stay event
      · rw [if_neg hctrl, if_neg (fun h => h.1 hcol), if_neg (by omega), if_neg (by omega)]
        exact stay event
    · unfold keyHome
      have e1 : Vector2.mk 0 s.selEnd.y = s.selEnd := by rw [hy0, ← hpos]
      rw [e1, ← hpos]
      split
      · exact stay event
      · exact stay event
    · unfold keyBackSpace
      by_cases hro : s.readOnly = true
      · rw [if_pos hro]
        exact ⟨s, rfl, rfl, rfl, rfl⟩
      · rw [if_neg hro, if_pos hcol, h0]
        exact ⟨emitTextChange s, rfl, rfl, rfl, rfl⟩
  · intro hlen
    have hpos : s.selEnd = endOfLines s.lines := Breaks.pos_of_index_end hb hv hlen
    have hy : s.selEnd.y = s.lines.length - 1 := by rw [hpos]; rfl
    have hxe : s.selEnd.x = row.length := by
      have : (endOfLines s.lines).x = row.length := by
        unfold endOfLines
        simp only
        rw [← hy, List.getD_eq_getElem?_getD, hrow]
        rfl
      rw [hpos]
      exact this
    constructor
    · intro fuel event hcode
      unfold keyPressed
      rcases hcode with hc | hc <;> rw [hc] <;> simp only
      · unfold keyRight
        simp only
        by_cases hctrl : event.control = true
        · have hw : wordRight env s.lines (s.lines.length - s.selEnd.y) s.selEnd false
              = some s.selEnd := by
            rw [show s.lines.length - s.selEnd.y = 0 + 1 from by omega]
            unfold wordRight
            simp only [hrow, hxe, List.drop_length, wordRightScan]
            rw [if_neg (by omega)]
            rfl
          rw [if_pos hctrl, hw]
          exact stay event
        · rw [if_neg hctrl, if_neg (fun h => h.1 hcol), hrow]
          simp only
          rw [if_pos hxe, if_neg (by omega)]
          exact stay event
      · unfold keyEnd
        by_cases hctrl : event.control = true
        · rw [if_pos hctrl, if_neg hne, ← hpos]
          exact stay event
        · rw [if_neg hctrl, hrow]
          simp only
          have e1 : Vector2.mk row.length s.selEnd.y = s.selEnd := by
            rw [← hxe]
          rw [e1]
          exact stay event
    · intro hset fuel event hc
      unfold keyPressed
      rw [hc]
      simp only
      unfold keyDelete
      by_cases hro : s.readOnly = true
      · rw [if_pos hro]
        exact ⟨s, rfl, rfl, rfl, rfl⟩
      · rw [if_neg hro, if_pos hcol, hlen]
        simp only
        have herase : strErase s.text s.text.length 1 = some s.text := by
          unfold strErase
          rw [if_neg (by omega), List.take_length, List.drop_eq_nil_of_le (by omega),
            List.append_nil]
        rw [herase]
        simp only
        have hstart : getSelectionStart s = some s.text.length := by
          unfold getSelectionStart
          rw [hcol]
          exact hlen
        obtain ⟨t, ht, h1, h2, hsel⟩ :=
          rearrangeText_settled env s hset hb s.text.length s.text.length hstart hlen fuel
        have ht2 : rearrangeText env (fuel + 1) true { s with text := s.text } = some t := ht
        rw [ht2]
        refine ⟨emitTextChange t, rfl, h1, ?_⟩
        show t.selStart = s.selStart ∧ t.selEnd = s.selEnd
        rcases hsel with hsame | hplace
        · exact hsame
        · obtain ⟨p, q, hpq, hv1, hv2, _, hidx⟩ :=
            Breaks.place_spec hb s.text.length s.text.length
          rw [hplace] at hpq
          simp only [Option.some.injEq, Prod.mk.injEq] at hpq
          obtain ⟨i1, i2⟩ := hidx (le_refl _) (le_refl _)
          have e1 : p = endOfLines s.lines := Breaks.pos_of_index_end hb hv1 i1
          have e2 : q = endOfLines s.lines := Breaks.pos_of_index_end hb hv2 i2
          rw [hpq.1, hpq.2, e1, e2, hcol, hpos]
          exact ⟨rfl, rfl⟩

/-- Example of the keys at the two ends of the text: the wrapped text "aaabbb", newline, "ccc"
in the default configuration.  With the caret at index 0, control+Left and BackSpace change nothing; with the caret at the end
(index 10) of the settled text box, control+Right and Delete change nothing. -/
theorem boundary_keys_settled_example :
    getSelectionEnd homeTextBox = some 0
      ∧ (∃ t, keyPressed (refEnv 3 10 0) 0 (ctrl Key.Left) homeTextBox = some t
          ∧ t.text = homeTextBox.text ∧ t.selStart = homeTextBox.selStart
          ∧ t.selEnd = homeTextBox.selEnd)
      ∧ (∃ t, keyPressed (refEnv 3 10 0) 0 (plain Key.BackSpace) homeTextBox = some t
          ∧ t.text = homeTextBox.text ∧ t.selStart = homeTextBox.selStart
          ∧ t.selEnd = homeTextBox.selEnd)
      ∧ getSelectionEnd wrappedTextBox = some 10
      ∧ Settled (refEnv 3 10 0) wrappedTextBox
      ∧ (∃ t, keyPressed (refEnv 3 10 0) 0 (ctrl Key.Right) wrappedTextBox = some t
          ∧ t.text = wrappedTextBox.text ∧ t.selStart = wrappedTextBox.selStart
          ∧ t.selEnd = wrappedTextBox.selEnd)
      ∧ (∃ t, keyPressed (refEnv 3 10 0) 1 (plain Key.Delete) wrappedTextBox = some t
          ∧ t.text = wrappedTextBox.text ∧ t.selStart = wrappedTextBox.selStart
          ∧ t.selEnd = wrappedTextBox.selEnd) := by
  have hb1 : Breaks homeTextBox.lines homeTextBox.text :=
    goodWrap_refEnv 3 10 0 3 "aaabbb\nccc".toList
  have hb2 : Breaks wrappedTextBox.lines wrappedTextBox.text :=
    goodWrap_refEnv 3 10 0 3 "aaabbb\nccc".toList
  have hset : Settled (refEnv 3 10 0) wrappedTextBox := by
    refine ⟨?_, fun _ => by decide⟩
    intro string h
    have hw : wrappedString (refEnv 3 10 0) wrappedTextBox
        = some (wrapAt 3 "aaabbb\nccc".toList 0) := by decide
    rw [hw] at h
    cases h
    decide
  have h1 := (boundary_keys_settled (refEnv 3 10 0) homeTextBox hb1 (by decide)
    (by decide)).1 (by decide)
  have h2 := (boundary_keys_settled (refEnv 3 10 0) wrappedTextBox hb2 (by decide)
    (by decide)).2 (by decide)
  exact ⟨by decide, h1 0 (ctrl Key.Left) (Or.inl rfl),
    h1 0 (plain Key.BackSpace) (Or.inr (Or.inr rfl)), by decide, hset,
    h2.1 0 (ctrl Key.Right) (Or.inl rfl), h2.2 hset 0 (plain Key.Delete) rfl⟩

/-! ## Quoted strings -/

theorem unescape_escapeChar (c : Char) (rest : List Char) :
    unescape (escapeChar c ++ rest) = c :: unescape rest := by
  unfold escapeChar
  by_cases h1 : c = '\\'
  · subst h1
    rfl
  · by_cases h2 : c = '"'
    · subst h2
      rfl
    · by_cases h3 : c = '\n'
      · subst h3
        rfl
      · by_cases h4 : c = '\t'
        · subst h4
          rfl
        · by_cases h5 : c = Char.ofNat 11
          · subst h5
            rfl
          · rw [if_neg h1, if_neg h2, if_neg h3, if_neg h4, if_neg h5]
            show unescape (c :: rest) = c :: unescape rest
            conv_lhs => unfold unescape
            rw [if_neg h1]

theorem unescape_escape (s : List Char) : unescape (escape s) = s := by
  induction s with
  | nil => rfl
  | cons c s ih =>
    show unescape (escapeChar c ++ escape s) = c :: s
    rw [unescape_escapeChar, ih]

theorem deserializeString_quoted (s : List Char) : deserializeString (quoted s) = unescape s := by
  unfold deserializeString quoted
  have h1 : ('"' :: s ++ ['"']).length ≥ 2 := by simp
  have h2 : ('"' :: s ++ ['"']).getLast? = some '"' := by
    rw [List.getLast?_concat]
  rw [if_pos ⟨h1, rfl, h2⟩]
  congr 1
  simp

/-- C25: the round trip of strings.  For every string `s`, `deserializeString` of the escaped
string in double quotes is `s` (a backslash in front of a backslash and of a double quote, and
`\n`, `\t`, `\v` for newline, tab and vertical tab); and a value that is not both at least two
characters long and wrapped in double quotes is returned unchanged. -/
theorem deserializeString_roundtrip :
    (∀ s : List Char, deserializeString (quoted (escape s)) = s)
      ∧ (∀ value : List Char,
          ¬ (value.length ≥ 2 ∧ value.head? = some '"' ∧ value.getLast? = some '"') →
          deserializeString value = value) := by
  constructor
  · intro s
    rw [deserializeString_quoted, unescape_escape]
  · intro value h
    unfold deserializeString
    rw [if_neg h]

/-- Witness of C25: a string with a backslash, a double quote, a newline, a tab and a vertical
tab comes back from its escaped form in quotes; a lone double quote and a bare word are
returned unchanged. -/
theorem deserializeString_roundtrip_witness :
    escape ['a', '\\', '"', '\n', '\t', Char.ofNat 11, 'b']
        = "a\\\\\\\"\\n\\t\\vb".toList
      ∧ deserializeString ('"' :: "a\\\\\\\"\\n\\t\\vb".toList ++ ['"'])
        = ['a', '\\', '"', '\n', '\t', Char.ofNat 11, 'b']
      ∧ deserializeString ['"'] = ['"']
      ∧ deserializeString "abc".toList = "abc".toList :=
  ⟨by decide, deserializeString_roundtrip.1 ['a', '\\', '"', '\n', '\t', Char.ofNat 11, 'b'],
    deserializeString_roundtrip.2 ['"'] (by decide),
    deserializeString_roundtrip.2 "abc".toList (by decide)⟩

/-! ## Segments between delimiters -/

theorem segments_ne_nil (d : Char) (s : List Char) : segments d s ≠ [] := by
  cases s with
  | nil => simp [segments]
  | cons c cs =>
    unfold segments
    split
    · simp
    · split <;> simp

theorem length_segments (d : Char) (s : List Char) : (segments d s).length = s.count d + 1 := by
  induction s with
  | nil => simp [segments]
  | cons c cs ih =>
    unfold segments
    by_cases hc : c = d
    · subst hc
      rw [if_pos rfl, List.length_cons, ih, List.count_cons_self]
    · rw [if_neg hc]
      have hcount : (c :: cs).count d = cs.count d := by
        rw [List.count_cons_of_ne (fun h => hc h.symm)]
      rw [hcount, ← ih]
      split
      · rename_i h
        exact absurd h (segments_ne_nil d cs)
      · rename_i l ls h
        rw [h]
        rfl

theorem length_split (lib : StringLib) (s : List Char) (d : Char) :
    (split lib s d).length = s.count d + 1 := by
  unfold split
  rw [List.length_map, length_segments]

/-- The segments of a string without the delimiter: the string itself. -/
theorem segments_of_not_mem (d : Char) (s : List Char) (h : d ∉ s) : segments d s = [s] := by
  induction s with
  | nil => rfl
  | cons c cs ih =>
    have hc : c ≠ d := fun hcd => h (by rw [hcd]; exact List.mem_cons_self _ _)
    have hcs : d ∉ cs := fun hm => h (List.mem_cons_of_mem _ hm)
    unfold segments
    rw [if_neg hc, ih hcs]

/-- The segments of `t`, the delimiter and `rest`, when `t` is without the delimiter: `t` in
front of the segments of `rest`. -/
theorem segments_append (d : Char) (t rest : List Char) (h : d ∉ t) :
    segments d (t ++ d :: rest) = t :: segments d rest := by
  induction t with
  | nil =>
    show segments d (d :: rest) = _
    conv_lhs => unfold segments
    rw [if_pos rfl]
  | cons c cs ih =>
    have hc : c ≠ d := fun hcd => h (by rw [hcd]; exact List.mem_cons_self _ _)
    have hcs : d ∉ cs := fun hm => h (List.mem_cons_of_mem _ hm)
    show segments d (c :: (cs ++ d :: rest)) = _
    conv_lhs => unfold segments
    rw [if_neg hc, ih hcs]

/-- C26: the token counts of an outline.  Let `core` be the trimmed value without one pair of
round or curly brackets around it, and let it not be empty.  When `core` has one
comma-separated segment, the outline has its trimmed value on all four sides; when it has two,
left and right are the first and top and bottom the second; when it has four, they are left,
top, right and bottom in that order. -/
theorem outline_token_counts (lib : StringLib) (value : List Char)
    (h1 : lib.trim value ≠ []) (h2 : stripOutlineBrackets (lib.trim value) ≠ []) :
    (∀ t, segments ',' (stripOutlineBrackets (lib.trim value)) = [t] →
        deserializeOutline lib value
          = some { left := lib.toOutlineValue (lib.trim t), top := lib.toOutlineValue (lib.trim t),
                   right := lib.toOutlineValue (lib.trim t),
                   bottom := lib.toOutlineValue (lib.trim t) })
      ∧ (∀ h v, segments ',' (stripOutlineBrackets (lib.trim value)) = [h, v] →
        deserializeOutline lib value
          = some { left := lib.toOutlineValue (lib.trim h), top := lib.toOutlineValue (lib.trim v),
                   right := lib.toOutlineValue (lib.trim h),
                   bottom := lib.toOutlineValue (lib.trim v) })
      ∧ (∀ a b c d, segments ',' (stripOutlineBrackets (lib.trim value)) = [a, b, c, d] →
        deserializeOutline lib value
          = some { left := lib.toOutlineValue (lib.trim a), top := lib.toOutlineValue (lib.trim b),
                   right := lib.toOutlineValue (lib.trim c),
                   bottom := lib.toOutlineValue (lib.trim d) }) := by
  refine ⟨?_, ?_, ?_⟩
  · intro t ht
    unfold deserializeOutline
    simp only [if_neg h1, if_neg h2, split, ht, List.map_cons, List.map_nil]
    rfl
  · intro h v ht
    unfold deserializeOutline
    simp only [if_neg h1, if_neg h2, split, ht, List.map_cons, List.map_nil]
    rfl
  · intro a b c d ht
    unfold deserializeOutline
    simp only [if_neg h1, if_neg h2, split, ht, List.map_cons, List.map_nil]

/-- Witness of C26: with the reference string library, "5" gives the outline (5, 5, 5, 5),
"(2, 4)" gives left 2, top 4, right 2, bottom 4, and "(1,2,3,4)" gives (1, 2, 3, 4). -/
theorem outline_token_counts_witness :
    deserializeOutline refLib "5".toList = some { left := 5, top := 5, right := 5, bottom := 5 }
      ∧ deserializeOutline refLib "(2, 4)".toList
        = some { left := 2, top := 4, right := 2, bottom := 4 }
      ∧ deserializeOutline refLib "(1,2,3,4)".toList
        = some { left := 1, top := 2, right := 3, bottom := 4 } :=
  ⟨(outline_token_counts refLib "5".toList (by decide) (by decide)).1 "5".toList (by decide),
    (outline_token_counts refLib "(2, 4)".toList (by decide) (by decide)).2.1
      "2".toList " 4".toList (by decide),
    (outline_token_counts refLib "(1,2,3,4)".toList (by decide) (by decide)).2.2
      "1".toList "2".toList "3".toList "4".toList (by decide)⟩

/-- C27, counterexample: the empty string and a string of two spaces do not give the all-zero
outline; `deserializeOutline` throws for them ("String was empty"). -/
theorem outline_of_empty_string_throws :
    deserializeOutline refLib "".toList = none
      ∧ deserializeOutline refLib "  ".toList = none
      ∧ refLib.trim "  ".toList = [] := by
  decide

/-- C27, amended: an outline without tokens.  When the trimmed value is not empty and is empty
once one pair of round or curly brackets around it is removed, as for "()" and "{}",
`deserializeOutline` returns the all-zero outline; when the trimmed value is empty, it
throws. -/
theorem outline_without_tokens (lib : StringLib) (value : List Char) :
    (lib.trim value ≠ [] → stripOutlineBrackets (lib.trim value) = [] →
        deserializeOutline lib value = some { left := 0, top := 0, right := 0, bottom := 0 })
      ∧ (lib.trim value = "()".toList ∨ lib.trim value = "{}".toList →
        deserializeOutline lib value = some { left := 0, top := 0, right := 0, bottom := 0 })
      ∧ (lib.trim value = [] → deserializeOutline lib value = none) := by
  have key : lib.trim value ≠ [] → stripOutlineBrackets (lib.trim value) = [] →
      deserializeOutline lib value = some { left := 0, top := 0, right := 0, bottom := 0 } := by
    intro h1 h2
    unfold deserializeOutline
    simp only [if_neg h1, h2, if_true]
    rfl
  refine ⟨key, ?_, ?_⟩
  · rintro (h | h)
    · exact key (by rw [h]; decide) (by rw [h]; decide)
    · exact key (by rw [h]; decide) (by rw [h]; decide)
  · intro h
    unfold deserializeOutline
    simp only [h, if_true]

/-- Witness of C27: with the reference string library, "()", "{}" and " () " give the all-zero
outline. -/
theorem outline_without_tokens_witness :
    deserializeOutline refLib "()".toList = some { left := 0, top := 0, right := 0, bottom := 0 }
      ∧ deserializeOutline refLib "{}".toList
        = some { left := 0, top := 0, right := 0, bottom := 0 }
      ∧ deserializeOutline refLib " () ".toList
        = some { left := 0, top := 0, right := 0, bottom := 0 } :=
  ⟨(outline_without_tokens refLib "()".toList).2.1 (Or.inl (by decide)),
    (outline_without_tokens refLib "{}".toList).2.1 (Or.inr (by decide)),
    (outline_without_tokens refLib " () ".toList).1 (by decide) (by decide)⟩

/-- C28: the arity errors of an outline.  When the trimmed value without one pair of round or
curly brackets around it has exactly two commas or at least four commas (three tokens, or five
and more), `deserializeOutline` throws. -/
theorem outline_arity_errors (lib : StringLib) (value : List Char)
    (h : (stripOutlineBrackets (lib.trim value)).count ',' = 2
      ∨ 4 ≤ (stripOutlineBrackets (lib.trim value)).count ',') :
    deserializeOutline lib value = none := by
  unfold deserializeOutline
  simp only
  by_cases h1 : lib.trim value = []
  · rw [if_pos h1]
  · rw [if_neg h1]
    have h2 : stripOutlineBrackets (lib.trim value) ≠ [] := by
      intro h0
      rw [h0] at h
      simp at h
    rw [if_neg h2]
    have hlen := length_split lib (stripOutlineBrackets (lib.trim value)) ','
    split
    · rename_i t0 heq
      rw [heq] at hlen
      simp only [List.length_cons, List.length_nil] at hlen
      omega
    · rename_i t0 t1 heq
      rw [heq] at hlen
      simp only [List.length_cons, List.length_nil] at hlen
      omega
    · rename_i t0 t1 t2 t3 heq
      rw [heq] at hlen
      simp only [List.length_cons, List.length_nil] at hlen
      omega
    · rfl

/-- Witness of C28: with the reference string library, "1,2,3" (two commas) and
"(1,2,3,4,5)" (four commas) make `deserializeOutline` throw. -/
theorem outline_arity_errors_witness :
    deserializeOutline refLib "1,2,3".toList = none
      ∧ deserializeOutline refLib "(1,2,3,4,5)".toList = none :=
  ⟨outline_arity_errors refLib "1,2,3".toList (Or.inl (by decide)),
    outline_arity_errors refLib "(1,2,3,4,5)".toList (Or.inr (by decide))⟩

/-! ## Trimming and lower case -/

theorem dropWhile_spaces_append (k : Nat) (x : List Char) :
    (spaces k ++ x).dropWhile isSpaceChar = x.dropWhile isSpaceChar := by
  induction k with
  | zero => rfl
  | succ k ih =>
    show ((' ' :: spaces k) ++ x).dropWhile isSpaceChar = _
    rw [List.cons_append, List.dropWhile_cons_of_pos (by decide)]
    exact ih

theorem dropWhile_of_head {x : List Char} (h : x.head?.map isSpaceChar = some false) :
    x.dropWhile isSpaceChar = x := by
  cases x with
  | nil => simp at h
  | cons c cs =>
    simp only [List.head?_cons, Option.map_some', Option.some.injEq] at h
    rw [List.dropWhile_cons_of_neg (by rw [h]; decide)]

theorem reverse_spaces (k : Nat) : (spaces k).reverse = spaces k := by
  unfold spaces
  rw [List.reverse_replicate]

theorem head?_reverse_map {x : List Char} (f : Char → Bool) :
    x.reverse.head?.map f = x.getLast?.map f := by
  rw [List.head?_reverse]

/-- Trimming removes the spaces around a string that starts and ends with a character that is
not white space. -/
theorem refTrim_padded (l r : Nat) (core : List Char)
    (hh : core.head?.map isSpaceChar = some false)
    (hl : core.getLast?.map isSpaceChar = some false) :
    refTrim (padded l r core) = core := by
  unfold refTrim padded
  have hne : core ≠ [] := by
    intro h0
    rw [h0] at hh
    simp at hh
  have h1 : (spaces l ++ core ++ spaces r).dropWhile isSpaceChar = core ++ spaces r := by
    rw [List.append_assoc, dropWhile_spaces_append]
    apply dropWhile_of_head
    cases core with
    | nil => exact absurd rfl hne
    | cons c cs => simpa using hh
  rw [h1, List.reverse_append, reverse_spaces, dropWhile_spaces_append,
    dropWhile_of_head (by rw [head?_reverse_map]; exact hl), List.reverse_reverse]

theorem refTrim_self (core : List Char) (hh : core.head?.map isSpaceChar = some false)
    (hl : core.getLast?.map isSpaceChar = some false) : refTrim core = core := by
  have := refTrim_padded 0 0 core hh hl
  simpa [padded, spaces] using this

theorem toLower_of_isSpaceChar {c : Char} (h : isSpaceChar c = true) : c.toLower = c := by
  unfold isSpaceChar at h
  simp only [Bool.or_eq_true, decide_eq_true_eq] at h
  rcases h with ((((h | h) | h) | h) | h) | h <;> subst h <;> decide

/-- A character whose small letter is not white space is not white space. -/
theorem isSpaceChar_of_toLower {c d : Char} (h : c.toLower = d) (hd : isSpaceChar d = false) :
    isSpaceChar c = false := by
  by_contra hc
  have hc2 : isSpaceChar c = true := by simpa using hc
  rw [toLower_of_isSpaceChar hc2] at h
  rw [h, hd] at hc2
  cases hc2

set_option maxRecDepth 100000 in
theorem decimal_facts : ∀ n : Fin 256,
    (decimal n).map Char.toLower = decimal n
      ∧ ',' ∉ decimal n
      ∧ (decimal n).head?.map isSpaceChar = some false
      ∧ (decimal n).getLast?.map isSpaceChar = some false
      ∧ (decimal n).head?.map (fun c => decide (c = 'r' ∨ c = '(' ∨ c = '#')) = some false
      ∧ (decimal n).getLast?.map (fun c => decide (c = ')')) = some false := by
  decide

theorem map_toLower_spaces (k : Nat) : (spaces k).map Char.toLower = spaces k := by
  unfold spaces
  rw [List.map_replicate]
  rfl

theorem not_mem_spaces (k : Nat) {c : Char} (hc : c ≠ ' ') : c ∉ spaces k := by
  unfold spaces
  intro h
  exact hc (List.eq_of_mem_replicate h)

/-! ## The reference library is standard -/

theorem standard_refLib : Standard refLib :=
  ⟨fun _ => rfl, fun _ => rfl⟩

theorem wordNames_refLib : WordNames refLib := by
  intro name c h
  change refColorMap name = some c at h
  unfold refColorMap at h
  split_ifs at h with h1 h2 h3 h4 h5 h6 <;> cases h <;> subst name <;> decide

set_option maxRecDepth 100000 in
theorem readsBytes_fin : ∀ k : Fin 256, refToInt (decimal k) = ((k : Nat) : Int) := by
  decide

theorem readsBytes_refLib : ReadsBytes refLib := by
  intro n hn
  exact readsBytes_fin ⟨n, by omega⟩

theorem head?_refTrim_hash (rest : List Char) : (refTrim ('#' :: rest)).head? = some '#' := by
  unfold refTrim
  have h1 : ('#' :: rest).dropWhile isSpaceChar = '#' :: rest := by
    simp [List.dropWhile, show isSpaceChar '#' = false from by decide]
  rw [h1, List.reverse_cons]
  obtain ⟨ys, hys⟩ := dropWhile_append_singleton isSpaceChar '#' (by decide) rest.reverse
  rw [hys]
  simp

theorem keepsHash_of_standard {lib : StringLib} (hs : Standard lib) (hn : WordNames lib) :
    KeepsHash lib := by
  refine ⟨?_, ?_, ?_⟩
  · intro v hv
    cases v with
    | nil => exact absurd hv (by simp)
    | cons c rest =>
      have hc : c = '#' := by simpa using hv
      subst hc
      rw [hs.2]
      exact head?_refTrim_hash rest
  · intro v hv
    cases v with
    | nil => exact absurd hv (by simp)
    | cons c rest =>
      have hc : c = '#' := by simpa using hv
      subst hc
      rw [hs.1]
      simp only [List.map_cons, List.head?_cons, Option.some.injEq]
      decide
  · intro name hname
    cases hm : lib.colorMap name with
    | none => rfl
    | some c =>
      exfalso
      apply (hn name c hm).2.1
      cases name with
      | nil => exact absurd hname (by simp)
      | cons d rest =>
        have hd : d = '#' := by simpa using hname
        rw [hd]
        exact List.mem_cons_self _ _

/-! ## Colors that are set -/

theorem deserializeHexColor_isSet {value : List Char} {c : Color}
    (h : deserializeHexColor value = some c) : c.isSet = true := by
  unfold deserializeHexColor at h
  split at h
  · split at h <;> (try split at h) <;> cases h <;> rfl
  · cases h

theorem deserializeRgbColor_isSet {lib : StringLib} {str : List Char} {c : Color}
    (h : deserializeRgbColor lib str = some c) : c.isSet = true := by
  unfold deserializeRgbColor at h
  split at h
  · injection h with h
    rw [← h]
    rfl
  · injection h with h
    rw [← h]
    rfl
  · cases h

/-- Behind the sentinel, the name table and the test for `#`, `deserializeColor` is its last
part. -/
theorem deserializeColor_rgb {lib : StringLib} {value : List Char}
    (h0 : lib.toLower (lib.trim value) ≠ [])
    (h1 : lib.toLower (lib.trim value) ≠ "none".toList)
    (h2 : lib.colorMap (lib.toLower (lib.toLower (lib.trim value))) = none)
    (h3 : (lib.toLower (lib.trim value)).head? ≠ some '#') :
    deserializeColor lib value = deserializeRgbColor lib (lib.toLower (lib.trim value)) := by
  unfold deserializeColor
  have hne : ¬ (lib.toLower (lib.trim value) = [] ∨ lib.toLower (lib.trim value) = "none".toList) := by
    rintro (h | h)
    · exact h0 h
    · exact h1 h
  simp only [if_neg hne, h2, if_neg h3]

/-! ## Tokens between commas -/

theorem segments_commaJoin (toks : List (List Char)) (hne : toks ≠ [])
    (hc : ∀ t ∈ toks, ',' ∉ t) : segments ',' (commaJoin toks) = toks := by
  induction toks with
  | nil => exact absurd rfl hne
  | cons t ts ih =>
    cases ts with
    | nil =>
      show segments ',' t = [t]
      exact segments_of_not_mem _ _ (hc t (List.mem_cons_self _ _))
    | cons u us =>
      show segments ',' (t ++ ',' :: commaJoin (u :: us)) = _
      rw [segments_append _ _ _ (hc t (List.mem_cons_self _ _)),
        ih (by simp) (fun x hx => hc x (List.mem_cons_of_mem _ hx))]

theorem stripRgbPrefix_of_head {str : List Char} (h : str.head? ≠ some 'r') :
    stripRgbPrefix str = str := by
  cases str with
  | nil => rfl
  | cons c cs =>
    have hc : c ≠ 'r' := by simpa using h
    unfold stripRgbPrefix
    rw [if_neg, if_neg]
    · intro h3
      simp only [List.take_succ_cons] at h3
      exact hc (List.cons.inj h3).1
    · intro h4
      simp only [List.take_succ_cons] at h4
      exact hc (List.cons.inj h4).1

theorem stripRoundBrackets_of_head {str : List Char} (h : str.head? ≠ some '(') :
    stripRoundBrackets str = str := by
  unfold stripRoundBrackets
  rw [if_neg]
  exact fun hh => h hh.1

theorem stripRoundBrackets_bracketed (body : List Char) :
    stripRoundBrackets ('(' :: body ++ [')']) = body := by
  unfold stripRoundBrackets
  rw [if_pos ⟨rfl, by rw [List.getLast?_concat]⟩]
  simp

/-- What is left of `rgb(body)`, `rgba(body)` and `(body)` for the tokens. -/
theorem rgb_body (body : List Char) :
    stripRoundBrackets (stripRgbPrefix ("rgb".toList ++ ('(' :: body ++ [')']))) = body
      ∧ stripRoundBrackets (stripRgbPrefix ("rgba".toList ++ ('(' :: body ++ [')']))) = body
      ∧ stripRoundBrackets (stripRgbPrefix ('(' :: body ++ [')'])) = body := by
  refine ⟨?_, ?_, ?_⟩
  · have h : stripRgbPrefix ("rgb".toList ++ ('(' :: body ++ [')'])) = '(' :: body ++ [')'] := by
      unfold stripRgbPrefix
      rw [if_neg (by simp), if_pos (by simp)]
      rfl
    rw [h, stripRoundBrackets_bracketed]
  · have h : stripRgbPrefix ("rgba".toList ++ ('(' :: body ++ [')'])) = '(' :: body ++ [')'] := by
      unfold stripRgbPrefix
      rw [if_pos (by simp)]
      rfl
    rw [h, stripRoundBrackets_bracketed]
  · rw [stripRgbPrefix_of_head (by simp), stripRoundBrackets_bracketed]

/-! ## Colors that are refused -/

theorem deserializeHexColor_none (rest : List Char)
    (h : rest.all isHexChar = false
      ∨ (rest.length ≠ 3 ∧ rest.length ≠ 4 ∧ rest.length ≠ 6 ∧ rest.length ≠ 8)) :
    deserializeHexColor ('#' :: rest) = none := by
  unfold deserializeHexColor
  by_cases hall : rest.all isHexChar = true
  · rcases h with h | ⟨h3, h4, h6, h8⟩
    · rw [h] at hall
      cases hall
    · split
      · split
        · next heq =>
          rw [(List.cons.inj heq).2] at h3
          exact absurd rfl h3
        · next heq =>
          rw [(List.cons.inj heq).2] at h4
          exact absurd rfl h4
        · next heq =>
          rw [(List.cons.inj heq).2] at h6
          exact absurd rfl h6
        · next heq =>
          rw [(List.cons.inj heq).2] at h8
          exact absurd rfl h8
        · rfl
      · rfl
  · rw [if_neg]
    simpa using hall

theorem deserializeRgbColor_none (lib : StringLib) (str : List Char)
    (h3 : (split lib (stripRoundBrackets (stripRgbPrefix str)) ',').length ≠ 3)
    (h4 : (split lib (stripRoundBrackets (stripRgbPrefix str)) ',').length ≠ 4) :
    deserializeRgbColor lib str = none := by
  unfold deserializeRgbColor
  split
  · next heq =>
    rw [heq] at h3
    exact absurd rfl h3
  · next heq =>
    rw [heq] at h4
    exact absurd rfl h4
  · rfl

theorem toLower_eq_hash {c : Char} (h : c.toLower = '#') : c = '#' := by
  unfold Char.toLower at h
  by_cases hu : c.toNat ≥ 65 ∧ c.toNat ≤ 90
  · exfalso
    simp only [hu, and_self, if_true] at h
    have key : ∀ n, 65 ≤ n → n ≤ 90 → Char.ofNat (n + 32) ≠ '#' := by
      intro n h1 h2
      interval_cases n <;> decide
    exact key _ hu.1 hu.2 h
  · simpa [hu] using h

theorem isHexChar_of_isSpaceChar {c : Char} (h : isSpaceChar c = true) : isHexChar c = false := by
  unfold isSpaceChar at h
  simp only [Bool.or_eq_true, decide_eq_true_eq] at h
  rcases h with ((((h | h) | h) | h) | h) | h <;> subst h <;> decide

theorem head?_dropWhile_of_refTrim {v : List Char} {c : Char}
    (h : (refTrim v).head? = some c) : (v.dropWhile isSpaceChar).head? = some c := by
  unfold refTrim at h
  have hp : ((v.dropWhile isSpaceChar).reverse.dropWhile isSpaceChar).reverse
      <+: v.dropWhile isSpaceChar := by
    have := List.reverse_prefix.mpr
      (List.dropWhile_suffix isSpaceChar (l := (v.dropWhile isSpaceChar).reverse))
    rwa [List.reverse_reverse] at this
  obtain ⟨t, ht⟩ := hp
  rw [← ht]
  cases hx : ((v.dropWhile isSpaceChar).reverse.dropWhile isSpaceChar).reverse with
  | nil =>
    rw [hx] at h
    cases h
  | cons x xs =>
    rw [hx] at h
    exact h

/-- When the trimmed string starts with `#` and the value itself does not, the character
behind the first one is white space or `#`, and the value is refused. -/
theorem deserializeHexColor_moved_hash {lib : StringLib} (hs : Standard lib) {value : List Char}
    (hv : value.head? ≠ some '#')
    (hstr : (lib.toLower (lib.trim value)).head? = some '#') :
    deserializeHexColor value = none := by
  rw [hs.1, hs.2] at hstr
  have ht : (refTrim value).head? = some '#' := by
    cases hx : refTrim value with
    | nil =>
      rw [hx] at hstr
      cases hstr
    | cons x xs =>
      rw [hx] at hstr
      simp only [List.map_cons, List.head?_cons, Option.some.injEq] at hstr
      rw [toLower_eq_hash hstr]
      rfl
  have hd := head?_dropWhile_of_refTrim ht
  cases value with
  | nil => cases hd
  | cons c0 rest =>
    have hc0 : c0 ≠ '#' := by simpa using hv
    by_cases hp0 : isSpaceChar c0 = true
    · rw [List.dropWhile_cons_of_pos hp0] at hd
      cases rest with
      | nil => cases hd
      | cons d r =>
        have hdhex : isHexChar d = false := by
          by_cases hpd : isSpaceChar d = true
          · exact isHexChar_of_isSpaceChar hpd
          · rw [List.dropWhile_cons_of_neg hpd] at hd
            simp only [List.head?_cons, Option.some.injEq] at hd
            rw [hd]
            decide
        unfold deserializeHexColor
        rw [if_neg]
        simp [hdhex]
    · rw [List.dropWhile_cons_of_neg hp0] at hd
      simp only [List.head?_cons, Option.some.injEq] at hd
      exact absurd hd hc0

/-- C23: the sentinel "no color".  With a `toLower` that turns capital letters into small ones
and a name table whose colors are set, `deserializeColor` returns the default (unset) color,
and does not throw, exactly when the trimmed value is empty or is "none" in some letter case. -/
theorem no_color_sentinel (lib : StringLib) (hlow : ∀ s, lib.toLower s = s.map Char.toLower)
    (hset : ∀ name c, lib.colorMap name = some c → c.isSet = true) (value : List Char) :
    deserializeColor lib value = some Color.unset
      ↔ (lib.trim value = [] ∨ (lib.trim value).map Char.toLower = "none".toList) := by
  constructor
  · intro h
    by_contra hn
    have hne : ¬ (lib.toLower (lib.trim value) = []
        ∨ lib.toLower (lib.trim value) = "none".toList) := by
      rw [hlow]
      rintro (h0 | h0)
      · exact hn (Or.inl (List.map_eq_nil_iff.mp h0))
      · exact hn (Or.inr h0)
    unfold deserializeColor at h
    simp only [if_neg hne] at h
    cases hm : lib.colorMap (lib.toLower (lib.toLower (lib.trim value))) with
    | some c =>
      simp only [hm] at h
      have hc := hset _ _ hm
      rw [Option.some.inj h] at hc
      cases hc
    | none =>
      simp only [hm] at h
      by_cases hh : (lib.toLower (lib.trim value)).head? = some '#'
      · rw [if_pos hh] at h
        have hc := deserializeHexColor_isSet h
        cases hc
      · rw [if_neg hh] at h
        have hc := deserializeRgbColor_isSet h
        cases hc
  · intro h
    unfold deserializeColor
    rw [if_pos]
    rw [hlow]
    rcases h with h | h
    · left
      rw [h]
      rfl
    · right
      exact h

/-- Witness of C23: with the reference string library, a string of two spaces and " NoNe " give
the unset color, and "red" and "#000" do not. -/
theorem no_color_sentinel_witness :
    deserializeColor refLib "  ".toList = some Color.unset
      ∧ deserializeColor refLib " NoNe ".toList = some Color.unset
      ∧ deserializeColor refLib "red".toList ≠ some Color.unset
      ∧ deserializeColor refLib "#000".toList ≠ some Color.unset :=
  ⟨(no_color_sentinel refLib (fun _ => rfl) (fun n c h => (wordNames_refLib n c h).2.2)
      "  ".toList).mpr (Or.inl (by decide)),
    (no_color_sentinel refLib (fun _ => rfl) (fun n c h => (wordNames_refLib n c h).2.2)
      " NoNe ".toList).mpr (Or.inr (by decide)),
    fun h => absurd ((no_color_sentinel refLib (fun _ => rfl)
      (fun n c h => (wordNames_refLib n c h).2.2) "red".toList).mp h) (by decide),
    fun h => absurd ((no_color_sentinel refLib (fun _ => rfl)
      (fun n c h => (wordNames_refLib n c h).2.2) "#000".toList).mp h) (by decide)⟩

/-- C24, counterexample: the empty string is not a color name and does not start with `#`, and
it has one comma-separated token, yet `deserializeColor` does not throw for it: it returns the
unset color.  The same holds for "none". -/
theorem color_of_empty_string_is_unset :
    refLib.colorMap (refLib.toLower (refLib.toLower (refLib.trim "".toList))) = none
      ∧ "".toList.head? ≠ some '#'
      ∧ (split refLib (stripRoundBrackets (stripRgbPrefix
          (refLib.toLower (refLib.trim "".toList)))) ',').length = 1
      ∧ deserializeColor refLib "".toList = some Color.unset
      ∧ refLib.colorMap (refLib.toLower (refLib.toLower (refLib.trim "none".toList))) = none
      ∧ (split refLib (stripRoundBrackets (stripRgbPrefix
          (refLib.toLower (refLib.trim "none".toList)))) ',').length = 1
      ∧ deserializeColor refLib "none".toList = some Color.unset := by
  decide

/-- C24, amended: the errors of `deserializeColor`, with a standard string library and a name
table of words.  It throws for every value that starts with `#` and has a character behind the
`#` that is no hexadecimal digit or a number of characters behind the `#` other than 3, 4, 6
and 8.  It throws for every value that does not start with `#`, is not empty and not "none"
when trimmed and put in lower case, is no color name, and whose number of comma-separated
tokens (behind the prefix `rgb` or `rgba` and inside one pair of round brackets) is neither 3
nor 4. -/
theorem color_errors (lib : StringLib) (hs : Standard lib) (hn : WordNames lib) :
    (∀ rest : List Char,
        (rest.all isHexChar = false
          ∨ (rest.length ≠ 3 ∧ rest.length ≠ 4 ∧ rest.length ≠ 6 ∧ rest.length ≠ 8)) →
        deserializeColor lib ('#' :: rest) = none)
      ∧ (∀ value : List Char,
        value.head? ≠ some '#' →
        lib.toLower (lib.trim value) ≠ [] →
        lib.toLower (lib.trim value) ≠ "none".toList →
        lib.colorMap (lib.toLower (lib.toLower (lib.trim value))) = none →
        (split lib (stripRoundBrackets (stripRgbPrefix (lib.toLower (lib.trim value))))
          ',').length ≠ 3 →
        (split lib (stripRoundBrackets (stripRgbPrefix (lib.toLower (lib.trim value))))
          ',').length ≠ 4 →
        deserializeColor lib value = none) := by
  constructor
  · intro rest h
    rw [deserializeColor_hash (keepsHash_of_standard hs hn), deserializeHexColor_none rest h]
  · intro value hv h0 h1 h2 h3 h4
    by_cases hh : (lib.toLower (lib.trim value)).head? = some '#'
    · have hne : ¬ (lib.toLower (lib.trim value) = []
          ∨ lib.toLower (lib.trim value) = "none".toList) := by
        rintro (h | h)
        · exact h0 h
        · exact h1 h
      unfold deserializeColor
      simp only [if_neg hne, h2, if_pos hh]
      exact deserializeHexColor_moved_hash hs hv hh
    · rw [deserializeColor_rgb h0 h1 h2 hh, deserializeRgbColor_none lib _ h3 h4]

/-- Witness of C24: with the reference string library, "#ggg" (no hexadecimal digits), "#12345"
(five digits), "1,2" (two tokens), "rgb(1,2,3,4,5)" (five tokens) and "reed" (one token) make
`deserializeColor` throw. -/
theorem color_errors_witness :
    deserializeColor refLib "#ggg".toList = none
      ∧ deserializeColor refLib "#12345".toList = none
      ∧ deserializeColor refLib "1,2".toList = none
      ∧ deserializeColor refLib "rgb(1,2,3,4,5)".toList = none
      ∧ deserializeColor refLib "reed".toList = none :=
  ⟨(color_errors refLib standard_refLib wordNames_refLib).1 "ggg".toList (Or.inl (by decide)),
    (color_errors refLib standard_refLib wordNames_refLib).1 "12345".toList
      (Or.inr (by decide)),
    (color_errors refLib standard_refLib wordNames_refLib).2 "1,2".toList
      (by decide) (by decide) (by decide) (by decide) (by decide) (by decide),
    (color_errors refLib standard_refLib wordNames_refLib).2 "rgb(1,2,3,4,5)".toList
      (by decide) (by decide) (by decide) (by decide) (by decide) (by decide),
    (color_errors refLib standard_refLib wordNames_refLib).2 "reed".toList
      (by decide) (by decide) (by decide) (by decide) (by decide) (by decide)⟩

/-! ## The spellings `rgb(r, g, b)` -/

theorem decimal_byte (n : Nat) (h : n ≤ 255) :
    (decimal n).map Char.toLower = decimal n
      ∧ ',' ∉ decimal n
      ∧ (decimal n).head?.map isSpaceChar = some false
      ∧ (decimal n).getLast?.map isSpaceChar = some false
      ∧ (decimal n).head?.map (fun c => decide (c = 'r' ∨ c = '(' ∨ c = '#')) = some false
      ∧ (decimal n).getLast?.map (fun c => decide (c = ')')) = some false :=
  decimal_facts ⟨n, by omega⟩

theorem toUInt8_byte (n : Nat) (h : n ≤ 255) : toUInt8 (n : Int) = n := by
  unfold toUInt8
  omega

/-- A token that spells a number up to 255, with spaces around it. -/
theorem padded_decimal (l r n : Nat) (h : n ≤ 255) :
    (padded l r (decimal n)).map Char.toLower = padded l r (decimal n)
      ∧ ',' ∉ padded l r (decimal n)
      ∧ refTrim (padded l r (decimal n)) = decimal n := by
  obtain ⟨h1, h2, h3, h4, _, _⟩ := decimal_byte n h
  refine ⟨?_, ?_, refTrim_padded l r _ h3 h4⟩
  · unfold padded
    rw [List.map_append, List.map_append, map_toLower_spaces, map_toLower_spaces, h1]
  · unfold padded
    intro hm
    rcases List.mem_append.mp hm with hm | hm
    · rcases List.mem_append.mp hm with hm | hm
      · exact not_mem_spaces l (by decide) hm
      · exact h2 hm
    · exact not_mem_spaces r (by decide) hm

theorem commaJoin_cons (t u : List Char) (us : List (List Char)) :
    commaJoin (t :: u :: us) = t ++ ',' :: commaJoin (u :: us) :=
  rfl

theorem map_toLower_commaJoin (toks : List (List Char))
    (h : ∀ t ∈ toks, t.map Char.toLower = t) :
    (commaJoin toks).map Char.toLower = commaJoin toks := by
  induction toks with
  | nil => rfl
  | cons t ts ih =>
    cases ts with
    | nil => exact h t (List.mem_cons_self _ _)
    | cons u us =>
      rw [commaJoin_cons, List.map_append, List.map_cons, h t (List.mem_cons_self _ _),
        ih (fun x hx => h x (List.mem_cons_of_mem _ hx))]
      rfl

theorem comma_mem_commaJoin (toks : List (List Char)) (h : 2 ≤ toks.length) :
    ',' ∈ commaJoin toks := by
  match toks, h with
  | t :: u :: us, _ =>
    rw [commaJoin_cons]
    exact List.mem_append_right _ (List.mem_cons_self _ _)

/-- The tokens `toks` spell the numbers `nums`, each up to 255 and with spaces around it. -/
theorem tokens_spell {toks : List (List Char)} {nums : List Nat}
    (h : List.Forall₂ (fun t n => n ≤ 255 ∧ ∃ l r, t = padded l r (decimal n)) toks nums) :
    (∀ t ∈ toks, t.map Char.toLower = t) ∧ (∀ t ∈ toks, ',' ∉ t)
      ∧ toks.map refTrim = nums.map decimal ∧ toks.length = nums.length := by
  induction h with
  | nil => exact ⟨fun _ h => (by cases h), fun _ h => (by cases h), rfl, rfl⟩
  | cons hd _ ih =>
    obtain ⟨hn, l, r, ht⟩ := hd
    obtain ⟨i1, i2, i3, i4⟩ := ih
    obtain ⟨p1, p2, p3⟩ := padded_decimal l r _ hn
    subst ht
    refine ⟨?_, ?_, ?_, ?_⟩
    · intro t htm
      rcases List.mem_cons.mp htm with h | h
      · rw [h]
        exact p1
      · exact i1 t h
    · intro t htm
      rcases List.mem_cons.mp htm with h | h
      · rw [h]
        exact p2
      · exact i2 t h
    · rw [List.map_cons, List.map_cons, p3, i3]
    · rw [List.length_cons, List.length_cons, i4]

/-- With a string in lower case of one of the forms `rgb(body)`, `rgba(body)`, `(body)` and
`body`, where the body holds at least two tokens and commas between them, `deserializeColor`
is its last part, which reads the tokens. -/
theorem rgb_form {lib : StringLib} (hs : Standard lib) (hn : WordNames lib) (value : List Char)
    (toks : List (List Char)) (h2 : 2 ≤ toks.length) (hc : ∀ t ∈ toks, ',' ∉ t)
    (hform : lib.toLower (lib.trim value) = "rgb".toList ++ ('(' :: commaJoin toks ++ [')'])
      ∨ lib.toLower (lib.trim value) = "rgba".toList ++ ('(' :: commaJoin toks ++ [')'])
      ∨ lib.toLower (lib.trim value) = '(' :: commaJoin toks ++ [')']
      ∨ (lib.toLower (lib.trim value) = commaJoin toks
        ∧ (commaJoin toks).head?.map (fun c => decide (c = 'r' ∨ c = '(' ∨ c = '#'))
          = some false)) :
    deserializeColor lib value = deserializeRgbColor lib (lib.toLower (lib.trim value))
      ∧ split lib (stripRoundBrackets (stripRgbPrefix (lib.toLower (lib.trim value)))) ','
        = toks.map lib.trim := by
  have hJ := comma_mem_commaJoin toks h2
  have hmem : ',' ∈ lib.toLower (lib.trim value) := by
    rcases hform with h | h | h | ⟨h, _⟩ <;> rw [h] <;> simp [hJ]
  have hhead : (lib.toLower (lib.trim value)).head? ≠ some '#' := by
    rcases hform with h | h | h | ⟨h, hb⟩
    · rw [h]
      simp
    · rw [h]
      simp
    · rw [h]
      simp
    · rw [h]
      intro hh
      rw [hh] at hb
      revert hb
      decide
  have hbody : stripRoundBrackets (stripRgbPrefix (lib.toLower (lib.trim value)))
      = commaJoin toks := by
    rcases hform with h | h | h | ⟨h, hb⟩
    · rw [h]
      exact (rgb_body _).1
    · rw [h]
      exact (rgb_body _).2.1
    · rw [h]
      exact (rgb_body _).2.2
    · rw [h]
      cases hj : commaJoin toks with
      | nil =>
        rw [hj] at hb
        cases hb
      | cons c cs =>
        rw [hj] at hb
        simp only [List.head?_cons, Option.map_some', Option.some.injEq, decide_eq_false_iff_not,
          not_or] at hb
        rw [stripRgbPrefix_of_head (by simpa using hb.1),
          stripRoundBrackets_of_head (by simpa using hb.2.1)]
  constructor
  · apply deserializeColor_rgb
    · intro h0
      rw [h0] at hmem
      cases hmem
    · intro h0
      rw [h0] at hmem
      revert hmem
      decide
    · cases hm : lib.colorMap (lib.toLower (lib.toLower (lib.trim value))) with
      | none => rfl
      | some c =>
        exfalso
        apply (hn _ c hm).1
        rw [hs.1 (lib.toLower (lib.trim value))]
        exact List.mem_map.mpr ⟨',', hmem, by decide⟩
    · exact hhead
  · rw [hbody]
    unfold split
    rw [segments_commaJoin toks (by intro h0; rw [h0] at h2; simp at h2) hc]

theorem head?_commaJoin (f : Char → Bool) (v : Bool) (t : List Char) (ts : List (List Char))
    (h : t.head?.map f = some v) : (commaJoin (t :: ts)).head?.map f = some v := by
  cases ts with
  | nil => exact h
  | cons u us =>
    rw [commaJoin_cons]
    cases t with
    | nil => cases h
    | cons c cs => exact h

theorem getLast?_commaJoin (f : Char → Bool) (v : Bool) (toks : List (List Char)) (t : List Char)
    (h : t.getLast?.map f = some v) : (commaJoin (toks ++ [t])).getLast?.map f = some v := by
  have hne : t ≠ [] := by
    intro h0
    rw [h0] at h
    cases h
  induction toks with
  | nil => exact h
  | cons u us ih =>
    cases hx : us ++ [t] with
    | nil => simp at hx
    | cons x xs =>
      rw [List.cons_append, hx, commaJoin_cons, ← hx]
      have hne2 : commaJoin (us ++ [t]) ≠ [] := by
        intro h0
        rw [h0] at ih
        cases ih
      rw [List.getLast?_append_of_ne_nil _ (by simp)]
      cases hj : commaJoin (us ++ [t]) with
      | nil => exact absurd hj hne2
      | cons y ys =>
        rw [List.getLast?_cons_cons, ← hj]
        exact ih

/-- Trimming and lower case of `word(body)` with spaces around it, where `word` is `rgb` or
`rgba` in some letter case, or nothing. -/
theorem trim_lower_bracketed {lib : StringLib} (hs : Standard lib) (word pre body : List Char)
    (hword : word.map Char.toLower = pre)
    (hpre : pre = "rgb".toList ∨ pre = "rgba".toList ∨ pre = [])
    (hbody : body.map Char.toLower = body) (lo ro : Nat) :
    lib.toLower (lib.trim (padded lo ro (word ++ ('(' :: body ++ [')']))))
      = pre ++ ('(' :: body ++ [')']) := by
  rw [hs.2, hs.1, refTrim_padded]
  · rw [List.map_append, List.map_append, List.map_cons, hword, hbody]
    rfl
  · cases word with
    | nil => rfl
    | cons c w =>
      have hc : c.toLower = 'r' := by
        rw [List.map_cons] at hword
        rcases hpre with h | h | h
        · rw [h] at hword
          exact (List.cons.inj hword).1
        · rw [h] at hword
          exact (List.cons.inj hword).1
        · rw [h] at hword
          cases hword
      show some (isSpaceChar c) = some false
      rw [isSpaceChar_of_toLower hc (by decide)]
  · rw [← List.append_assoc, List.getLast?_concat]
    rfl

/-- Trimming and lower case of tokens with commas between them and spaces around them. -/
theorem trim_lower_bare {lib : StringLib} (hs : Standard lib) (toks : List (List Char))
    (hl : ∀ t ∈ toks, t.map Char.toLower = t)
    (hh : (commaJoin toks).head?.map isSpaceChar = some false)
    (ht : (commaJoin toks).getLast?.map isSpaceChar = some false) (lo ro : Nat) :
    lib.toLower (lib.trim (padded lo ro (commaJoin toks))) = commaJoin toks := by
  rw [hs.2, hs.1, refTrim_padded _ _ _ hh ht, map_toLower_commaJoin toks hl]

/-- The result of the last part of `deserializeColor` for three tokens that spell numbers up
to 255. -/
theorem rgb_three {lib : StringLib} (hb : ReadsBytes lib) {value : List Char} {r g b : Nat}
    (hr : r ≤ 255) (hg : g ≤ 255) (hbl : b ≤ 255)
    (h : deserializeColor lib value = deserializeRgbColor lib (lib.toLower (lib.trim value))
      ∧ split lib (stripRoundBrackets (stripRgbPrefix (lib.toLower (lib.trim value)))) ','
        = [decimal r, decimal g, decimal b]) :
    deserializeColor lib value = some (Color.rgba r g b 255) := by
  rw [h.1]
  unfold deserializeRgbColor
  rw [h.2]
  simp only [hb r hr, hb g hg, hb b hbl, toUInt8_byte r hr, toUInt8_byte g hg,
    toUInt8_byte b hbl]

theorem rgb_four {lib : StringLib} (hb : ReadsBytes lib) {value : List Char} {r g b a : Nat}
    (hr : r ≤ 255) (hg : g ≤ 255) (hbl : b ≤ 255) (ha : a ≤ 255)
    (h : deserializeColor lib value = deserializeRgbColor lib (lib.toLower (lib.trim value))
      ∧ split lib (stripRoundBrackets (stripRgbPrefix (lib.toLower (lib.trim value)))) ','
        = [decimal r, decimal g, decimal b, decimal a]) :
    deserializeColor lib value = some (Color.rgba r g b a) := by
  rw [h.1]
  unfold deserializeRgbColor
  rw [h.2]
  simp only [hb r hr, hb g hg, hb b hbl, hb a ha, toUInt8_byte r hr, toUInt8_byte g hg,
    toUInt8_byte b hbl, toUInt8_byte a ha]

/-- Every spelling of numbers up to 255 as `word(tokens)`, with spaces around the tokens and
around the whole, is read by the last part of `deserializeColor`, which finds the decimal
spellings of the numbers. -/
theorem rgb_reads_bracketed {lib : StringLib} (hs : Standard lib) (hn : WordNames lib)
    (word : List Char)
    (hword : word.map Char.toLower = "rgb".toList ∨ word.map Char.toLower = "rgba".toList
      ∨ word = [])
    (toks : List (List Char)) (nums : List Nat) (h2 : 2 ≤ toks.length)
    (hspell : List.Forall₂ (fun t n => n ≤ 255 ∧ ∃ l r, t = padded l r (decimal n)) toks nums)
    (lo ro : Nat) :
    deserializeColor lib (padded lo ro (word ++ ('(' :: commaJoin toks ++ [')'])))
        = deserializeRgbColor lib
          (lib.toLower (lib.trim (padded lo ro (word ++ ('(' :: commaJoin toks ++ [')'])))))
      ∧ split lib (stripRoundBrackets (stripRgbPrefix
          (lib.toLower (lib.trim (padded lo ro (word ++ ('(' :: commaJoin toks ++ [')'])))))))
          ',' = nums.map decimal := by
  obtain ⟨s1, s2, s3, _⟩ := tokens_spell hspell
  have hbody := map_toLower_commaJoin toks s1
  have htrim : toks.map lib.trim = nums.map decimal := by
    rw [← s3]
    exact List.map_congr_left (fun t _ => hs.2 t)
  rw [← htrim]
  apply rgb_form hs hn _ toks h2 s2
  rcases hword with h | h | h
  · exact Or.inl (trim_lower_bracketed hs word _ _ h (Or.inl rfl) hbody lo ro)
  · exact Or.inr (Or.inl (trim_lower_bracketed hs word _ _ h (Or.inr (Or.inl rfl)) hbody lo ro))
  · refine Or.inr (Or.inr (Or.inl ?_))
    have := trim_lower_bracketed hs word [] _ (by rw [h]; rfl) (Or.inr (Or.inr rfl)) hbody lo ro
    rw [this]
    rfl

/-- The same for the tokens alone: the first token starts with its number and the last token
ends with its number, and there are spaces around the whole. -/
theorem rgb_reads_bare {lib : StringLib} (hs : Standard lib) (hn : WordNames lib)
    (n1 r1 : Nat) (mid : List (List Char)) (l2 n2 : Nat) (nums : List Nat)
    (hspell : List.Forall₂ (fun t n => n ≤ 255 ∧ ∃ l r, t = padded l r (decimal n))
      (padded 0 r1 (decimal n1) :: (mid ++ [padded l2 0 (decimal n2)])) nums)
    (h1 : n1 ≤ 255) (h2 : n2 ≤ 255) (lo ro : Nat) :
    deserializeColor lib
        (padded lo ro (commaJoin (padded 0 r1 (decimal n1) :: (mid ++ [padded l2 0 (decimal n2)]))))
        = deserializeRgbColor lib (lib.toLower (lib.trim
          (padded lo ro
            (commaJoin (padded 0 r1 (decimal n1) :: (mid ++ [padded l2 0 (decimal n2)]))))))
      ∧ split lib (stripRoundBrackets (stripRgbPrefix (lib.toLower (lib.trim
          (padded lo ro
            (commaJoin (padded 0 r1 (decimal n1) :: (mid ++ [padded l2 0 (decimal n2)]))))))))
          ',' = nums.map decimal := by
  obtain ⟨s1, s2, s3, _⟩ := tokens_spell hspell
  have htrim : (padded 0 r1 (decimal n1) :: (mid ++ [padded l2 0 (decimal n2)])).map lib.trim
      = nums.map decimal := by
    rw [← s3]
    exact List.map_congr_left (fun t _ => hs.2 t)
  obtain ⟨_, _, d3, _, d5, _⟩ := decimal_byte n1 h1
  obtain ⟨_, _, _, e4, _, _⟩ := decimal_byte n2 h2
  have first : ∀ (f : Char → Bool) (v : Bool), (decimal n1).head?.map f = some v →
      (padded 0 r1 (decimal n1)).head?.map f = some v := by
    intro f v hf
    cases hd : decimal n1 with
    | nil =>
      rw [hd] at hf
      cases hf
    | cons c cs =>
      rw [hd] at hf
      exact hf
  have last : (padded l2 0 (decimal n2)).getLast?.map isSpaceChar = some false := by
    have : padded l2 0 (decimal n2) = spaces l2 ++ decimal n2 := by
      unfold padded
      exact List.append_nil _
    rw [this]
    cases hd : decimal n2 with
    | nil =>
      rw [hd] at e4
      cases e4
    | cons c cs =>
      rw [List.getLast?_append_of_ne_nil _ (by simp), ← hd]
      exact e4
  have hh := head?_commaJoin _ _ _ (mid ++ [padded l2 0 (decimal n2)]) (first _ _ d3)
  have hx := head?_commaJoin _ _ _ (mid ++ [padded l2 0 (decimal n2)]) (first _ _ d5)
  have ht : (commaJoin (padded 0 r1 (decimal n1) :: (mid ++ [padded l2 0 (decimal n2)]))).getLast?.map
      isSpaceChar = some false := by
    rw [← List.cons_append]
    exact getLast?_commaJoin _ _ _ _ last
  rw [← htrim]
  apply rgb_form hs hn _ _ (by simp) s2
  exact Or.inr (Or.inr (Or.inr ⟨trim_lower_bare hs _ s1 hh ht lo ro, hx⟩))

/-- C21: functional colors.  With a standard string library whose `toInt` reads decimal
numbers up to 255 and a name table of words, let `r`, `g`, `b`, `a` be at most 255, let `word`
be "rgb" or "rgba" in any letter case, and let there be any number of spaces around each
number and around the whole.  Then `word(r,g,b)`, `(r,g,b)` and `r,g,b` parse to the color
(r, g, b) with alpha 255, and `word(r,g,b,a)`, `(r,g,b,a)` and `r,g,b,a` parse to (r, g, b)
with alpha `a`; "rgba(0,136,255,128)" gives (0, 136, 255) with alpha 128. -/
theorem functional_colors (lib : StringLib) (hs : Standard lib) (hb : ReadsBytes lib)
    (hn : WordNames lib) :
    (∀ (r g b a : Nat) (word : List Char) (l1 r1 l2 r2 l3 r3 l4 r4 lo ro : Nat),
        r ≤ 255 → g ≤ 255 → b ≤ 255 → a ≤ 255 →
        (word.map Char.toLower = "rgb".toList ∨ word.map Char.toLower = "rgba".toList) →
        (deserializeColor lib (padded lo ro (word ++ ('(' :: commaJoin
              [padded l1 r1 (decimal r), padded l2 r2 (decimal g), padded l3 r3 (decimal b)]
              ++ [')'])))
            = some (Color.rgba r g b 255)
          ∧ deserializeColor lib (padded lo ro ('(' :: commaJoin
              [padded l1 r1 (decimal r), padded l2 r2 (decimal g), padded l3 r3 (decimal b)]
              ++ [')']))
            = some (Color.rgba r g b 255)
          ∧ deserializeColor lib (commaJoin
              [padded l1 r1 (decimal r), padded l2 r2 (decimal g), padded l3 r3 (decimal b)])
            = some (Color.rgba r g b 255))
        ∧ (deserializeColor lib (padded lo ro (word ++ ('(' :: commaJoin
              [padded l1 r1 (decimal r), padded l2 r2 (decimal g), padded l3 r3 (decimal b),
                padded l4 r4 (decimal a)] ++ [')'])))
            = some (Color.rgba r g b a)
          ∧ deserializeColor lib (padded lo ro ('(' :: commaJoin
              [padded l1 r1 (decimal r), padded l2 r2 (decimal g), padded l3 r3 (decimal b),
                padded l4 r4 (decimal a)] ++ [')']))
            = some (Color.rgba r g b a)
          ∧ deserializeColor lib (commaJoin
              [padded l1 r1 (decimal r), padded l2 r2 (decimal g), padded l3 r3 (decimal b),
                padded l4 r4 (decimal a)])
            = some (Color.rgba r g b a)))
      ∧ deserializeColor lib "rgba(0,136,255,128)".toList = some (Color.rgba 0 136 255 128) := by
  have main : ∀ (r g b a : Nat) (word : List Char) (l1 r1 l2 r2 l3 r3 l4 r4 lo ro : Nat),
      r ≤ 255 → g ≤ 255 → b ≤ 255 → a ≤ 255 →
      (word.map Char.toLower = "rgb".toList ∨ word.map Char.toLower = "rgba".toList) →
      (deserializeColor lib (padded lo ro (word ++ ('(' :: commaJoin
            [padded l1 r1 (decimal r), padded l2 r2 (decimal g), padded l3 r3 (decimal b)]
            ++ [')'])))
          = some (Color.rgba r g b 255)
        ∧ deserializeColor lib (padded lo ro ('(' :: commaJoin
            [padded l1 r1 (decimal r), padded l2 r2 (decimal g), padded l3 r3 (decimal b)]
            ++ [')']))
          = some (Color.rgba r g b 255)
        ∧ deserializeColor lib (commaJoin
            [padded l1 r1 (decimal r), padded l2 r2 (decimal g), padded l3 r3 (decimal b)])
          = some (Color.rgba r g b 255))
      ∧ (deserializeColor lib (padded lo ro (word ++ ('(' :: commaJoin
            [padded l1 r1 (decimal r), padded l2 r2 (decimal g), padded l3 r3 (decimal b),
              padded l4 r4 (decimal a)] ++ [')'])))
          = some (Color.rgba r g b a)
        ∧ deserializeColor lib (padded lo ro ('(' :: commaJoin
            [padded l1 r1 (decimal r), padded l2 r2 (decimal g), padded l3 r3 (decimal b),
              padded l4 r4 (decimal a)] ++ [')']))
          = some (Color.rgba r g b a)
        ∧ deserializeColor lib (commaJoin
            [padded l1 r1 (decimal r), padded l2 r2 (decimal g), padded l3 r3 (decimal b),
              padded l4 r4 (decimal a)])
          = some (Color.rgba r g b a)) := by
    intro r g b a word l1 r1 l2 r2 l3 r3 l4 r4 lo ro hr hg hbl ha hword
    have hw : word.map Char.toLower = "rgb".toList ∨ word.map Char.toLower = "rgba".toList
        ∨ word = [] := by
      rcases hword with h | h
      · exact Or.inl h
      · exact Or.inr (Or.inl h)
    have three : ∀ l1 r1 l3 r3 : Nat, List.Forall₂
        (fun t n => n ≤ 255 ∧ ∃ l r, t = padded l r (decimal n))
        [padded l1 r1 (decimal r), padded l2 r2 (decimal g), padded l3 r3 (decimal b)]
        [r, g, b] := fun l1 r1 l3 r3 =>
      .cons ⟨hr, l1, r1, rfl⟩ (.cons ⟨hg, l2, r2, rfl⟩ (.cons ⟨hbl, l3, r3, rfl⟩ .nil))
    have four : ∀ l1 r1 l4 r4 : Nat, List.Forall₂
        (fun t n => n ≤ 255 ∧ ∃ l r, t = padded l r (decimal n))
        [padded l1 r1 (decimal r), padded l2 r2 (decimal g), padded l3 r3 (decimal b),
          padded l4 r4 (decimal a)]
        [r, g, b, a] := fun l1 r1 l4 r4 =>
      .cons ⟨hr, l1, r1, rfl⟩ (.cons ⟨hg, l2, r2, rfl⟩ (.cons ⟨hbl, l3, r3, rfl⟩
        (.cons ⟨ha, l4, r4, rfl⟩ .nil)))
    have bare3 : commaJoin
        [padded l1 r1 (decimal r), padded l2 r2 (decimal g), padded l3 r3 (decimal b)]
        = padded l1 r3 (commaJoin (padded 0 r1 (decimal r)
            :: ([padded l2 r2 (decimal g)] ++ [padded l3 0 (decimal b)]))) := by
      simp [commaJoin, padded, spaces]
    have bare4 : commaJoin
        [padded l1 r1 (decimal r), padded l2 r2 (decimal g), padded l3 r3 (decimal b),
          padded l4 r4 (decimal a)]
        = padded l1 r4 (commaJoin (padded 0 r1 (decimal r)
            :: ([padded l2 r2 (decimal g), padded l3 r3 (decimal b)]
              ++ [padded l4 0 (decimal a)]))) := by
      simp [commaJoin, padded, spaces]
    refine ⟨⟨?_, ?_, ?_⟩, ?_, ?_, ?_⟩
    · exact rgb_three hb hr hg hbl
        (rgb_reads_bracketed hs hn word hw _ _ (by simp) (three l1 r1 l3 r3) lo ro)
    · exact rgb_three hb hr hg hbl
        (rgb_reads_bracketed hs hn [] (Or.inr (Or.inr rfl)) _ _ (by simp) (three l1 r1 l3 r3)
          lo ro)
    · rw [bare3]
      exact rgb_three hb hr hg hbl
        (rgb_reads_bare hs hn r r1 [padded l2 r2 (decimal g)] l3 b [r, g, b] (three 0 r1 l3 0)
          hr hbl l1 r3)
    · exact rgb_four hb hr hg hbl ha
        (rgb_reads_bracketed hs hn word hw _ _ (by simp) (four l1 r1 l4 r4) lo ro)
    · exact rgb_four hb hr hg hbl ha
        (rgb_reads_bracketed hs hn [] (Or.inr (Or.inr rfl)) _ _ (by simp) (four l1 r1 l4 r4)
          lo ro)
    · rw [bare4]
      exact rgb_four hb hr hg hbl ha
        (rgb_reads_bare hs hn r r1 [padded l2 r2 (decimal g), padded l3 r3 (decimal b)] l4 a
          [r, g, b, a] (four 0 r1 l4 0) hr ha l1 r4)
  refine ⟨main, ?_⟩
  exact (main 0 136 255 128 "rgba".toList 0 0 0 0 0 0 0 0 0 0 (by decide) (by decide)
    (by decide) (by decide) (Or.inr rfl)).2.1

/-- Witness of C21: the reference string library is standard, reads the numbers up to 255 and
has a name table of words; with it "RGB( 1 , 2 , 3 )", "(1,2,3)" and " 1,2 , 3 " give
(1, 2, 3) with alpha 255, and "rgba(0,136,255,128)" gives (0, 136, 255) with alpha 128. -/
theorem functional_colors_witness :
    Standard refLib ∧ ReadsBytes refLib ∧ WordNames refLib
      ∧ deserializeColor refLib "RGB( 1 , 2 , 3 )".toList = some (Color.rgba 1 2 3 255)
      ∧ deserializeColor refLib "(1,2,3)".toList = some (Color.rgba 1 2 3 255)
      ∧ deserializeColor refLib " 1,2 , 3 ".toList = some (Color.rgba 1 2 3 255)
      ∧ deserializeColor refLib "rgba(0,136,255,128)".toList = some (Color.rgba 0 136 255 128) :=
  ⟨standard_refLib, readsBytes_refLib, wordNames_refLib,
    ((functional_colors refLib standard_refLib readsBytes_refLib wordNames_refLib).1
      1 2 3 0 "RGB".toList 1 1 1 1 1 1 0 0 0 0 (by decide) (by decide) (by decide) (by decide)
      (Or.inl (by decide))).1.1,
    ((functional_colors refLib standard_refLib readsBytes_refLib wordNames_refLib).1
      1 2 3 0 "rgb".toList 0 0 0 0 0 0 0 0 0 0 (by decide) (by decide) (by decide) (by decide)
      (Or.inl (by decide))).1.2.1,
    ((functional_colors refLib standard_refLib readsBytes_refLib wordNames_refLib).1
      1 2 3 0 "rgb".toList 1 0 0 1 1 1 0 0 0 0 (by decide) (by decide) (by decide) (by decide)
      (Or.inl (by decide))).1.2.2,
    (functional_colors refLib standard_refLib readsBytes_refLib wordNames_refLib).2⟩

/-! ## The six-digit form and the form `rgb(r,g,b)` -/

theorem hex_six {lib : StringLib} (h : KeepsHash lib) (u1 u2 u3 u4 u5 u6 : Bool)
    (r g b : Nat) (hr : r ≤ 255) (hg : g ≤ 255) (hb : b ≤ 255) :
    deserializeColor lib ('#' :: (hexByte u1 u2 r ++ hexByte u3 u4 g ++ hexByte u5 u6 b))
      = some (Color.rgba r g b 255) := by
  rw [deserializeColor_hash h]
  have d : ∀ n, n ≤ 255 → n / 16 < 16 := fun n hn => by omega
  have m : ∀ n : Nat, n % 16 < 16 := fun n => Nat.mod_lt _ (by decide)
  have e : ∀ n : Nat, 16 * (n / 16) + n % 16 = n := fun n => Nat.div_add_mod n 16
  simp only [hexByte, List.cons_append, List.nil_append, deserializeHexColor,
    List.drop_succ_cons, List.drop_zero, List.all_cons, List.all_nil,
    isHexChar_hexDigit _ _ (d r hr), isHexChar_hexDigit _ _ (d g hg),
    isHexChar_hexDigit _ _ (d b hb), isHexChar_hexDigit _ _ (m _), Bool.and_self, if_true,
    hexChannel_hexDigit _ _ _ _ (d r hr) (m r), hexChannel_hexDigit _ _ _ _ (d g hg) (m g),
    hexChannel_hexDigit _ _ _ _ (d b hb) (m b), e]
  rfl

theorem rgb_plain {lib : StringLib} (hs : Standard lib) (hb : ReadsBytes lib)
    (hn : WordNames lib) (r g b : Nat) (hr : r ≤ 255) (hg : g ≤ 255) (hbl : b ≤ 255) :
    deserializeColor lib
        ("rgb(".toList ++ commaJoin [decimal r, decimal g, decimal b] ++ ")".toList)
      = some (Color.rgba r g b 255) := by
  have hform : "rgb(".toList ++ commaJoin [decimal r, decimal g, decimal b] ++ ")".toList
      = padded 0 0 ("rgb".toList ++ ('(' :: commaJoin
          [padded 0 0 (decimal r), padded 0 0 (decimal g), padded 0 0 (decimal b)] ++ [')'])) := by
    simp [commaJoin, padded, spaces]
  rw [hform]
  exact rgb_three hb hr hg hbl
    (rgb_reads_bracketed hs hn "rgb".toList (Or.inl rfl) _ [r, g, b] (by simp)
      (.cons ⟨hr, 0, 0, rfl⟩ (.cons ⟨hg, 0, 0, rfl⟩ (.cons ⟨hbl, 0, 0, rfl⟩ .nil))) 0 0)

theorem named_color {lib : StringLib} (hs : Standard lib) (value name : List Char) (c : Color)
    (hname : (refTrim value).map Char.toLower = name)
    (hlow : name.map Char.toLower = name)
    (hne : name ≠ [] ∧ name ≠ "none".toList)
    (hc : lib.colorMap name = some c) :
    deserializeColor lib value = some c := by
  have h1 : lib.toLower (lib.trim value) = name := by
    rw [hs.2, hs.1, hname]
  have h2 : lib.toLower name = name := by
    rw [hs.1, hlow]
  have h3 : ¬ (name = [] ∨ name = "none".toList) := by
    rintro (h | h)
    · exact hne.1 h
    · exact hne.2 h
  unfold deserializeColor
  simp only [h1, h2, hc, if_neg h3]

/-- C22: the forms of a color agree.  With a standard string library whose `toInt` reads
decimal numbers up to 255 and a name table of words that maps "red" to (255, 0, 0) with alpha
255, `deserializeColor` returns that color for "red", "RED", "#FF0000", "#ff0000", "#f00" and
"rgb(255,0,0)"; and for all `r`, `g`, `b` up to 255 the six-digit hexadecimal spelling (with
capital or small letters) and the spelling `rgb(r,g,b)` parse to the same color, (r, g, b) with
alpha 255. -/
theorem color_forms_agree (lib : StringLib) (hs : Standard lib) (hb : ReadsBytes lib)
    (hn : WordNames lib)
    (hred : lib.colorMap "red".toList = some (Color.rgba 255 0 0 255)) :
    (deserializeColor lib "red".toList = some (Color.rgba 255 0 0 255)
        ∧ deserializeColor lib "RED".toList = some (Color.rgba 255 0 0 255)
        ∧ deserializeColor lib "#FF0000".toList = some (Color.rgba 255 0 0 255)
        ∧ deserializeColor lib "#ff0000".toList = some (Color.rgba 255 0 0 255)
        ∧ deserializeColor lib "#f00".toList = some (Color.rgba 255 0 0 255)
        ∧ deserializeColor lib "rgb(255,0,0)".toList = some (Color.rgba 255 0 0 255))
      ∧ (∀ (r g b : Nat) (u1 u2 u3 u4 u5 u6 : Bool), r ≤ 255 → g ≤ 255 → b ≤ 255 →
        deserializeColor lib ('#' :: (hexByte u1 u2 r ++ hexByte u3 u4 g ++ hexByte u5 u6 b))
            = deserializeColor lib
              ("rgb(".toList ++ commaJoin [decimal r, decimal g, decimal b] ++ ")".toList)
          ∧ deserializeColor lib
              ("rgb(".toList ++ commaJoin [decimal r, decimal g, decimal b] ++ ")".toList)
            = some (Color.rgba r g b 255)) := by
  have hk := keepsHash_of_standard hs hn
  refine ⟨⟨?_, ?_, ?_, ?_, ?_, ?_⟩, ?_⟩
  · exact named_color hs _ _ _ (by decide) (by decide) (by decide) hred
  · exact named_color hs _ _ _ (by decide) (by decide) (by decide) hred
  · exact hex_six hk true true false false false false 255 0 0 (by decide) (by decide)
      (by decide)
  · exact hex_six hk false false false false false false 255 0 0 (by decide) (by decide)
      (by decide)
  · exact (deserializeColor_hash hk "f00".toList).trans rfl
  · exact rgb_plain hs hb hn 255 0 0 (by decide) (by decide) (by decide)
  · intro r g b u1 u2 u3 u4 u5 u6 hr hg hbl
    rw [hex_six hk u1 u2 u3 u4 u5 u6 r g b hr hg hbl, rgb_plain hs hb hn r g b hr hg hbl]
    exact ⟨rfl, rfl⟩

/-- Witness of C22: the reference string library, whose name table maps "red" to (255, 0, 0)
with alpha 255; "#0A141E" and "rgb(10,20,30)" give the same color (10, 20, 30). -/
theorem color_forms_agree_witness :
    refLib.colorMap "red".toList = some (Color.rgba 255 0 0 255)
      ∧ deserializeColor refLib "red".toList = deserializeColor refLib "#f00".toList
      ∧ deserializeColor refLib "#0A141E".toList = deserializeColor refLib "rgb(10,20,30)".toList
      ∧ deserializeColor refLib "rgb(10,20,30)".toList = some (Color.rgba 10 20 30 255) :=
  ⟨rfl,
    ((color_forms_agree refLib standard_refLib readsBytes_refLib wordNames_refLib rfl).1.1).trans
      ((color_forms_agree refLib standard_refLib readsBytes_refLib wordNames_refLib
        rfl).1.2.2.2.2.1).symm,
    ((color_forms_agree refLib standard_refLib readsBytes_refLib wordNames_refLib rfl).2
      10 20 30 true true true true true true (by decide) (by decide) (by decide)).1,
    ((color_forms_agree refLib standard_refLib readsBytes_refLib wordNames_refLib rfl).2
      10 20 30 true true true true true true (by decide) (by decide) (by decide)).2⟩

/-! ## The parts of `deserializeTexture` -/

theorem removeWhitespace_blank (ws : List Char) (hb : Blank ws) (x : List Char) :
    removeWhitespace (ws ++ x) = removeWhitespace x := by
  induction ws with
  | nil => rfl
  | cons c cs ih =>
    have hc := hb c (List.mem_cons_self _ _)
    rw [List.cons_append]
    conv_lhs => unfold removeWhitespace
    rw [if_pos hc]
    exact ih (fun d hd => hb d (List.mem_cons_of_mem _ hd))

theorem removeWhitespace_cons (c : Char) (cs : List Char)
    (hc : ¬ (c = ' ' ∨ c = '\t' ∨ c = '\r')) : removeWhitespace (c :: cs) = c :: cs := by
  conv_lhs => unfold removeWhitespace
  rw [if_neg hc]

theorem removeWhitespace_of_blank (ws : List Char) (hb : Blank ws) : removeWhitespace ws = [] := by
  have := removeWhitespace_blank ws hb []
  rw [List.append_nil] at this
  rw [this]
  rfl

theorem findChar_append (ch : Char) (pre rest : List Char) (h : ch ∉ pre) :
    findChar ch (pre ++ ch :: rest) = some pre.length := by
  induction pre with
  | nil =>
    show findChar ch (ch :: rest) = _
    unfold findChar
    rw [if_pos rfl]
    rfl
  | cons c cs ih =>
    have hc : c ≠ ch := fun hcc => h (by rw [hcc]; exact List.mem_cons_self _ _)
    rw [List.cons_append]
    conv_lhs => unfold findChar
    rw [if_neg hc, ih (fun hm => h (List.mem_cons_of_mem _ hm))]
    rfl

theorem findChar_none (ch : Char) (s : List Char) (h : ch ∉ s) : findChar ch s = none := by
  induction s with
  | nil => rfl
  | cons c cs ih =>
    have hc : c ≠ ch := fun hcc => h (by rw [hcc]; exact List.mem_cons_self _ _)
    unfold findChar
    rw [if_neg hc, ih (fun hm => h (List.mem_cons_of_mem _ hm))]
    rfl

theorem not_mem_commaJoin (ch : Char) (hch : ch ≠ ',') (toks : List (List Char))
    (h : ∀ t ∈ toks, ch ∉ t) : ch ∉ commaJoin toks := by
  induction toks with
  | nil => exact List.not_mem_nil _
  | cons t ts ih =>
    cases ts with
    | nil => exact h t (List.mem_cons_self _ _)
    | cons u us =>
      rw [commaJoin_cons]
      intro hm
      rcases List.mem_append.mp hm with hm | hm
      · exact h t (List.mem_cons_self _ _) hm
      · rcases List.mem_cons.mp hm with hm | hm
        · exact hch hm
        · exact ih (fun x hx => h x (List.mem_cons_of_mem _ hx)) hm

/-- `readUIntRect` reads the spelling of a rectangle. -/
theorem readUIntRect_text (lib : StringLib) (r : RectText) (hr : r.Plain) :
    readUIntRect lib r.text = some (r.rect lib) := by
  unfold readUIntRect RectText.text
  rw [if_pos ⟨by simp, rfl, by rw [List.getLast?_concat]⟩]
  have hbody : (('(' :: commaJoin [r.x, r.y, r.w, r.h] ++ [')']).drop 1).take
      (('(' :: commaJoin [r.x, r.y, r.w, r.h] ++ [')']).length - 2)
      = commaJoin [r.x, r.y, r.w, r.h] := by
    simp
  rw [hbody]
  unfold split
  rw [segments_commaJoin _ (by simp) (fun t ht => (hr t ht).1)]
  rfl

/-- The rectangle of a clause is read up to its closing bracket. -/
theorem readClauseRect_text (lib : StringLib) (r : RectText) (hr : r.Plain)
    (behind : List Char) :
    readClauseRect lib (r.text ++ behind) = some (r.rect lib, behind) := by
  have hnot : ')' ∉ '(' :: commaJoin [r.x, r.y, r.w, r.h] := by
    intro hm
    rcases List.mem_cons.mp hm with hm | hm
    · revert hm
      decide
    · exact not_mem_commaJoin ')' (by decide) _ (fun t ht => (hr t ht).2) hm
  have hshape : r.text ++ behind = ('(' :: commaJoin [r.x, r.y, r.w, r.h]) ++ ')' :: behind := by
    unfold RectText.text
    simp
  have hlen : r.text.length = ('(' :: commaJoin [r.x, r.y, r.w, r.h]).length + 1 := by
    unfold RectText.text
    simp
  unfold readClauseRect
  have hfind : findChar ')' (r.text ++ behind)
      = some ('(' :: commaJoin [r.x, r.y, r.w, r.h]).length := by
    rw [hshape]
    exact findChar_append _ _ _ hnot
  simp only [hfind]
  rw [← hlen, List.take_left', List.drop_left', readUIntRect_text lib r hr]
  · rfl
  · rfl

theorem readFilename_plain (f : List Char) (hq : '"' ∉ f) (rest : List Char) :
    ∀ (prev : Char) (acc : List Char),
      (f.getLast?.map (fun c => Char.ofNat (c.toNat % 256))).getD prev ≠ '\\' →
      readFilename (f ++ '"' :: rest) prev acc = some (acc ++ f, rest) := by
  induction f with
  | nil =>
    intro prev acc hp
    show readFilename ('"' :: rest) prev acc = _
    unfold readFilename
    rw [if_neg]
    · rw [List.append_nil]
    · rintro (h | h)
      · exact h rfl
      · exact hp h
  | cons c cs ih =>
    intro prev acc hp
    have hc : c ≠ '"' := fun hcc => hq (by rw [hcc]; exact List.mem_cons_self _ _)
    rw [List.cons_append]
    conv_lhs => unfold readFilename
    rw [if_pos (Or.inl hc), ih (fun hm => hq (List.mem_cons_of_mem _ hm))]
    · rw [List.append_assoc]
      rfl
    · cases cs with
      | nil => exact hp
      | cons d ds =>
        rw [List.getLast?_cons_cons] at hp
        exact hp

/-! ## The clauses behind the filename -/

/-- One round of the loop of `deserializeTexture` at a character that is not white space, with
an opening bracket somewhere behind it: the word in front of the bracket is `Part`. -/
theorem textureClauses_part (lib : StringLib) (fuel : Nat) (c : Char) (cs : List Char)
    (pos : Nat) (pr mr rect : UIntRect) (behind : List Char)
    (hc : ¬ (c = ' ' ∨ c = '\t' ∨ c = '\r'))
    (hfind : findChar '(' (c :: cs) = some pos)
    (hword : (c :: cs).take pos = "Part".toList ∨ (c :: cs).take pos = "part".toList)
    (hread : readClauseRect lib ((c :: cs).drop 4) = some (rect, behind)) :
    textureClauses lib (fuel + 1) (c :: cs) pr mr = textureClauses lib fuel behind rect mr := by
  conv_lhs => unfold textureClauses
  simp only [removeWhitespace_cons c cs hc, hfind, if_pos hword, hread]

/-- The same when the word is `Middle`. -/
theorem textureClauses_middle (lib : StringLib) (fuel : Nat) (c : Char) (cs : List Char)
    (pos : Nat) (pr mr rect : UIntRect) (behind : List Char)
    (hc : ¬ (c = ' ' ∨ c = '\t' ∨ c = '\r'))
    (hfind : findChar '(' (c :: cs) = some pos)
    (hpart : ¬ ((c :: cs).take pos = "Part".toList ∨ (c :: cs).take pos = "part".toList))
    (hword : (c :: cs).take pos = "Middle".toList ∨ (c :: cs).take pos = "middle".toList)
    (hread : readClauseRect lib ((c :: cs).drop 6) = some (rect, behind)) :
    textureClauses lib (fuel + 1) (c :: cs) pr mr = textureClauses lib fuel behind pr rect := by
  conv_lhs => unfold textureClauses
  simp only [removeWhitespace_cons c cs hc, hfind, if_neg hpart, if_pos hword, hread]

/-- Every other word in front of the bracket makes the loop throw. -/
theorem textureClauses_other (lib : StringLib) (fuel : Nat) (c : Char) (cs : List Char)
    (pos : Nat) (pr mr : UIntRect)
    (hc : ¬ (c = ' ' ∨ c = '\t' ∨ c = '\r'))
    (hfind : findChar '(' (c :: cs) = some pos)
    (hpart : ¬ ((c :: cs).take pos = "Part".toList ∨ (c :: cs).take pos = "part".toList))
    (hmiddle : ¬ ((c :: cs).take pos = "Middle".toList ∨ (c :: cs).take pos = "middle".toList)) :
    textureClauses lib (fuel + 1) (c :: cs) pr mr = none := by
  conv_lhs => unfold textureClauses
  simp only [removeWhitespace_cons c cs hc, hfind, if_neg hpart, if_neg hmiddle]

theorem keyword_facts (isPart capital : Bool) :
    '(' ∉ keyword isPart capital
      ∧ (∃ c cs, keyword isPart capital = c :: cs ∧ ¬ (c = ' ' ∨ c = '\t' ∨ c = '\r'))
      ∧ (keyword isPart capital).length = (if isPart then 4 else 6)
      ∧ (isPart = true →
        (keyword isPart capital = "Part".toList ∨ keyword isPart capital = "part".toList))
      ∧ (isPart = false →
        ¬ (keyword isPart capital = "Part".toList ∨ keyword isPart capital = "part".toList)
          ∧ (keyword isPart capital = "Middle".toList
            ∨ keyword isPart capital = "middle".toList)) := by
  cases isPart <;> cases capital <;>
    exact ⟨by decide, ⟨_, _, rfl, by decide⟩, by decide, by decide, by decide⟩

/-- One clause: the loop reads its rectangle and goes on behind it. -/
theorem textureClauses_clause (lib : StringLib) (fuel : Nat) (c : Clause) (hc : c.Plain)
    (behind : List Char) (pr mr : UIntRect) :
    textureClauses lib (fuel + 1) (c.text ++ behind) pr mr
      = textureClauses lib fuel behind (if c.isPart = true then c.rect.rect lib else pr)
          (if c.isPart = true then mr else c.rect.rect lib) := by
  obtain ⟨hparen, ⟨k, ks, hk, hblank⟩, hlen, hp, hm⟩ := keyword_facts c.isPart c.capital
  have hshape : c.text ++ behind
      = c.blanks ++ (keyword c.isPart c.capital ++ '(' ::
          (commaJoin [c.rect.x, c.rect.y, c.rect.w, c.rect.h] ++ ')' :: behind)) := by
    unfold Clause.text RectText.text
    simp
  have hrest : '(' :: (commaJoin [c.rect.x, c.rect.y, c.rect.w, c.rect.h] ++ ')' :: behind)
      = c.rect.text ++ behind := by
    unfold RectText.text
    simp
  have hstep : ∀ x : List Char, textureClauses lib (fuel + 1) (c.blanks ++ x) pr mr
      = textureClauses lib (fuel + 1) x pr mr := by
    intro x
    conv_lhs => unfold textureClauses
    conv_rhs => unfold textureClauses
    rw [removeWhitespace_blank _ hc.1]
  rw [hshape, hstep]
  have hfind := findChar_append '(' (keyword c.isPart c.capital)
    (commaJoin [c.rect.x, c.rect.y, c.rect.w, c.rect.h] ++ ')' :: behind) hparen
  have htake : (keyword c.isPart c.capital ++ '(' ::
      (commaJoin [c.rect.x, c.rect.y, c.rect.w, c.rect.h] ++ ')' :: behind)).take
        (keyword c.isPart c.capital).length = keyword c.isPart c.capital :=
    List.take_left' rfl
  have hdrop : (keyword c.isPart c.capital ++ '(' ::
      (commaJoin [c.rect.x, c.rect.y, c.rect.w, c.rect.h] ++ ')' :: behind)).drop
        (keyword c.isPart c.capital).length = c.rect.text ++ behind := by
    rw [List.drop_left' rfl, hrest]
  have hcons : keyword c.isPart c.capital ++ '(' ::
      (commaJoin [c.rect.x, c.rect.y, c.rect.w, c.rect.h] ++ ')' :: behind)
      = k :: (ks ++ '(' ::
        (commaJoin [c.rect.x, c.rect.y, c.rect.w, c.rect.h] ++ ')' :: behind)) := by
    rw [hk]
    rfl
  rw [hcons] at hfind htake hdrop ⊢
  by_cases hip : c.isPart = true
  · rw [if_pos hip, if_pos hip]
    apply textureClauses_part lib fuel _ _ _ pr mr _ _ hblank hfind
    · rw [htake]
      exact hp hip
    · rw [show (4 : Nat) = (keyword c.isPart c.capital).length from by rw [hlen, if_pos hip],
        hdrop]
      exact readClauseRect_text lib _ hc.2 behind
  · have hip2 : c.isPart = false := by simpa using hip
    rw [if_neg hip, if_neg hip]
    apply textureClauses_middle lib fuel _ _ _ pr mr _ _ hblank hfind
    · rw [htake]
      exact (hm hip2).1
    · rw [htake]
      exact (hm hip2).2
    · rw [show (6 : Nat) = (keyword c.isPart c.capital).length from by rw [hlen, if_neg hip],
        hdrop]
      exact readClauseRect_text lib _ hc.2 behind

theorem length_le_clausesText (cs : List Clause) : cs.length ≤ (clausesText cs).length := by
  induction cs with
  | nil => exact Nat.le_refl _
  | cons c cs ih =>
    have hk : 1 ≤ (keyword c.isPart c.capital).length := by
      rw [(keyword_facts c.isPart c.capital).2.2.1]
      split <;> decide
    show cs.length + 1 ≤ (c.text ++ clausesText cs).length
    rw [List.length_append]
    unfold Clause.text
    rw [List.length_append, List.length_append]
    omega

/-- A sequence of clauses: the loop reads them one after the other, and every clause
overwrites the rectangle of its kind. -/
theorem textureClauses_clauses (lib : StringLib) (cs : List Clause) (hcs : ∀ c ∈ cs, c.Plain)
    (tail : List Char) (fuel : Nat) :
    ∀ pr mr : UIntRect,
      textureClauses lib (cs.length + fuel) (clausesText cs ++ tail) pr mr
        = textureClauses lib fuel tail
            (cs.foldl (fun r c => if c.isPart = true then c.rect.rect lib else r) pr)
            (cs.foldl (fun r c => if c.isPart = false then c.rect.rect lib else r) mr) := by
  induction cs with
  | nil =>
    intro pr mr
    rw [List.length_nil, Nat.zero_add]
    rfl
  | cons c cs ih =>
    intro pr mr
    have hfuel : (c :: cs).length + fuel = (cs.length + fuel) + 1 := by
      rw [List.length_cons]
      omega
    have htext : clausesText (c :: cs) ++ tail = c.text ++ (clausesText cs ++ tail) := by
      show (c.text ++ clausesText cs) ++ tail = _
      rw [List.append_assoc]
    rw [hfuel, htext, textureClauses_clause lib _ c (hcs c (List.mem_cons_self _ _)),
      ih (fun x hx => hcs x (List.mem_cons_of_mem _ hx)), List.foldl_cons, List.foldl_cons]
    cases c.isPart <;> rfl

theorem textureClauses_end (lib : StringLib) (fuel : Nat) (tail : List Char) (ht : Blank tail)
    (pr mr : UIntRect) : textureClauses lib (fuel + 1) tail pr mr = some (pr, mr, false) := by
  unfold textureClauses
  rw [removeWhitespace_of_blank tail ht]

/-! ## The whole of `deserializeTexture` -/

theorem not_blank_of_toLower {c d : Char} (h : c.toLower = d) (hd : isSpaceChar d = false) :
    ¬ (c = ' ' ∨ c = '\t' ∨ c = '\r') := by
  have hc := isSpaceChar_of_toLower h hd
  rintro (h1 | h1 | h1) <;> rw [h1] at hc <;> revert hc <;> decide

/-- A word whose small letters are those of a word of letters: its first and last character
are not white space and it holds no opening bracket. -/
theorem word_facts (word target : List Char) (hw : word.map Char.toLower = target)
    (ht : ∀ d ∈ target, isSpaceChar d = false ∧ d ≠ '(') (hne : target ≠ []) :
    (∃ c cs, word = c :: cs ∧ ¬ (c = ' ' ∨ c = '\t' ∨ c = '\r'))
      ∧ word.head?.map isSpaceChar = some false
      ∧ word.getLast?.map isSpaceChar = some false
      ∧ '(' ∉ word := by
  have hall : ∀ c ∈ word, isSpaceChar c = false ∧ c ≠ '(' := by
    intro c hc
    have hm : c.toLower ∈ target := by
      rw [← hw]
      exact List.mem_map_of_mem _ hc
    refine ⟨isSpaceChar_of_toLower rfl (ht _ hm).1, ?_⟩
    intro h0
    rw [h0] at hm
    exact (ht _ hm).2 (by decide)
  cases word with
  | nil =>
    rw [List.map_nil] at hw
    exact absurd hw.symm hne
  | cons c cs =>
    refine ⟨⟨c, cs, rfl, ?_⟩, ?_, ?_, fun hm => (hall _ hm).2 rfl⟩
    · have hm : c.toLower ∈ target := by
        rw [← hw]
        exact List.mem_map_of_mem _ (List.mem_cons_self _ _)
      exact not_blank_of_toLower rfl (ht _ hm).1
    · show some (isSpaceChar c) = some false
      rw [(hall c (List.mem_cons_self _ _)).1]
    · cases hl : (c :: cs).getLast? with
      | none => simp at hl
      | some z =>
        show some (isSpaceChar z) = some false
        rw [(hall z (List.mem_of_getLast?_eq_some hl)).1]

/-- Behind a quoted filename that holds no quote and does not end in a backslash,
`deserializeTexture` runs its loop over the clauses. -/
theorem deserializeTexture_quoted {τ : Type} (lib : StringLib) (texture : TextureClass τ)
    (hs : Standard lib) (f : List Char) (hf : PlainName f) (rest : List Char) :
    deserializeTexture lib texture (quoted f ++ rest)
      = (textureClauses lib (rest.length + 1) rest UIntRect.zero UIntRect.zero).bind
          (fun r => texture.load f r.1 r.2.1 r.2.2) := by
  have hshape : quoted f ++ rest = '"' :: (f ++ '"' :: rest) := by
    unfold quoted
    simp
  have hread : readFilename (f ++ '"' :: rest) (Char.ofNat 0) [] = some (f, rest) := by
    have := readFilename_plain f hf.1 rest (Char.ofNat 0) [] (by
      have h2 := hf.2
      cases hl : f.getLast? with
      | none => decide
      | some z =>
        rw [hl] at h2
        exact fun h0 => h2 (by rw [← h0]; rfl))
    rw [this]
    rfl
  rw [hshape]
  unfold deserializeTexture
  rw [if_neg]
  · simp only [ne_eq, not_true_eq_false, if_false, hread]
  · rintro (h | h)
    · cases h
    · rw [hs.1, List.map_cons] at h
      have := (List.cons.inj h).1
      revert this
      decide

/-- The result of `deserializeTexture` for a quoted filename, a sequence of clauses and an end
that leaves the rectangles alone. -/
theorem deserializeTexture_clauses {τ : Type} (lib : StringLib) (texture : TextureClass τ)
    (hs : Standard lib) (f : List Char)
    (hf : PlainName f) (cs : List Clause) (hcs : ∀ c ∈ cs, c.Plain) (tail : List Char)
    (smooth : Bool)
    (htail : ∀ (fuel : Nat) (pr mr : UIntRect),
      textureClauses lib (fuel + 1) tail pr mr = some (pr, mr, smooth)) :
    deserializeTexture lib texture (quoted f ++ (clausesText cs ++ tail))
      = texture.load f (lastRect lib true cs) (lastRect lib false cs) smooth := by
  rw [deserializeTexture_quoted lib texture hs f hf]
  have hlen : (clausesText cs ++ tail).length + 1
      = cs.length + (((clausesText cs ++ tail).length - cs.length) + 1) := by
    have := length_le_clausesText cs
    rw [List.length_append]
    omega
  rw [hlen, textureClauses_clauses lib cs hcs, htail]
  rfl

/-- White space in front of a clause is skipped. -/
theorem textureClauses_blanks (lib : StringLib) (fuel : Nat) (blanks : List Char)
    (hb : Blank blanks) (x : List Char) (pr mr : UIntRect) :
    textureClauses lib (fuel + 1) (blanks ++ x) pr mr = textureClauses lib (fuel + 1) x pr mr := by
  conv_lhs => unfold textureClauses
  conv_rhs => unfold textureClauses
  rw [removeWhitespace_blank _ hb]

/-- A keyword in a letter case other than `Part`, `part`, `Middle` and `middle` makes
`deserializeTexture` throw. -/
theorem deserializeTexture_other_word {τ : Type} (lib : StringLib) (texture : TextureClass τ)
    (hs : Standard lib) (f : List Char) (hf : PlainName f) (word : List Char)
    (hw : word.map Char.toLower = "part".toList ∨ word.map Char.toLower = "middle".toList)
    (h1 : word ≠ "part".toList) (h2 : word ≠ "Part".toList) (h3 : word ≠ "middle".toList)
    (h4 : word ≠ "Middle".toList) (blanks : List Char) (hb : Blank blanks)
    (behind : List Char) :
    deserializeTexture lib texture (quoted f ++ (blanks ++ (word ++ '(' :: behind))) = none := by
  have facts : (∃ c cs, word = c :: cs ∧ ¬ (c = ' ' ∨ c = '\t' ∨ c = '\r')) ∧ '(' ∉ word := by
    rcases hw with hw | hw
    · obtain ⟨a, _, _, d⟩ := word_facts word _ hw (by decide) (by decide)
      exact ⟨a, d⟩
    · obtain ⟨a, _, _, d⟩ := word_facts word _ hw (by decide) (by decide)
      exact ⟨a, d⟩
  obtain ⟨⟨c, cs, hword, hc⟩, hparen⟩ := facts
  have hfind := findChar_append '(' word behind hparen
  have htake : (word ++ '(' :: behind).take word.length = word := List.take_left' rfl
  rw [deserializeTexture_quoted lib texture hs f hf, textureClauses_blanks lib _ _ hb]
  have hcons : word ++ '(' :: behind = c :: (cs ++ '(' :: behind) := by
    rw [hword]
    rfl
  rw [hcons] at hfind htake ⊢
  rw [textureClauses_other lib _ _ _ _ _ _ hc hfind]
  · rfl
  · rw [htake]
    rintro (h | h)
    · exact h2 h
    · exact h1 h
  · rw [htake]
    rintro (h | h)
    · exact h4 h
    · exact h3 h

/-- C30, counterexample: the keywords spelled `PART` and `MiDdLe` do not give the result of
`Part` and `Middle`: `deserializeTexture` throws for them (reference `Texture` class, in which
the file "f" can be loaded). -/
theorem texture_keyword_in_capitals_throws :
    deserializeTexture refLib (refTextures refImages)
        (quoted "f".toList ++ " PART(1,2,3,4)".toList) = none
      ∧ deserializeTexture refLib (refTextures refImages)
          (quoted "f".toList ++ " Part(1,2,3,4)".toList)
        = some { id := "f".toList,
                 partRect := { left := 1, top := 2, width := 3, height := 4 },
                 middleRect := { left := 0, top := 0, width := 3, height := 4 }, smooth := false }
      ∧ deserializeTexture refLib (refTextures refImages)
          (quoted "f".toList ++ " MiDdLe(1,2,3,4)".toList) = none
      ∧ deserializeTexture refLib (refTextures refImages)
          (quoted "f".toList ++ " Middle(1,2,3,4)".toList)
        = some { id := "f".toList,
                 partRect := { left := 0, top := 0, width := 50, height := 50 },
                 middleRect := { left := 1, top := 2, width := 3, height := 4 },
                 smooth := false } := by
  decide

/-- C30, amended: the keywords of a texture have two spellings each.  With a standard string
library, any `Texture` class, a filename `f` that holds no quote and does not end in a
backslash, and a rectangle whose tokens hold no comma and no closing bracket,
`deserializeTexture` of `"f" part(x,y,w,h)` gives the same result as with the keyword `Part`,
which is what the `Texture` constructor makes of `f` and that part rectangle, and
`"f" middle(x,y,w,h)` gives the same result as with `Middle`, which is what the constructor
makes of `f` and that middle rectangle; for every other letter-case variant of "part" or
"middle" it throws. -/
theorem texture_keyword_spellings {τ : Type} (lib : StringLib) (texture : TextureClass τ)
    (hs : Standard lib) (f : List Char)
    (hf : PlainName f) (r : RectText) (hr : r.Plain) :
    (deserializeTexture lib texture (quoted f ++ (' ' :: "part".toList ++ r.text))
          = deserializeTexture lib texture (quoted f ++ (' ' :: "Part".toList ++ r.text))
        ∧ deserializeTexture lib texture (quoted f ++ (' ' :: "Part".toList ++ r.text))
          = texture.load f (r.rect lib) UIntRect.zero false)
      ∧ (deserializeTexture lib texture (quoted f ++ (' ' :: "middle".toList ++ r.text))
          = deserializeTexture lib texture (quoted f ++ (' ' :: "Middle".toList ++ r.text))
        ∧ deserializeTexture lib texture (quoted f ++ (' ' :: "Middle".toList ++ r.text))
          = texture.load f UIntRect.zero (r.rect lib) false)
      ∧ (∀ word : List Char,
        (word.map Char.toLower = "part".toList ∨ word.map Char.toLower = "middle".toList) →
        word ≠ "part".toList → word ≠ "Part".toList →
        word ≠ "middle".toList → word ≠ "Middle".toList →
        deserializeTexture lib texture (quoted f ++ (' ' :: word ++ r.text)) = none) := by
  have one : ∀ isPart capital : Bool,
      deserializeTexture lib texture (quoted f ++ (' ' :: keyword isPart capital ++ r.text))
        = texture.load f (if isPart = true then r.rect lib else UIntRect.zero)
            (if isPart = true then UIntRect.zero else r.rect lib) false := by
    intro isPart capital
    have h := deserializeTexture_clauses lib texture hs f hf [⟨[' '], isPart, capital, r⟩]
      (by
        intro c hc
        rw [List.mem_singleton] at hc
        rw [hc]
        exact ⟨(by decide : Blank [' ']), hr⟩)
      [] false (fun fuel pr mr => textureClauses_end lib fuel [] (by decide) pr mr)
    have hshape : clausesText [⟨[' '], isPart, capital, r⟩] ++ []
        = ' ' :: keyword isPart capital ++ r.text := by
      simp [clausesText, Clause.text]
    rw [hshape] at h
    rw [h]
    cases isPart <;> rfl
  refine ⟨⟨?_, ?_⟩, ⟨?_, ?_⟩, ?_⟩
  · exact (one true false).trans (one true true).symm
  · exact one true true
  · exact (one false false).trans (one false true).symm
  · exact one false true
  · intro word hw h1 h2 h3 h4
    have h := deserializeTexture_other_word lib texture hs f hf word hw h1 h2 h3 h4 [' ']
      (by decide) (commaJoin [r.x, r.y, r.w, r.h] ++ [')'])
    have hshape : [' '] ++ (word ++ '(' :: (commaJoin [r.x, r.y, r.w, r.h] ++ [')']))
        = ' ' :: word ++ r.text := by
      simp [RectText.text]
    rw [hshape] at h
    exact h

/-- Witness of C30: with the reference string library and `Texture` class, the filename "f" and
the rectangle (1, 2, 3, 4), the keywords `part` and `Part` give the same texture, the one the
constructor makes of the part rectangle (1, 2, 3, 4), and `PART` makes `deserializeTexture`
throw. -/
theorem texture_keyword_spellings_witness :
    deserializeTexture refLib (refTextures refImages)
          (quoted "f".toList ++ " part(1,2,3,4)".toList)
        = deserializeTexture refLib (refTextures refImages)
            (quoted "f".toList ++ " Part(1,2,3,4)".toList)
      ∧ deserializeTexture refLib (refTextures refImages)
          (quoted "f".toList ++ " Part(1,2,3,4)".toList)
        = (refTextures refImages).load "f".toList
            { left := 1, top := 2, width := 3, height := 4 } UIntRect.zero false
      ∧ deserializeTexture refLib (refTextures refImages)
          (quoted "f".toList ++ " PART(1,2,3,4)".toList) = none :=
  ⟨(texture_keyword_spellings refLib (refTextures refImages) standard_refLib "f".toList
      (by decide) ⟨"1".toList, "2".toList, "3".toList, "4".toList⟩ (by decide)).1.1,
    (texture_keyword_spellings refLib (refTextures refImages) standard_refLib "f".toList
      (by decide) ⟨"1".toList, "2".toList, "3".toList, "4".toList⟩ (by decide)).1.2,
    (texture_keyword_spellings refLib (refTextures refImages) standard_refLib "f".toList
      (by decide) ⟨"1".toList, "2".toList, "3".toList, "4".toList⟩ (by decide)).2.2 "PART".toList
      (Or.inl (by decide)) (by decide) (by decide) (by decide) (by decide)⟩

/-- C33: replacing a function of the dispatch table.  After `setFunction k f`, `deserialize k s`
is `f s` for every string `s` and `getFunction k` is `f`, while `deserialize` and `getFunction`
are unchanged for every other kind; and in the initial table each of the nine kinds (Bool, Font,
Color, String, Number, Outline, Texture, TextStyle, RendererData) has an entry, so that
`deserialize` returns for it. -/
theorem dispatch_table_replacement {β : Type} :
    (∀ (table : DeserializerTable β) (k : ObjectType) (f : List Char → β),
        (∀ s, deserialize (setFunction table k f) k s = some (f s))
          ∧ getFunction (setFunction table k f) k = some f
          ∧ (∀ k2, k2 ≠ k → ∀ s,
              deserialize (setFunction table k f) k2 s = deserialize table k2 s)
          ∧ (∀ k2, k2 ≠ k → getFunction (setFunction table k f) k2 = getFunction table k2))
      ∧ (∀ (fns : Deserializers β) (k : ObjectType),
          (m_deserializers fns k).isSome = true
            ∧ ∀ s, (deserialize (m_deserializers fns) k s).isSome = true)
      ∧ (∀ fns : Deserializers β,
          getFunction (m_deserializers fns) ObjectType.Bool = some fns.deserializeBool
            ∧ getFunction (m_deserializers fns) ObjectType.Font = some fns.deserializeFont
            ∧ getFunction (m_deserializers fns) ObjectType.Color = some fns.deserializeColor
            ∧ getFunction (m_deserializers fns) ObjectType.String = some fns.deserializeString
            ∧ getFunction (m_deserializers fns) ObjectType.Number = some fns.deserializeNumber
            ∧ getFunction (m_deserializers fns) ObjectType.Outline = some fns.deserializeOutline
            ∧ getFunction (m_deserializers fns) ObjectType.Texture = some fns.deserializeTexture
            ∧ getFunction (m_deserializers fns) ObjectType.TextStyle
              = some fns.deserializeTextStyle
            ∧ getFunction (m_deserializers fns) ObjectType.RendererData
              = some fns.deserializeRendererData) := by
  refine ⟨?_, ?_, ?_⟩
  · intro table k f
    refine ⟨?_, ?_, ?_, ?_⟩
    · intro s
      unfold deserialize setFunction
      rw [if_pos rfl]
    · unfold getFunction setFunction
      rw [if_pos rfl]
    · intro k2 hk s
      unfold deserialize setFunction
      rw [if_neg hk]
    · intro k2 hk
      unfold getFunction setFunction
      rw [if_neg hk]
  · intro fns k
    cases k <;> exact ⟨rfl, fun _ => rfl⟩
  · intro fns
    exact ⟨rfl, rfl, rfl, rfl, rfl, rfl, rfl, rfl, rfl⟩

/-- Witness of C33: in a table of functions to numbers that starts with the length function for
every kind, the function of `Color` is replaced by the constant 7; `deserialize` of `Color` then
gives 7 and `deserialize` of `Bool` still gives the length. -/
theorem dispatch_table_replacement_witness :
    deserialize
        (setFunction (m_deserializers
          (Deserializers.mk List.length List.length List.length List.length List.length
            List.length List.length List.length List.length))
          ObjectType.Color (fun _ => 7)) ObjectType.Color "red".toList = some 7
      ∧ deserialize
        (setFunction (m_deserializers
          (Deserializers.mk List.length List.length List.length List.length List.length
            List.length List.length List.length List.length))
          ObjectType.Color (fun _ => 7)) ObjectType.Bool "true".toList = some 4 :=
  ⟨(dispatch_table_replacement.1 _ ObjectType.Color (fun _ => 7)).1 "red".toList,
    ((dispatch_table_replacement.1 (m_deserializers
        (Deserializers.mk List.length List.length List.length List.length List.length
          List.length List.length List.length List.length))
      ObjectType.Color (fun _ => 7)).2.2.1 ObjectType.Bool (by decide) "true".toList).trans rfl⟩

/-! ## Text styles -/

theorem addTextStyle_eq (lib : StringLib) (st : TextStyles) (d : Nat) (elem : List Char) :
    addTextStyle lib st d elem = d ||| styleFlag lib st elem := by
  unfold addTextStyle styleFlag
  simp only
  split_ifs <;> first | rfl | exact (Nat.or_zero d).symm

theorem foldl_addTextStyle (lib : StringLib) (st : TextStyles) (tokens : List (List Char)) :
    ∀ d : Nat, tokens.foldl (addTextStyle lib st) d
      = (tokens.map (styleFlag lib st)).foldl (· ||| ·) d := by
  induction tokens with
  | nil => intro d; rfl
  | cons t ts ih =>
    intro d
    rw [List.foldl_cons, List.map_cons, List.foldl_cons, addTextStyle_eq, ih]

theorem testBit_foldl_or (l : List Nat) (i : Nat) :
    ∀ d : Nat, (l.foldl (· ||| ·) d).testBit i = (d.testBit i || l.any (fun n => n.testBit i)) := by
  induction l with
  | nil => intro d; simp
  | cons n ns ih =>
    intro d
    rw [List.foldl_cons, ih, Nat.testBit_or, List.any_cons, Bool.or_assoc]

/-- The style depends only on which tokens occur. -/
theorem foldl_or_congr (f : List Char → Nat) (a b : List (List Char))
    (h : ∀ t, t ∈ a ↔ t ∈ b) (d : Nat) :
    (a.map f).foldl (· ||| ·) d = (b.map f).foldl (· ||| ·) d := by
  apply Nat.eq_of_testBit_eq
  intro i
  rw [testBit_foldl_or, testBit_foldl_or]
  congr 1
  rw [Bool.eq_iff_iff]
  simp only [List.any_eq_true, List.mem_map]
  constructor
  · rintro ⟨n, ⟨t, ht, rfl⟩, hn⟩
    exact ⟨f t, ⟨t, (h t).1 ht, rfl⟩, hn⟩
  · rintro ⟨n, ⟨t, ht, rfl⟩, hn⟩
    exact ⟨f t, ⟨t, (h t).2 ht, rfl⟩, hn⟩

theorem foldl_or_zero (l : List Nat) (h : ∀ n ∈ l, n = 0) (d : Nat) :
    l.foldl (· ||| ·) d = d := by
  induction l generalizing d with
  | nil => rfl
  | cons n ns ih =>
    rw [List.foldl_cons, h n (List.mem_cons_self _ _), Nat.or_zero]
    exact ih (fun m hm => h m (List.mem_cons_of_mem _ hm)) d

/-- C32: the flags of a text style.  `deserializeTextStyle` is a total function; its result is
the bitwise OR, started at `Regular`, of the flags of the trimmed tokens between the `|`
characters, where a token that spells Bold, Italic, Underlined or StrikeThrough in some letter
case has that flag and every other token has none.  Hence two inputs in which the same tokens
occur (in any order, any number of times) give the same style, and an input without a
recognised token gives `Regular`.  With the reference values, "Bold | Italic" and
" italic|BOLD|bold" give 3, and "bold|oblique" gives 1. -/
theorem textStyle_flags (lib : StringLib) (st : TextStyles) :
    (∀ style, deserializeTextStyle lib st style
        = ((split lib style '|').map (styleFlag lib st)).foldl (· ||| ·) st.Regular)
      ∧ (∀ a b, (∀ t ∈ split lib a '|', t ∈ split lib b '|') →
          (∀ t ∈ split lib b '|', t ∈ split lib a '|') →
          deserializeTextStyle lib st a = deserializeTextStyle lib st b)
      ∧ (∀ style, (∀ t ∈ split lib style '|', styleFlag lib st t = 0) →
          deserializeTextStyle lib st style = st.Regular)
      ∧ deserializeTextStyle refLib refStyles "Bold | Italic".toList = 3
      ∧ deserializeTextStyle refLib refStyles " italic|BOLD|bold".toList = 3
      ∧ deserializeTextStyle refLib refStyles "bold|oblique".toList = 1
      ∧ deserializeTextStyle refLib refStyles "".toList = 0 := by
  have key : ∀ style, deserializeTextStyle lib st style
      = ((split lib style '|').map (styleFlag lib st)).foldl (· ||| ·) st.Regular := by
    intro style
    unfold deserializeTextStyle
    exact foldl_addTextStyle lib st _ _
  refine ⟨key, ?_, ?_, by decide, by decide, by decide, by decide⟩
  · intro a b h1 h2
    rw [key, key]
    exact foldl_or_congr _ _ _ (fun t => ⟨h1 t, h2 t⟩) _
  · intro style h
    rw [key]
    apply foldl_or_zero
    intro n hn
    obtain ⟨t, ht, rfl⟩ := List.mem_map.1 hn
    exact h t ht

/-- Witness of C32: with the reference string library and the reference values, the inputs
"bold|underlined" and "underlined | bold|bold" hold the same tokens and give the same style, 5;
"regular" holds no recognised token and gives `Regular`. -/
theorem textStyle_flags_witness :
    deserializeTextStyle refLib refStyles "bold|underlined".toList
        = deserializeTextStyle refLib refStyles "underlined | bold|bold".toList
      ∧ deserializeTextStyle refLib refStyles "underlined | bold|bold".toList = 5
      ∧ deserializeTextStyle refLib refStyles "regular".toList = 0 :=
  ⟨(textStyle_flags refLib refStyles).2.1 "bold|underlined".toList
      "underlined | bold|bold".toList (by decide) (by decide),
    by decide,
    (textStyle_flags refLib refStyles).2.2.1 "regular".toList (by decide)⟩

/-! ## The shape of `split` -/

theorem segments_cons_delim (d : Char) (cs : List Char) :
    segments d (d :: cs) = [] :: segments d cs := by
  conv_lhs => unfold segments
  rw [if_pos rfl]

theorem segments_cons_of_ne {c d : Char} (hc : c ≠ d) (cs : List Char) :
    ∃ l ls, segments d cs = l :: ls ∧ segments d (c :: cs) = (c :: l) :: ls := by
  cases h : segments d cs with
  | nil => exact absurd h (segments_ne_nil d cs)
  | cons l ls =>
    refine ⟨l, ls, rfl, ?_⟩
    conv_lhs => unfold segments
    rw [if_neg hc, h]

theorem intercalate_segments (d : Char) (t : List Char) :
    [d].intercalate (segments d t) = t := by
  induction t with
  | nil => simp [segments, List.intercalate]
  | cons c cs ih =>
    by_cases hc : c = d
    · subst hc
      rw [segments_cons_delim]
      cases h : segments c cs with
      | nil => exact absurd h (segments_ne_nil c cs)
      | cons l ls =>
        rw [h] at ih
        simp only [List.intercalate, List.intersperse, List.flatten] at ih ⊢
        simp [ih]
    · obtain ⟨l, ls, h1, h2⟩ := segments_cons_of_ne hc cs
      rw [h2]
      rw [h1] at ih
      cases ls with
      | nil =>
        simp only [List.intercalate, List.intersperse, List.flatten] at ih ⊢
        simpa using ih
      | cons l2 ls2 =>
        simp only [List.intercalate, List.intersperse, List.flatten] at ih ⊢
        rw [List.cons_append, ih]

theorem not_mem_of_mem_segments (d : Char) (t : List Char) : ∀ l ∈ segments d t, d ∉ l := by
  induction t with
  | nil => simp [segments]
  | cons c cs ih =>
    by_cases hc : c = d
    · subst hc
      rw [segments_cons_delim]
      intro l hl
      rcases List.mem_cons.1 hl with h | h
      · subst h; simp
      · exact ih l h
    · obtain ⟨l, ls, h1, h2⟩ := segments_cons_of_ne hc cs
      rw [h2]
      rw [h1] at ih
      intro l2 hl2
      rcases List.mem_cons.1 hl2 with h | h
      · subst h
        have := ih l (by simp)
        simp [this, Ne.symm hc]
      · exact ih l2 (by simp [h])

theorem segments_eq_splitOn (d : Char) (t : List Char) : segments d t = t.splitOn d := by
  have h := List.splitOn_intercalate (segments d t) d (not_mem_of_mem_segments d t)
    (segments_ne_nil d t)
  rw [intercalate_segments] at h
  exact h.symm

/-- Trimming only removes characters. -/
theorem mem_of_mem_refTrim {c : Char} {t : List Char} (h : c ∈ refTrim t) : c ∈ t := by
  unfold refTrim at h
  rw [List.mem_reverse] at h
  have h1 := (List.dropWhile_suffix isSpaceChar).subset h
  rw [List.mem_reverse] at h1
  exact (List.dropWhile_suffix isSpaceChar).subset h1

/-- Trimming leaves a string without white space at its ends as it is. -/
theorem refTrim_of_noOuterSpace {t : List Char} (h : NoOuterSpace t) : refTrim t = t := by
  cases t with
  | nil => rfl
  | cons c cs =>
    apply refTrim_self
    · have h1 := h.1
      show some (isSpaceChar c) = some false
      cases hb : isSpaceChar c with
      | false => rfl
      | true =>
        exfalso
        apply h1
        show some (isSpaceChar c) = some true
        rw [hb]
    · have h2 := h.2
      cases hl : (c :: cs).getLast? with
      | none => simp at hl
      | some z =>
        rw [hl] at h2
        show some (isSpaceChar z) = some false
        cases hb : isSpaceChar z with
        | false => rfl
        | true =>
          exfalso
          apply h2
          show some (isSpaceChar z) = some true
          rw [hb]

/-- C40: the shape of `Deserializer::split`.  For every string `s` and delimiter `d`, `split`
returns one token more than there are occurrences of `d` in `s` (so never an empty list); the
tokens are, from left to right, the trimmed segments of `s` between the delimiters (the segments
joined with `d` give `s`, and no segment contains `d`).  With a `trim` that removes the white
space at the two ends, no token contains `d`, and when no segment has white space at its ends,
joining the tokens with `d` gives `s` back. -/
theorem split_shape (lib : StringLib) (s : List Char) (d : Char) :
    (split lib s d).length = s.count d + 1
      ∧ split lib s d ≠ []
      ∧ split lib s d = (s.splitOn d).map lib.trim
      ∧ [d].intercalate (s.splitOn d) = s
      ∧ (∀ seg ∈ s.splitOn d, d ∉ seg)
      ∧ ((∀ t, lib.trim t = refTrim t) →
          (∀ t ∈ split lib s d, d ∉ t)
            ∧ ((∀ seg ∈ s.splitOn d, NoOuterSpace seg) → [d].intercalate (split lib s d) = s)) := by
  have hseg := segments_eq_splitOn d s
  refine ⟨length_split lib s d, ?_, ?_, ?_, ?_, ?_⟩
  · intro h
    have := length_split lib s d
    rw [h] at this
    simp at this
  · unfold split
    rw [hseg]
  · rw [← hseg]
    exact intercalate_segments d s
  · rw [← hseg]
    exact not_mem_of_mem_segments d s
  · intro htrim
    constructor
    · intro t ht hd
      unfold split at ht
      obtain ⟨seg, hs, rfl⟩ := List.mem_map.1 ht
      rw [htrim] at hd
      exact not_mem_of_mem_segments d s seg hs (mem_of_mem_refTrim hd)
    · intro hno
      have hmap : split lib s d = segments d s := by
        unfold split
        conv_rhs => rw [← List.map_id (segments d s)]
        apply List.map_congr_left
        intro seg hs
        rw [htrim, refTrim_of_noOuterSpace (hno seg (by rw [← hseg]; exact hs))]
        rfl
      rw [hmap]
      exact intercalate_segments d s

/-- Witness of C40: with the reference string library, " a, b ,,c" split at the comma gives the
four tokens "a", "b", "" and "c", none of which holds a comma; "a,b,,c" has no white space at
the ends of its segments and comes back when its tokens are joined with commas. -/
theorem split_shape_witness :
    split refLib " a, b ,,c".toList ',' = ["a".toList, "b".toList, [], "c".toList]
      ∧ (∀ t ∈ split refLib " a, b ,,c".toList ',', ',' ∉ t)
      ∧ [','].intercalate (split refLib "a,b,,c".toList ',') = "a,b,,c".toList :=
  ⟨by decide,
    ((split_shape refLib " a, b ,,c".toList ',').2.2.2.2.2 (fun _ => rfl)).1,
    ((split_shape refLib "a,b,,c".toList ',').2.2.2.2.2 (fun _ => rfl)).2
      (by rw [← segments_eq_splitOn]; decide)⟩

/-- C39, the code at the failing input: " #08f" and "#08f " make `deserializeColor` throw,
although the trimmed value "#08f" gives (0, 136, 255) with alpha 255; white space around a
color name and around the form `rgb(...)` is ignored. -/
theorem hex_color_with_space_throws :
    deserializeColor refLib " #08f".toList = none
      ∧ deserializeColor refLib "#08f ".toList = none
      ∧ refLib.trim " #08f".toList = "#08f".toList
      ∧ refLib.trim "#08f ".toList = "#08f".toList
      ∧ deserializeColor refLib "#08f".toList = some (Color.rgba 0 136 255 255)
      ∧ deserializeColor refLib " red ".toList = deserializeColor refLib "red".toList
      ∧ deserializeColor refLib " rgb(0,136,255) ".toList = some (Color.rgba 0 136 255 255) := by
  decide

/-! ## Textures that are refused -/

theorem readFilename_unclosed :
    ∀ (s : List Char) (prev : Char) (acc : List Char),
      (∀ i < s.length, s[i]? = some '"' →
        (i = 0 ∧ prev = '\\') ∨ (0 < i ∧ s[i - 1]? = some '\\')) →
      readFilename s prev acc = none := by
  intro s
  induction s with
  | nil => intro prev acc _; rfl
  | cons c cs ih =>
    intro prev acc h
    have hcond : c ≠ '"' ∨ prev = '\\' := by
      by_cases hc : c = '"'
      · rcases h 0 (by simp) (by rw [hc]; simp) with ⟨_, hp⟩ | ⟨h0, _⟩
        · exact Or.inr hp
        · exact absurd h0 (by decide)
      · exact Or.inl hc
    conv_lhs => unfold readFilename
    rw [if_pos hcond]
    apply ih
    intro i hi hq
    rcases h (i + 1) (by simp; omega) (by simpa using hq) with ⟨h0, _⟩ | ⟨_, hb⟩
    · exact absurd h0 (by omega)
    · cases i with
      | zero =>
        left
        refine ⟨rfl, ?_⟩
        have hc : c = '\\' := by simpa using hb
        rw [hc]
        decide
      | succ j =>
        right
        refine ⟨by omega, ?_⟩
        simpa using hb

/-- A value that starts with a quote and has no closing quote behind it that is not escaped
makes `deserializeTexture` throw. -/
theorem deserializeTexture_unclosed {τ : Type} (lib : StringLib) (texture : TextureClass τ)
    (hs : Standard lib) (s : List Char)
    (h : Unclosed s) : deserializeTexture lib texture ('"' :: s) = none := by
  have hread : readFilename s (Char.ofNat 0) [] = none := by
    apply readFilename_unclosed
    intro i hi hq
    exact Or.inr (h i hi hq)
  unfold deserializeTexture
  rw [if_neg]
  · simp only [ne_eq, not_true_eq_false, if_false, hread]
  · rintro (h | h)
    · cases h
    · rw [hs.1, List.map_cons] at h
      have := (List.cons.inj h).1
      revert this
      decide

/-- When the loop throws at the text behind the clauses, `deserializeTexture` throws. -/
theorem deserializeTexture_tail_none {τ : Type} (lib : StringLib) (texture : TextureClass τ)
    (hs : Standard lib) (f : List Char)
    (hf : PlainName f) (cs : List Clause) (hcs : ∀ c ∈ cs, c.Plain) (tail : List Char)
    (htail : ∀ (fuel : Nat) (pr mr : UIntRect),
      textureClauses lib (fuel + 1) tail pr mr = none) :
    deserializeTexture lib texture (quoted f ++ (clausesText cs ++ tail)) = none := by
  rw [deserializeTexture_quoted lib texture hs f hf]
  have hlen : (clausesText cs ++ tail).length + 1
      = cs.length + (((clausesText cs ++ tail).length - cs.length) + 1) := by
    have := length_le_clausesText cs
    rw [List.length_append]
    omega
  rw [hlen, textureClauses_clauses lib cs hcs, htail]
  rfl

/-- A word in front of the opening bracket that is none of `Part`, `part`, `Middle` and
`middle` makes the loop throw. -/
theorem textureClauses_word_none (lib : StringLib) (fuel : Nat) (blanks word behind : List Char)
    (hb : Blank blanks) (hparen : '(' ∉ word)
    (hhead : ∀ c, word.head? = some c → ¬ (c = ' ' ∨ c = '\t' ∨ c = '\r'))
    (h1 : word ≠ "Part".toList) (h2 : word ≠ "part".toList) (h3 : word ≠ "Middle".toList)
    (h4 : word ≠ "middle".toList) (pr mr : UIntRect) :
    textureClauses lib (fuel + 1) (blanks ++ (word ++ '(' :: behind)) pr mr = none := by
  rw [textureClauses_blanks lib _ _ hb]
  have hfind := findChar_append '(' word behind hparen
  have htake : (word ++ '(' :: behind).take word.length = word := List.take_left' rfl
  obtain ⟨c, cs, hcons, hc⟩ : ∃ c cs, word ++ '(' :: behind = c :: cs
      ∧ ¬ (c = ' ' ∨ c = '\t' ∨ c = '\r') := by
    cases word with
    | nil => exact ⟨'(', behind, rfl, by decide⟩
    | cons w ws => exact ⟨w, ws ++ '(' :: behind, rfl, hhead w rfl⟩
  rw [hcons] at hfind htake ⊢
  apply textureClauses_other lib _ _ _ _ _ _ hc hfind
  · rw [htake]
    rintro (h | h)
    · exact h1 h
    · exact h2 h
  · rw [htake]
    rintro (h | h)
    · exact h3 h
    · exact h4 h

/-- A `Part` or `Middle` clause whose rectangle cannot be read makes the loop throw. -/
theorem textureClauses_unread (lib : StringLib) (fuel : Nat) (blanks : List Char)
    (isPart capital : Bool) (rest : List Char) (hb : Blank blanks)
    (hread : readClauseRect lib ('(' :: rest) = none) (pr mr : UIntRect) :
    textureClauses lib (fuel + 1) (blanks ++ (keyword isPart capital ++ '(' :: rest)) pr mr
      = none := by
  obtain ⟨hparen, ⟨k, ks, hk, hblank⟩, hlen, hp, hm⟩ := keyword_facts isPart capital
  rw [textureClauses_blanks lib _ _ hb]
  have hfind := findChar_append '(' (keyword isPart capital) rest hparen
  have htake : (keyword isPart capital ++ '(' :: rest).take (keyword isPart capital).length
      = keyword isPart capital := List.take_left' rfl
  have hdrop : (keyword isPart capital ++ '(' :: rest).drop (keyword isPart capital).length
      = '(' :: rest := List.drop_left' rfl
  have hcons : keyword isPart capital ++ '(' :: rest = k :: (ks ++ '(' :: rest) := by
    rw [hk]
    rfl
  rw [hcons] at hfind htake hdrop ⊢
  conv_lhs => unfold textureClauses
  by_cases hip : isPart = true
  · have h4 : (4 : Nat) = (keyword isPart capital).length := by rw [hlen, if_pos hip]
    have hword := hp hip
    rw [← htake] at hword
    rw [h4]
    simp only [removeWhitespace_cons k _ hblank, hfind, if_pos hword, hdrop, hread]
  · have hip2 : isPart = false := by simpa using hip
    have h6 : (6 : Nat) = (keyword isPart capital).length := by rw [hlen, if_neg hip]
    have hnot := (hm hip2).1
    have hword := (hm hip2).2
    rw [← htake] at hnot hword
    rw [h6]
    simp only [removeWhitespace_cons k _ hblank, hfind, if_neg hnot, if_pos hword, hdrop, hread]

theorem readClauseRect_no_bracket (lib : StringLib) (rest : List Char) (h : ')' ∉ rest) :
    readClauseRect lib ('(' :: rest) = none := by
  unfold readClauseRect
  rw [findChar_none ')' ('(' :: rest) (by
    intro hm
    rcases List.mem_cons.1 hm with h0 | h0
    · revert h0
      decide
    · exact h h0)]

theorem readClauseRect_arity (lib : StringLib) (content behind : List Char)
    (hc : ')' ∉ content) (hn : content.count ',' ≠ 3) :
    readClauseRect lib ('(' :: (content ++ ')' :: behind)) = none := by
  have hnot : ')' ∉ '(' :: content := by
    intro hm
    rcases List.mem_cons.1 hm with h0 | h0
    · revert h0
      decide
    · exact hc h0
  have hfind : findChar ')' ('(' :: (content ++ ')' :: behind))
      = some ('(' :: content).length := findChar_append ')' ('(' :: content) behind hnot
  have htake : ('(' :: (content ++ ')' :: behind)).take (('(' :: content).length + 1)
      = '(' :: content ++ [')'] := by
    have h1 : '(' :: (content ++ ')' :: behind) = ('(' :: content ++ [')']) ++ behind := by simp
    rw [h1]
    exact List.take_left' (by simp)
  have hrect : readUIntRect lib ('(' :: content ++ [')']) = none := by
    unfold readUIntRect
    rw [if_pos ⟨by simp, rfl, by rw [List.getLast?_concat]⟩]
    have hbody : (('(' :: content ++ [')']).drop 1).take (('(' :: content ++ [')']).length - 2)
        = content := by
      simp
    rw [hbody]
    have hlen := length_split lib content ','
    split
    · rename_i t0 t1 t2 t3 heq
      rw [heq] at hlen
      simp only [List.length_cons, List.length_nil] at hlen
      omega
    · rfl
  unfold readClauseRect
  simp only [hfind, htake, hrect]

/-- Text behind the clauses without an opening bracket that is not `smooth` makes the loop
throw. -/
theorem textureClauses_trailing (lib : StringLib) (fuel : Nat) (blanks : List Char)
    (c : Char) (rest : List Char) (hb : Blank blanks) (hc : ¬ (c = ' ' ∨ c = '\t' ∨ c = '\r'))
    (hparen : '(' ∉ c :: rest) (hsm : lib.toLower (lib.trim (c :: rest)) ≠ "smooth".toList)
    (pr mr : UIntRect) :
    textureClauses lib (fuel + 1) (blanks ++ c :: rest) pr mr = none := by
  rw [textureClauses_blanks lib _ _ hb]
  conv_lhs => unfold textureClauses
  simp only [removeWhitespace_cons c rest hc, findChar_none '(' _ hparen, if_neg hsm]

/-- C31: the errors of `deserializeTexture`, with a standard string library and any `Texture`
class.  It throws for
every value that starts with a double quote and has no closing quote behind it that is not
escaped.  Behind a quoted filename (without a quote, not ending in a backslash), any clauses
that are read, and white space, it throws for every word in front of an opening bracket that
is none of `Part`, `part`, `Middle` and `middle` (so for every word that is not Part or Middle
in some letter case), for every `Part` or `Middle` clause without a closing bracket behind it,
for every such clause whose content between the brackets does not have exactly four
comma-separated tokens (three commas), and for every text without an opening bracket that is
not "smooth" once trimmed and put in lower case. -/
theorem texture_errors {τ : Type} (lib : StringLib) (texture : TextureClass τ)
    (hs : Standard lib) :
    (∀ s : List Char, Unclosed s → deserializeTexture lib texture ('"' :: s) = none)
      ∧ (∀ (f : List Char) (cs : List Clause) (blanks : List Char),
        PlainName f → (∀ c ∈ cs, c.Plain) → Blank blanks →
        (∀ word behind : List Char, '(' ∉ word →
            (∀ c, word.head? = some c → ¬ (c = ' ' ∨ c = '\t' ∨ c = '\r')) →
            word ≠ "Part".toList → word ≠ "part".toList →
            word ≠ "Middle".toList → word ≠ "middle".toList →
            deserializeTexture lib texture
              (quoted f ++ (clausesText cs ++ (blanks ++ (word ++ '(' :: behind)))) = none)
          ∧ (∀ (isPart capital : Bool) (rest : List Char), ')' ∉ rest →
            deserializeTexture lib texture
              (quoted f ++ (clausesText cs ++ (blanks ++ (keyword isPart capital ++ '(' :: rest))))
              = none)
          ∧ (∀ (isPart capital : Bool) (content behind : List Char), ')' ∉ content →
            content.count ',' ≠ 3 →
            deserializeTexture lib texture
              (quoted f ++ (clausesText cs ++ (blanks ++ (keyword isPart capital
                ++ '(' :: (content ++ ')' :: behind))))) = none)
          ∧ (∀ (c : Char) (rest : List Char), ¬ (c = ' ' ∨ c = '\t' ∨ c = '\r') →
            '(' ∉ c :: rest → lib.toLower (lib.trim (c :: rest)) ≠ "smooth".toList →
            deserializeTexture lib texture (quoted f ++ (clausesText cs ++ (blanks ++ c :: rest)))
              = none)) := by
  refine ⟨fun s h => deserializeTexture_unclosed lib texture hs s h, ?_⟩
  intro f cs blanks hf hcs hb
  refine ⟨?_, ?_, ?_, ?_⟩
  · intro word behind hparen hhead h1 h2 h3 h4
    exact deserializeTexture_tail_none lib texture hs f hf cs hcs _
      (fun fuel pr mr => textureClauses_word_none lib fuel blanks word behind hb hparen hhead
        h1 h2 h3 h4 pr mr)
  · intro isPart capital rest hrest
    exact deserializeTexture_tail_none lib texture hs f hf cs hcs _
      (fun fuel pr mr => textureClauses_unread lib fuel blanks isPart capital rest hb
        (readClauseRect_no_bracket lib rest hrest) pr mr)
  · intro isPart capital content behind hc hn
    exact deserializeTexture_tail_none lib texture hs f hf cs hcs _
      (fun fuel pr mr => textureClauses_unread lib fuel blanks isPart capital _ hb
        (readClauseRect_arity lib content behind hc hn) pr mr)
  · intro c rest hc hparen hsm
    exact deserializeTexture_tail_none lib texture hs f hf cs hcs _
      (fun fuel pr mr => textureClauses_trailing lib fuel blanks c rest hb hc hparen hsm pr mr)

/-- Witness of C31: with the reference string library and the reference `Texture` class (in
which the files "f.png" and "f" can be loaded), `deserializeTexture` throws for a
filename without closing quote, for one whose only quote is escaped, for the word `Foo` in front
of a bracket, for a `Part` clause without closing bracket, for a `Middle` clause with three
tokens behind a `Part` clause that is read, and for the trailing text "smoth". -/
theorem texture_errors_witness :
    deserializeTexture refLib (refTextures refImages) ('"' :: "f.png".toList) = none
      ∧ deserializeTexture refLib (refTextures refImages) ('"' :: ['f', '\\', '"']) = none
      ∧ deserializeTexture refLib (refTextures refImages) (quoted "f".toList ++ " Foo(1,2,3,4)".toList) = none
      ∧ deserializeTexture refLib (refTextures refImages) (quoted "f".toList ++ " Part(1,2,3,4".toList) = none
      ∧ deserializeTexture refLib (refTextures refImages)
          (quoted "f".toList ++ " Part(1,2,3,4) Middle(1,2,3)".toList) = none
      ∧ deserializeTexture refLib (refTextures refImages) (quoted "f".toList ++ " smoth".toList) = none :=
  ⟨(texture_errors refLib (refTextures refImages) standard_refLib).1 "f.png".toList (by decide),
    (texture_errors refLib (refTextures refImages) standard_refLib).1 ['f', '\\', '"'] (by decide),
    ((texture_errors refLib (refTextures refImages) standard_refLib).2 "f".toList [] " ".toList (by decide) (by decide)
      (by decide)).1 "Foo".toList "1,2,3,4)".toList (by decide) (by decide) (by decide)
      (by decide) (by decide) (by decide),
    ((texture_errors refLib (refTextures refImages) standard_refLib).2 "f".toList [] " ".toList (by decide) (by decide)
      (by decide)).2.1 true true "1,2,3,4".toList (by decide),
    ((texture_errors refLib (refTextures refImages) standard_refLib).2 "f".toList
      [⟨" ".toList, true, true, ⟨"1".toList, "2".toList, "3".toList, "4".toList⟩⟩]
      " ".toList (by decide) (by decide) (by decide)).2.2.1 false true "1,2,3".toList []
      (by decide) (by decide),
    ((texture_errors refLib (refTextures refImages) standard_refLib).2 "f".toList [] " ".toList (by decide) (by decide)
      (by decide)).2.2.2 's' "moth".toList (by decide) (by decide) (by decide)⟩

theorem toNat_ediv_natCast (h : Int) (L : Nat) : (h / (L : Int)).toNat = h.toNat / L := by
  rcases Nat.eq_zero_or_pos L with h0 | hL
  · subst h0
    simp
  rcases Int.lt_or_le h 0 with hn | hp
  · have h1 : h / (L : Int) < 0 := Int.ediv_neg' hn (by omega)
    rw [Int.toNat_of_nonpos (Int.le_of_lt h1), Int.toNat_of_nonpos (Int.le_of_lt hn),
      Nat.zero_div]
  · obtain ⟨n, rfl⟩ := Int.eq_ofNat_of_zero_le hp
    rw [← Int.ofNat_ediv]
    rfl

/-- The conversion of a value that is not negative: the value. -/
theorem toUnsigned_of_nonneg (env : Env) {x : Int} (h : 0 ≤ x) : toUnsigned env x = x.toNat := by
  unfold toUnsigned
  rw [if_pos h]

/-- The conversion of a quotient that is not negative: the quotient of the natural numbers. -/
theorem toSizeOfQuotient_of_nonneg (env : Env) {x : Int} (hx : 0 ≤ x) {y : Nat} (hy : y ≠ 0) :
    toSizeOfQuotient env x y = x.toNat / y := by
  unfold toSizeOfQuotient
  have hq : Int.tdiv x (y : Int) = x / (y : Int) := Int.tdiv_eq_ediv hx (Int.ofNat_nonneg y)
  have hq0 : 0 ≤ x / (y : Int) := Int.ediv_nonneg hx (Int.ofNat_nonneg y)
  rw [if_neg hy, hq, if_pos hq0, toNat_ediv_natCast]

/-- C35, counterexample: with a viewport 10 pixels high, a line height of 3, ten lines and the
vertical scrollbar shown at the value 0 (a multiple of 3), `recalculateVisibleLines` sets
`visibleLines` to 4, not to floor(10 / 3) = 3; with a viewport 10 pixels high, a line
height of 1 and a single line, it sets `visibleLines` to 1, not to 10; and with the vertical
scrollbar hidden at the value 5 it sets `topLine` to 0, not to floor(5 / 1) = 5.  With a text
box one pixel high whose horizontal scrollbar, two pixels high, is shown, the viewport height
is -1: for a line height of 1 and one line, `visibleLines` is set to 1, not to
floor(-1 / 1) (the conversion of the negative quotient to `std::size_t` is undefined in C++;
the reference environment wraps it around to 2^64 - 1, and the number of lines is smaller). -/
theorem visible_lines_differ_from_quotient :
    viewportHeight (refEnv 20 10 0) tenLines = 10 ∧ tenLines.lineHeight = 3
      ∧ tenLines.lines.length = 10
      ∧ (refEnv 20 10 0).isShown tenLines.verticalScrollbar = true
      ∧ tenLines.verticalScrollbar.value = 0
      ∧ (recalculateVisibleLines (refEnv 20 10 0) tenLines).visibleLines = 4
      ∧ viewportHeight (refEnv 20 10 0) oneLine = 10 ∧ oneLine.lineHeight = 1
      ∧ oneLine.verticalScrollbar.value = 0
      ∧ (recalculateVisibleLines (refEnv 20 10 0) oneLine).visibleLines = 1
      ∧ (refEnv 20 10 0).isShown { oneLine.verticalScrollbar with value := 5 } = false
      ∧ (recalculateVisibleLines (refEnv 20 10 0)
          { oneLine with verticalScrollbar := { oneLine.verticalScrollbar with value := 5 } }).topLine
        = 0
      ∧ viewportHeight (refEnv 20 1 2) (emptyTextBox Policy.Automatic Policy.Always) = -1
      ∧ (emptyTextBox Policy.Automatic Policy.Always).lineHeight = 1
      ∧ (emptyTextBox Policy.Automatic Policy.Always).lines.length = 1
      ∧ (recalculateVisibleLines (refEnv 20 1 2)
          (emptyTextBox Policy.Automatic Policy.Always)).visibleLines = 1 := by
  decide

/-- C35, amended: the visible lines.  With a viewport height `h` that is not negative (the
inner height without the padding and the horizontal scrollbar), a line height `L > 0` and the
value `v` of the vertical scrollbar, `recalculateVisibleLines` sets `visibleLines` to the
smaller of floor(h / L) and the number of lines, plus one exactly when the vertical scrollbar is
shown and `h` or `v` is not a multiple of `L`; it sets `topLine` to floor(v / L) when the
vertical scrollbar is shown and to 0 when it is not. -/
theorem visible_line_count (env : Env) (s : TextBox) (hL : 0 < s.lineHeight)
    (hh : 0 ≤ viewportHeight env s) :
    (recalculateVisibleLines env s).visibleLines
        = min ((viewportHeight env s).toNat / s.lineHeight) s.lines.length
          + (if env.isShown s.verticalScrollbar = true
                ∧ ((viewportHeight env s).toNat % s.lineHeight ≠ 0
                  ∨ s.verticalScrollbar.value % s.lineHeight ≠ 0) then 1 else 0)
      ∧ (recalculateVisibleLines env s).topLine
        = (if env.isShown s.verticalScrollbar = true then
            s.verticalScrollbar.value / s.lineHeight else 0) := by
  have hne : s.lineHeight ≠ 0 := by omega
  have hq := toSizeOfQuotient_of_nonneg env hh hne
  have hu := toUnsigned_of_nonneg env hh
  unfold viewportHeight at hq hu hh ⊢
  unfold recalculateVisibleLines
  simp only [if_neg hne, hq, hu]
  cases hshown : env.isShown s.verticalScrollbar
  · simp only [Bool.false_eq_true, if_false, false_and, Nat.add_zero]
    exact ⟨trivial, trivial⟩
  · simp only [if_true, true_and]
    split_ifs <;> exact ⟨rfl, rfl⟩

/-- Witness of C35: for the text box with ten lines, a line height of 3 and a viewport 10
pixels high, with the vertical scrollbar at the value 0, there are min(3, 10) + 1 = 4 visible
lines and the top line is line 0. -/
theorem visible_line_count_witness :
    0 ≤ viewportHeight (refEnv 20 10 0) tenLines
      ∧ (recalculateVisibleLines (refEnv 20 10 0) tenLines).visibleLines = 4
      ∧ (recalculateVisibleLines (refEnv 20 10 0) tenLines).topLine = 0 :=
  ⟨by decide,
    (visible_line_count (refEnv 20 10 0) tenLines (by decide) (by decide)).1.trans (by decide),
    (visible_line_count (refEnv 20 10 0) tenLines (by decide) (by decide)).2.trans (by decide)⟩

/-! ## Lines without word wrap -/

theorem splitLines_cons_inv :
    ∀ (u l : List Char) (rest : List (List Char)), splitLines u = l :: rest →
      (rest = [] ∧ u = l) ∨ (∃ t, u = l ++ '\n' :: t ∧ rest = splitLines t) := by
  intro u
  induction u with
  | nil =>
    intro l rest h
    have h2 : ([[]] : List (List Char)) = l :: rest := h
    injection h2 with h3 h4
    exact Or.inl ⟨h4.symm, by rw [← h3]⟩
  | cons c cs ih =>
    intro l rest h
    by_cases hc : c = '\n'
    · subst hc
      rw [splitLines_cons_newline] at h
      injection h with h3 h4
      exact Or.inr ⟨cs, by rw [← h3]; rfl, h4.symm⟩
    · obtain ⟨l2, ls2, h1, h2⟩ := splitLines_cons_of_ne hc cs
      rw [h2] at h
      injection h with h3 h4
      rcases ih l2 ls2 h1 with ⟨hr, hu⟩ | ⟨t, hu, hr⟩
      · left
        exact ⟨by rw [← h4, hr], by rw [← h3, hu]⟩
      · right
        exact ⟨t, by rw [← h3, hu]; rfl, by rw [← h4, hr]⟩

/-- Without word wrap the lines from line `y` on are the split of the text from the index of
that line on. -/
theorem splitLines_index (text : List Char) :
    ∀ (y k : Nat), k ≤ text.length → y < (splitLines (text.drop k)).length →
      ∃ r, findIndexFrom text (splitLines (text.drop k)) y k = some r ∧ r ≤ text.length
        ∧ (splitLines (text.drop k)).drop y = splitLines (text.drop r) := by
  intro y
  induction y with
  | zero =>
    intro k hk _
    exact ⟨k, findIndexFrom_zero _ _ _, hk, rfl⟩
  | succ n ih =>
    intro k hk hy
    obtain ⟨l, rest, hL⟩ : ∃ l rest, splitLines (text.drop k) = l :: rest := by
      cases h : splitLines (text.drop k) with
      | nil => exact absurd h (splitLines_ne_nil _)
      | cons l rest => exact ⟨l, rest, rfl⟩
    rw [hL] at hy ⊢
    simp only [List.length_cons, Nat.add_lt_add_iff_right] at hy
    rcases splitLines_cons_inv _ _ _ hL with ⟨hnil, _⟩ | ⟨t, hu, hrest⟩
    · rw [hnil] at hy
      simp at hy
    · have hget : text[k + l.length]? = some '\n' := by
        have := drop_eq_append_getElem? hu 0
        simpa using this
      have hdrop : text.drop (k + l.length + 1) = t := by
        have := drop_eq_append_drop (u := l ++ ['\n']) (v := t) (by simpa using hu)
        simpa [Nat.add_assoc] using this
      have hlen := drop_eq_append_length hu hk
      simp only [List.length_cons] at hlen
      have hk2 : k + l.length + 1 ≤ text.length := by omega
      have hrest2 : rest = splitLines (text.drop (k + l.length + 1)) := by rw [hdrop, hrest]
      obtain ⟨r, hr, hrl, hdr⟩ := ih (k + l.length + 1) hk2 (by rw [← hrest2]; exact hy)
      rw [← hrest2] at hr hdr
      refine ⟨r, ?_, hrl, by simpa using hdr⟩
      simp only [TGUI.findIndexFrom, skipLine_eq, hget, if_true]
      exact hr

/-- Without word wrap a line that is not the last one ends in front of a newline of the text,
and the next line starts behind it. -/
theorem splitLines_step (text : List Char) (j : Nat) (hj : j + 1 < (splitLines text).length) :
    ∃ r l, findIndexFrom text (splitLines text) j 0 = some r ∧ (splitLines text)[j]? = some l
      ∧ findIndexFrom text (splitLines text) (j + 1) 0 = some (r + l.length + 1) := by
  have h0 : text.drop 0 = text := rfl
  obtain ⟨r, hr, hrl, hdr⟩ := splitLines_index text j 0 (Nat.zero_le _) (by rw [h0]; omega)
  rw [h0] at hr hdr
  obtain ⟨l, rest, hL⟩ : ∃ l rest, splitLines (text.drop r) = l :: rest := by
    cases h : splitLines (text.drop r) with
    | nil => exact absurd h (splitLines_ne_nil _)
    | cons l rest => exact ⟨l, rest, rfl⟩
  have hlj : (splitLines text)[j]? = some l := by
    have : ((splitLines text).drop j)[0]? = some l := by rw [hdr, hL]; simp
    simpa using this
  have hrest : rest ≠ [] := by
    intro h
    have hlen : ((splitLines text).drop j).length = 1 := by rw [hdr, hL, h]; rfl
    rw [List.length_drop] at hlen
    omega
  rcases splitLines_cons_inv _ _ _ hL with ⟨hnil, _⟩ | ⟨t, hu, _⟩
  · exact absurd hnil hrest
  · have hget : text[r + l.length]? = some '\n' := by
      have := drop_eq_append_getElem? hu 0
      simpa using this
    refine ⟨r, l, hr, hlj, ?_⟩
    rw [findIndexFrom_succ, hr, hlj]
    simp only [Option.map_some', skipLine_eq]
    show some (if text[r + l.length]? = some '\n' then r + l.length + 1 else r + l.length) = _
    rw [if_pos hget]

/-- Without word wrap two valid positions with the same character index are equal. -/
theorem index_injective (text : List Char) (p q : Vector2)
    (hp : validPos (splitLines text) p = true) (hq : validPos (splitLines text) q = true)
    (a : Nat) (ha : (findIndexFrom text (splitLines text) p.y 0).map (· + p.x) = some a)
    (hb : (findIndexFrom text (splitLines text) q.y 0).map (· + q.x) = some a) : p = q := by
  obtain ⟨lp, hlp, hxp⟩ := (validPos_iff _ _).1 hp
  obtain ⟨lq, hlq, hxq⟩ := (validPos_iff _ _).1 hq
  have hyp : p.y < (splitLines text).length := (List.getElem?_eq_some_iff.1 hlp).1
  have hyq : q.y < (splitLines text).length := (List.getElem?_eq_some_iff.1 hlq).1
  obtain ⟨rp, hrp⟩ : ∃ r, findIndexFrom text (splitLines text) p.y 0 = some r := by
    cases h : findIndexFrom text (splitLines text) p.y 0 with
    | none => rw [h] at ha; cases ha
    | some r => exact ⟨r, rfl⟩
  obtain ⟨rq, hrq⟩ : ∃ r, findIndexFrom text (splitLines text) q.y 0 = some r := by
    cases h : findIndexFrom text (splitLines text) q.y 0 with
    | none => rw [h] at hb; cases hb
    | some r => exact ⟨r, rfl⟩
  rw [hrp] at ha
  rw [hrq] at hb
  have ha2 : rp + p.x = a := by simpa using ha
  have hb2 : rq + q.x = a := by simpa using hb
  have key : ∀ (u v : Vector2) (lu : List Char) (ru rv : Nat),
      (splitLines text)[u.y]? = some lu → u.x ≤ lu.length →
      v.y < (splitLines text).length →
      findIndexFrom text (splitLines text) u.y 0 = some ru →
      findIndexFrom text (splitLines text) v.y 0 = some rv →
      u.y < v.y → ru + u.x < rv := by
    intro u v lu ru rv hlu hxu hyv hru hrv hlt
    obtain ⟨r, l, h1, h2, h3⟩ := splitLines_step text u.y (by omega)
    rw [hru] at h1
    rw [hlu] at h2
    have e1 : ru = r := Option.some.inj h1
    have e2 : lu = l := Option.some.inj h2
    subst e1 e2
    have hmono := findIndexFrom_mono text (splitLines text) 0 (v.y - (u.y + 1)) (u.y + 1)
      (ru + lu.length + 1) rv h3 (by rw [show u.y + 1 + (v.y - (u.y + 1)) = v.y by omega]; exact hrv)
    omega
  rcases Nat.lt_trichotomy p.y q.y with hlt | heq | hgt
  · have := key p q lp rp rq hlp hxp hyq hrp hrq hlt
    omega
  · have hr : rp = rq := by
      rw [heq] at hrp
      rw [hrp] at hrq
      exact Option.some.inj hrq
    have hx : p.x = q.x := by omega
    cases p
    cases q
    simp only at heq hx
    rw [heq, hx]
  · have := key q p lq rq rp hlq hxq hyp hrq hrp hgt
    omega

/-! ## Selecting by index -/

theorem setSelectedText_spec (env : Env) (s : TextBox) (hb : Breaks s.lines s.text)
    (a b : Nat) :
    ∃ t, setSelectedText env a b s = some t
      ∧ t.text = s.text ∧ t.lines = s.lines
      ∧ getSelectionStart t = some (min a s.text.length)
      ∧ getSelectionEnd t = some (min b s.text.length)
      ∧ validPos t.lines t.selStart = true ∧ validPos t.lines t.selEnd = true := by
  obtain ⟨s1, hs1, _, e1, c1, v1, t1, l1, _, _⟩ := setCaretPosition_spec env s hb b
  have hb1 : Breaks s1.lines s1.text := by rw [t1, l1]; exact hb
  obtain ⟨s2, hs2, a2, _, c2, v2, t2, l2, _, _⟩ := setCaretPosition_spec env s1 hb1 a
  have hv : validPos s2.lines s2.selStart = true ∧ validPos s2.lines s1.selEnd = true := by
    constructor
    · rw [c2]
      exact v2
    · rw [l2]
      exact v1
  obtain ⟨t, ht⟩ := Option.isSome_iff_exists.1
    ((updateSelectionTexts_isSome env { s2 with selEnd := s1.selEnd }).2 hv)
  obtain ⟨hd, _⟩ := updateSelectionTexts_sameDoc env _ t ht
  have htext : t.text = s2.text := hd.1
  have hlines : t.lines = s2.lines := hd.2.1
  have hstart : t.selStart = s2.selStart := hd.2.2.1
  have hend : t.selEnd = s1.selEnd := hd.2.2.2.1
  refine ⟨t, ?_, ?_, ?_, ?_, ?_, ?_, ?_⟩
  · unfold setSelectedText
    rw [hs1]
    simp only
    rw [hs2]
    exact ht
  · rw [htext, t2, t1]
  · rw [hlines, l2, l1]
  · have : getSelectionStart t = getSelectionStart s2 := by
      unfold getSelectionStart
      rw [hstart]
      exact getIndexOfSelectionPos_congr htext hlines _
    rw [this, a2, t1]
  · have : getSelectionEnd t = getSelectionEnd s1 := by
      unfold getSelectionEnd
      rw [hend]
      exact getIndexOfSelectionPos_congr (by rw [htext, t2]) (by rw [hlines, l2]) _
    rw [this, e1]
  · rw [hstart, hlines]
    exact hv.1
  · rw [hend, hlines]
    exact hv.2

theorem selectedSubstring_of_indices (t : TextBox) (a b : Nat)
    (ha : getSelectionStart t = some a) (hb : getSelectionEnd t = some b)
    (hal : a ≤ t.text.length) (hbl : b ≤ t.text.length) :
    getSelectedText t = some ((t.text.drop (min a b)).take (max a b - min a b)) := by
  unfold getSelectedText selectedSubstring
  rw [ha, hb]
  simp only
  by_cases h : a ≤ b
  · rw [if_pos h, Nat.min_eq_left h, Nat.max_eq_right h]
    unfold strSubstr
    rw [if_neg (by omega)]
  · have h2 : b ≤ a := by omega
    rw [if_neg h, Nat.min_eq_right h2, Nat.max_eq_left h2]
    unfold strSubstr
    rw [if_neg (by omega)]

/-- C36: a reflow keeps the selection indices.  Without word wrap (horizontal scrollbar policy
not `Never`), for a text box whose selection has the character indices `a` and `b`, both at most
the length of the text, `rearrangeText(true)` returns, and afterwards `getSelectionStart` is `a`
and `getSelectionEnd` is `b`.  Both endpoints are then valid (the line exists and the column is
at most its length) when the reflow runs (there is a line height and a font; the lines are then
the text split at its newlines) or when they were valid before (without a line height or a font
the function returns at once). -/
theorem reflow_keeps_selection (env : Env) (s : TextBox)
    (hpol : s.horizontalScrollbarPolicy ≠ Policy.Never) (a b : Nat)
    (ha : getSelectionStart s = some a) (hb : getSelectionEnd s = some b)
    (hal : a ≤ s.text.length) (hbl : b ≤ s.text.length) (fuel : Nat) :
    ∃ t, rearrangeText env (fuel + 1) true s = some t
      ∧ getSelectionStart t = some a ∧ getSelectionEnd t = some b
      ∧ (s.lineHeight ≠ 0 → s.hasFont = true →
          t.lines = splitLines s.text
            ∧ validPos t.lines t.selStart = true ∧ validPos t.lines t.selEnd = true)
      ∧ (validPos s.lines s.selStart = true → validPos s.lines s.selEnd = true →
          validPos t.lines t.selStart = true ∧ validPos t.lines t.selEnd = true) := by
  have hw : WrapOK env s := fun h => absurd h hpol
  obtain ⟨t, ht⟩ := rearrangeText_total env fuel true s (Or.inl hpol) hw
    (fun _ => ⟨by rw [ha]; rfl, by rw [hb]; rfl⟩)
  obtain ⟨h1, h2, _⟩ := rearrangeText_keep env (fuel + 1) s t hw ht a b ha hb hal hbl
  refine ⟨t, ht, h1, h2, ?_, ?_⟩
  · intro hl hfont
    refine ⟨rearrangeText_lines_noWrap env (fuel + 1) true s t hpol hl hfont ht, ?_⟩
    rcases rearrangeText_breaks env (fuel + 1) true s t hw ht with ⟨_, h | h | h⟩ | h
    · exact absurd h hl
    · rw [hfont] at h
      cases h
    · rw [wrappedString_noWrap hpol] at h
      cases h
    · exact h.2
  · intro v1 v2
    rcases rearrangeText_breaks env (fuel + 1) true s t hw ht with ⟨hts, _⟩ | h
    · rw [hts]
      exact ⟨v1, v2⟩
    · exact h.2

/-- Witness of C36: in the text "ab", newline, "cd" without word wrap, with the selection from
index 1 to index 4, a reflow that keeps the selection returns and leaves the indices 1
and 4. -/
theorem reflow_keeps_selection_witness :
    getSelectionStart twoLinesBox = some 1 ∧ getSelectionEnd twoLinesBox = some 4
      ∧ ∃ t, rearrangeText (refEnv 20 10 0) 1 true twoLinesBox = some t
        ∧ getSelectionStart t = some 1 ∧ getSelectionEnd t = some 4
        ∧ validPos t.lines t.selStart = true ∧ validPos t.lines t.selEnd = true := by
  obtain ⟨t, ht, h1, h2, h3, _⟩ := reflow_keeps_selection (refEnv 20 10 0) twoLinesBox
    (by decide) 1 4 (by decide) (by decide) (by decide) (by decide) 0
  exact ⟨by decide, by decide, t, ht, h1, h2, (h3 (by decide) (by decide)).2⟩

/-- C37: without word wrap the index of a position determines the position.  When the lines
are the text split at its newlines, `getIndexOfSelectionPos` gives two valid positions (the line
exists and the column is at most its length) the same character index only when they are equal;
and `setCaretPosition` of the index of a valid position `p` puts both ends of the selection
at `p`. -/
theorem index_determines_position (env : Env) (s : TextBox) (hl : s.lines = splitLines s.text)
    (p q : Vector2) (hp : validPos s.lines p = true) (hq : validPos s.lines q = true) :
    (getIndexOfSelectionPos s p = getIndexOfSelectionPos s q → p = q)
      ∧ ∃ n t, getIndexOfSelectionPos s p = some n ∧ setCaretPosition env n s = some t
          ∧ t.selStart = p ∧ t.selEnd = p := by
  have hb : Breaks s.lines s.text := by rw [hl]; exact breaks_splitLines _
  obtain ⟨lp, hlp, hxp⟩ := (validPos_iff _ _).1 hp
  have hyp : p.y < s.lines.length := (List.getElem?_eq_some_iff.1 hlp).1
  obtain ⟨r, l, hr, hlr, _, hlen, _⟩ := hb.line_spec p.y hyp
  have hll : lp = l := by
    rw [hlp] at hlr
    exact Option.some.inj hlr
  subst hll
  have hidx : getIndexOfSelectionPos s p = some (r + p.x) := by
    unfold getIndexOfSelectionPos
    rw [hr]
    rfl
  constructor
  · intro h
    rw [hidx] at h
    rw [hl] at hp hq
    apply index_injective s.text p q hp hq (r + p.x)
    · rw [← hl]
      exact hidx
    · rw [← hl]
      exact h.symm
  · obtain ⟨t, ht, _, e1, c1, v1, t1, l1, _, _⟩ := setCaretPosition_spec env s hb (r + p.x)
    rw [Nat.min_eq_left (by omega)] at e1
    have hend : t.selEnd = p := by
      have hv : validPos (splitLines s.text) t.selEnd = true := by
        rw [← hl, ← l1]
        exact v1
      have hi : (findIndexFrom s.text (splitLines s.text) t.selEnd.y 0).map (· + t.selEnd.x)
          = some (r + p.x) := by
        have : getIndexOfSelectionPos t t.selEnd = getIndexOfSelectionPos s t.selEnd :=
          getIndexOfSelectionPos_congr t1 l1 _
        have e2 : getIndexOfSelectionPos s t.selEnd = some (r + p.x) := by
          rw [← this]
          exact e1
        rw [← hl]
        exact e2
      rw [hl] at hp
      exact index_injective s.text t.selEnd p hv hp (r + p.x) hi (by rw [← hl]; exact hidx)
    exact ⟨r + p.x, t, hidx, ht, by rw [c1, hend], hend⟩

/-- Witness of C37: in the text "ab", newline, "cd" without word wrap, the position at column 1
of the second line has the index 4, and `setCaretPosition 4` puts the caret there. -/
theorem index_determines_position_witness :
    getIndexOfSelectionPos twoLinesBox (Vector2.mk 1 1) = some 4
      ∧ ∃ t, setCaretPosition (refEnv 20 10 0) 4 twoLinesBox = some t
        ∧ t.selStart = Vector2.mk 1 1 ∧ t.selEnd = Vector2.mk 1 1 := by
  obtain ⟨n, t, hn, ht, h1, h2⟩ := (index_determines_position (refEnv 20 10 0) twoLinesBox
    (by decide) (Vector2.mk 1 1) (Vector2.mk 0 0) (by decide) (by decide)).2
  have h4 : getIndexOfSelectionPos twoLinesBox (Vector2.mk 1 1) = some 4 := by decide
  rw [h4] at hn
  rw [← Option.some.inj hn] at ht
  exact ⟨h4, t, ht, h1, h2⟩

/-- C38, amended: `setSelectedText` and `getSelectedText`.  In a text box whose lines are a
line breaking of its text (as `rearrangeText` leaves them when it does not return early), for
all indices `a` and `b`, `setSelectedText a b` returns; afterwards `getSelectionStart` is
the smaller of `a` and the length of the text, `getSelectionEnd` is the smaller of `b` and the
length of the text, and `getSelectedText` is the part of the text from the smaller to the
larger of these two indices.  Hence `setSelectedText a b` and `setSelectedText b a` give the
same selected text. -/
theorem setSelectedText_selects (env : Env) (s : TextBox) (hb : Breaks s.lines s.text)
    (a b : Nat) :
    (∃ t, setSelectedText env a b s = some t
        ∧ getSelectionStart t = some (min a s.text.length)
        ∧ getSelectionEnd t = some (min b s.text.length)
        ∧ getSelectedText t
          = some ((s.text.drop (min (min a s.text.length) (min b s.text.length))).take
              (max (min a s.text.length) (min b s.text.length)
                - min (min a s.text.length) (min b s.text.length))))
      ∧ (∃ t u, setSelectedText env a b s = some t ∧ setSelectedText env b a s = some u
          ∧ getSelectedText t = getSelectedText u) := by
  have one : ∀ a b : Nat, ∃ t, setSelectedText env a b s = some t
      ∧ getSelectionStart t = some (min a s.text.length)
      ∧ getSelectionEnd t = some (min b s.text.length)
      ∧ getSelectedText t
        = some ((s.text.drop (min (min a s.text.length) (min b s.text.length))).take
            (max (min a s.text.length) (min b s.text.length)
              - min (min a s.text.length) (min b s.text.length))) := by
    intro a b
    obtain ⟨t, ht, htext, _, h1, h2, _, _⟩ := setSelectedText_spec env s hb a b
    refine ⟨t, ht, h1, h2, ?_⟩
    rw [selectedSubstring_of_indices t _ _ h1 h2 (by rw [htext]; exact Nat.min_le_right _ _)
      (by rw [htext]; exact Nat.min_le_right _ _), htext]
  refine ⟨one a b, ?_⟩
  obtain ⟨t, ht, _, _, h3⟩ := one a b
  obtain ⟨u, hu, _, _, g3⟩ := one b a
  refine ⟨t, u, ht, hu, ?_⟩
  rw [h3, g3, Nat.min_comm (min a s.text.length), Nat.max_comm (min a s.text.length)]

/-- Witness of C38: in the wrapped text "aaabbb", newline, "ccc" (ten characters),
`setSelectedText 2 100` selects from index 2 to index 10, the text "abbb", newline, "ccc". -/
theorem setSelectedText_selects_witness :
    ∃ t, setSelectedText (refEnv 3 10 0) 2 100 wrappedTextBox = some t
      ∧ getSelectionStart t = some 2 ∧ getSelectionEnd t = some 10
      ∧ getSelectedText t = some "abbb\nccc".toList := by
  have hb : Breaks wrappedTextBox.lines wrappedTextBox.text :=
    goodWrap_refEnv 3 10 0 3 "aaabbb\nccc".toList
  obtain ⟨t, ht, h1, h2, h3⟩ := (setSelectedText_selects (refEnv 3 10 0) wrappedTextBox hb
    2 100).1
  exact ⟨t, ht, h1, h2, h3⟩

/-! ## Saving and loading the scrollbar policies -/

theorem setVerticalScrollbarPolicy_frame (env : Env) (fuel : Nat) (policy : Policy)
    (s t : TextBox) (h : setVerticalScrollbarPolicy env fuel policy s = some t) :
    t.verticalScrollbarPolicy = policy
      ∧ t.horizontalScrollbarPolicy = s.horizontalScrollbarPolicy := by
  unfold setVerticalScrollbarPolicy at h
  obtain ⟨_, hset, _⟩ := rearrangeText_frame env fuel false _ t h
  exact ⟨hset.2.2.1, hset.2.2.2.1⟩

theorem setHorizontalScrollbarPolicy_frame (env : Env) (fuel : Nat) (policy : Policy)
    (s t : TextBox) (h : setHorizontalScrollbarPolicy env fuel policy s = some t) :
    t.verticalScrollbarPolicy = s.verticalScrollbarPolicy
      ∧ t.horizontalScrollbarPolicy = policy := by
  unfold setHorizontalScrollbarPolicy at h
  obtain ⟨_, hset, _⟩ := rearrangeText_frame env fuel false _ t h
  exact ⟨hset.2.2.1, hset.2.2.2.1⟩

theorem setVerticalScrollbarPolicy_total (env : Env) (fuel : Nat) (policy : Policy)
    (s : TextBox) (hpol : s.horizontalScrollbarPolicy ≠ Policy.Never) :
    ∃ t, setVerticalScrollbarPolicy env (fuel + 1) policy s = some t := by
  unfold setVerticalScrollbarPolicy
  exact rearrangeText_total_false env fuel _ (Or.inl hpol)

theorem setHorizontalScrollbarPolicy_total (env : Env) (fuel : Nat) (policy : Policy)
    (s : TextBox) (hpol : policy ≠ Policy.Never) :
    ∃ t, setHorizontalScrollbarPolicy env (fuel + 1) policy s = some t := by
  unfold setHorizontalScrollbarPolicy
  exact rearrangeText_total_false env fuel _ (Or.inl hpol)

theorem loadVerticalScrollbarPolicy_spec (env : Env) (fuel : Nat) (lib : StringLib)
    (property : Option (List Char)) (s t : TextBox)
    (h : loadVerticalScrollbarPolicy env fuel lib property s = some t) :
    (∀ v, property = some v → loadPolicy lib v = some t.verticalScrollbarPolicy)
      ∧ (property = none → t.verticalScrollbarPolicy = s.verticalScrollbarPolicy)
      ∧ t.horizontalScrollbarPolicy = s.horizontalScrollbarPolicy := by
  unfold loadVerticalScrollbarPolicy at h
  cases property with
  | none =>
    simp only [Option.some.injEq] at h
    rw [← h]
    exact ⟨fun v hv => (by cases hv), fun _ => rfl, rfl⟩
  | some value =>
    simp only at h
    cases hp : loadPolicy lib value with
    | none =>
      rw [hp] at h
      cases h
    | some policy =>
      rw [hp] at h
      obtain ⟨f1, f2⟩ := setVerticalScrollbarPolicy_frame env fuel policy s t h
      refine ⟨?_, fun hv => (by cases hv), f2⟩
      intro v hv
      cases hv
      rw [hp, f1]

theorem loadHorizontalScrollbarPolicy_spec (env : Env) (fuel : Nat) (lib : StringLib)
    (property : Option (List Char)) (s t : TextBox)
    (h : loadHorizontalScrollbarPolicy env fuel lib property s = some t) :
    (∀ v, property = some v → loadPolicy lib v = some t.horizontalScrollbarPolicy)
      ∧ (property = none → t.horizontalScrollbarPolicy = s.horizontalScrollbarPolicy)
      ∧ t.verticalScrollbarPolicy = s.verticalScrollbarPolicy := by
  unfold loadHorizontalScrollbarPolicy at h
  cases property with
  | none =>
    simp only [Option.some.injEq] at h
    rw [← h]
    exact ⟨fun v hv => (by cases hv), fun _ => rfl, rfl⟩
  | some value =>
    simp only at h
    cases hp : loadPolicy lib value with
    | none =>
      rw [hp] at h
      cases h
    | some policy =>
      rw [hp] at h
      obtain ⟨f1, f2⟩ := setHorizontalScrollbarPolicy_frame env fuel policy s t h
      refine ⟨?_, fun hv => (by cases hv), f1⟩
      intro v hv
      cases hv
      rw [hp, f2]

/-- What `load` does to the two policies: a property that is there sets the policy to the one
it spells, a property that is not there leaves the policy as it is. -/
theorem load_policies (env : Env) (fuel : Nat) (lib : StringLib)
    (vertical horizontal : Option (List Char)) (s t : TextBox)
    (h : load env fuel lib vertical horizontal s = some t) :
    (∀ v, vertical = some v → loadPolicy lib v = some t.verticalScrollbarPolicy)
      ∧ (vertical = none → t.verticalScrollbarPolicy = s.verticalScrollbarPolicy)
      ∧ (∀ v, horizontal = some v → loadPolicy lib v = some t.horizontalScrollbarPolicy)
      ∧ (horizontal = none → t.horizontalScrollbarPolicy = s.horizontalScrollbarPolicy) := by
  unfold load at h
  cases h1 : loadVerticalScrollbarPolicy env fuel lib vertical s with
  | none =>
    rw [h1] at h
    cases h
  | some s1 =>
    rw [h1] at h
    simp only at h
    obtain ⟨a1, a2, a3⟩ := loadVerticalScrollbarPolicy_spec env fuel lib vertical s s1 h1
    obtain ⟨b1, b2, b3⟩ := loadHorizontalScrollbarPolicy_spec env fuel lib horizontal s1 t h
    refine ⟨?_, ?_, b1, ?_⟩
    · intro v hv
      rw [b3]
      exact a1 v hv
    · intro hv
      rw [b3]
      exact a2 hv
    · intro hv
      rw [b2 hv, a3]

/-- Loading reads back what saving wrote. -/
theorem loadPolicy_savePolicy (lib : StringLib) (hs : Standard lib) (policy : Policy)
    (v : List Char) (h : savePolicy policy = some v) : loadPolicy lib v = some policy := by
  cases policy with
  | Automatic => cases h
  | Always =>
    have hv : v = "Always".toList := (Option.some.inj h).symm
    subst hv
    unfold loadPolicy
    rw [hs.2, hs.1]
    rfl
  | Never =>
    have hv : v = "Never".toList := (Option.some.inj h).symm
    subst hv
    unfold loadPolicy
    rw [hs.2, hs.1]
    rfl



/-! ## Lemmas: the second pass of a reflow -/

theorem toUnsigned_mono (env : Env) {a b : Int} (ha : 0 ≤ a) (hab : a ≤ b) :
    toUnsigned env a ≤ toUnsigned env b := by
  rw [toUnsigned_of_nonneg env ha, toUnsigned_of_nonneg env (le_trans ha hab)]
  exact Int.toNat_le_toNat hab

theorem isShown_of_hidden {env : Env} (hstd : StandardScrollbar env) {sb : Scrollbar}
    (h : sb.visible = false) : env.isShown sb = false := by
  rw [hstd.1, refIsShown, h]
  rfl

theorem isShown_setViewportSize {env : Env} (hstd : StandardScrollbar env) (n : Nat)
    (sb : Scrollbar) :
    env.isShown (env.setViewportSize n sb)
      = (sb.visible && (!sb.autoHide || decide (sb.maximum > n))) := by
  obtain ⟨h1, h2, h3, h4⟩ := hstd.2.2.1 n sb
  rw [hstd.1, refIsShown, h1, h2, h3, h4]

theorem isShown_setMaximum {env : Env} (hstd : StandardScrollbar env) (m : Nat)
    (sb : Scrollbar) :
    env.isShown (env.setMaximum m sb)
      = (sb.visible && (!sb.autoHide || decide (max m 1 > sb.viewportSize))) := by
  obtain ⟨h1, h2, h3, h4⟩ := hstd.2.1 m sb
  rw [hstd.1, refIsShown, h1, h2, h3, h4]

/-- The height of the viewport of the vertical scrollbar when the horizontal one is hidden. -/
theorem storeLines_verticalScrollbar {env : Env} {s : TextBox}
    (hh : env.isShown s.horizontalScrollbar = false) (lines : List (List Char)) (p q : Vector2) :
    (storeLines env s lines p q).verticalScrollbar
      = env.setViewportSize
          (toUnsigned env ((env.innerSizeY : Int) - env.paddingTop - env.paddingBottom))
          s.verticalScrollbar := by
  unfold storeLines updateScrollbars
  simp only [hh, Bool.false_eq_true, if_false]

theorem tellScrollbars_verticalScrollbar (env : Env) (u : TextBox) :
    (tellScrollbars env u).verticalScrollbar
      = env.setMaximum
          (toUnsigned env (((u.lines.length * u.lineHeight : Nat) : Int) + env.extraVerticalSpace))
          u.verticalScrollbar := rfl

theorem told_horizontal_hidden {env : Env} (hstd : StandardScrollbar env) {s : TextBox}
    (hvis : s.horizontalScrollbar.visible = false) (lines : List (List Char)) (p q : Vector2) :
    (tellScrollbars env (storeLines env s lines p q)).horizontalScrollbar.visible = false := by
  have hif : ∀ (c : Prop) [Decidable c] (a b : Nat),
      (if c then env.setViewportSize a s.horizontalScrollbar
        else env.setViewportSize b s.horizontalScrollbar).visible = false := by
    intro c _ a b
    split
    · rw [(hstd.2.2.1 _ _).1]; exact hvis
    · rw [(hstd.2.2.1 _ _).1]; exact hvis
  unfold tellScrollbars storeLines updateScrollbars
  simp only
  rw [(hstd.2.1 _ _).1]
  exact hif _ _ _

/-- One pass of a reflow while the horizontal scrollbar is not visible: whether the vertical
scrollbar is shown once the viewport is set and once the maximum is set, and what the vertical
scrollbar then holds. -/
theorem pass_shown {env : Env} (hstd : StandardScrollbar env) (u : TextBox)
    (hvis : u.horizontalScrollbar.visible = false) (lines : List (List Char)) (p q : Vector2) :
    env.isShown (storeLines env u lines p q).verticalScrollbar
        = (u.verticalScrollbar.visible && (!u.verticalScrollbar.autoHide
            || decide (u.verticalScrollbar.maximum
                > toUnsigned env ((env.innerSizeY : Int) - env.paddingTop - env.paddingBottom))))
      ∧ env.isShown (tellScrollbars env (storeLines env u lines p q)).verticalScrollbar
        = (u.verticalScrollbar.visible && (!u.verticalScrollbar.autoHide
            || decide (max (toUnsigned env
                (((lines.length * u.lineHeight : Nat) : Int) + env.extraVerticalSpace)) 1
                > toUnsigned env ((env.innerSizeY : Int) - env.paddingTop - env.paddingBottom))))
      ∧ (tellScrollbars env (storeLines env u lines p q)).verticalScrollbar.visible
        = u.verticalScrollbar.visible
      ∧ (tellScrollbars env (storeLines env u lines p q)).verticalScrollbar.autoHide
        = u.verticalScrollbar.autoHide
      ∧ (tellScrollbars env (storeLines env u lines p q)).verticalScrollbar.maximum
        = max (toUnsigned env
            (((lines.length * u.lineHeight : Nat) : Int) + env.extraVerticalSpace)) 1 := by
  have hh : env.isShown u.horizontalScrollbar = false := isShown_of_hidden hstd hvis
  have e2 := storeLines_verticalScrollbar hh lines p q
  have e3 : (tellScrollbars env (storeLines env u lines p q)).verticalScrollbar
      = env.setMaximum
          (toUnsigned env (((lines.length * u.lineHeight : Nat) : Int) + env.extraVerticalSpace))
          (env.setViewportSize
            (toUnsigned env ((env.innerSizeY : Int) - env.paddingTop - env.paddingBottom))
            u.verticalScrollbar) := by
    rw [tellScrollbars_verticalScrollbar, e2]
    rfl
  obtain ⟨a1, a2, a3, a4⟩ := hstd.2.2.1
    (toUnsigned env ((env.innerSizeY : Int) - env.paddingTop - env.paddingBottom))
    u.verticalScrollbar
  obtain ⟨b1, b2, b3, b4⟩ := hstd.2.1
    (toUnsigned env (((lines.length * u.lineHeight : Nat) : Int) + env.extraVerticalSpace))
    (env.setViewportSize
      (toUnsigned env ((env.innerSizeY : Int) - env.paddingTop - env.paddingBottom))
      u.verticalScrollbar)
  refine ⟨?_, ?_, ?_, ?_, ?_⟩
  · rw [e2, isShown_setViewportSize hstd]
  · rw [e3, isShown_setMaximum hstd, a1, a2, a4]
  · rw [e3, b1, a1]
  · rw [e3, b2, a2]
  · rw [e3, b4]

theorem wrappedString_wrap {env : Env} {s : TextBox}
    (hpol : s.horizontalScrollbarPolicy = Policy.Never) {string : List Char}
    (h : wrappedString env s = some string) :
    0 < wrapWidth env (env.isShown s.verticalScrollbar)
      ∧ string = env.wordWrap (wrapWidth env (env.isShown s.verticalScrollbar)) s.text := by
  unfold wrappedString at h
  rw [if_neg (by simpa using hpol)] at h
  split at h
  · cases h
  · rename_i hle
    exact ⟨by omega, (Option.some.inj h).symm⟩

theorem wrapWidth_le (env : Env) (hbar : 0 ≤ env.verticalScrollbarWidth) :
    wrapWidth env true ≤ wrapWidth env false := by
  unfold wrapWidth
  simp only [if_true, Bool.false_eq_true, if_false]
  omega

/-- The number of lines of the second wrap, against that of the first: not smaller when the
vertical scrollbar is shown for the second, not larger when it is hidden. -/
theorem wrap_lines_compare {env : Env} (hmono : MonotoneWrap env)
    (hbar : 0 ≤ env.verticalScrollbarWidth) (text : List Char) (b0 b3 : Bool)
    (h0 : 0 < wrapWidth env b0) (h3 : 0 < wrapWidth env b3) :
    (b3 = true →
        (splitLines (env.wordWrap (wrapWidth env b0) text)).length
          ≤ (splitLines (env.wordWrap (wrapWidth env b3) text)).length)
      ∧ (b3 = false →
        (splitLines (env.wordWrap (wrapWidth env b3) text)).length
          ≤ (splitLines (env.wordWrap (wrapWidth env b0) text)).length) := by
  constructor
  · intro hb
    subst hb
    cases b0 with
    | true => exact le_refl _
    | false => exact hmono text _ _ h3 (wrapWidth_le env hbar)
  · intro hb
    subst hb
    cases b0 with
    | false => exact le_refl _
    | true => exact hmono text _ _ h0 (wrapWidth_le env hbar)

/-- The second pass of a reflow with word wrap does not change whether the vertical scrollbar
is shown. -/
theorem second_pass_steady {env : Env} (hreg : Regular env) {s : TextBox}
    (hpol : s.horizontalScrollbarPolicy = Policy.Never)
    (hvis : s.horizontalScrollbar.visible = false) {string1 string2 : List Char}
    (p q p2 q2 : Vector2) (h1 : wrappedString env s = some string1)
    (h2 : wrappedString env (tellScrollbars env (storeLines env s (splitLines string1) p q))
      = some string2) :
    env.isShown (storeLines env
        (tellScrollbars env (storeLines env s (splitLines string1) p q))
        (splitLines string2) p2 q2).verticalScrollbar
      = env.isShown (tellScrollbars env (storeLines env
          (tellScrollbars env (storeLines env s (splitLines string1) p q))
          (splitLines string2) p2 q2)).verticalScrollbar := by
  obtain ⟨hstd, hmono, hbar, hextra⟩ := hreg
  obtain ⟨_, f2, f3, f4, f5⟩ := pass_shown hstd s hvis (splitLines string1) p q
  have fh := told_horizontal_hidden hstd hvis (splitLines string1) p q
  have fpol : (tellScrollbars env (storeLines env s (splitLines string1) p q)).horizontalScrollbarPolicy
      = Policy.Never := hpol
  have ftext : (tellScrollbars env (storeLines env s (splitLines string1) p q)).text = s.text :=
    rfl
  have flh : (tellScrollbars env (storeLines env s (splitLines string1) p q)).lineHeight
      = s.lineHeight := rfl
  obtain ⟨hw1, hs1⟩ := wrappedString_wrap hpol h1
  generalize tellScrollbars env (storeLines env s (splitLines string1) p q) = s3 at *
  obtain ⟨hw2, hs2⟩ := wrappedString_wrap fpol h2
  obtain ⟨g1, g2, _⟩ := pass_shown hstd s3 fh (splitLines string2) p2 q2
  rw [g1, g2, f3, f4, f5, flh]
  rw [f2] at hw2 hs2
  rw [ftext] at hs2
  generalize toUnsigned env ((env.innerSizeY : Int) - env.paddingTop - env.paddingBottom)
    = V at *
  cases hv : s.verticalScrollbar.visible with
  | false => rfl
  | true =>
    cases ha : s.verticalScrollbar.autoHide with
    | false => rfl
    | true =>
      rw [hv, ha] at hw2 hs2
      simp only [Bool.true_and, Bool.not_true, Bool.false_or] at hw2 hs2 ⊢
      have hcmp := wrap_lines_compare hmono hbar s.text (env.isShown s.verticalScrollbar)
        (decide (max (toUnsigned env
          ((((splitLines string1).length * s.lineHeight : Nat) : Int) + env.extraVerticalSpace)) 1
          > V)) hw1 hw2
      rw [← hs1, ← hs2] at hcmp
      have hmon : ∀ a b : Nat, a ≤ b →
          toUnsigned env (((a * s.lineHeight : Nat) : Int) + env.extraVerticalSpace)
            ≤ toUnsigned env (((b * s.lineHeight : Nat) : Int) + env.extraVerticalSpace) := by
        intro a b hab
        apply toUnsigned_mono env
        · have : (0 : Int) ≤ ((a * s.lineHeight : Nat) : Int) := Int.ofNat_nonneg _
          omega
        · have : ((a * s.lineHeight : Nat) : Int) ≤ ((b * s.lineHeight : Nat) : Int) :=
            Int.ofNat_le.2 (Nat.mul_le_mul_right _ hab)
          omega
      by_cases hgt : max (toUnsigned env
          ((((splitLines string1).length * s.lineHeight : Nat) : Int) + env.extraVerticalSpace)) 1
          > V
      · have h12 := hmon _ _ (hcmp.1 (by simpa using hgt))
        have hgt2 : max (toUnsigned env
            ((((splitLines string2).length * s.lineHeight : Nat) : Int)
              + env.extraVerticalSpace)) 1 > V := by omega
        rw [decide_eq_true hgt, decide_eq_true hgt2]
      · have h21 := hmon _ _ (hcmp.2 (by simpa using hgt))
        have hgt2 : ¬ max (toUnsigned env
            ((((splitLines string2).length * s.lineHeight : Nat) : Int)
              + env.extraVerticalSpace)) 1 > V := by omega
        rw [decide_eq_false hgt, decide_eq_false hgt2]

/-! ## Lemmas: a reflow returns after at most two passes -/

theorem findIndexFrom_isSome (text : List Char) :
    ∀ (ls : List (List Char)) (y k : Nat), y ≤ ls.length →
      (findIndexFrom text ls y k).isSome = true := by
  intro ls
  induction ls with
  | nil =>
    intro y k h
    have hy : y = 0 := by simpa using h
    subst hy
    rfl
  | cons l ls ih =>
    intro y k h
    cases y with
    | zero => rfl
    | succ n =>
      simp only [findIndexFrom]
      exact ih n _ (by simpa using h)

/-- The character index of an endpoint inside the lines is defined. -/
theorem getIndexOfSelectionPos_isSome (s : TextBox) (p : Vector2)
    (h : validPos s.lines p = true) : (getIndexOfSelectionPos s p).isSome = true := by
  obtain ⟨row, hrow, _⟩ := (validPos_iff s.lines p).1 h
  have hlt : p.y < s.lines.length := (List.getElem?_eq_some_iff.1 hrow).1
  unfold getIndexOfSelectionPos
  rw [Option.isSome_map']
  exact findIndexFrom_isSome s.text s.lines p.y 0 (by omega)

theorem twoPass_of_frame {env : Env} {s t : TextBox} (h : TwoPass env s)
    (hpol : t.horizontalScrollbarPolicy = s.horizontalScrollbarPolicy)
    (hbar : t.horizontalScrollbar = s.horizontalScrollbar) : TwoPass env t := by
  intro hp
  rw [hpol] at hp
  rw [hbar]
  exact h hp

/-- The pass of a reflow that follows a pass with word wrap returns. -/
theorem rearrangeText_second_pass (env : Env) (fuel : Nat) (s : TextBox)
    (hw : WrapOK env s) (hreg : Regular env)
    (hpol : s.horizontalScrollbarPolicy = Policy.Never)
    (hvis : s.horizontalScrollbar.visible = false) (string1 : List Char) (p q : Vector2)
    (h1 : wrappedString env s = some string1)
    (hv1 : validPos (splitLines string1) p = true)
    (hv2 : validPos (splitLines string1) q = true) :
    ∃ t, rearrangeText env (fuel + 1) true
      (tellScrollbars env (storeLines env s (splitLines string1) p q)) = some t := by
  have hsteady := fun (string2 : List Char) (p2 q2 : Vector2) =>
    @second_pass_steady env hreg s hpol hvis string1 string2 p q p2 q2 h1
  have hw3 : WrapOK env (tellScrollbars env (storeLines env s (splitLines string1) p q)) := hw
  have hpol3 : (tellScrollbars env
      (storeLines env s (splitLines string1) p q)).horizontalScrollbarPolicy = Policy.Never :=
    hpol
  have hsel : (getSelectionStart
        (tellScrollbars env (storeLines env s (splitLines string1) p q))).isSome = true
      ∧ (getSelectionEnd
        (tellScrollbars env (storeLines env s (splitLines string1) p q))).isSome = true :=
    ⟨getIndexOfSelectionPos_isSome _ _ hv1, getIndexOfSelectionPos_isSome _ _ hv2⟩
  generalize tellScrollbars env (storeLines env s (splitLines string1) p q) = s3 at *
  rw [rearrangeText]
  by_cases hg : s3.lineHeight = 0 ∨ s3.hasFont = false
  · rw [if_pos hg]; exact ⟨s3, rfl⟩
  · rw [if_neg hg]
    cases hws : wrappedString env s3 with
    | none => exact ⟨s3, rfl⟩
    | some string2 =>
      simp only
      have hbr := wrappedString_breaks hw3 hws
      obtain ⟨p2, q2, hns, hp2, hq2⟩ := newSelection_spec true s3 hbr (fun _ => hsel)
      rw [hns]
      simp only
      rw [if_pos hpol3, if_neg (by simpa using hsteady string2 p2 q2 hws)]
      apply Option.isSome_iff_exists.1
      have hd := sameDoc_updateScrollbars env
        (tellScrollbars env (storeLines env s3 (splitLines string2) p2 q2))
      have hf := told_facts env s3 (splitLines string2) p2 q2
      rw [updateSelectionTexts_isSome, hd.2.1, hd.2.2.1, hd.2.2.2.1, hf.2.1, hf.2.2.1,
        hf.2.2.2.1]
      exact ⟨hp2, hq2⟩

/-- `rearrangeText` returns when it has fuel for two passes: without word wrap after one pass,
with word wrap (in a regular environment, with the horizontal scrollbar not visible) after at
most two. -/
theorem rearrangeText_returns (env : Env) (fuel : Nat) (keep : Bool) (s : TextBox)
    (hw : WrapOK env s) (htwo : TwoPass env s)
    (hsel : keep = true → (getSelectionStart s).isSome ∧ (getSelectionEnd s).isSome) :
    ∃ t, rearrangeText env (fuel + 2) keep s = some t := by
  by_cases hpol : s.horizontalScrollbarPolicy = Policy.Never
  · obtain ⟨hreg, hvis⟩ := htwo hpol
    rw [rearrangeText]
    by_cases hg : s.lineHeight = 0 ∨ s.hasFont = false
    · rw [if_pos hg]; exact ⟨s, rfl⟩
    · rw [if_neg hg]
      cases hws : wrappedString env s with
      | none => exact ⟨s, rfl⟩
      | some string =>
        simp only
        have hbr := wrappedString_breaks hw hws
        obtain ⟨p, q, hns, hv1, hv2⟩ := newSelection_spec keep s hbr hsel
        rw [hns]
        simp only
        rw [if_pos hpol]
        split
        · exact rearrangeText_second_pass env fuel s hw hreg hpol hvis string p q hws hv1 hv2
        · apply Option.isSome_iff_exists.1
          have hd := sameDoc_updateScrollbars env
            (tellScrollbars env (storeLines env s (splitLines string) p q))
          have hf := told_facts env s (splitLines string) p q
          rw [updateSelectionTexts_isSome, hd.2.1, hd.2.2.1, hd.2.2.2.1, hf.2.1, hf.2.2.1,
            hf.2.2.2.1]
          exact ⟨hv1, hv2⟩
  · exact rearrangeText_total env (fuel + 1) keep s (Or.inl hpol) hw hsel

/-! ## The reference environment is regular -/

theorem standardScrollbar_refEnv (w h bar : Nat) : StandardScrollbar (refEnv w h bar) :=
  ⟨fun _ => rfl,
    fun n sb => ⟨rfl, rfl, rfl, by
      show (if n > 0 then n else 1) = max n 1
      split <;> omega⟩,
    fun _ _ => ⟨rfl, rfl, rfl, rfl⟩, fun _ _ => rfl⟩

/-- The number of line breaks of the reference word wrap, for two widths and two fillings of
the current line: the wider wrap is never more than one break ahead, and not ahead at all when
it has at least as much room left on the current line. -/
theorem count_wrapAt (k1 k2 : Nat) (hk : k1 ≤ k2) :
    ∀ (cs : List Char) (n n2 : Nat),
      (wrapAt k2 cs n2).count '\n' ≤ (wrapAt k1 cs n).count '\n' + 1
        ∧ (max k1 1 + n2 ≤ max k2 1 + n →
            (wrapAt k2 cs n2).count '\n' ≤ (wrapAt k1 cs n).count '\n') := by
  intro cs
  induction cs with
  | nil =>
    intro n n2
    simp [wrapAt]
  | cons c cs ih =>
    intro n n2
    by_cases hc : c = '\n'
    · subst hc
      have h0 := (ih 0 0).2 (by omega)
      simp only [wrapAt, if_true, List.count_cons_self]
      omega
    · have hc2 : ('\n' : Char) ≠ c := fun h => hc h.symm
      have e1 : ∀ k m, (wrapAt k (c :: cs) m).count '\n'
          = if m < max k 1 then (wrapAt k cs (m + 1)).count '\n'
            else (wrapAt k cs 1).count '\n' + 1 := by
        intro k m
        simp only [wrapAt, if_neg hc]
        split
        · rw [List.count_cons_of_ne hc2]
        · rw [List.count_cons_self, List.count_cons_of_ne hc2]
      rw [e1 k1 n, e1 k2 n2]
      by_cases hn : n < max k1 1
      · rw [if_pos hn]
        by_cases hn2 : n2 < max k2 1
        · rw [if_pos hn2]
          exact ⟨(ih (n + 1) (n2 + 1)).1, fun hr => (ih (n + 1) (n2 + 1)).2 (by omega)⟩
        · rw [if_neg hn2]
          have := (ih (n + 1) 1).2 (by omega)
          exact ⟨by omega, fun hr => by omega⟩
      · rw [if_neg hn]
        by_cases hn2 : n2 < max k2 1
        · rw [if_pos hn2]
          have := (ih 1 (n2 + 1)).1
          exact ⟨by omega, fun _ => by omega⟩
        · rw [if_neg hn2]
          have := (ih 1 1).2 (by omega)
          exact ⟨by omega, fun _ => by omega⟩

theorem monotoneWrap_refEnv (w h bar : Nat) : MonotoneWrap (refEnv w h bar) := by
  intro text narrow wide hpos hle
  show (splitLines (wrapAt wide.toNat text 0)).length
    ≤ (splitLines (wrapAt narrow.toNat text 0)).length
  rw [length_splitLines, length_splitLines]
  have := (count_wrapAt narrow.toNat wide.toNat (Int.toNat_le_toNat hle) text 0 0).2
    (by
      have := Int.toNat_le_toNat hle
      omega)
  omega

theorem regular_refEnv (w h bar : Nat) : Regular (refEnv w h bar) :=
  ⟨standardScrollbar_refEnv w h bar, monotoneWrap_refEnv w h bar, Int.ofNat_nonneg bar,
    le_refl 0⟩

/-! ## Claims settled with the two-pass reflow -/

/-- C5: `setText` returns, and with a character limit `m > 0` and a longer text it leaves
exactly the first `m` characters as text, while without a limit or with a text within the limit
it leaves the text as given.  It returns with fuel for two passes of the reflow: without word
wrap for every environment, with word wrap when the word wrap only puts in line breaks, the
environment is regular and the horizontal scrollbar is not visible; and with whatever fuel it
returns, the text is the same. -/
theorem setText_truncates (env : Env) (s : TextBox) (text : List Char) (hw : WrapOK env s)
    (htwo : TwoPass env s) :
    (∀ fuel, ∃ t, setText env (fuel + 2) text s = some t
        ∧ (0 < s.maxChars → s.maxChars < text.length → getText t = text.take s.maxChars)
        ∧ (s.maxChars = 0 ∨ text.length ≤ s.maxChars → getText t = text))
      ∧ (∀ fuel t, setText env fuel text s = some t →
        (0 < s.maxChars → s.maxChars < text.length → getText t = text.take s.maxChars)
          ∧ (s.maxChars = 0 ∨ text.length ≤ s.maxChars → getText t = text)) := by
  have part : ∀ fuel t, setText env fuel text s = some t →
      (0 < s.maxChars → s.maxChars < text.length → getText t = text.take s.maxChars)
        ∧ (s.maxChars = 0 ∨ text.length ≤ s.maxChars → getText t = text) := by
    intro fuel t h
    unfold setText at h
    unfold getText
    split at h
    · rename_i hc
      have := (rearrangeText_frame env fuel false _ t h).1
      exact ⟨fun _ _ => this, fun hx => by omega⟩
    · rename_i hc
      have := (rearrangeText_frame env fuel false _ t h).1
      refine ⟨fun h1 h2 => absurd ⟨h1, h2⟩ hc, fun _ => this⟩
  refine ⟨?_, part⟩
  intro fuel
  have hret : ∃ t, setText env (fuel + 2) text s = some t := by
    unfold setText
    split
    · exact rearrangeText_returns env fuel false _ hw htwo (fun h => by cases h)
    · exact rearrangeText_returns env fuel false _ hw htwo (fun h => by cases h)
  obtain ⟨t, ht⟩ := hret
  exact ⟨t, ht, part _ t ht⟩

/-- Witness of C5: in a box three characters wide and two lines high whose scrollbar is one
character wide (default configuration: word wrap on, vertical scrollbar automatic), with a
limit of 5, `setText` of "HELLOWORLD" leaves "HELLO" and `setText` of "HI" leaves "HI"; the
first takes the second pass of the reflow (with fuel for a single pass the embedding runs out of
fuel). -/
theorem setText_truncates_witness :
    (∃ t, setText (refEnv 3 2 1) 2 "HELLOWORLD".toList limitedBox = some t
        ∧ getText t = "HELLO".toList)
      ∧ (∃ t, setText (refEnv 3 2 1) 2 "HI".toList limitedBox = some t
        ∧ getText t = "HI".toList)
      ∧ setText (refEnv 3 2 1) 1 "HELLOWORLD".toList limitedBox = none := by
  have h1 := (setText_truncates (refEnv 3 2 1) limitedBox "HELLOWORLD".toList
    (fun _ => goodWrap_refEnv 3 2 1) (fun _ => ⟨regular_refEnv 3 2 1, rfl⟩)).1 0
  have h2 := (setText_truncates (refEnv 3 2 1) limitedBox "HI".toList
    (fun _ => goodWrap_refEnv 3 2 1) (fun _ => ⟨regular_refEnv 3 2 1, rfl⟩)).1 0
  obtain ⟨t1, ht1, a1, _⟩ := h1
  obtain ⟨t2, ht2, _, b2⟩ := h2
  exact ⟨⟨t1, ht1, a1 (by decide) (by decide)⟩, ⟨t2, ht2, b2 (Or.inr (by decide))⟩, rfl⟩

/-- C9, counterexample: BackSpace in a text box whose lines are out of date.  In a text box
without room for the text (inner width 0, word wrap on) `rearrangeText` returns before it
splits the text ("Don't do anything when there is no room for the text"), so the lines stay as
they are.  Typing "abc" there gives the text "abc", the line "abc" and the caret behind it;
`setText` of the empty text then leaves the line "abc" and the caret at index 3 of an empty
text.  The text box is not read-only and its caret is collapsed at index 3 > 0, but BackSpace
does not remove a character: `erase(2, 1)` on the empty text throws. -/
theorem backSpace_on_stale_lines_throws :
    (((typeText (refEnv 0 10 0) 2 "abc".toList (emptyTextBox Policy.Automatic Policy.Never)).bind
          (setText (refEnv 0 10 0) 2 [])).map
        (fun s => (s.text, s.lines, s.readOnly, s.selStart, s.selEnd, getSelectionEnd s)))
        = some ([], ["abc".toList], false, Vector2.mk 3 0, Vector2.mk 3 0, some 3)
      ∧ (((typeText (refEnv 0 10 0) 2 "abc".toList
            (emptyTextBox Policy.Automatic Policy.Never)).bind
          (setText (refEnv 0 10 0) 2 [])).bind
        (keyPressed (refEnv 0 10 0) 2 (plain Key.BackSpace))).isSome = false :=
  ⟨rfl, rfl⟩

/-- C9, amended: BackSpace.  In a text box that is not read-only, whose lines are a line
breaking of its text and hold the collapsed caret at the index `p > 0`, `keyPressed` of
BackSpace returns, leaves the old text with exactly the character at index `p - 1` removed, and
leaves the caret at the index `p - 1` with the selection still collapsed.  It returns with fuel
for two passes of the reflow: without word wrap for every environment, with word wrap when the
word wrap only puts in line breaks, the environment is regular and the horizontal scrollbar is
not visible. -/
theorem backSpace_removes_previous (env : Env) (s : TextBox) (event : KeyEvent) (p : Nat)
    (hcode : event.code = Key.BackSpace) (hw : WrapOK env s) (htwo : TwoPass env s)
    (hb : Breaks s.lines s.text)
    (hro : s.readOnly = false) (hcol : s.selStart = s.selEnd)
    (hvalid : validPos s.lines s.selEnd = true)
    (hp : getSelectionEnd s = some p) (hp0 : 0 < p) (fuel : Nat) :
    p ≤ s.text.length
      ∧ ∃ t, keyPressed env (fuel + 2) event s = some t
          ∧ t.text = s.text.eraseIdx (p - 1)
          ∧ getSelectionStart t = some (p - 1) ∧ getSelectionEnd t = some (p - 1)
          ∧ t.selStart = t.selEnd := by
  have hp2 := hp
  unfold getSelectionEnd getIndexOfSelectionPos at hp2
  obtain ⟨r, hr, hrp⟩ := Option.map_eq_some'.1 hp2
  subst hrp
  obtain ⟨hple, q, hq, hidx⟩ := backSpaceCaret_spec hb s.selEnd hvalid r hr hp0
  have herase : strErase s.text (r + s.selEnd.x - 1) 1
      = some (s.text.take (r + s.selEnd.x - 1) ++ s.text.drop (r + s.selEnd.x - 1 + 1)) := by
    unfold strErase
    rw [if_neg (by omega)]
  have hkey : ∀ fuel, keyPressed env fuel event s
      = (rearrangeText env fuel true
          { s with text := s.text.take (r + s.selEnd.x - 1) ++ s.text.drop (r + s.selEnd.x - 1 + 1),
                   selStart := q, selEnd := q }).map emitTextChange := by
    intro fuel
    unfold keyPressed
    rw [hcode]
    simp only
    unfold keyBackSpace
    simp only [hro, Bool.false_eq_true, if_false]
    rw [if_pos hcol, hp]
    simp only
    rw [if_pos hp0, hq, herase]
  have hlen : (s.text.take (r + s.selEnd.x - 1) ++ s.text.drop (r + s.selEnd.x - 1 + 1)).length
      = s.text.length - 1 := length_erase s.text _ (by omega)
  let s1 : TextBox :=
    { s with text := s.text.take (r + s.selEnd.x - 1) ++ s.text.drop (r + s.selEnd.x - 1 + 1),
             selStart := q, selEnd := q }
  have hw1 : WrapOK env s1 := hw
  have htwo1 : TwoPass env s1 := htwo
  have hidxS : getSelectionStart s1 = some (r + s.selEnd.x - 1) := hidx
  have hidxE : getSelectionEnd s1 = some (r + s.selEnd.x - 1) := hidx
  have hlen1 : r + s.selEnd.x - 1 ≤ s1.text.length := by
    show r + s.selEnd.x - 1
      ≤ (s.text.take (r + s.selEnd.x - 1) ++ s.text.drop (r + s.selEnd.x - 1 + 1)).length
    rw [hlen]
    omega
  refine ⟨hple, ?_⟩
  obtain ⟨t1, ht1⟩ := rearrangeText_returns env fuel true s1 hw1 htwo1
    (fun _ => ⟨by rw [hidxS]; rfl, by rw [hidxE]; rfl⟩)
  have hf := rearrangeText_frame env (fuel + 2) true s1 t1 ht1
  have hk := rearrangeText_keep env (fuel + 2) s1 t1 hw1 ht1 (r + s.selEnd.x - 1)
    (r + s.selEnd.x - 1) hidxS hidxE hlen1 hlen1
  refine ⟨emitTextChange t1, ?_, ?_, hk.1, hk.2.1, hk.2.2 rfl⟩
  · rw [hkey, show rearrangeText env (fuel + 2) true _ = some t1 from ht1]
    rfl
  · show t1.text = _
    rw [hf.1, List.eraseIdx_eq_take_drop_succ]

/-- Witness of C9: in a box three characters wide and two lines high whose scrollbars are one
character wide (word wrap on, vertical scrollbar automatic), the text "aaabb" stands on the
lines "aa", "ab" and "b" beside the vertical scrollbar, with the caret at the end (index 5).
BackSpace leaves "aaab" and the caret at index 4; the reflow takes its second pass, because the
two lines that are left make the scrollbar disappear (with fuel for a single pass the embedding
runs out of fuel). -/
theorem backSpace_removes_previous_witness :
    narrowTextBox.lines = ["aa".toList, "ab".toList, "b".toList]
      ∧ (∃ t, keyPressed (refEnv 3 2 1) 2 (plain Key.BackSpace) narrowTextBox = some t
        ∧ t.text = "aaab".toList ∧ getSelectionEnd t = some 4 ∧ t.selStart = t.selEnd)
      ∧ keyPressed (refEnv 3 2 1) 1 (plain Key.BackSpace) narrowTextBox = none := by
  have hb : Breaks narrowTextBox.lines narrowTextBox.text :=
    goodWrap_refEnv 3 2 1 2 "aaabb".toList
  obtain ⟨_, t, ht, h1, _, h3, h4⟩ := backSpace_removes_previous (refEnv 3 2 1) narrowTextBox
    (plain Key.BackSpace) 5 rfl (fun _ => goodWrap_refEnv 3 2 1)
    (fun _ => ⟨regular_refEnv 3 2 1, rfl⟩) hb rfl (by decide) (by decide) (by decide)
    (by decide) 0
  exact ⟨by decide, ⟨t, ht, h1.trans (by decide), h3, h4⟩, rfl⟩

/-- C12 (the code breaks the claim): Delete at the end of the text is not a no-op.  The text
box is 5 characters wide and 4 lines high, with scrollbars 2 pixels wide, the vertical policy
`Automatic` and the horizontal policy `Always`.  `setText` of "aaaa", newline, "b", newline,
"c" and `setHorizontalScrollbarPolicy` of `Never` leave the lines "aaa", "a", "b", "c" (wrapped
for the vertical scrollbar that was shown when the pass began, and which the pass hides without
wrapping again) and the collapsed caret at the end of the text, index 8, line 3.  Delete there
erases nothing, but it calls `rearrangeText`, which wraps the text again: the lines become
"aaaa", "b", "c" and `selStart` and `selEnd` move to line 2.  BackSpace at the other end does
leave them alone (it is guarded by `pos > 0`): after control+Home it changes neither the
selection nor the lines. -/
theorem delete_at_end_moves_caret :
    (((setText (refEnv 5 4 2) 2 "aaaa\nb\nc".toList
            (emptyTextBox Policy.Automatic Policy.Always)).bind
          (setHorizontalScrollbarPolicy (refEnv 5 4 2) 2 Policy.Never)).map
        (fun s => (s.text, s.lines, s.selStart, s.selEnd, getSelectionEnd s, s.text.length)))
        = some ("aaaa\nb\nc".toList, ["aaa".toList, "a".toList, "b".toList, "c".toList],
            Vector2.mk 1 3, Vector2.mk 1 3, some 8, 8)
      ∧ ((((setText (refEnv 5 4 2) 2 "aaaa\nb\nc".toList
              (emptyTextBox Policy.Automatic Policy.Always)).bind
            (setHorizontalScrollbarPolicy (refEnv 5 4 2) 2 Policy.Never)).bind
          (keyPressed (refEnv 5 4 2) 2 (plain Key.Delete))).map
        (fun s => (s.text, s.lines, s.selStart, s.selEnd, getSelectionEnd s)))
        = some ("aaaa\nb\nc".toList, ["aaaa".toList, "b".toList, "c".toList],
            Vector2.mk 1 2, Vector2.mk 1 2, some 8)
      ∧ ((((setText (refEnv 5 4 2) 2 "aaaa\nb\nc".toList
              (emptyTextBox Policy.Automatic Policy.Always)).bind
            (setHorizontalScrollbarPolicy (refEnv 5 4 2) 2 Policy.Never)).bind
          (pressKeys (refEnv 5 4 2) 2 [ctrl Key.Home, plain Key.BackSpace])).map
        (fun s => (s.text, s.lines, s.selStart, s.selEnd, getSelectionEnd s)))
        = some ("aaaa\nb\nc".toList, ["aaa".toList, "a".toList, "b".toList, "c".toList],
            Vector2.mk 0 0, Vector2.mk 0 0, some 0) :=
  ⟨rfl, rfl, rfl⟩

/-- C16 (the code breaks the claim): PageDown in a text box one line high.  In a text box 20
characters wide and one line high (word wrap on, vertical scrollbar automatic), `setText` of
"abc" leaves the single line "abc" with the caret on it, `m_topLine` = 0 and `m_visibleLines`
= 1.  PageDown finds the caret on the bottom line, computes `visibleLines` = 1 and, as
0 + 1 < 1 + 2, sets `m_selEnd.y = m_selEnd.y + visibleLines - 2`, which is 0 + 1 - 2 on
`std::size_t`: 2^64 - 1.  Then `m_lines[m_selEnd.y]` is read outside the lines: the key press
does not leave a state with `selStart = selEnd`.  PageUp, which guards its subtraction with
`m_topLine < visibleLines - 1`, does. -/
theorem pageDown_in_one_line_box_fails :
    (setText (refEnv 20 1 0) 2 "abc".toList (emptyTextBox Policy.Automatic Policy.Never)).map
        (fun s => (s.lines, s.selStart, s.selEnd, s.topLine, s.visibleLines,
          pageLines (refEnv 20 1 0) s, pageDownLine (refEnv 20 1 0) s))
        = some (["abc".toList], Vector2.mk 3 0, Vector2.mk 3 0, 0, 1, 1, 2 ^ 64 - 1)
      ∧ ((setText (refEnv 20 1 0) 2 "abc".toList
            (emptyTextBox Policy.Automatic Policy.Never)).bind
          (keyPressed (refEnv 20 1 0) 2 (plain Key.PageDown))).isSome = false
      ∧ ((setText (refEnv 20 1 0) 2 "abc".toList
            (emptyTextBox Policy.Automatic Policy.Never)).bind
          (keyPressed (refEnv 20 1 0) 2 (shift Key.PageDown))).isSome = false
      ∧ (((setText (refEnv 20 1 0) 2 "abc".toList
            (emptyTextBox Policy.Automatic Policy.Never)).bind
          (keyPressed (refEnv 20 1 0) 2 (plain Key.PageUp))).map
        (fun s => (s.text, s.selStart, s.selEnd)))
        = some ("abc".toList, Vector2.mk 0 0, Vector2.mk 0 0) :=
  ⟨rfl, rfl, rfl, rfl⟩

/-- C17, counterexample: `setCaretPosition` in a text box whose text is not laid out.  In a text
box without room for the text (inner width 0, word wrap on) `rearrangeText` returns before it
splits the text, so `setText` of "abc" leaves the single empty line the text box started with.
`setCaretPosition 2` then finds no line that holds the index 2 and sets nothing: the caret stays
at (line 0, column 0), whose character index is 0, not min(2, 3) = 2. -/
theorem setCaretPosition_without_layout :
    (setText (refEnv 0 10 0) 2 "abc".toList (emptyTextBox Policy.Automatic Policy.Never)).map
        (fun s => (s.text, s.lines, s.selStart, s.selEnd))
        = some ("abc".toList, [[]], Vector2.mk 0 0, Vector2.mk 0 0)
      ∧ ((setText (refEnv 0 10 0) 2 "abc".toList
            (emptyTextBox Policy.Automatic Policy.Never)).bind
          (setCaretPosition (refEnv 0 10 0) 2)).map
        (fun s => (s.selStart, s.selEnd, getSelectionStart s, getSelectionEnd s))
        = some (Vector2.mk 0 0, Vector2.mk 0 0, some 0, some 0) :=
  ⟨rfl, rfl⟩

/-- C38, counterexample: `setSelectedText` in a text box whose text is not laid out.  In a text
box without room for the text (inner width 0, word wrap on) `setText` of "abc" leaves the
single empty line the text box started with.  `setSelectedText 1 2` then sets nothing: both
selection indices are 0, not 1 and 2, and the selected text is empty, not "b". -/
theorem setSelectedText_without_layout :
    (setText (refEnv 0 10 0) 2 "abc".toList (emptyTextBox Policy.Automatic Policy.Never)).map
        (fun s => (s.text, s.lines))
        = some ("abc".toList, [[]])
      ∧ ((setText (refEnv 0 10 0) 2 "abc".toList
            (emptyTextBox Policy.Automatic Policy.Never)).bind
          (setSelectedText (refEnv 0 10 0) 1 2)).map
        (fun s => (getSelectionStart s, getSelectionEnd s, getSelectedText s))
        = some (some 0, some 0, some []) :=
  ⟨rfl, rfl⟩

/-- C34: the scrollbar policies in `load` and `save`, with a standard string library.  `load`
accepts the value of a policy property exactly when its trimmed lower-case form is "automatic",
"always" or "never" (and reads the policy of that name), and throws for every other value.
`save` writes "Always" for the policy `Always`, "Never" for `Never`, and does not write the
property for `Automatic`.  `load` of what `save` wrote for a text box, into a text box whose two
policies are `Automatic`, returns a text box whose two policies are those of the saved text
box.  It returns with fuel for two passes of each reflow: for every environment when the saved
horizontal policy is not `Never`, and, when it is `Never` (which switches word wrap on), when
the word wrap only puts in line breaks and the environment is regular. -/
theorem scrollbar_policy_roundtrip (env : Env) (lib : StringLib) (hs : Standard lib) :
    (∀ value, ((loadPolicy lib value).isSome = true
          ↔ (lib.toLower (lib.trim value) = "automatic".toList
            ∨ lib.toLower (lib.trim value) = "always".toList
            ∨ lib.toLower (lib.trim value) = "never".toList))
        ∧ (lib.toLower (lib.trim value) = "automatic".toList →
            loadPolicy lib value = some Policy.Automatic)
        ∧ (lib.toLower (lib.trim value) = "always".toList →
            loadPolicy lib value = some Policy.Always)
        ∧ (lib.toLower (lib.trim value) = "never".toList →
            loadPolicy lib value = some Policy.Never))
      ∧ (∀ (fuel : Nat) (vertical horizontal : Option (List Char)) (s : TextBox)
          (v : List Char), vertical = some v ∨ horizontal = some v → loadPolicy lib v = none →
          load env fuel lib vertical horizontal s = none)
      ∧ (savePolicy Policy.Always = some "Always".toList
          ∧ savePolicy Policy.Never = some "Never".toList
          ∧ savePolicy Policy.Automatic = none
          ∧ ∀ s : TextBox,
              save s = (savePolicy s.verticalScrollbarPolicy, savePolicy s.horizontalScrollbarPolicy))
      ∧ (∀ (s fresh : TextBox) (fuel : Nat) (t : TextBox),
          fresh.verticalScrollbarPolicy = Policy.Automatic →
          fresh.horizontalScrollbarPolicy = Policy.Automatic →
          load env fuel lib (save s).1 (save s).2 fresh = some t →
          t.verticalScrollbarPolicy = s.verticalScrollbarPolicy
            ∧ t.horizontalScrollbarPolicy = s.horizontalScrollbarPolicy)
      ∧ (∀ (s fresh : TextBox) (fuel : Nat),
          fresh.verticalScrollbarPolicy = Policy.Automatic →
          fresh.horizontalScrollbarPolicy = Policy.Automatic →
          (s.horizontalScrollbarPolicy = Policy.Never → GoodWrap env ∧ Regular env) →
          ∃ t, load env (fuel + 2) lib (save s).1 (save s).2 fresh = some t
            ∧ t.verticalScrollbarPolicy = s.verticalScrollbarPolicy
            ∧ t.horizontalScrollbarPolicy = s.horizontalScrollbarPolicy) := by
  have round : ∀ (s fresh : TextBox) (fuel : Nat) (t : TextBox),
      fresh.verticalScrollbarPolicy = Policy.Automatic →
      fresh.horizontalScrollbarPolicy = Policy.Automatic →
      load env fuel lib (save s).1 (save s).2 fresh = some t →
      t.verticalScrollbarPolicy = s.verticalScrollbarPolicy
        ∧ t.horizontalScrollbarPolicy = s.horizontalScrollbarPolicy := by
    intro s fresh fuel t hf1 hf2 hl
    obtain ⟨a1, a2, a3, a4⟩ := load_policies env fuel lib _ _ fresh t hl
    constructor
    · cases hv : (save s).1 with
      | none =>
        have h0 : savePolicy s.verticalScrollbarPolicy = none := hv
        rw [a2 hv, hf1]
        cases hp : s.verticalScrollbarPolicy with
        | Automatic => rfl
        | Always => rw [hp] at h0; cases h0
        | Never => rw [hp] at h0; cases h0
      | some v =>
        have h1 := a1 v hv
        rw [loadPolicy_savePolicy lib hs s.verticalScrollbarPolicy v hv] at h1
        exact (Option.some.inj h1).symm
    · cases hv : (save s).2 with
      | none =>
        have h0 : savePolicy s.horizontalScrollbarPolicy = none := hv
        rw [a4 hv, hf2]
        cases hp : s.horizontalScrollbarPolicy with
        | Automatic => rfl
        | Always => rw [hp] at h0; cases h0
        | Never => rw [hp] at h0; cases h0
      | some v =>
        have h1 := a3 v hv
        rw [loadPolicy_savePolicy lib hs s.horizontalScrollbarPolicy v hv] at h1
        exact (Option.some.inj h1).symm
  refine ⟨?_, ?_, ⟨rfl, rfl, rfl, fun _ => rfl⟩, round, ?_⟩
  · intro value
    unfold loadPolicy
    simp only
    by_cases h1 : lib.toLower (lib.trim value) = "automatic".toList
    · rw [if_pos h1]
      refine ⟨⟨fun _ => Or.inl h1, fun _ => rfl⟩, fun _ => rfl, ?_, ?_⟩
      · intro h2
        rw [h1] at h2
        exact absurd h2 (by decide)
      · intro h2
        rw [h1] at h2
        exact absurd h2 (by decide)
    · rw [if_neg h1]
      by_cases h2 : lib.toLower (lib.trim value) = "always".toList
      · rw [if_pos h2]
        refine ⟨⟨fun _ => Or.inr (Or.inl h2), fun _ => rfl⟩, fun h => absurd h h1, fun _ => rfl,
          ?_⟩
        intro h3
        rw [h2] at h3
        exact absurd h3 (by decide)
      · rw [if_neg h2]
        by_cases h3 : lib.toLower (lib.trim value) = "never".toList
        · rw [if_pos h3]
          exact ⟨⟨fun _ => Or.inr (Or.inr h3), fun _ => rfl⟩, fun h => absurd h h1,
            fun h => absurd h h2, fun _ => rfl⟩
        · rw [if_neg h3]
          refine ⟨⟨fun h => (by cases h), ?_⟩, fun h => absurd h h1, fun h => absurd h h2,
            fun h => absurd h h3⟩
          rintro (h | h | h)
          · exact absurd h h1
          · exact absurd h h2
          · exact absurd h h3
  · intro fuel vertical horizontal s v hv hnone
    cases hl : load env fuel lib vertical horizontal s with
    | none => rfl
    | some t =>
      exfalso
      obtain ⟨a1, _, a3, _⟩ := load_policies env fuel lib vertical horizontal s t hl
      rcases hv with hv | hv
      · have := a1 v hv
        rw [hnone] at this
        cases this
      · have := a3 v hv
        rw [hnone] at this
        cases this
  · intro s fresh fuel hf1 hf2 henv
    have hfresh : fresh.horizontalScrollbarPolicy ≠ Policy.Never := by
      rw [hf2]
      decide
    obtain ⟨s1, hs1⟩ : ∃ s1, loadVerticalScrollbarPolicy env (fuel + 2) lib (save s).1 fresh
        = some s1 := by
      unfold loadVerticalScrollbarPolicy
      cases hv : (save s).1 with
      | none => exact ⟨fresh, rfl⟩
      | some v =>
        simp only
        rw [loadPolicy_savePolicy lib hs s.verticalScrollbarPolicy v hv]
        exact setVerticalScrollbarPolicy_total env (fuel + 1) s.verticalScrollbarPolicy fresh
          hfresh
    obtain ⟨t, ht⟩ : ∃ t, loadHorizontalScrollbarPolicy env (fuel + 2) lib (save s).2 s1
        = some t := by
      unfold loadHorizontalScrollbarPolicy
      cases hv : (save s).2 with
      | none => exact ⟨s1, rfl⟩
      | some v =>
        simp only
        rw [loadPolicy_savePolicy lib hs s.horizontalScrollbarPolicy v hv]
        unfold setHorizontalScrollbarPolicy
        apply rearrangeText_returns env fuel false
        · intro hp
          exact (henv hp).1
        · intro hp
          have hp2 : s.horizontalScrollbarPolicy = Policy.Never := hp
          refine ⟨(henv hp2).2, ?_⟩
          show (match s.horizontalScrollbarPolicy with
            | Policy.Always => env.setAutoHide false (env.setVisible true s1.horizontalScrollbar)
            | Policy.Never => env.setVisible false s1.horizontalScrollbar
            | Policy.Automatic =>
              env.setAutoHide true (env.setVisible true s1.horizontalScrollbar)).visible = false
          rw [hp2]
          exact (henv hp2).2.1.2.2.2 false _
        · intro h
          cases h
    have hl : load env (fuel + 2) lib (save s).1 (save s).2 fresh = some t := by
      unfold load
      rw [hs1]
      exact ht
    exact ⟨t, hl, round s fresh (fuel + 2) t hf1 hf2 hl⟩

/-- Witness of C34: with the reference string library, " ALWAYS " is accepted and "sometimes"
is not; for a text box with the vertical policy `Always` and the horizontal policy `Never`,
`save` writes "Always" and "Never", and `load` of these values into a text box with two
automatic policies returns a text box with the policies `Always` and `Never`. -/
theorem scrollbar_policy_roundtrip_witness :
    loadPolicy refLib " ALWAYS ".toList = some Policy.Always
      ∧ loadPolicy refLib "sometimes".toList = none
      ∧ save (emptyTextBox Policy.Always Policy.Never)
        = (some "Always".toList, some "Never".toList)
      ∧ ∃ t, load (refEnv 20 10 0) 2 refLib (some "Always".toList) (some "Never".toList)
            (emptyTextBox Policy.Automatic Policy.Automatic) = some t
          ∧ t.verticalScrollbarPolicy = Policy.Always
          ∧ t.horizontalScrollbarPolicy = Policy.Never := by
  have h := scrollbar_policy_roundtrip (refEnv 20 10 0) refLib standard_refLib
  exact ⟨(h.1 " ALWAYS ".toList).2.2.1 (by decide), by decide, by decide,
    h.2.2.2.2 (emptyTextBox Policy.Always Policy.Never)
      (emptyTextBox Policy.Automatic Policy.Automatic) 0 rfl rfl
      (fun _ => ⟨goodWrap_refEnv 20 10 0, regular_refEnv 20 10 0⟩)⟩

end TGUI
